import Mathlib

/-!
Shallow embedding of the modular-arithmetic kernels of intel-lattice.

Machine words are natural numbers; every operation that can wrap in the source
is reduced modulo the width it has there (64 bits for `uint64_t`, 128 bits for
`uint128_t`).  Buffers are lists of words; a function that mutates a buffer in
the source returns the new contents, and a function whose precondition checks
can abort the call returns an `Option`.
-/

namespace Lattice

/-! ## Machine arithmetic -/

/-- Wrapping `uint64_t` subtraction `a - b`. -/
def sub64 (a b : Nat) : Nat := (a + 2 ^ 64 - b % 2 ^ 64) % 2 ^ 64

/-- Left shift `x << s` of a `uint64_t`, truncated to 64 bits.  C++ leaves a
count of 64 or more undefined; the shift instructions of x86-64, the target of
the library, take the count modulo 64, and so does the embedding. -/
def shl64 (x s : Nat) : Nat := (x <<< (s % 64)) % 2 ^ 64

/-- Right shift `x >> s` of a `uint64_t`, with the count taken modulo 64 as
for `shl64`. -/
def shr64 (x s : Nat) : Nat := x >>> (s % 64)

/-- The expression `static_cast<uint64_t>(-static_cast<int64_t>(b))` for a
comparison result `b`: all ones when `b` holds, zero otherwise. -/
def mask64 (b : Bool) : Nat := if b then 2 ^ 64 - 1 else 0

/-- The conversion `static_cast<int>(n)` of a `uint64_t` to a 32-bit `int`:
the low 32 bits read in two's complement. -/
def static_cast_int (n : Nat) : Int :=
  if n % 2 ^ 32 < 2 ^ 31 then ((n % 2 ^ 32 : Nat) : Int) else ((n % 2 ^ 32 : Nat) : Int) - 2 ^ 32

/-- Halving steps of the binary logarithm: the number of times `m` can be
halved before it drops below 2, at most `fuel` times. -/
def log2l_halvings : Nat → Nat → Nat
  | 0, _ => 0
  | fuel + 1, m => if m < 2 then 0 else log2l_halvings fuel (m / 2) + 1

/-- For `K` from 60 to 64, the number of words just below `2^K` whose binary
logarithm, rounded to the nearest `long double`, is `K` itself.  A
`long double` has a 64-bit mantissa, so next to `K` in `(32, 64]` its values
are `2^(-58)` apart, and the logarithm of `2^K - d` rounds to `K` when it is
within `2^(-59)` of `K`, that is when `d < 2^(K - 59) * ln 2`: for `d` up to
1, 2, 5, 11, 22 at `K` = 60, 61, 62, 63, 64, and for no `d >= 1` at a smaller
`K`. -/
def log2l_rounds_up (K : Nat) : Nat :=
  if K = 60 then 1
  else if K = 61 then 2
  else if K = 62 then 5
  else if K = 63 then 11
  else if K = 64 then 22
  else 0

/-- The conversion `uint64_t logmod = std::log2l(modulus)` for a 64-bit
modulus.  The library call returns the `long double` nearest to the binary
logarithm, and the conversion to `uint64_t` drops the fraction.  The value is
the floor of the logarithm, `k`, except on the words just below `2^(k + 1)`
whose logarithm rounds to `k + 1`, see `log2l_rounds_up`. -/
def log2l (modulus : Nat) : Nat :=
  let k := log2l_halvings 64 modulus
  if 2 ^ (k + 1) ≤ modulus + log2l_rounds_up (k + 1) then k + 1 else k

/-! ## util/check.hpp -/

/-- Modelled from the spec: the macro `LATTICE_CHECK(cond, msg)` of
util/check.hpp, which is not among the sources.  An explicit check that aborts
the call when the condition is false; the value is whether the call goes on. -/
def LATTICE_CHECK (cond : Bool) : Bool := cond

/-- Modelled from the spec: the macro `LATTICE_CHECK_BOUNDS(arg, n, bound)` of
util/check.hpp, which is not among the sources.  A bounds check over the first
`n` elements of `arg`: it passes when each of them is below `bound`. -/
def LATTICE_CHECK_BOUNDS (arg : List Nat) (n bound : Nat) : Bool :=
  (arg.take n).all (fun x => decide (x < bound))

/-! ## number-theory.hpp -/

/-- The two-output `MultiplyUInt64(x, y, &prod_hi, &prod_lo)`: the high and
the low 64 bits of the 128-bit product. -/
def MultiplyUInt64 (x y : Nat) : Nat × Nat :=
  let prod := (x * y) % 2 ^ 128
  ((prod >>> 64) % 2 ^ 64, prod % 2 ^ 64)

/-- The class `MultiplyFactor`: an operand with its stored Barrett factor. -/
structure MultiplyFactor where
  m_operand : Nat
  m_barrett_factor : Nat
deriving DecidableEq, Repr

/-- The constructor `MultiplyFactor(operand, bit_shift, modulus)`; `none` when
its check `operand <= modulus` fails, and `none` for the division by zero that
follows the check when `modulus` is 0. -/
def MultiplyFactor.new (operand bit_shift modulus : Nat) : Option MultiplyFactor :=
  if LATTICE_CHECK (decide (operand ≤ modulus)) then
    if modulus = 0 then none
    else
      some { m_operand := operand,
             m_barrett_factor := (((operand <<< bit_shift) % 2 ^ 128) / modulus) % 2 ^ 64 }
  else none

/-- The accessor `BarrettFactor()`. -/
def MultiplyFactor.BarrettFactor (f : MultiplyFactor) : Nat := f.m_barrett_factor

/-- The accessor `Operand()`. -/
def MultiplyFactor.Operand (f : MultiplyFactor) : Nat := f.m_operand

/-! ## eltwise-mult-mod.cpp -/

/-- One iteration of the loop of `EltwiseMultModNative` on the words `x` and
`y` that `operand1` and `operand2` point to; the value is the word stored back
through `operand1`. -/
def EltwiseMultModNative_body (N L barr_lo modulus x y : Nat) : Nat :=
  let prod := MultiplyUInt64 x y
  let prod_hi := prod.1
  let prod_lo := prod.2
  let c1 := (shr64 prod_lo (sub64 N 1) + shl64 prod_hi (sub64 64 (sub64 N 1))) % 2 ^ 64
  let c2 := MultiplyUInt64 c1 barr_lo
  let c2_hi := c2.1
  let c2_lo := c2.2
  let s := (sub64 L N + 1) % 2 ^ 64
  let c3 := (shr64 c2_lo s + shl64 c2_hi (sub64 64 s)) % 2 ^ 64
  let result := sub64 prod_lo ((c3 * modulus) % 2 ^ 64)
  sub64 result (modulus &&& mask64 (decide (result ≥ modulus)))

/-- The loop of `EltwiseMultModNative`: `n` iterations, each storing through
`operand1` and then advancing both pointers.  The words of `operand1` past the
first `n` are left as they are. -/
def EltwiseMultModNative_loop (N L barr_lo modulus : Nat) :
    Nat → List Nat → List Nat → List Nat
  | 0, operand1, _ => operand1
  | _ + 1, [], _ => []
  | _ + 1, x :: operand1, [] => x :: operand1
  | n + 1, x :: operand1, y :: operand2 =>
      EltwiseMultModNative_body N L barr_lo modulus x y ::
        EltwiseMultModNative_loop N L barr_lo modulus n operand1 operand2

/-- The function `EltwiseMultModNative(operand1, operand2, n, modulus)`.  The
value is the final contents of `operand1`, or `none` when a check fails. -/
def EltwiseMultModNative (operand1 operand2 : List Nat) (n modulus : Nat) :
    Option (List Nat) :=
  if !LATTICE_CHECK_BOUNDS operand1 n modulus then none
  else if !LATTICE_CHECK_BOUNDS operand2 n modulus then none
  else if !LATTICE_CHECK (modulus != 0) then none
  else
    let logmod := log2l modulus
    let N := (logmod + 1) % 2 ^ 64
    let D := (N + N) % 2 ^ 64
    let L := D
    let barr_lo := (((1 <<< L) % 2 ^ 128) / modulus) % 2 ^ 64
    some (EltwiseMultModNative_loop N L barr_lo modulus n operand1 operand2)

/-- The wide-batch kernels of eltwise-mult-mod-avx512.hpp, which is not among
the sources: they are parameters of the dispatchers.  An in-place kernel gives
the final contents of `operand1`; an out-of-place kernel gives the final
contents of `result` and of `operand1`. -/
structure AVX512Kernels where
  EltwiseMultModAVX512Float : List Nat → List Nat → Nat → Nat → Option (List Nat)
  EltwiseMultModAVX512Int : List Nat → List Nat → Nat → Nat → Option (List Nat)
  EltwiseMultModAVX512FloatOofP :
    List Nat → List Nat → List Nat → Nat → Nat → Option (List Nat × List Nat)
  EltwiseMultModAVX512IntOofP :
    List Nat → List Nat → List Nat → Nat → Nat → Option (List Nat × List Nat)

/-- The dispatcher `EltwiseMultMod(operand1, operand2, n, modulus)`.  The
build macro `LATTICE_HAS_AVX512DQ` (whether the guarded block is compiled) and
the capability flag `has_avx512_dq` are parameters.  The value is the final
contents of `operand1`.  The logging call `IVLOG` has no effect on the buffers
and is left out. -/
def EltwiseMultMod (K : AVX512Kernels) (LATTICE_HAS_AVX512DQ has_avx512_dq : Bool)
    (operand1 operand2 : List Nat) (n modulus : Nat) : Option (List Nat) :=
  if LATTICE_HAS_AVX512DQ && has_avx512_dq then
    if modulus < 1 <<< 50 then
      K.EltwiseMultModAVX512Float operand1 operand2 n modulus
    else
      K.EltwiseMultModAVX512Int operand1 operand2 n modulus
  else
    EltwiseMultModNative operand1 operand2 n modulus

/-- The copy loop that ends `EltwiseMultModOofP`:
`for (int i = 0; i < static_cast<int>(n); i++) result[i] = operand1[i];`. -/
def EltwiseMultModOofP_copy (result operand1 : List Nat) (n : Nat) : List Nat :=
  (List.range (static_cast_int n).toNat).foldl
    (fun r i => r.set i (operand1.getD i 0)) result

/-- The dispatcher `EltwiseMultModOofP(result, operand1, operand2, n, modulus)`.
The value is the final contents of `result` and of `operand1`.  The statement
`result = operand1;` of the wide branches assigns the local pointer only and
changes no buffer. -/
def EltwiseMultModOofP (K : AVX512Kernels) (LATTICE_HAS_AVX512DQ has_avx512_dq : Bool)
    (result operand1 operand2 : List Nat) (n modulus : Nat) :
    Option (List Nat × List Nat) :=
  if LATTICE_HAS_AVX512DQ && has_avx512_dq then
    if modulus < 1 <<< 50 then
      K.EltwiseMultModAVX512FloatOofP result operand1 operand2 n modulus
    else
      K.EltwiseMultModAVX512IntOofP result operand1 operand2 n modulus
  else
    match EltwiseMultModNative operand1 operand2 n modulus with
    | none => none
    | some operand1 => some (EltwiseMultModOofP_copy result operand1 n, operand1)

/-- Kernels with recognisable constant results, used to observe which branch a
dispatcher takes: the floating-point kernels answer with the word 7 and the
integer kernels with the word 8. -/
def probeKernels : AVX512Kernels where
  EltwiseMultModAVX512Float := fun _ _ _ _ => some [7]
  EltwiseMultModAVX512Int := fun _ _ _ _ => some [8]
  EltwiseMultModAVX512FloatOofP := fun _ _ _ _ _ => some ([7], [])
  EltwiseMultModAVX512IntOofP := fun _ _ _ _ _ => some ([8], [])

/-! ## number-theory.hpp: lazy modular multiplication -/

/-- The function `MaximumValue(bits)`: the largest value of `bits` bits;
`none` when its check `bits <= 64` fails. -/
def MaximumValue (bits : Nat) : Option Nat :=
  if !LATTICE_CHECK (decide (bits ≤ 64)) then none
  else if bits = 64 then some (2 ^ 64 - 1)
  else some (sub64 (shl64 1 bits) 1)

/-- The template `MultiplyUInt64Hi<BitShift>(x, y)`: the 128-bit product
shifted right by `BitShift` and truncated to 64 bits. -/
def MultiplyUInt64Hi (BitShift x y : Nat) : Nat :=
  (((x * y) % 2 ^ 128) >>> BitShift) % 2 ^ 64

/-- The four-argument template
`MultiplyUIntModLazy<BitShift>(x, y_operand, y_barrett_factor, mod)`; `none`
when one of its checks fails.  `MaximumValue(BitShift)` is the same at each of
its uses and is computed once. -/
def MultiplyUIntModLazy (BitShift x y_operand y_barrett_factor mod : Nat) : Option Nat :=
  match MaximumValue BitShift with
  | none => none
  | some bound =>
    if !LATTICE_CHECK (decide (y_operand ≤ mod)) then none
    else if !LATTICE_CHECK (decide (mod ≤ bound)) then none
    else if !LATTICE_CHECK (decide (x ≤ bound)) then none
    else
      let Q := MultiplyUInt64Hi BitShift x y_barrett_factor
      some (sub64 ((y_operand * x) % 2 ^ 64) ((Q * mod) % 2 ^ 64))

/-- The three-argument overload `MultiplyUIntModLazy<BitShift>(x, y, modulus)`,
which computes the Barrett factor of `y` itself; `none` for the division by
zero when `modulus` is 0. -/
def MultiplyUIntModLazy3 (BitShift x y modulus : Nat) : Option Nat :=
  if modulus = 0 then none
  else
    let y_barrett := (((y <<< BitShift) % 2 ^ 128) / modulus) % 2 ^ 64
    MultiplyUIntModLazy BitShift x y y_barrett modulus

/-! ## Vector registers and the intrinsics used by the kernels

A 512-bit register is the family of its eight 64-bit lanes.  Each intrinsic is
given by its effect on the lanes. -/

/-- The type `__m512i`: eight 64-bit lanes. -/
abbrev m512i := Fin 8 → Nat

/-- The type `__mmask8`: one bit per lane. -/
abbrev mmask8 := Fin 8 → Bool

/-- The lane of a register at a position given as a natural number; positions
past the last lane read as zero. -/
def lane (v : m512i) (l : Nat) : Nat := if h : l < 8 then v ⟨l, h⟩ else 0

/-- Intrinsic `_mm512_set1_epi64`: broadcast a word to every lane. -/
def mm512_set1_epi64 (a : Nat) : m512i := fun _ => a

/-- Intrinsic `_mm512_add_epi64`: lane-wise wrapping addition. -/
def mm512_add_epi64 (a b : m512i) : m512i := fun l => (a l + b l) % 2 ^ 64

/-- Intrinsic `_mm512_sub_epi64`: lane-wise wrapping subtraction. -/
def mm512_sub_epi64 (a b : m512i) : m512i := fun l => sub64 (a l) (b l)

/-- Intrinsic `_mm512_mullo_epi64`: the low 64 bits of the lane-wise product. -/
def mm512_mullo_epi64 (a b : m512i) : m512i := fun l => (a l * b l) % 2 ^ 64

/-- Intrinsic `_mm512_min_epu64`: lane-wise unsigned minimum. -/
def mm512_min_epu64 (a b : m512i) : m512i := fun l => min (a l) (b l)

/-- Intrinsics `_mm512_and_si512` and `_mm512_and_epi64`: bitwise and. -/
def mm512_and_epi64 (a b : m512i) : m512i := fun l => a l &&& b l

/-- Intrinsic `_mm512_srli_epi64`: lane-wise logical right shift. -/
def mm512_srli_epi64 (a : m512i) (imm8 : Nat) : m512i := fun l => a l >>> imm8

/-- Intrinsic `_mm512_mul_epu32`: the product of the low 32 bits of each lane
of `a` and of `b`. -/
def mm512_mul_epu32 (a b : m512i) : m512i := fun l => (a l % 2 ^ 32) * (b l % 2 ^ 32)

/-- Intrinsic `_mm512_shuffle_epi32` with the control `0xB1`: the two 32-bit
halves of each lane are swapped. -/
def mm512_shuffle_epi32_B1 (a : m512i) : m512i :=
  fun l => (a l % 2 ^ 32) * 2 ^ 32 + (a l / 2 ^ 32) % 2 ^ 32

/-- Intrinsic `_mm512_movepi64_mask`: the top bit of each lane. -/
def mm512_movepi64_mask (a : m512i) : mmask8 := fun l => decide (2 ^ 63 ≤ a l % 2 ^ 64)

/-- Intrinsic `_mm512_mask_add_epi64`: `a + b` in the lanes selected by `k`,
`src` in the others. -/
def mm512_mask_add_epi64 (src : m512i) (k : mmask8) (a b : m512i) : m512i :=
  fun l => if k l then (a l + b l) % 2 ^ 64 else src l

/-- Intrinsic `_mm512_madd52lo_epu64`: the low 52 bits of the product of the
low 52 bits of `b` and `c`, added to `a`. -/
def mm512_madd52lo_epu64 (a b c : m512i) : m512i :=
  fun l => (a l + ((b l % 2 ^ 52) * (c l % 2 ^ 52)) % 2 ^ 52) % 2 ^ 64

/-- Intrinsic `_mm512_madd52hi_epu64`: the high 52 bits of the 104-bit product
of the low 52 bits of `b` and `c`, added to `a`. -/
def mm512_madd52hi_epu64 (a b c : m512i) : m512i :=
  fun l => (a l + ((b l % 2 ^ 52) * (c l % 2 ^ 52)) / 2 ^ 52) % 2 ^ 64

/-- Intrinsic `_mm512_loadu_si512` at the word index `j` of a buffer. -/
def mm512_loadu_si512 (buf : List Nat) (j : Nat) : m512i := fun l => buf.getD (j + l.val) 0

/-- Intrinsic `_mm512_storeu_si512` at the word index `j` of a buffer. -/
def mm512_storeu_si512 (buf : List Nat) (j : Nat) (v : m512i) : List Nat :=
  (List.finRange 8).foldl (fun b l => b.set (j + l.val) (v l)) buf

/-! ## util/avx512-util.hpp -/

/-- The function `ExtractValues(__m512i x)`: the lanes as a vector. -/
def ExtractValues (x : m512i) : List Nat := List.ofFn x

/-- The function `CheckBounds(__m512i x, uint64_t bound)`: the bounds check on
the eight lanes; the value is whether the call goes on. -/
def CheckBounds (x : m512i) (bound : Nat) : Bool :=
  LATTICE_CHECK_BOUNDS (ExtractValues x) (512 / 64) bound

/-- The specialisation `_mm512_il_mulhi_epi<64>(x, y)`: the high 64 bits of
the lane-wise product, from four 32-bit partial products. -/
def mm512_il_mulhi_epi64 (x y : m512i) : m512i :=
  let lomask := mm512_set1_epi64 0x00000000ffffffff
  let xh := mm512_shuffle_epi32_B1 x
  let yh := mm512_shuffle_epi32_B1 y
  let w0 := mm512_mul_epu32 x y
  let w1 := mm512_mul_epu32 x yh
  let w2 := mm512_mul_epu32 xh y
  let w3 := mm512_mul_epu32 xh yh
  let w0h := mm512_srli_epi64 w0 32
  let s1 := mm512_add_epi64 w1 w0h
  let s1l := mm512_and_epi64 s1 lomask
  let s1h := mm512_srli_epi64 s1 32
  let s2 := mm512_add_epi64 w2 s1l
  let s2h := mm512_srli_epi64 s2 32
  let hi1 := mm512_add_epi64 w3 s1h
  mm512_add_epi64 hi1 s2h

/-- The specialisation `_mm512_il_mulhi_epi<52>(x, y)`; `none` when a bounds
check fails.  The bound `MaximumValue(52)` is written out as `2^52 - 1`. -/
def mm512_il_mulhi_epi52 (x y : m512i) : Option m512i :=
  if !LATTICE_CHECK_BOUNDS (ExtractValues x) 8 (2 ^ 52 - 1) then none
  else if !LATTICE_CHECK_BOUNDS (ExtractValues y) 8 (2 ^ 52 - 1) then none
  else
    let zero := mm512_set1_epi64 0
    some (mm512_madd52hi_epu64 zero x y)

/-- The template `_mm512_il_mulhi_epi<BitShift>(x, y)`: it is specialised for
64 and for 52 only. -/
def mm512_il_mulhi_epi (BitShift : Nat) (x y : m512i) : Option m512i :=
  if BitShift = 64 then some (mm512_il_mulhi_epi64 x y)
  else if BitShift = 52 then mm512_il_mulhi_epi52 x y
  else none

/-- The specialisation `_mm512_il_mullo_epi<52>(x, y)`; `none` when a bounds
check fails. -/
def mm512_il_mullo_epi52 (x y : m512i) : Option m512i :=
  if !LATTICE_CHECK_BOUNDS (ExtractValues x) 8 (2 ^ 52 - 1) then none
  else if !LATTICE_CHECK_BOUNDS (ExtractValues y) 8 (2 ^ 52 - 1) then none
  else
    let zero := mm512_set1_epi64 0
    some (mm512_madd52lo_epu64 zero x y)

/-- The template `_mm512_il_mullo_epi<BitShift>(x, y)`: `_mm512_mullo_epi64`
for 64, the checked 52-bit multiply for 52. -/
def mm512_il_mullo_epi (BitShift : Nat) (x y : m512i) : Option m512i :=
  if BitShift = 64 then some (mm512_mullo_epi64 x y)
  else if BitShift = 52 then mm512_il_mullo_epi52 x y
  else none

/-- The template `_mm512_il_mullo_add_epi<BitShift>(x, y, z)`: the low bits of
`y * z` added to `x`. -/
def mm512_il_mullo_add_epi (BitShift : Nat) (x y z : m512i) : Option m512i :=
  if BitShift = 64 then
    let prod := mm512_mullo_epi64 y z
    some (mm512_add_epi64 x prod)
  else if BitShift = 52 then
    if !LATTICE_CHECK_BOUNDS (ExtractValues y) 8 (2 ^ 52 - 1) then none
    else if !LATTICE_CHECK_BOUNDS (ExtractValues z) 8 (2 ^ 52 - 1) then none
    else some (mm512_madd52lo_epu64 x y z)
  else none

/-- The function `_mm512_il_small_mod_epu64(x, p)`: the unsigned minimum of
`x` and the wrapped difference `x - p`. -/
def mm512_il_small_mod_epu64 (x p : m512i) : m512i :=
  mm512_min_epu64 x (mm512_sub_epi64 x p)

/-- The function `_mm512_il_small_add_mod_epi64(x, y, p)`; `none` when a
bounds check against the first lane of `p` fails. -/
def mm512_il_small_add_mod_epi64 (x y p : m512i) : Option m512i :=
  if !LATTICE_CHECK_BOUNDS (ExtractValues x) 8 ((ExtractValues p).getD 0 0) then none
  else if !LATTICE_CHECK_BOUNDS (ExtractValues y) 8 ((ExtractValues p).getD 0 0) then none
  else some (mm512_il_small_mod_epu64 (mm512_add_epi64 x y) p)

/-! ## ntt/ntt-avx512.hpp: the forward transform -/

/-- Modelled from the spec: the helper `avx512_mod_epu64(x, p)` of
util/avx512_util.hpp, which is not among the sources.  The code states it as
`x >= p ? x - p : x`; it is the function that util/avx512-util.hpp has under
the name `_mm512_il_small_mod_epu64`. -/
def avx512_mod_epu64 (x p : m512i) : m512i := mm512_il_small_mod_epu64 x p

/-- Modelled from the spec: the helper `avx512_multiply_uint64_hi<BitShift>` of
util/avx512_util.hpp, which is not among the sources: the high multiply that
util/avx512-util.hpp has under the name `_mm512_il_mulhi_epi<BitShift>`. -/
def avx512_multiply_uint64_hi (BitShift : Nat) (x y : m512i) : Option m512i :=
  mm512_il_mulhi_epi BitShift x y

/-- Modelled from the spec: the helper `avx512_multiply_uint64_lo<64>` of
util/avx512_util.hpp, which is not among the sources: the 64-bit multiply low
that util/avx512-util.hpp has under the name `_mm512_il_mullo_epi<64>`. -/
def avx512_multiply_uint64_lo64 (x y : m512i) : m512i := mm512_mullo_epi64 x y

/-- Modelled from the spec: the three-argument `CheckBounds(values, n, bound)`
of the transform sources, which is not among the sources: whether each of the
first `n` values is below `bound`, as the register version checks its lanes. -/
def CheckBounds3 (values : List Nat) (n bound : Nat) : Bool :=
  LATTICE_CHECK_BOUNDS values n bound

/-- The body of the scalar butterfly loop of the forward transform on the
words `X` and `Y` point to; the value is the pair stored through `X` and `Y`,
or `none` when a check fails. -/
def ForwardButterfly (BitShift bound mod twice_mod W_op W_precon X Y : Nat) :
    Option (Nat × Nat) :=
  let tx := sub64 X (twice_mod &&& mask64 (decide (X ≥ twice_mod)))
  match MultiplyUIntModLazy BitShift Y W_op W_precon mod with
  | none => none
  | some Q =>
    if !LATTICE_CHECK (decide ((tx + Q) % 2 ^ 64 ≤ bound)) then none
    else if !LATTICE_CHECK (decide (sub64 ((tx + twice_mod) % 2 ^ 64) Q ≤ bound)) then none
    else some ((tx + Q) % 2 ^ 64, sub64 ((tx + twice_mod) % 2 ^ 64) Q)

/-- The scalar butterfly loop `for (j = j1; j < j2; j++)`: `count` iterations
with `X` and `Y` the word indices the two pointers stand at. -/
def Forward_scalar_loop (BitShift bound mod twice_mod W_op W_precon : Nat) :
    Nat → Nat → Nat → List Nat → Option (List Nat)
  | 0, _, _, input => some input
  | count + 1, X, Y, input =>
    match ForwardButterfly BitShift bound mod twice_mod W_op W_precon
        (input.getD X 0) (input.getD Y 0) with
    | none => none
    | some r =>
      Forward_scalar_loop BitShift bound mod twice_mod W_op W_precon count (X + 1) (Y + 1)
        ((input.set X r.1).set Y r.2)

/-- The body of the vector butterfly loop of the forward transform on the
registers loaded from `v_X_pt` and `v_Y_pt`; the value is the pair of registers
stored back, or `none` when a check fails. -/
def ForwardButterflyAVX512 (BitShift bound : Nat)
    (v_modulus v_twice_mod v_W_operand v_W_barrett v_X v_Y : m512i) :
    Option (m512i × m512i) :=
  let v_tx := avx512_mod_epu64 v_X v_twice_mod
  match avx512_multiply_uint64_hi BitShift v_W_barrett v_Y with
  | none => none
  | some v_Q =>
    let tmp1 := avx512_multiply_uint64_lo64 v_Y v_W_operand
    let tmp2 := avx512_multiply_uint64_lo64 v_Q v_modulus
    let v_Q := mm512_sub_epi64 tmp1 tmp2
    let v_X := mm512_add_epi64 v_tx v_Q
    let sub := mm512_sub_epi64 v_twice_mod v_Q
    let v_Y := mm512_add_epi64 v_tx sub
    if !LATTICE_CHECK (CheckBounds v_X bound) then none
    else if !LATTICE_CHECK (CheckBounds v_Y bound) then none
    else some (v_X, v_Y)

/-- The vector butterfly loop `for (j = j1; j < j2; j += 8)`: `count`
iterations with `v_X_pt` and `v_Y_pt` the word indices the two register
pointers stand at.  The two stores come before the two checks in the source;
a failed check ends the call either way. -/
def Forward_vector_loop (BitShift bound : Nat)
    (v_modulus v_twice_mod v_W_operand v_W_barrett : m512i) :
    Nat → Nat → Nat → List Nat → Option (List Nat)
  | 0, _, _, input => some input
  | count + 1, v_X_pt, v_Y_pt, input =>
    let v_X := mm512_loadu_si512 input v_X_pt
    let v_Y := mm512_loadu_si512 input v_Y_pt
    match ForwardButterflyAVX512 BitShift bound v_modulus v_twice_mod v_W_operand
        v_W_barrett v_X v_Y with
    | none => none
    | some r =>
      Forward_vector_loop BitShift bound v_modulus v_twice_mod v_W_operand v_W_barrett
        count (v_X_pt + 8) (v_Y_pt + 8)
        (mm512_storeu_si512 (mm512_storeu_si512 input v_X_pt r.1) v_Y_pt r.2)

/-- The block loop `for (i = 0; i < m; i++)` of one stage: `count` iterations
from block `i` with `j1` the first index of the block. -/
def Forward_block_loop (BitShift bound mod twice_mod : Nat)
    (root_of_unity_powers precon_root_of_unity_powers : List Nat) (m t : Nat) :
    Nat → Nat → Nat → List Nat → Option (List Nat)
  | 0, _, _, input => some input
  | count + 1, i, j1, input =>
    let j2 := j1 + t
    let W_op := root_of_unity_powers.getD (m + i) 0
    let W_precon := precon_root_of_unity_powers.getD (m + i) 0
    let X := j1
    let Y := X + t
    let r :=
      if j2 - j1 < 8 then
        Forward_scalar_loop BitShift bound mod twice_mod W_op W_precon (j2 - j1) X Y input
      else
        Forward_vector_loop BitShift bound (mm512_set1_epi64 mod)
          (mm512_set1_epi64 twice_mod) (mm512_set1_epi64 W_op) (mm512_set1_epi64 W_precon)
          ((j2 - j1 + 7) / 8) X Y input
    match r with
    | none => none
    | some input =>
      Forward_block_loop BitShift bound mod twice_mod root_of_unity_powers
        precon_root_of_unity_powers m t count (i + 1) (j1 + (t <<< 1)) input

/-- One round of the stage loop: the `m` blocks of stride `t`. -/
def Forward_stage (BitShift bound mod twice_mod : Nat)
    (root_of_unity_powers precon_root_of_unity_powers : List Nat) (m t : Nat)
    (input : List Nat) : Option (List Nat) :=
  Forward_block_loop BitShift bound mod twice_mod root_of_unity_powers
    precon_root_of_unity_powers m t m 0 0 input

/-- The stage loop `for (m = 1; m < n; m <<= 1) { ...; t >>= 1; }` with a
bound `fuel` on the number of rounds; `none` when a check fails or the fuel
runs out before the loop ends. -/
def Forward_stage_loop (BitShift bound mod twice_mod : Nat)
    (root_of_unity_powers precon_root_of_unity_powers : List Nat) (n : Nat) :
    Nat → Nat → Nat → List Nat → Option (List Nat)
  | 0, m, _, input => if m < n then none else some input
  | fuel + 1, m, t, input =>
    if m < n then
      match Forward_stage BitShift bound mod twice_mod root_of_unity_powers
          precon_root_of_unity_powers m t input with
      | none => none
      | some input =>
        Forward_stage_loop BitShift bound mod twice_mod root_of_unity_powers
          precon_root_of_unity_powers n fuel (m <<< 1) (t >>> 1) input
    else some input

/-- The scalar final pass `for (i = 0; i < n; ++i)`: two conditional
subtractions on each word. -/
def Forward_final_scalar_loop (mod twice_mod : Nat) : Nat → Nat → List Nat → List Nat
  | 0, _, input => input
  | count + 1, i, input =>
    let input1 :=
      if input.getD i 0 ≥ twice_mod then input.set i (sub64 (input.getD i 0) twice_mod)
      else input
    let input2 :=
      if input1.getD i 0 ≥ mod then input1.set i (sub64 (input1.getD i 0) mod)
      else input1
    Forward_final_scalar_loop mod twice_mod count (i + 1) input2

/-- The vector final pass `for (i = 0; i < n; i += 8)`: two applications of
`avx512_mod_epu64` on each register. -/
def Forward_final_vector_loop (v_modulus v_twice_mod : m512i) :
    Nat → Nat → List Nat → List Nat
  | 0, _, elements => elements
  | count + 1, v_X_pt, elements =>
    let v_X := mm512_loadu_si512 elements v_X_pt
    let v_X := avx512_mod_epu64 v_X v_twice_mod
    let v_X := avx512_mod_epu64 v_X v_modulus
    Forward_final_vector_loop v_modulus v_twice_mod count (v_X_pt + 8)
      (mm512_storeu_si512 elements v_X_pt v_X)

/-- The final normalisation pass of the forward transform. -/
def Forward_final_pass (mod twice_mod n : Nat) (input : List Nat) : Option (List Nat) :=
  if n < 8 then some (Forward_final_scalar_loop mod twice_mod n 0 input)
  else if !LATTICE_CHECK (decide (n % 8 = 0)) then none
  else
    some (Forward_final_vector_loop (mm512_set1_epi64 mod) (mm512_set1_epi64 twice_mod)
      ((n + 7) / 8) 0 input)

/-- The template `NTT::ForwardTransformToBitReverseAVX512<BitShift>(degree,
mod, root_of_unity_powers, precon_root_of_unity_powers, elements)`.  The value
is the final contents of `elements`, or `none` when a check fails.  The
function `CheckArguments` of the class is not among the sources and is a
parameter: `none` when it aborts; its value is not used here.  The logging
calls are left out.  Indices and counters are far below 2^64 and are not
reduced. -/
def ForwardTransformToBitReverseAVX512 (CheckArguments : Nat → Nat → Option Bool)
    (BitShift degree mod : Nat)
    (root_of_unity_powers precon_root_of_unity_powers elements : List Nat) :
    Option (List Nat) :=
  let twice_mod := shl64 mod 1
  let n := degree
  match CheckArguments degree mod with
  | none => none
  | some _ =>
    match MaximumValue BitShift with
    | none => none
    | some bound =>
      if !LATTICE_CHECK (CheckBounds3 precon_root_of_unity_powers n bound) then none
      else if !LATTICE_CHECK (CheckBounds3 elements n bound) then none
      else
        let t := n >>> 1
        match Forward_stage_loop BitShift bound mod twice_mod root_of_unity_powers
            precon_root_of_unity_powers n 64 1 t elements with
        | none => none
        | some input => Forward_final_pass mod twice_mod n input

/-- The buffer after the first `k` rounds of the stage loop of the forward
transform (an observation of the loop, for statements about its intermediate
states). -/
def Forward_after_stages (BitShift bound mod twice_mod : Nat)
    (root_of_unity_powers precon_root_of_unity_powers : List Nat) :
    Nat → Nat → Nat → List Nat → Option (List Nat)
  | 0, _, _, input => some input
  | k + 1, m, t, input =>
    match Forward_stage BitShift bound mod twice_mod root_of_unity_powers
        precon_root_of_unity_powers m t input with
    | none => none
    | some input =>
      Forward_after_stages BitShift bound mod twice_mod root_of_unity_powers
        precon_root_of_unity_powers k (m <<< 1) (t >>> 1) input

/-! ## ntt/inv-ntt-avx512.hpp: the inverse butterfly -/

/-- The template `InvButterfly<BitShift, InputLessThanMod>(X, Y, W_op,
W_precon, neg_modulus, twice_modulus)`; the value is the pair of registers left
in `*X` and `*Y`, or `none` when a check of a helper fails. -/
def InvButterfly (BitShift : Nat) (InputLessThanMod : Bool)
    (X Y W_op W_precon neg_modulus twice_modulus : m512i) : Option (m512i × m512i) :=
  let Y_minus_2p := mm512_sub_epi64 Y twice_modulus
  let T := mm512_sub_epi64 X Y_minus_2p
  let X1 :=
    if InputLessThanMod then mm512_add_epi64 X Y
    else
      let X2 := mm512_add_epi64 X Y_minus_2p
      let sign_bits := mm512_movepi64_mask X2
      mm512_mask_add_epi64 X2 sign_bits X2 twice_modulus
  match mm512_il_mulhi_epi BitShift W_precon T with
  | none => none
  | some Q =>
    match mm512_il_mullo_epi BitShift Q neg_modulus with
    | none => none
    | some Q_p =>
      match mm512_il_mullo_add_epi BitShift Q_p W_op T with
      | none => none
      | some Y1 =>
        let Y2 :=
          if BitShift = 52 then mm512_and_epi64 Y1 (mm512_set1_epi64 ((1 <<< 52) - 1))
          else Y1
        some (X1, Y2)

/-! ## Values of the forward butterfly -/

/-- The input `X` of a forward butterfly folded below `2q`. -/
def Forward_tx (q x : Nat) : Nat := if 2 * q ≤ x then x - 2 * q else x

/-- The value of the lazy product of a forward butterfly with the twiddle `W`
and its factor `floor(W * 2^BitShift / q)`. -/
def Forward_Q (BitShift q W y : Nat) : Nat :=
  y * W - y * (W * 2 ^ BitShift / q) / 2 ^ BitShift * q

/-- The first output `tx + Q` of a forward butterfly. -/
def Forward_X_out (BitShift q W x y : Nat) : Nat := Forward_tx q x + Forward_Q BitShift q W y

/-- The second output `tx + 2q - Q` of a forward butterfly. -/
def Forward_Y_out (BitShift q W x y : Nat) : Nat :=
  Forward_tx q x + 2 * q - Forward_Q BitShift q W y

/-- The word at index `k` after one round of the stage loop with `m` blocks of
stride `t`, in terms of the buffer before the round: the first half of a block
receives the first butterfly output, the second half the second, with the
twiddle `root_of_unity_powers[m + i]` of the block `i = k / (2t)`. -/
def Forward_stage_value (BitShift q : Nat) (root_of_unity_powers : List Nat) (m t : Nat)
    (input : List Nat) (k : Nat) : Nat :=
  if k % (2 * t) < t then
    Forward_X_out BitShift q (root_of_unity_powers.getD (m + k / (2 * t)) 0)
      (input.getD k 0) (input.getD (k + t) 0)
  else
    Forward_Y_out BitShift q (root_of_unity_powers.getD (m + k / (2 * t)) 0)
      (input.getD (k - t) 0) (input.getD k 0)

/-! ## number-theory.hpp: bit reversal, and the coefficient form of a
forward round -/

/-- Modelled from the spec: `ReverseBitsUInt` is declared in number-theory.hpp
("Reverses the bits") and its body is not among the sources.  The value is the
number whose `bits` low bits are the `bits` low bits of `x` in reverse order;
the tables of the transforms are laid out by it. -/
def ReverseBitsUInt : Nat → Nat → Nat
  | _, 0 => 0
  | x, bits + 1 => (x % 2) * 2 ^ bits + ReverseBitsUInt (x / 2) bits

/-- The coefficient form of the buffer `A` after `s` rounds of the forward
transform of size `2^L` on the input `a`, as residues mod `q`: block `i` of the
`2^s` blocks holds the input polynomial reduced modulo
`x^(2^(L-s)) - psi^((2 * bitrev_s(i) + 1) * 2^(L-s))`. -/
def Forward_stage_inv (q psi L : Nat) (a : List Nat) (s : Nat) (A : List Nat) : Prop :=
  ∀ i j, i < 2 ^ s → j < 2 ^ (L - s) →
    ((A.getD (i * 2 ^ (L - s) + j) 0 : Nat) : ZMod q)
      = Finset.sum (Finset.range (2 ^ s)) (fun k =>
          ((a.getD (j + k * 2 ^ (L - s)) 0 : Nat) : ZMod q)
            * ((psi : Nat) : ZMod q) ^ ((2 * ReverseBitsUInt i s + 1) * 2 ^ (L - s) * k))

/-! ## number-theory.hpp: scalar helpers of the inverse transform -/

/-- Modelled from the spec: `InverseUIntMod(a, modulus)` is declared in
number-theory.hpp ("Returns a^{-1} mod modulus") and its body is not among the
sources.  The spec gives the value as `a^(modulus-2) mod modulus` for a prime
modulus. -/
def InverseUIntMod (a modulus : Nat) : Nat := a ^ (modulus - 2) % modulus

/-- Modelled from the spec: `MultiplyUIntMod(x, y, modulus)` is declared in
number-theory.hpp ("Returns (x * y) mod modulus") and its body is not among the
sources. -/
def MultiplyUIntMod (x y modulus : Nat) : Nat := (x * y) % modulus

/-! ## ntt/ntt-avx512-util.hpp: interleaved loads and stores -/

/-- Modelled from the spec: the helper `LoadInterleavedT1(arg, &out1, &out2)`
of ntt/ntt-avx512-util.hpp, which is not among the sources.  The round with
stride 1 pairs the words at distance 1: of the 16 words at `arg`, lane `b` of
`out1` is word `2b` and lane `b` of `out2` is word `2b + 1`, the pair of block
`b`. -/
def LoadInterleavedT1 (buf : List Nat) (j : Nat) : m512i × m512i :=
  (fun l => buf.getD (j + 2 * l.val) 0, fun l => buf.getD (j + 2 * l.val + 1) 0)

/-- Modelled from the spec: the helper `WriteInterleavedT1(v_X, v_Y, out)` of
ntt/ntt-avx512-util.hpp, which is not among the sources: the store that puts
the lanes back where `LoadInterleavedT1` took them. -/
def WriteInterleavedT1 (buf : List Nat) (j : Nat) (v_X v_Y : m512i) : List Nat :=
  (List.finRange 8).foldl
    (fun b l => (b.set (j + 2 * l.val) (v_X l)).set (j + 2 * l.val + 1) (v_Y l)) buf

/-- Modelled from the spec: the helper `LoadInterleavedT2(arg, &out1, &out2)`
of ntt/ntt-avx512-util.hpp, which is not among the sources.  The round with
stride 2 pairs the words at distance 2 inside blocks of 4: lanes `2b`, `2b + 1`
of `out1` are the words `4b`, `4b + 1` and those of `out2` the words `4b + 2`,
`4b + 3`. -/
def LoadInterleavedT2 (buf : List Nat) (j : Nat) : m512i × m512i :=
  (fun l => buf.getD (j + 4 * (l.val / 2) + l.val % 2) 0,
   fun l => buf.getD (j + 4 * (l.val / 2) + 2 + l.val % 2) 0)

/-- Modelled from the spec: the helper `WriteInterleavedT2(v_X, v_Y, out)` of
ntt/ntt-avx512-util.hpp, which is not among the sources: the store that puts
the lanes back where `LoadInterleavedT2` took them. -/
def WriteInterleavedT2 (buf : List Nat) (j : Nat) (v_X v_Y : m512i) : List Nat :=
  (List.finRange 8).foldl
    (fun b l => (b.set (j + 4 * (l.val / 2) + l.val % 2) (v_X l)).set
      (j + 4 * (l.val / 2) + 2 + l.val % 2) (v_Y l)) buf

/-- Modelled from the spec: the helper `LoadInterleavedT4(arg, &out1, &out2)`
of ntt/ntt-avx512-util.hpp, which is not among the sources.  The round with
stride 4 pairs the words at distance 4 inside blocks of 8: lanes `4b .. 4b + 3`
of `out1` are the words `8b .. 8b + 3` and those of `out2` the words
`8b + 4 .. 8b + 7`. -/
def LoadInterleavedT4 (buf : List Nat) (j : Nat) : m512i × m512i :=
  (fun l => buf.getD (j + 8 * (l.val / 4) + l.val % 4) 0,
   fun l => buf.getD (j + 8 * (l.val / 4) + 4 + l.val % 4) 0)

/-- Modelled from the spec: the helper `WriteInterleavedT4(v_X, v_Y, out)` of
ntt/ntt-avx512-util.hpp, which is not among the sources: the store that puts
the lanes back where `LoadInterleavedT4` took them. -/
def WriteInterleavedT4 (buf : List Nat) (j : Nat) (v_X v_Y : m512i) : List Nat :=
  (List.finRange 8).foldl
    (fun b l => (b.set (j + 8 * (l.val / 4) + l.val % 4) (v_X l)).set
      (j + 8 * (l.val / 4) + 4 + l.val % 4) (v_Y l)) buf

/-- Modelled from the spec: the helper `LoadWOpT2(arg)` of
ntt/ntt-avx512-util.hpp, which is not among the sources: the four twiddles at
`arg`, one per block of the round with stride 2, each on the two lanes of its
block. -/
def LoadWOpT2 (table : List Nat) (w : Nat) : m512i := fun l => table.getD (w + l.val / 2) 0

/-- Modelled from the spec: the helper `LoadWOpT4(arg)` of
ntt/ntt-avx512-util.hpp, which is not among the sources: the two twiddles at
`arg`, one per block of the round with stride 4, each on the four lanes of its
block. -/
def LoadWOpT4 (table : List Nat) (w : Nat) : m512i := fun l => table.getD (w + l.val / 4) 0

/-! ## ntt/inv-ntt-avx512.hpp: the inverse transform -/

/-- The loop of `InvT1<BitShift>` with `i` iterations left, `j1` the offset
into `elements` and `w` the index of the next eight twiddles. -/
def InvT1_loop (BitShift : Nat) (v_neg_modulus v_twice_mod : m512i)
    (W_op W_precon : List Nat) : Nat → Nat → Nat → List Nat → Option (List Nat)
  | 0, _, _, elements => some elements
  | i + 1, j1, w, elements =>
    let v := LoadInterleavedT1 elements j1
    let v_W_op := mm512_loadu_si512 W_op w
    let v_W_precon := mm512_loadu_si512 W_precon w
    match InvButterfly BitShift true v.1 v.2 v_W_op v_W_precon v_neg_modulus v_twice_mod with
    | none => none
    | some r =>
      InvT1_loop BitShift v_neg_modulus v_twice_mod W_op W_precon i (j1 + 16) (w + 8)
        (WriteInterleavedT1 elements j1 r.1 r.2)

/-- The template `InvT1<BitShift>(elements, v_neg_modulus, v_twice_mod, m,
W_op, W_precon)`; the pointers `W_op`, `W_precon` are a table and the index
`root_index` into it. -/
def InvT1 (BitShift : Nat) (elements : List Nat) (v_neg_modulus v_twice_mod : m512i)
    (m : Nat) (W_op W_precon : List Nat) (root_index : Nat) : Option (List Nat) :=
  InvT1_loop BitShift v_neg_modulus v_twice_mod W_op W_precon (m / 8) 0 root_index elements

/-- The loop of `InvT2<BitShift>` with `i` iterations left, `x` the offset of
`X` and `w` the index of the next four twiddles. -/
def InvT2_loop (BitShift : Nat) (v_neg_modulus v_twice_mod : m512i)
    (W_op W_precon : List Nat) : Nat → Nat → Nat → List Nat → Option (List Nat)
  | 0, _, _, elements => some elements
  | i + 1, x, w, elements =>
    let v := LoadInterleavedT2 elements x
    let v_W_op := LoadWOpT2 W_op w
    let v_W_precon := LoadWOpT2 W_precon w
    match InvButterfly BitShift false v.1 v.2 v_W_op v_W_precon v_neg_modulus v_twice_mod with
    | none => none
    | some r =>
      InvT2_loop BitShift v_neg_modulus v_twice_mod W_op W_precon i (x + 16) (w + 4)
        (WriteInterleavedT2 elements x r.1 r.2)

/-- The template `InvT2<BitShift>(X, v_neg_modulus, v_twice_mod, m, W_op,
W_precon)`. -/
def InvT2 (BitShift : Nat) (elements : List Nat) (v_neg_modulus v_twice_mod : m512i)
    (m : Nat) (W_op W_precon : List Nat) (root_index : Nat) : Option (List Nat) :=
  InvT2_loop BitShift v_neg_modulus v_twice_mod W_op W_precon (m / 4) 0 root_index elements

/-- The loop of `InvT4<BitShift>` with `i` iterations left, `x` the offset of
`X` and `w` the index of the next two twiddles. -/
def InvT4_loop (BitShift : Nat) (v_neg_modulus v_twice_mod : m512i)
    (W_op W_precon : List Nat) : Nat → Nat → Nat → List Nat → Option (List Nat)
  | 0, _, _, elements => some elements
  | i + 1, x, w, elements =>
    let v := LoadInterleavedT4 elements x
    let v_W_op := LoadWOpT4 W_op w
    let v_W_precon := LoadWOpT4 W_precon w
    match InvButterfly BitShift false v.1 v.2 v_W_op v_W_precon v_neg_modulus v_twice_mod with
    | none => none
    | some r =>
      InvT4_loop BitShift v_neg_modulus v_twice_mod W_op W_precon i (x + 16) (w + 2)
        (WriteInterleavedT4 elements x r.1 r.2)

/-- The template `InvT4<BitShift>(elements, v_neg_modulus, v_twice_mod, m,
W_op, W_precon)`. -/
def InvT4 (BitShift : Nat) (elements : List Nat) (v_neg_modulus v_twice_mod : m512i)
    (m : Nat) (W_op W_precon : List Nat) (root_index : Nat) : Option (List Nat) :=
  InvT4_loop BitShift v_neg_modulus v_twice_mod W_op W_precon (m / 2) 0 root_index elements

/-- The inner loop of `InvT8<BitShift>` with `j` iterations left, `x` and `y`
the offsets of `v_X_pt` and `v_Y_pt`. -/
def InvT8_inner (BitShift : Nat) (v_neg_modulus v_twice_mod v_W_op v_W_precon : m512i) :
    Nat → Nat → Nat → List Nat → Option (List Nat)
  | 0, _, _, elements => some elements
  | j + 1, x, y, elements =>
    let v_X := mm512_loadu_si512 elements x
    let v_Y := mm512_loadu_si512 elements y
    match InvButterfly BitShift false v_X v_Y v_W_op v_W_precon v_neg_modulus v_twice_mod with
    | none => none
    | some r =>
      InvT8_inner BitShift v_neg_modulus v_twice_mod v_W_op v_W_precon j (x + 8) (y + 8)
        (mm512_storeu_si512 (mm512_storeu_si512 elements x r.1) y r.2)

/-- The outer loop of `InvT8<BitShift>` with `c` blocks left, `j1` the offset
of the block and `w` the index of its twiddle. -/
def InvT8_loop (BitShift : Nat) (v_neg_modulus v_twice_mod : m512i) (t : Nat)
    (W_op W_precon : List Nat) : Nat → Nat → Nat → List Nat → Option (List Nat)
  | 0, _, _, elements => some elements
  | c + 1, j1, w, elements =>
    let v_W_op := mm512_set1_epi64 (W_op.getD w 0)
    let v_W_precon := mm512_set1_epi64 (W_precon.getD w 0)
    match InvT8_inner BitShift v_neg_modulus v_twice_mod v_W_op v_W_precon (t / 8) j1 (j1 + t)
        elements with
    | none => none
    | some elements =>
      InvT8_loop BitShift v_neg_modulus v_twice_mod t W_op W_precon c (j1 + (t <<< 1)) (w + 1)
        elements

/-- The template `InvT8<BitShift>(elements, v_neg_modulus, v_twice_mod, t, m,
W_op, W_precon)`. -/
def InvT8 (BitShift : Nat) (elements : List Nat) (v_neg_modulus v_twice_mod : m512i)
    (t m : Nat) (W_op W_precon : List Nat) (root_index : Nat) : Option (List Nat) :=
  InvT8_loop BitShift v_neg_modulus v_twice_mod t W_op W_precon m 0 root_index elements

/-- The loop `for (; m > 1; m >>= 1)` of the inverse transform over the rounds
with stride at least 8, with fuel for the number of rounds; the value is the
buffer and `root_index` after the loop. -/
def Inverse_stage_loop (BitShift : Nat) (v_neg_modulus v_twice_mod : m512i)
    (inv_root_of_unity_powers precon_inv_root_of_unity_powers : List Nat) :
    Nat → Nat → Nat → Nat → List Nat → Option (List Nat × Nat)
  | 0, _, m, root_index, elements => if 1 < m then none else some (elements, root_index)
  | fuel + 1, t, m, root_index, elements =>
    if 1 < m then
      match InvT8 BitShift elements v_neg_modulus v_twice_mod t m inv_root_of_unity_powers
          precon_inv_root_of_unity_powers root_index with
      | none => none
      | some elements =>
        Inverse_stage_loop BitShift v_neg_modulus v_twice_mod inv_root_of_unity_powers
          precon_inv_root_of_unity_powers fuel (t <<< 1) (m >>> 1) (root_index + m) elements
    else some (elements, root_index)

/-- The body of the final fused loop of the inverse transform on the registers
`v_X` and `v_Y`; the value is the pair of registers stored, or `none` when a
check of a helper fails. -/
def Inverse_final_body (BitShift : Nat)
    (v_modulus v_neg_modulus v_twice_mod v_inv_n v_inv_n_prime v_inv_n_w v_inv_n_w_prime
      v_X v_Y : m512i) : Option (m512i × m512i) :=
  let two_pow52_min1 := mm512_set1_epi64 ((1 <<< 52) - 1)
  let Y_minus_2p := mm512_sub_epi64 v_Y v_twice_mod
  match mm512_il_small_add_mod_epi64 v_X v_Y v_twice_mod with
  | none => none
  | some X_plus_Y_mod2p =>
    let T := mm512_sub_epi64 v_X Y_minus_2p
    match mm512_il_mulhi_epi BitShift v_inv_n_prime X_plus_Y_mod2p with
    | none => none
    | some Q1 =>
      match mm512_il_mullo_epi BitShift v_inv_n X_plus_Y_mod2p with
      | none => none
      | some inv_N_tx =>
        match mm512_il_mullo_add_epi BitShift inv_N_tx Q1 v_neg_modulus with
        | none => none
        | some v_X1 =>
          let v_X2 := if BitShift = 52 then mm512_and_epi64 v_X1 two_pow52_min1 else v_X1
          match mm512_il_mulhi_epi BitShift v_inv_n_w_prime T with
          | none => none
          | some Q2 =>
            match mm512_il_mullo_epi BitShift v_inv_n_w T with
            | none => none
            | some inv_N_W_T =>
              match mm512_il_mullo_add_epi BitShift inv_N_W_T Q2 v_neg_modulus with
              | none => none
              | some v_Y1 =>
                let v_Y2 :=
                  if BitShift = 52 then mm512_and_epi64 v_Y1 two_pow52_min1 else v_Y1
                some (mm512_il_small_mod_epu64 v_X2 v_modulus,
                  mm512_il_small_mod_epu64 v_Y2 v_modulus)

/-- The final fused loop of the inverse transform with `j` iterations left,
`x` and `y` the offsets of `v_X_pt` and `v_Y_pt`. -/
def Inverse_final_loop (BitShift : Nat)
    (v_modulus v_neg_modulus v_twice_mod v_inv_n v_inv_n_prime v_inv_n_w v_inv_n_w_prime :
      m512i) : Nat → Nat → Nat → List Nat → Option (List Nat)
  | 0, _, _, elements => some elements
  | j + 1, x, y, elements =>
    match Inverse_final_body BitShift v_modulus v_neg_modulus v_twice_mod v_inv_n v_inv_n_prime
        v_inv_n_w v_inv_n_w_prime (mm512_loadu_si512 elements x)
        (mm512_loadu_si512 elements y) with
    | none => none
    | some r =>
      Inverse_final_loop BitShift v_modulus v_neg_modulus v_twice_mod v_inv_n v_inv_n_prime
        v_inv_n_w v_inv_n_w_prime j (x + 8) (y + 8)
        (mm512_storeu_si512 (mm512_storeu_si512 elements x r.1) y r.2)

/-- The template `InverseTransformFromBitReverseAVX512<BitShift>(n, mod,
inv_root_of_unity_powers, precon_inv_root_of_unity_powers, elements)`.  The
value is the final contents of `elements`, or `none` when a check fails.  The
function `CheckArguments` is not among the sources and is a parameter: `none`
when it aborts, else the value the entry check tests.  The logging calls are
left out.  Indices and counters are far below 2^64 and are not reduced. -/
def InverseTransformFromBitReverseAVX512 (CheckArguments : Nat → Nat → Option Bool)
    (BitShift n mod : Nat)
    (inv_root_of_unity_powers precon_inv_root_of_unity_powers elements : List Nat) :
    Option (List Nat) :=
  match CheckArguments n mod with
  | none => none
  | some ok =>
    if !LATTICE_CHECK ok then none
    else
      match MaximumValue BitShift with
      | none => none
      | some bound =>
        if !LATTICE_CHECK_BOUNDS precon_inv_root_of_unity_powers n bound then none
        else if !LATTICE_CHECK_BOUNDS elements n bound then none
        else if !LATTICE_CHECK_BOUNDS elements n mod then none
        else
          let twice_mod := shl64 mod 1
          let v_modulus := mm512_set1_epi64 mod
          let v_neg_modulus := mm512_set1_epi64 (sub64 0 mod)
          let v_twice_mod := mm512_set1_epi64 twice_mod
          let t := 1
          let root_index := 1
          let m := n >>> 1
          match InvT1 BitShift elements v_neg_modulus v_twice_mod m inv_root_of_unity_powers
              precon_inv_root_of_unity_powers root_index with
          | none => none
          | some elements =>
            let t := t <<< 1
            let root_index := root_index + m
            let m := m >>> 1
            match InvT2 BitShift elements v_neg_modulus v_twice_mod m inv_root_of_unity_powers
                precon_inv_root_of_unity_powers root_index with
            | none => none
            | some elements =>
              let t := t <<< 1
              let root_index := root_index + m
              let m := m >>> 1
              match InvT4 BitShift elements v_neg_modulus v_twice_mod m
                  inv_root_of_unity_powers precon_inv_root_of_unity_powers root_index with
              | none => none
              | some elements =>
                let t := t <<< 1
                let root_index := root_index + m
                let m := m >>> 1
                match Inverse_stage_loop BitShift v_neg_modulus v_twice_mod
                    inv_root_of_unity_powers precon_inv_root_of_unity_powers 64 t m root_index
                    elements with
                | none => none
                | some (elements, root_index) =>
                  let W_op := inv_root_of_unity_powers.getD root_index 0
                  match MultiplyFactor.new (InverseUIntMod n mod) BitShift mod with
                  | none => none
                  | some mf_inv_n =>
                    let inv_n := mf_inv_n.Operand
                    let inv_n_prime := mf_inv_n.BarrettFactor
                    match MultiplyFactor.new (MultiplyUIntMod inv_n W_op mod) BitShift mod with
                    | none => none
                    | some mf_inv_n_w =>
                      let inv_n_w := mf_inv_n_w.Operand
                      let inv_n_w_prime := mf_inv_n_w.BarrettFactor
                      Inverse_final_loop BitShift v_modulus v_neg_modulus v_twice_mod
                        (mm512_set1_epi64 inv_n) (mm512_set1_epi64 inv_n_prime)
                        (mm512_set1_epi64 inv_n_w) (mm512_set1_epi64 inv_n_w_prime)
                        (n / 16) 0 (n >>> 1) elements

/-! ## util/avx512-util.hpp: compare helpers, add with carry, Barrett reduction -/

/-- Modelled from the spec: the enum `CMPINT` of the compare helpers, whose
declaration is not among the sources: the eight comparison predicates of the
AVX512 compare intrinsics, in the order of their immediate values 0 to 7. -/
inductive CMPINT where
  | EQ
  | LT
  | LE
  | FALSE
  | NE
  | NLT
  | NLE
  | TRUE
deriving DecidableEq, Repr

/-- The conversion `static_cast<int>(cmp)` of a `CMPINT`. -/
def CMPINT.toInt : CMPINT → Nat
  | CMPINT.EQ => 0
  | CMPINT.LT => 1
  | CMPINT.LE => 2
  | CMPINT.FALSE => 3
  | CMPINT.NE => 4
  | CMPINT.NLT => 5
  | CMPINT.NLE => 6
  | CMPINT.TRUE => 7

/-- The type `__m128i`: two 64-bit lanes. -/
abbrev m128i := Fin 2 → Nat

/-- Intrinsic `_mm_set1_epi64x`: broadcast a word to both lanes. -/
def mm_set1_epi64x (a : Nat) : m128i := fun _ => a

/-- Intrinsic `_mm512_cmp_epu64_mask`: the lane-wise unsigned comparison
selected by the low three bits of `imm8`. -/
def mm512_cmp_epu64_mask (a b : m512i) (imm8 : Nat) : mmask8 :=
  fun l =>
    match imm8 % 8 with
    | 0 => decide (a l = b l)
    | 1 => decide (a l < b l)
    | 2 => decide (a l ≤ b l)
    | 3 => false
    | 4 => decide (a l ≠ b l)
    | 5 => decide (¬ a l < b l)
    | 6 => decide (¬ a l ≤ b l)
    | _ => true

/-- Intrinsic `_mm512_maskz_broadcastq_epi64`: the low word of `a` in the lanes
selected by `k`, zero in the others. -/
def mm512_maskz_broadcastq_epi64 (k : mmask8) (a : m128i) : m512i :=
  fun l => if k l then a 0 else 0

/-- The function `_mm512_il_cmp_epu64_mask(a, b, cmp)`. -/
def mm512_il_cmp_epu64_mask (a b : m512i) (cmp : CMPINT) : mmask8 :=
  match cmp with
  | CMPINT.EQ => mm512_cmp_epu64_mask a b CMPINT.EQ.toInt
  | CMPINT.LT => mm512_cmp_epu64_mask a b CMPINT.LT.toInt
  | CMPINT.LE => mm512_cmp_epu64_mask a b CMPINT.LE.toInt
  | CMPINT.FALSE => mm512_cmp_epu64_mask a b CMPINT.FALSE.toInt
  | CMPINT.NE => mm512_cmp_epu64_mask a b CMPINT.NE.toInt
  | CMPINT.NLT => mm512_cmp_epu64_mask a b CMPINT.NLT.toInt
  | CMPINT.NLE => mm512_cmp_epu64_mask a b CMPINT.NLE.toInt
  | CMPINT.TRUE => mm512_cmp_epu64_mask a b CMPINT.TRUE.toInt

/-- The function `_mm512_il_cmp_epi64(a, b, cmp, match_value)` with a `CMPINT`
predicate: `match_value` in the lanes where the comparison holds, zero in the
others. -/
def mm512_il_cmp_epi64 (a b : m512i) (cmp : CMPINT) (match_value : Nat) : m512i :=
  let mask := mm512_il_cmp_epu64_mask a b cmp
  mm512_maskz_broadcastq_epi64 mask (mm_set1_epi64x match_value)

/-- The function `_mm512_il_cmpge_epu64(a, b, match_value)`. -/
def mm512_il_cmpge_epu64 (a b : m512i) (match_value : Nat) : m512i :=
  mm512_il_cmp_epi64 a b CMPINT.NLT match_value

/-- The function `_mm512_il_cmplt_epu64(a, b, match_value)`. -/
def mm512_il_cmplt_epu64 (a b : m512i) (match_value : Nat) : m512i :=
  mm512_il_cmp_epi64 a b CMPINT.LT match_value

/-- The function `_mm512_il_cmple_epu64(a, b, match_value)`. -/
def mm512_il_cmple_epu64 (a b : m512i) (match_value : Nat) : m512i :=
  mm512_il_cmp_epi64 a b CMPINT.LE match_value

/-- The template `_mm512_il_add_epu<BitShift>(x, y, &c)`, specialised for 64
and for 52 only: the pair of the returned carry register and of the register
stored through `c`. -/
def mm512_il_add_epu (BitShift : Nat) (x y : m512i) : Option (m512i × m512i) :=
  if BitShift = 64 then
    let c := mm512_add_epi64 x y
    some (mm512_il_cmplt_epu64 c x 1, c)
  else if BitShift = 52 then
    let vtwo_pow_52 := mm512_set1_epi64 (1 <<< 52)
    let sum := mm512_add_epi64 x y
    let carry := mm512_il_cmpge_epu64 sum vtwo_pow_52 1
    some (carry, mm512_il_small_mod_epu64 sum vtwo_pow_52)
  else none

/-- The function `_mm512_il_barrett_reduce64(x, p, p_barr)`. -/
def mm512_il_barrett_reduce64 (x p p_barr : m512i) : m512i :=
  let rnd1_hi := mm512_il_mulhi_epi64 x p_barr
  let tmp1_times_mod := mm512_mullo_epi64 rnd1_hi p
  let x1 := mm512_sub_epi64 x tmp1_times_mod
  mm512_il_small_mod_epu64 x1 p

/-! ## util/avx512-util.hpp: the 256-bit high multiply -/

/-- The type `__m256i`: four 64-bit lanes. -/
abbrev m256i := Fin 4 → Nat

/-- Intrinsic `_mm256_set1_epi64x`: broadcast a word to every lane. -/
def mm256_set1_epi64x (a : Nat) : m256i := fun _ => a

/-- Intrinsic `_mm256_add_epi64`: lane-wise wrapping addition. -/
def mm256_add_epi64 (a b : m256i) : m256i := fun l => (a l + b l) % 2 ^ 64

/-- Intrinsic `_mm256_and_si256`: bitwise and. -/
def mm256_and_si256 (a b : m256i) : m256i := fun l => a l &&& b l

/-- Intrinsic `_mm256_srli_epi64`: lane-wise logical right shift. -/
def mm256_srli_epi64 (a : m256i) (imm8 : Nat) : m256i := fun l => a l >>> imm8

/-- Intrinsic `_mm256_mul_epu32`: the product of the low 32 bits of each lane
of `a` and of `b`. -/
def mm256_mul_epu32 (a b : m256i) : m256i := fun l => (a l % 2 ^ 32) * (b l % 2 ^ 32)

/-- Intrinsic `_mm256_shuffle_epi32` with the control `0xB1`: the two 32-bit
halves of each lane are swapped. -/
def mm256_shuffle_epi32_B1 (a : m256i) : m256i :=
  fun l => (a l % 2 ^ 32) * 2 ^ 32 + (a l / 2 ^ 32) % 2 ^ 32

/-- The specialisation `_mm256_il_mulhi_epi<64>(x, y)`. -/
def mm256_il_mulhi_epi64 (x y : m256i) : m256i :=
  let lomask := mm256_set1_epi64x 0x00000000ffffffff
  let xh := mm256_shuffle_epi32_B1 x
  let yh := mm256_shuffle_epi32_B1 y
  let w0 := mm256_mul_epu32 x y
  let w1 := mm256_mul_epu32 x yh
  let w2 := mm256_mul_epu32 xh y
  let w3 := mm256_mul_epu32 xh yh
  let w0h := mm256_srli_epi64 w0 32
  let s1 := mm256_add_epi64 w1 w0h
  let s1l := mm256_and_si256 s1 lomask
  let s1h := mm256_srli_epi64 s1 32
  let s2 := mm256_add_epi64 w2 s1l
  let s2h := mm256_srli_epi64 s2 32
  let hi1 := mm256_add_epi64 w3 s1h
  mm256_add_epi64 hi1 s2h

/-! ## number-theory.hpp: the 128-bit Barrett factor -/

/-- The class `Barrett128Factor`: the two halves of the stored factor. -/
structure Barrett128Factor where
  m_barrett_hi : Nat
  m_barrett_lo : Nat
deriving DecidableEq, Repr

/-- The constructor `Barrett128Factor(modulus)`; `none` at the modulus 0, where
the source divides by zero. -/
def Barrett128Factor.new (modulus : Nat) : Option Barrett128Factor :=
  if modulus = 0 then none
  else
    let two_pow_64 := (1 <<< 64) % 2 ^ 128
    let two_pow_128_minus_1 := 2 ^ 128 - 1
    let barrett_factor := two_pow_128_minus_1 / modulus
    some { m_barrett_hi := (barrett_factor >>> 64) % 2 ^ 64,
           m_barrett_lo := (barrett_factor % two_pow_64) % 2 ^ 64 }

/-- The accessor `Hi()`. -/
def Barrett128Factor.Hi (f : Barrett128Factor) : Nat := f.m_barrett_hi

/-- The accessor `Lo()`. -/
def Barrett128Factor.Lo (f : Barrett128Factor) : Nat := f.m_barrett_lo

/-- The function `IsPowerOfTwo(num)`: `num && !(num & (num - 1))`. -/
def IsPowerOfTwo (num : Nat) : Bool :=
  decide (num ≠ 0) && !decide (num &&& sub64 num 1 ≠ 0)

/-- The loop `while (x >>= 1) ++ret;` of `Log2` with a bound `fuel` on the
number of rounds; `none` when the fuel runs out before the loop ends. -/
def Log2_loop : Nat → Nat → Nat → Option Nat
  | 0, _, _ => none
  | fuel + 1, x, ret =>
    let x := shr64 x 1
    if x ≠ 0 then Log2_loop fuel x ((ret + 1) % 2 ^ 64) else some ret

/-- The function `Log2(x)`; `none` when its check `IsPowerOfTwo(x)` fails. -/
def Log2 (x : Nat) : Option Nat :=
  if !LATTICE_CHECK (IsPowerOfTwo x) then none
  else Log2_loop 64 x 0

/-- The function `DivideUInt128UInt64(x, y)` on the two words `(x[0], x[1])`:
the pair of the returned words `(result[0], result[1])` and of the words
`(x[0], x[1])` it leaves behind; `none` for the division by zero. -/
def DivideUInt128UInt64 (x : Nat × Nat) (y : Nat) : Option ((Nat × Nat) × (Nat × Nat)) :=
  let n := ((x.2 <<< 64) % 2 ^ 128) ||| x.1
  if y = 0 then none
  else
    let q := n / y
    let n := (n + 2 ^ 128 - (q * y) % 2 ^ 128) % 2 ^ 128
    some ((q % 2 ^ 64, (q >>> 64) % 2 ^ 64), (n % 2 ^ 64, 0))

/-- The function `DivideUInt128UInt64Lo(x0, x1, y)`; `none` for the division
by zero. -/
def DivideUInt128UInt64Lo (x0 x1 y : Nat) : Option Nat :=
  let n := ((x1 <<< 64) % 2 ^ 128) ||| x0
  if y = 0 then none
  else
    let q := n / y
    some (q % 2 ^ 64)

/-- The function `DivideUInt128UInt64Hi(x0, x1, y)`; `none` for the division
by zero. -/
def DivideUInt128UInt64Hi (x0 x1 y : Nat) : Option Nat :=
  let n := ((x1 <<< 64) % 2 ^ 128) ||| x0
  if y = 0 then none
  else
    let q := n / y
    some ((q >>> 64) % 2 ^ 64)

/-! ## ntt/ntt-avx512.hpp: the words and table entries the stage loop works on -/

/-- The pairs of word indices `(X, Y)` the scalar butterfly loop
`for (j = j1; j < j2; j++)` works on, in order: `count` rounds from the indices
`X` and `Y` the two pointers stand at. -/
def Forward_scalar_loop_pairs : Nat → Nat → Nat → List (Nat × Nat)
  | 0, _, _ => []
  | count + 1, X, Y => (X, Y) :: Forward_scalar_loop_pairs count (X + 1) (Y + 1)

/-- The pairs of word indices `(X, Y)` the vector butterfly loop
`for (j = j1; j < j2; j += 8)` works on, in order: `count` rounds, each on the
eight lanes at `v_X_pt` and at `v_Y_pt`. -/
def Forward_vector_loop_pairs : Nat → Nat → Nat → List (Nat × Nat)
  | 0, _, _ => []
  | count + 1, v_X_pt, v_Y_pt =>
    (List.range 8).map (fun l => (v_X_pt + l, v_Y_pt + l))
      ++ Forward_vector_loop_pairs count (v_X_pt + 8) (v_Y_pt + 8)

/-- The block loop `for (i = 0; i < m; i++)` of one stage, `count` iterations
from block `i` with `j1` the first index of the block: for each block the index
`m + i` at which the two tables are read and the pairs of word indices its
butterfly loop works on. -/
def Forward_block_loop_accesses (m t : Nat) : Nat → Nat → Nat → List (Nat × List (Nat × Nat))
  | 0, _, _ => []
  | count + 1, i, j1 =>
    let j2 := j1 + t
    let X := j1
    let Y := X + t
    (m + i,
      if j2 - j1 < 8 then Forward_scalar_loop_pairs (j2 - j1) X Y
      else Forward_vector_loop_pairs ((j2 - j1 + 7) / 8) X Y)
      :: Forward_block_loop_accesses m t count (i + 1) (j1 + (t <<< 1))

/-- The stage loop `for (m = 1; m < n; m <<= 1) { ...; t >>= 1; }` with a bound
`fuel` on the number of rounds: for each round the number of blocks `m`, the
stride `t`, and what its block loop reads and works on. -/
def Forward_stage_loop_accesses (n : Nat) :
    Nat → Nat → Nat → List (Nat × Nat × List (Nat × List (Nat × Nat)))
  | 0, _, _ => []
  | fuel + 1, m, t =>
    if m < n then
      (m, t, Forward_block_loop_accesses m t m 0 0)
        :: Forward_stage_loop_accesses n fuel (m <<< 1) (t >>> 1)
    else []

/-! ## ntt/inv-ntt-avx512.hpp: the table entries the inverse transform reads -/

/-- The table indices the loop of `InvT1` reads, in order: `i` rounds left,
each loading the eight entries at `w`. -/
def InvT1_loop_reads : Nat → Nat → List Nat
  | 0, _ => []
  | i + 1, w => (List.range 8).map (fun l => w + l) ++ InvT1_loop_reads i (w + 8)

/-- The table indices the loop of `InvT2` reads, in order: `i` rounds left,
each loading the four entries at `w` with `LoadWOpT2`. -/
def InvT2_loop_reads : Nat → Nat → List Nat
  | 0, _ => []
  | i + 1, w => (List.range 4).map (fun l => w + l) ++ InvT2_loop_reads i (w + 4)

/-- The table indices the loop of `InvT4` reads, in order: `i` rounds left,
each loading the two entries at `w` with `LoadWOpT4`. -/
def InvT4_loop_reads : Nat → Nat → List Nat
  | 0, _ => []
  | i + 1, w => (List.range 2).map (fun l => w + l) ++ InvT4_loop_reads i (w + 2)

/-- The table indices the outer loop of `InvT8` reads, in order: `c` blocks
left, each reading the entry at `w`. -/
def InvT8_loop_reads : Nat → Nat → List Nat
  | 0, _ => []
  | c + 1, w => w :: InvT8_loop_reads c (w + 1)

/-- The loop `for (; m > 1; m >>= 1)` of the inverse transform, with fuel for
the number of rounds: the table indices each round reads, and `root_index`
after the loop. -/
def Inverse_stage_loop_reads : Nat → Nat → Nat → List (List Nat) × Nat
  | 0, _, root_index => ([], root_index)
  | fuel + 1, m, root_index =>
    if 1 < m then
      let r := Inverse_stage_loop_reads fuel (m >>> 1) (root_index + m)
      (InvT8_loop_reads m root_index :: r.1, r.2)
    else ([], root_index)

/-- The table indices `InverseTransformFromBitReverseAVX512` reads at
`inv_root_of_unity_powers` and `precon_inv_root_of_unity_powers` after its
entry checks, stage by stage: `InvT1`, `InvT2`, `InvT4`, the rounds of the
loop over `InvT8`, and the final fused stage. -/
def InverseTransform_reads (n : Nat) : List (List Nat) :=
  let root_index := 1
  let m := n >>> 1
  let r1 := InvT1_loop_reads (m / 8) root_index
  let root_index := root_index + m
  let m := m >>> 1
  let r2 := InvT2_loop_reads (m / 4) root_index
  let root_index := root_index + m
  let m := m >>> 1
  let r4 := InvT4_loop_reads (m / 2) root_index
  let root_index := root_index + m
  let m := m >>> 1
  let r8 := Inverse_stage_loop_reads 64 m root_index
  r1 :: r2 :: r4 :: (r8.1 ++ [[r8.2]])

/-! ## ntt/inv-ntt-avx512.hpp: the inverse transform with the caller's buffer
and the table reads made explicit

The functions of this section follow the inverse transform once more, with
what the plain embedding leaves out: a call that stops on a failed check ends
in `Except.error b`, where `b` is the contents of the buffer at that point, and
a call that returns ends in `Except.ok`, with the buffer and the table indices
read, in the order of the reads. -/

/-- The loop of `InvT1<BitShift>` as `InvT1_loop`, with the indices `reads` of
the table entries loaded so far: each round loads the eight entries at `w`. -/
def InvT1_loop_run (BitShift : Nat) (v_neg_modulus v_twice_mod : m512i)
    (W_op W_precon : List Nat) :
    Nat → Nat → Nat → List Nat → List Nat → Except (List Nat) (List Nat × List Nat)
  | 0, _, _, elements, reads => Except.ok (elements, reads)
  | i + 1, j1, w, elements, reads =>
    let v := LoadInterleavedT1 elements j1
    let v_W_op := mm512_loadu_si512 W_op w
    let v_W_precon := mm512_loadu_si512 W_precon w
    match InvButterfly BitShift true v.1 v.2 v_W_op v_W_precon v_neg_modulus v_twice_mod with
    | none => Except.error elements
    | some r =>
      InvT1_loop_run BitShift v_neg_modulus v_twice_mod W_op W_precon i (j1 + 16) (w + 8)
        (WriteInterleavedT1 elements j1 r.1 r.2) (reads ++ (List.range 8).map (fun l => w + l))

/-- The template `InvT1<BitShift>` as `InvT1`, with the table reads. -/
def InvT1_run (BitShift : Nat) (elements : List Nat) (v_neg_modulus v_twice_mod : m512i)
    (m : Nat) (W_op W_precon : List Nat) (root_index : Nat) :
    Except (List Nat) (List Nat × List Nat) :=
  InvT1_loop_run BitShift v_neg_modulus v_twice_mod W_op W_precon (m / 8) 0 root_index
    elements []

/-- The loop of `InvT2<BitShift>` as `InvT2_loop`, with the table reads: each
round loads the four entries at `w` with `LoadWOpT2`. -/
def InvT2_loop_run (BitShift : Nat) (v_neg_modulus v_twice_mod : m512i)
    (W_op W_precon : List Nat) :
    Nat → Nat → Nat → List Nat → List Nat → Except (List Nat) (List Nat × List Nat)
  | 0, _, _, elements, reads => Except.ok (elements, reads)
  | i + 1, x, w, elements, reads =>
    let v := LoadInterleavedT2 elements x
    let v_W_op := LoadWOpT2 W_op w
    let v_W_precon := LoadWOpT2 W_precon w
    match InvButterfly BitShift false v.1 v.2 v_W_op v_W_precon v_neg_modulus v_twice_mod with
    | none => Except.error elements
    | some r =>
      InvT2_loop_run BitShift v_neg_modulus v_twice_mod W_op W_precon i (x + 16) (w + 4)
        (WriteInterleavedT2 elements x r.1 r.2) (reads ++ (List.range 4).map (fun l => w + l))

/-- The template `InvT2<BitShift>` as `InvT2`, with the table reads. -/
def InvT2_run (BitShift : Nat) (elements : List Nat) (v_neg_modulus v_twice_mod : m512i)
    (m : Nat) (W_op W_precon : List Nat) (root_index : Nat) :
    Except (List Nat) (List Nat × List Nat) :=
  InvT2_loop_run BitShift v_neg_modulus v_twice_mod W_op W_precon (m / 4) 0 root_index
    elements []

/-- The loop of `InvT4<BitShift>` as `InvT4_loop`, with the table reads: each
round loads the two entries at `w` with `LoadWOpT4`. -/
def InvT4_loop_run (BitShift : Nat) (v_neg_modulus v_twice_mod : m512i)
    (W_op W_precon : List Nat) :
    Nat → Nat → Nat → List Nat → List Nat → Except (List Nat) (List Nat × List Nat)
  | 0, _, _, elements, reads => Except.ok (elements, reads)
  | i + 1, x, w, elements, reads =>
    let v := LoadInterleavedT4 elements x
    let v_W_op := LoadWOpT4 W_op w
    let v_W_precon := LoadWOpT4 W_precon w
    match InvButterfly BitShift false v.1 v.2 v_W_op v_W_precon v_neg_modulus v_twice_mod with
    | none => Except.error elements
    | some r =>
      InvT4_loop_run BitShift v_neg_modulus v_twice_mod W_op W_precon i (x + 16) (w + 2)
        (WriteInterleavedT4 elements x r.1 r.2) (reads ++ (List.range 2).map (fun l => w + l))

/-- The template `InvT4<BitShift>` as `InvT4`, with the table reads. -/
def InvT4_run (BitShift : Nat) (elements : List Nat) (v_neg_modulus v_twice_mod : m512i)
    (m : Nat) (W_op W_precon : List Nat) (root_index : Nat) :
    Except (List Nat) (List Nat × List Nat) :=
  InvT4_loop_run BitShift v_neg_modulus v_twice_mod W_op W_precon (m / 2) 0 root_index
    elements []

/-- The inner loop of `InvT8<BitShift>` as `InvT8_inner`; it reads no table. -/
def InvT8_inner_run (BitShift : Nat) (v_neg_modulus v_twice_mod v_W_op v_W_precon : m512i) :
    Nat → Nat → Nat → List Nat → Except (List Nat) (List Nat)
  | 0, _, _, elements => Except.ok elements
  | j + 1, x, y, elements =>
    let v_X := mm512_loadu_si512 elements x
    let v_Y := mm512_loadu_si512 elements y
    match InvButterfly BitShift false v_X v_Y v_W_op v_W_precon v_neg_modulus v_twice_mod with
    | none => Except.error elements
    | some r =>
      InvT8_inner_run BitShift v_neg_modulus v_twice_mod v_W_op v_W_precon j (x + 8) (y + 8)
        (mm512_storeu_si512 (mm512_storeu_si512 elements x r.1) y r.2)

/-- The outer loop of `InvT8<BitShift>` as `InvT8_loop`, with the table reads:
each block reads the entry at `w`. -/
def InvT8_loop_run (BitShift : Nat) (v_neg_modulus v_twice_mod : m512i) (t : Nat)
    (W_op W_precon : List Nat) :
    Nat → Nat → Nat → List Nat → List Nat → Except (List Nat) (List Nat × List Nat)
  | 0, _, _, elements, reads => Except.ok (elements, reads)
  | c + 1, j1, w, elements, reads =>
    let v_W_op := mm512_set1_epi64 (W_op.getD w 0)
    let v_W_precon := mm512_set1_epi64 (W_precon.getD w 0)
    match InvT8_inner_run BitShift v_neg_modulus v_twice_mod v_W_op v_W_precon (t / 8) j1
        (j1 + t) elements with
    | Except.error b => Except.error b
    | Except.ok elements =>
      InvT8_loop_run BitShift v_neg_modulus v_twice_mod t W_op W_precon c (j1 + (t <<< 1))
        (w + 1) elements (reads ++ [w])

/-- The template `InvT8<BitShift>` as `InvT8`, with the table reads. -/
def InvT8_run (BitShift : Nat) (elements : List Nat) (v_neg_modulus v_twice_mod : m512i)
    (t m : Nat) (W_op W_precon : List Nat) (root_index : Nat) :
    Except (List Nat) (List Nat × List Nat) :=
  InvT8_loop_run BitShift v_neg_modulus v_twice_mod t W_op W_precon m 0 root_index elements []

/-- The loop `for (; m > 1; m >>= 1)` of the inverse transform as
`Inverse_stage_loop`, with the reads of the rounds so far in `stages`, one list
for each round; the value is the buffer, `root_index` and the reads after the
loop. -/
def Inverse_stage_loop_run (BitShift : Nat) (v_neg_modulus v_twice_mod : m512i)
    (inv_root_of_unity_powers precon_inv_root_of_unity_powers : List Nat) :
    Nat → Nat → Nat → Nat → List Nat → List (List Nat) →
      Except (List Nat) (List Nat × Nat × List (List Nat))
  | 0, _, m, root_index, elements, stages =>
    if 1 < m then Except.error elements else Except.ok (elements, root_index, stages)
  | fuel + 1, t, m, root_index, elements, stages =>
    if 1 < m then
      match InvT8_run BitShift elements v_neg_modulus v_twice_mod t m inv_root_of_unity_powers
          precon_inv_root_of_unity_powers root_index with
      | Except.error b => Except.error b
      | Except.ok r =>
        Inverse_stage_loop_run BitShift v_neg_modulus v_twice_mod inv_root_of_unity_powers
          precon_inv_root_of_unity_powers fuel (t <<< 1) (m >>> 1) (root_index + m) r.1
          (stages ++ [r.2])
    else Except.ok (elements, root_index, stages)

/-- The final fused loop of the inverse transform as `Inverse_final_loop`; it
reads no table. -/
def Inverse_final_loop_run (BitShift : Nat)
    (v_modulus v_neg_modulus v_twice_mod v_inv_n v_inv_n_prime v_inv_n_w v_inv_n_w_prime :
      m512i) : Nat → Nat → Nat → List Nat → Except (List Nat) (List Nat)
  | 0, _, _, elements => Except.ok elements
  | j + 1, x, y, elements =>
    match Inverse_final_body BitShift v_modulus v_neg_modulus v_twice_mod v_inv_n v_inv_n_prime
        v_inv_n_w v_inv_n_w_prime (mm512_loadu_si512 elements x)
        (mm512_loadu_si512 elements y) with
    | none => Except.error elements
    | some r =>
      Inverse_final_loop_run BitShift v_modulus v_neg_modulus v_twice_mod v_inv_n v_inv_n_prime
        v_inv_n_w v_inv_n_w_prime j (x + 8) (y + 8)
        (mm512_storeu_si512 (mm512_storeu_si512 elements x r.1) y r.2)

/-- The template `InverseTransformFromBitReverseAVX512<BitShift>` as the
embedding of that name, with the buffer of the caller and the table reads
explicit.  `Except.error b`: the call stopped on a failed check (or in
`CheckArguments`, or on a division by zero in a `MultiplyFactor`) with the
buffer holding `b`.  `Except.ok (b, reads)`: the call returned with the buffer
holding `b`, and `reads` lists, stage by stage, the indices at which the stages
read the tables `inv_root_of_unity_powers` and
`precon_inv_root_of_unity_powers` (the final fused stage reads the first of
them only). -/
def InverseTransformFromBitReverseAVX512_run (CheckArguments : Nat → Nat → Option Bool)
    (BitShift n mod : Nat)
    (inv_root_of_unity_powers precon_inv_root_of_unity_powers elements : List Nat) :
    Except (List Nat) (List Nat × List (List Nat)) :=
  match CheckArguments n mod with
  | none => Except.error elements
  | some ok =>
    if !LATTICE_CHECK ok then Except.error elements
    else
      match MaximumValue BitShift with
      | none => Except.error elements
      | some bound =>
        if !LATTICE_CHECK_BOUNDS precon_inv_root_of_unity_powers n bound then
          Except.error elements
        else if !LATTICE_CHECK_BOUNDS elements n bound then Except.error elements
        else if !LATTICE_CHECK_BOUNDS elements n mod then Except.error elements
        else
          let twice_mod := shl64 mod 1
          let v_modulus := mm512_set1_epi64 mod
          let v_neg_modulus := mm512_set1_epi64 (sub64 0 mod)
          let v_twice_mod := mm512_set1_epi64 twice_mod
          let t := 1
          let root_index := 1
          let m := n >>> 1
          match InvT1_run BitShift elements v_neg_modulus v_twice_mod m
              inv_root_of_unity_powers precon_inv_root_of_unity_powers root_index with
          | Except.error b => Except.error b
          | Except.ok r1 =>
            let t := t <<< 1
            let root_index := root_index + m
            let m := m >>> 1
            match InvT2_run BitShift r1.1 v_neg_modulus v_twice_mod m
                inv_root_of_unity_powers precon_inv_root_of_unity_powers root_index with
            | Except.error b => Except.error b
            | Except.ok r2 =>
              let t := t <<< 1
              let root_index := root_index + m
              let m := m >>> 1
              match InvT4_run BitShift r2.1 v_neg_modulus v_twice_mod m
                  inv_root_of_unity_powers precon_inv_root_of_unity_powers root_index with
              | Except.error b => Except.error b
              | Except.ok r4 =>
                let t := t <<< 1
                let root_index := root_index + m
                let m := m >>> 1
                match Inverse_stage_loop_run BitShift v_neg_modulus v_twice_mod
                    inv_root_of_unity_powers precon_inv_root_of_unity_powers 64 t m root_index
                    r4.1 [r1.2, r2.2, r4.2] with
                | Except.error b => Except.error b
                | Except.ok r8 =>
                  let elements := r8.1
                  let root_index := r8.2.1
                  let W_op := inv_root_of_unity_powers.getD root_index 0
                  match MultiplyFactor.new (InverseUIntMod n mod) BitShift mod with
                  | none => Except.error elements
                  | some mf_inv_n =>
                    let inv_n := mf_inv_n.Operand
                    let inv_n_prime := mf_inv_n.BarrettFactor
                    match MultiplyFactor.new (MultiplyUIntMod inv_n W_op mod) BitShift mod with
                    | none => Except.error elements
                    | some mf_inv_n_w =>
                      let inv_n_w := mf_inv_n_w.Operand
                      let inv_n_w_prime := mf_inv_n_w.BarrettFactor
                      match Inverse_final_loop_run BitShift v_modulus v_neg_modulus v_twice_mod
                          (mm512_set1_epi64 inv_n) (mm512_set1_epi64 inv_n_prime)
                          (mm512_set1_epi64 inv_n_w) (mm512_set1_epi64 inv_n_w_prime)
                          (n / 16) 0 (n >>> 1) elements with
                      | Except.error b => Except.error b
                      | Except.ok out => Except.ok (out, r8.2.2 ++ [[root_index]])

/-! ## ntt/ntt-avx512.hpp: the stage loop with the table reads and the pairs
of words made explicit

The functions of this section follow the stage loop of the forward transform
once more and record, next to the buffer, what each round works on: for each
block the index at which it reads the two tables and the pairs of word indices
of its butterflies, in the order of the loop. -/

/-- The scalar butterfly loop as `Forward_scalar_loop`, with the pairs of word
indices `(X, Y)` of the butterflies done so far. -/
def Forward_scalar_loop_traced (BitShift bound mod twice_mod W_op W_precon : Nat) :
    Nat → Nat → Nat → List Nat → List (Nat × Nat) → Option (List Nat × List (Nat × Nat))
  | 0, _, _, input, pairs => some (input, pairs)
  | count + 1, X, Y, input, pairs =>
    match ForwardButterfly BitShift bound mod twice_mod W_op W_precon
        (input.getD X 0) (input.getD Y 0) with
    | none => none
    | some r =>
      Forward_scalar_loop_traced BitShift bound mod twice_mod W_op W_precon count (X + 1)
        (Y + 1) ((input.set X r.1).set Y r.2) (pairs ++ [(X, Y)])

/-- The vector butterfly loop as `Forward_vector_loop`, with the pairs of word
indices of the butterflies done so far: each round works on the eight lanes at
`v_X_pt` and at `v_Y_pt`. -/
def Forward_vector_loop_traced (BitShift bound : Nat)
    (v_modulus v_twice_mod v_W_operand v_W_barrett : m512i) :
    Nat → Nat → Nat → List Nat → List (Nat × Nat) → Option (List Nat × List (Nat × Nat))
  | 0, _, _, input, pairs => some (input, pairs)
  | count + 1, v_X_pt, v_Y_pt, input, pairs =>
    let v_X := mm512_loadu_si512 input v_X_pt
    let v_Y := mm512_loadu_si512 input v_Y_pt
    match ForwardButterflyAVX512 BitShift bound v_modulus v_twice_mod v_W_operand
        v_W_barrett v_X v_Y with
    | none => none
    | some r =>
      Forward_vector_loop_traced BitShift bound v_modulus v_twice_mod v_W_operand v_W_barrett
        count (v_X_pt + 8) (v_Y_pt + 8)
        (mm512_storeu_si512 (mm512_storeu_si512 input v_X_pt r.1) v_Y_pt r.2)
        (pairs ++ (List.range 8).map (fun l => (v_X_pt + l, v_Y_pt + l)))

/-- The block loop as `Forward_block_loop`, with the blocks done so far: for
each block the index `m + i` at which `root_of_unity_powers` and
`precon_root_of_unity_powers` are read and the pairs of its butterflies. -/
def Forward_block_loop_traced (BitShift bound mod twice_mod : Nat)
    (root_of_unity_powers precon_root_of_unity_powers : List Nat) (m t : Nat) :
    Nat → Nat → Nat → List Nat → List (Nat × List (Nat × Nat)) →
      Option (List Nat × List (Nat × List (Nat × Nat)))
  | 0, _, _, input, blocks => some (input, blocks)
  | count + 1, i, j1, input, blocks =>
    let j2 := j1 + t
    let W_op := root_of_unity_powers.getD (m + i) 0
    let W_precon := precon_root_of_unity_powers.getD (m + i) 0
    let X := j1
    let Y := X + t
    let r :=
      if j2 - j1 < 8 then
        Forward_scalar_loop_traced BitShift bound mod twice_mod W_op W_precon (j2 - j1) X Y
          input []
      else
        Forward_vector_loop_traced BitShift bound (mm512_set1_epi64 mod)
          (mm512_set1_epi64 twice_mod) (mm512_set1_epi64 W_op) (mm512_set1_epi64 W_precon)
          ((j2 - j1 + 7) / 8) X Y input []
    match r with
    | none => none
    | some r =>
      Forward_block_loop_traced BitShift bound mod twice_mod root_of_unity_powers
        precon_root_of_unity_powers m t count (i + 1) (j1 + (t <<< 1)) r.1
        (blocks ++ [(m + i, r.2)])

/-- The stage loop as `Forward_stage_loop`, with the rounds done so far: for
each round the number of blocks `m`, the stride `t`, and the blocks. -/
def Forward_stage_loop_traced (BitShift bound mod twice_mod : Nat)
    (root_of_unity_powers precon_root_of_unity_powers : List Nat) (n : Nat) :
    Nat → Nat → Nat → List Nat → List (Nat × Nat × List (Nat × List (Nat × Nat))) →
      Option (List Nat × List (Nat × Nat × List (Nat × List (Nat × Nat))))
  | 0, m, _, input, stages => if m < n then none else some (input, stages)
  | fuel + 1, m, t, input, stages =>
    if m < n then
      match Forward_block_loop_traced BitShift bound mod twice_mod root_of_unity_powers
          precon_root_of_unity_powers m t m 0 0 input [] with
      | none => none
      | some r =>
        Forward_stage_loop_traced BitShift bound mod twice_mod root_of_unity_powers
          precon_root_of_unity_powers n fuel (m <<< 1) (t >>> 1) r.1 (stages ++ [(m, t, r.2)])
    else some (input, stages)

/-! ## The integer binary logarithm -/

/-- With enough fuel the halving count is the floor of the binary logarithm. -/
theorem log2l_halvings_eq (fuel : Nat) : ∀ m : Nat, m < 2 ^ fuel →
    log2l_halvings fuel m = Nat.log2 m := by
  induction fuel with
  | zero =>
    intro m hm
    have h0 : m = 0 := by simpa using hm
    subst h0
    rw [Nat.log2]
    simp [log2l_halvings]
  | succ k ih =>
    intro m hm
    rw [Nat.log2]
    by_cases h2 : m < 2
    · have : ¬ m ≥ 2 := by omega
      simp [log2l_halvings, h2, this]
    · have hge : m ≥ 2 := by omega
      have hdiv : m / 2 < 2 ^ k := by
        rw [Nat.div_lt_iff_lt_mul (by decide)]
        rw [pow_succ] at hm
        exact hm
      simp [log2l_halvings, h2, hge, ih (m / 2) hdiv]

/-- Below `2^59` the value of `log2l` is the floor of the binary logarithm. -/
theorem log2l_eq_log2 (modulus : Nat) (h : modulus < 2 ^ 59) :
    log2l modulus = Nat.log2 modulus := by
  have hh : log2l_halvings 64 modulus = Nat.log2 modulus :=
    log2l_halvings_eq 64 modulus (by omega)
  have hlt : modulus < 2 ^ (Nat.log2 modulus + 1) := Nat.lt_log2_self
  have hk : Nat.log2 modulus + 1 ≤ 59 := by
    by_cases h0 : modulus = 0
    · subst h0
      rw [Nat.log2_zero]
      omega
    · have := (Nat.log2_lt h0).2 h
      omega
  have hr : log2l_rounds_up (Nat.log2 modulus + 1) = 0 := by
    unfold log2l_rounds_up
    repeat rw [if_neg (by omega)]
  simp only [log2l, hh, hr, Nat.add_zero]
  rw [if_neg (by omega)]

/-! ## The scalar multiply-mod kernel -/

/-- C1: at the prime modulus 113 the scalar kernel, given the reduced operands
90 and 108, stores 115, whereas the product 90 * 108 reduced modulo 113 is 2;
and at the 60-bit modulus 1037629354146273281 it stores a word that differs
from the reduced product by the modulus. -/
theorem EltwiseMultModNative_inexact_at_113 :
    (EltwiseMultModNative [90] [108] 1 113 = some [115] ∧ (90 * 108) % 113 = 2) ∧
    (EltwiseMultModNative [962476406420726517] [999261157080024292] 1 1037629354146273281
        = some [1086443109474194528] ∧
      (962476406420726517 * 999261157080024292) % 1037629354146273281
        = 48813755327921247) := by
  decide

/-- C2: at the prime modulus 113 the scalar kernel, given the reduced operands
105 and 112, stores 121, which is not below the modulus; and at the 60-bit
modulus 1037629354146293761 it stores a word above the modulus as well. -/
theorem EltwiseMultModNative_unreduced_at_113 :
    (EltwiseMultModNative [105] [112] 1 113 = some [121] ∧ ¬ (121 < 113)) ∧
    (EltwiseMultModNative [732672120067414598] [1023346337345476437] 1 1037629354146293761
        = some [1059489228830039927] ∧
      ¬ (1059489228830039927 < 1037629354146293761)) := by
  decide

/-- C3: the known-vector scenario, modulus 769: the scalar kernel, and with it
the in-place dispatcher on the scalar path, yields `[1,2,3,1,2,3,0,0,0]`. -/
theorem EltwiseMultModNative_known_vector :
    EltwiseMultModNative [1, 2, 3, 1, 1, 1, 0, 1, 0] [1, 1, 1, 1, 2, 3, 1, 0, 0] 9 769
      = some [1, 2, 3, 1, 2, 3, 0, 0, 0] ∧
    ∀ (K : AVX512Kernels) (LATTICE_HAS_AVX512DQ : Bool),
      EltwiseMultMod K LATTICE_HAS_AVX512DQ false
          [1, 2, 3, 1, 1, 1, 0, 1, 0] [1, 1, 1, 1, 2, 3, 1, 0, 0] 9 769
        = some [1, 2, 3, 1, 2, 3, 0, 0, 0] := by
  have hn : EltwiseMultModNative [1, 2, 3, 1, 1, 1, 0, 1, 0] [1, 1, 1, 1, 2, 3, 1, 0, 0] 9 769
      = some [1, 2, 3, 1, 2, 3, 0, 0, 0] := by decide
  refine ⟨hn, fun K b => ?_⟩
  simp only [EltwiseMultMod, Bool.and_false, Bool.false_eq_true, if_false, hn]

/-- C4: the boundary scenario, modulus 1125891450734593, on the scalar kernel. -/
theorem EltwiseMultModNative_boundary_vector :
    EltwiseMultModNative
      [706712574074152, 943467560561867, 1115920708919443, 515713505356094,
        525633777116309, 910766532971356, 757086506562426, 799841520990167, 1]
      [515910833966633, 96924929169117, 537587376997453, 41829060600750,
        205864998008014, 463185427411646, 965818279134294, 1075778049568657, 1]
      9 1125891450734593
      = some [231838787758587, 618753612121218, 1116345967490421, 409735411065439,
          25680427818594, 950138933882289, 554128714280822, 1465109636753, 1] := by
  decide

/-- The bounds check fails exactly when one of the first `n` words reaches the
bound. -/
theorem LATTICE_CHECK_BOUNDS_eq_false_iff (arg : List Nat) (n bound : Nat) :
    LATTICE_CHECK_BOUNDS arg n bound = false ↔ ∃ x ∈ arg.take n, bound ≤ x := by
  unfold LATTICE_CHECK_BOUNDS
  rw [← Bool.not_eq_true, List.all_eq_true]
  constructor
  · intro h
    by_contra hne
    apply h
    intro x hx
    have : ¬ bound ≤ x := fun hb => hne ⟨x, hx, hb⟩
    simpa using this
  · rintro ⟨x, hx, hb⟩ h
    have := h x hx
    simp at this
    omega

/-- C5: the scalar kernel fails its checks exactly when the modulus is zero or
one of the first `n` words of either operand is not below the modulus, and it
completes on every other input. -/
theorem EltwiseMultModNative_fails_iff (operand1 operand2 : List Nat) (n modulus : Nat) :
    (EltwiseMultModNative operand1 operand2 n modulus = none ↔
      (modulus = 0 ∨ (∃ x ∈ operand1.take n, modulus ≤ x)
        ∨ (∃ y ∈ operand2.take n, modulus ≤ y))) ∧
    ((∃ r, EltwiseMultModNative operand1 operand2 n modulus = some r) ↔
      ¬ (modulus = 0 ∨ (∃ x ∈ operand1.take n, modulus ≤ x)
        ∨ (∃ y ∈ operand2.take n, modulus ≤ y))) := by
  have key : EltwiseMultModNative operand1 operand2 n modulus = none ↔
      (modulus = 0 ∨ (∃ x ∈ operand1.take n, modulus ≤ x)
        ∨ (∃ y ∈ operand2.take n, modulus ≤ y)) := by
    rw [← LATTICE_CHECK_BOUNDS_eq_false_iff, ← LATTICE_CHECK_BOUNDS_eq_false_iff]
    unfold EltwiseMultModNative LATTICE_CHECK
    cases h1 : LATTICE_CHECK_BOUNDS operand1 n modulus <;>
      cases h2 : LATTICE_CHECK_BOUNDS operand2 n modulus <;>
      by_cases h3 : modulus = 0 <;> simp [h3]
  refine ⟨key, ?_⟩
  rw [← key]
  cases EltwiseMultModNative operand1 operand2 n modulus <;> simp

/-! ## The dispatchers -/

/-- C6: with the capability flag false, the in-place dispatcher is the scalar
kernel: same final contents of `operand1`, same failure. -/
theorem EltwiseMultMod_flag_false (K : AVX512Kernels) (LATTICE_HAS_AVX512DQ : Bool)
    (operand1 operand2 : List Nat) (n modulus : Nat) :
    EltwiseMultMod K LATTICE_HAS_AVX512DQ false operand1 operand2 n modulus
      = EltwiseMultModNative operand1 operand2 n modulus := by
  simp [EltwiseMultMod]

/-- C7, as stated, fails in a build without the macro LATTICE_HAS_AVX512DQ:
with the capability flag set and the modulus 769 below 2^50 the in-place
dispatcher does not take the floating-point path. -/
theorem EltwiseMultMod_flag_set_not_float :
    ¬ (∀ K : AVX512Kernels,
        EltwiseMultMod K false true [2] [3] 1 769
          = K.EltwiseMultModAVX512Float [2] [3] 1 769) := by
  intro h
  have h7 := h probeKernels
  revert h7
  decide

/-- The in-place dispatcher observed through the probe kernels on empty
buffers. -/
theorem EltwiseMultMod_probe (LATTICE_HAS_AVX512DQ has_avx512_dq : Bool) (modulus : Nat) :
    EltwiseMultMod probeKernels LATTICE_HAS_AVX512DQ has_avx512_dq [] [] 0 modulus
      = if (LATTICE_HAS_AVX512DQ && has_avx512_dq) = true then
          (if modulus < 2 ^ 50 then some [7] else some [8])
        else (if modulus = 0 then none else some []) := by
  have hshift : (1 <<< 50 : Nat) = 2 ^ 50 := by decide
  by_cases hm : modulus = 0 <;>
    simp [EltwiseMultMod, probeKernels, hshift, EltwiseMultModNative, LATTICE_CHECK_BOUNDS,
      LATTICE_CHECK, hm, EltwiseMultModNative_loop]

/-- The out-of-place dispatcher observed through the probe kernels on empty
buffers. -/
theorem EltwiseMultModOofP_probe (LATTICE_HAS_AVX512DQ has_avx512_dq : Bool)
    (modulus : Nat) :
    EltwiseMultModOofP probeKernels LATTICE_HAS_AVX512DQ has_avx512_dq [] [] [] 0 modulus
      = if (LATTICE_HAS_AVX512DQ && has_avx512_dq) = true then
          (if modulus < 2 ^ 50 then some ([7], []) else some ([8], []))
        else (if modulus = 0 then none else some ([], [])) := by
  have hshift : (1 <<< 50 : Nat) = 2 ^ 50 := by decide
  by_cases hm : modulus = 0 <;>
    simp [EltwiseMultModOofP, probeKernels, hshift, EltwiseMultModNative,
      LATTICE_CHECK_BOUNDS, LATTICE_CHECK, hm, EltwiseMultModNative_loop,
      EltwiseMultModOofP_copy, static_cast_int]

/-- C7, amended: the branch taken by either dispatcher is decided by the build
macro, the capability flag and the modulus alone.  Whatever the kernels and the
buffers, the floating-point path is taken iff the macro is defined, the flag is
set and the modulus is below 2^50; the integer path iff the macro is defined,
the flag is set and the modulus is at least 2^50; the scalar path iff the macro
is undefined or the flag is unset; and the out-of-place dispatcher takes the
same branch as the in-place one. -/
theorem EltwiseMultMod_branch (LATTICE_HAS_AVX512DQ has_avx512_dq : Bool) (modulus : Nat) :
    ((∀ (K : AVX512Kernels) (operand1 operand2 : List Nat) (n : Nat),
        EltwiseMultMod K LATTICE_HAS_AVX512DQ has_avx512_dq operand1 operand2 n modulus
          = K.EltwiseMultModAVX512Float operand1 operand2 n modulus)
      ↔ (LATTICE_HAS_AVX512DQ = true ∧ has_avx512_dq = true ∧ modulus < 2 ^ 50)) ∧
    ((∀ (K : AVX512Kernels) (operand1 operand2 : List Nat) (n : Nat),
        EltwiseMultMod K LATTICE_HAS_AVX512DQ has_avx512_dq operand1 operand2 n modulus
          = K.EltwiseMultModAVX512Int operand1 operand2 n modulus)
      ↔ (LATTICE_HAS_AVX512DQ = true ∧ has_avx512_dq = true ∧ 2 ^ 50 ≤ modulus)) ∧
    ((∀ (K : AVX512Kernels) (operand1 operand2 : List Nat) (n : Nat),
        EltwiseMultMod K LATTICE_HAS_AVX512DQ has_avx512_dq operand1 operand2 n modulus
          = EltwiseMultModNative operand1 operand2 n modulus)
      ↔ (LATTICE_HAS_AVX512DQ = false ∨ has_avx512_dq = false)) ∧
    ((∀ (K : AVX512Kernels) (result operand1 operand2 : List Nat) (n : Nat),
        EltwiseMultModOofP K LATTICE_HAS_AVX512DQ has_avx512_dq result operand1 operand2 n
            modulus
          = K.EltwiseMultModAVX512FloatOofP result operand1 operand2 n modulus)
      ↔ (LATTICE_HAS_AVX512DQ = true ∧ has_avx512_dq = true ∧ modulus < 2 ^ 50)) ∧
    ((∀ (K : AVX512Kernels) (result operand1 operand2 : List Nat) (n : Nat),
        EltwiseMultModOofP K LATTICE_HAS_AVX512DQ has_avx512_dq result operand1 operand2 n
            modulus
          = K.EltwiseMultModAVX512IntOofP result operand1 operand2 n modulus)
      ↔ (LATTICE_HAS_AVX512DQ = true ∧ has_avx512_dq = true ∧ 2 ^ 50 ≤ modulus)) ∧
    ((∀ (K : AVX512Kernels) (result operand1 operand2 : List Nat) (n : Nat),
        EltwiseMultModOofP K LATTICE_HAS_AVX512DQ has_avx512_dq result operand1 operand2 n
            modulus
          = (EltwiseMultModNative operand1 operand2 n modulus).map
              (fun r => (EltwiseMultModOofP_copy result r n, r)))
      ↔ (LATTICE_HAS_AVX512DQ = false ∨ has_avx512_dq = false)) := by
  have hshift : (1 <<< 50 : Nat) = 2 ^ 50 := by decide
  refine ⟨⟨?_, ?_⟩, ⟨?_, ?_⟩, ⟨?_, ?_⟩, ⟨?_, ?_⟩, ⟨?_, ?_⟩, ⟨?_, ?_⟩⟩
  · intro h
    have h0 := h probeKernels [] [] 0
    rw [EltwiseMultMod_probe] at h0
    cases LATTICE_HAS_AVX512DQ <;> cases has_avx512_dq <;> split_ifs at h0 <;>
      simp_all [probeKernels]
  · rintro ⟨h1, h2, h3⟩ K operand1 operand2 n
    simp only [EltwiseMultMod, h1, h2, hshift, Bool.and_self, if_true, if_pos h3]
  · intro h
    have h0 := h probeKernels [] [] 0
    rw [EltwiseMultMod_probe] at h0
    cases LATTICE_HAS_AVX512DQ <;> cases has_avx512_dq <;> split_ifs at h0 <;>
      simp_all [probeKernels]
  · rintro ⟨h1, h2, h3⟩ K operand1 operand2 n
    have h4 : ¬ modulus < 2 ^ 50 := by omega
    simp only [EltwiseMultMod, h1, h2, hshift, Bool.and_self, if_true, if_neg h4]
  · intro h
    have h0 := h probeKernels [] [] 0
    rw [EltwiseMultMod_probe] at h0
    have hn : EltwiseMultModNative [] [] 0 modulus
        = if modulus = 0 then none else some [] := by
      by_cases hm : modulus = 0 <;>
        simp [EltwiseMultModNative, LATTICE_CHECK_BOUNDS, LATTICE_CHECK, hm,
          EltwiseMultModNative_loop]
    rw [hn] at h0
    cases LATTICE_HAS_AVX512DQ <;> cases has_avx512_dq <;> split_ifs at h0 <;>
      simp_all [EltwiseMultModOofP_copy, static_cast_int]
  · intro h K operand1 operand2 n
    rcases h with h | h <;> simp [EltwiseMultMod, h]
  · intro h
    have h0 := h probeKernels [] [] [] 0
    rw [EltwiseMultModOofP_probe] at h0
    cases LATTICE_HAS_AVX512DQ <;> cases has_avx512_dq <;> split_ifs at h0 <;>
      simp_all [probeKernels]
  · rintro ⟨h1, h2, h3⟩ K result operand1 operand2 n
    simp only [EltwiseMultModOofP, h1, h2, hshift, Bool.and_self, if_true, if_pos h3]
  · intro h
    have h0 := h probeKernels [] [] [] 0
    rw [EltwiseMultModOofP_probe] at h0
    cases LATTICE_HAS_AVX512DQ <;> cases has_avx512_dq <;> split_ifs at h0 <;>
      simp_all [probeKernels]
  · rintro ⟨h1, h2, h3⟩ K result operand1 operand2 n
    have h4 : ¬ modulus < 2 ^ 50 := by omega
    simp only [EltwiseMultModOofP, h1, h2, hshift, Bool.and_self, if_true, if_neg h4]
  · intro h
    have h0 := h probeKernels [] [] [] 0
    rw [EltwiseMultModOofP_probe] at h0
    have hn : EltwiseMultModNative [] [] 0 modulus
        = if modulus = 0 then none else some [] := by
      by_cases hm : modulus = 0 <;>
        simp [EltwiseMultModNative, LATTICE_CHECK_BOUNDS, LATTICE_CHECK, hm,
          EltwiseMultModNative_loop]
    rw [hn] at h0
    cases LATTICE_HAS_AVX512DQ <;> cases has_avx512_dq <;> split_ifs at h0 <;>
      simp_all [EltwiseMultModOofP_copy, static_cast_int]
  · intro h K result operand1 operand2 n
    rcases h with h | h <;> simp [EltwiseMultModOofP, h] <;>
      cases EltwiseMultModNative operand1 operand2 n modulus <;> rfl

/-! ## The out-of-place entry point on the scalar path -/

/-- The scalar loop on constant buffers: after `n` iterations over `n` copies
of `x` and of `y`, every word is the body applied to `x` and `y`. -/
theorem EltwiseMultModNative_loop_replicate (N L barr_lo modulus x y : Nat) (n : Nat) :
    EltwiseMultModNative_loop N L barr_lo modulus n (List.replicate n x) (List.replicate n y)
      = List.replicate n (EltwiseMultModNative_body N L barr_lo modulus x y) := by
  induction n with
  | zero => rfl
  | succ k ih =>
    simp only [List.replicate_succ, EltwiseMultModNative_loop, ih]

/-- The bounds check on a constant buffer whose word is below the bound. -/
theorem LATTICE_CHECK_BOUNDS_replicate (m n x bound : Nat) (hx : x < bound) :
    LATTICE_CHECK_BOUNDS (List.replicate m x) n bound = true := by
  unfold LATTICE_CHECK_BOUNDS
  rw [List.all_eq_true]
  intro a ha
  have hmem : a ∈ List.replicate m x := List.mem_of_mem_take ha
  have : a = x := List.eq_of_mem_replicate hmem
  simp [this, hx]

/-- The scalar kernel on buffers of `n` zeros, modulus 2: all zeros again. -/
theorem EltwiseMultModNative_zeros (n : Nat) :
    EltwiseMultModNative (List.replicate n 0) (List.replicate n 0) n 2
      = some (List.replicate n 0) := by
  have hb : LATTICE_CHECK_BOUNDS (List.replicate n 0) n 2 = true :=
    LATTICE_CHECK_BOUNDS_replicate n n 0 2 (by decide)
  have hbody : EltwiseMultModNative_body ((log2l 2 + 1) % 2 ^ 64)
      (((log2l 2 + 1) % 2 ^ 64 + (log2l 2 + 1) % 2 ^ 64) % 2 ^ 64)
      (((1 <<< (((log2l 2 + 1) % 2 ^ 64 + (log2l 2 + 1) % 2 ^ 64) % 2 ^ 64)) % 2 ^ 128) / 2
        % 2 ^ 64) 2 0 0 = 0 := by decide
  unfold EltwiseMultModNative
  simp only [hb, LATTICE_CHECK, Bool.not_true, Bool.false_eq_true, if_false]
  rw [if_neg (by decide)]
  simp only [EltwiseMultModNative_loop_replicate, hbody]

/-- The copy loop keeps the length of `result`. -/
theorem copy_fold_length (operand1 : List Nat) (k : Nat) (result : List Nat) :
    ((List.range k).foldl (fun r i => r.set i (operand1.getD i 0)) result).length
      = result.length := by
  induction k with
  | zero => simp
  | succ k ih =>
    simp only [List.range_succ, List.foldl_append, List.foldl_cons, List.foldl_nil,
      List.length_set]
    exact ih

/-- After `k` rounds of the copy loop every word of `result` with an index
below `k` is the word of `operand1` at that index. -/
theorem copy_fold_getD (operand1 : List Nat) (k : Nat) (result : List Nat) (i : Nat)
    (hi : i < k) (hl : i < result.length) :
    ((List.range k).foldl (fun r i => r.set i (operand1.getD i 0)) result).getD i 0
      = operand1.getD i 0 := by
  induction k with
  | zero => omega
  | succ k ih =>
    have hlen := copy_fold_length operand1 k result
    simp only [List.range_succ, List.foldl_append, List.foldl_cons, List.foldl_nil]
    by_cases hik : i = k
    · subst hik
      rw [List.getD_eq_getElem?_getD, List.getElem?_set_self (by omega)]
      rfl
    · have hik2 : i < k := by omega
      have := ih hik2
      simp only [List.getD_eq_getElem?_getD] at this ⊢
      rw [List.getElem?_set_ne (Ne.symm hik)]
      exact this

/-- For lengths below 2^31 the out-of-place entry point on the scalar path
leaves in `operand1` what the in-place entry point leaves there, and the first
`n` words of `result` are those words. -/
theorem EltwiseMultModOofP_result_eq_inplace (K : AVX512Kernels)
    (LATTICE_HAS_AVX512DQ : Bool) (result operand1 operand2 r1 : List Nat) (n modulus : Nat)
    (hn : n < 2 ^ 31) (hr : n ≤ result.length)
    (h : EltwiseMultMod K LATTICE_HAS_AVX512DQ false operand1 operand2 n modulus = some r1) :
    ∃ res, EltwiseMultModOofP K LATTICE_HAS_AVX512DQ false result operand1 operand2 n modulus
        = some (res, r1) ∧ res.length = result.length ∧
      ∀ i, i < n → res.getD i 0 = r1.getD i 0 := by
  simp only [EltwiseMultMod, Bool.and_false, Bool.false_eq_true, if_false] at h
  have hcast : (static_cast_int n).toNat = n := by
    have h1 : n % 2 ^ 32 = n := Nat.mod_eq_of_lt (by omega)
    simp only [static_cast_int, h1, if_pos hn]
    simp
  refine ⟨EltwiseMultModOofP_copy result r1 n, ?_, ?_, ?_⟩
  · simp only [EltwiseMultModOofP, Bool.and_false, Bool.false_eq_true, if_false, h]
  · simp only [EltwiseMultModOofP_copy, copy_fold_length]
  · intro i hi
    simp only [EltwiseMultModOofP_copy, hcast]
    exact copy_fold_getD r1 n result i hi (by omega)

/-- C8: on the scalar path the out-of-place entry point overwrites `operand1`:
with modulus 769, `result = [0]`, `operand1 = [2]` and `operand2 = [3]` the call
leaves `[6]` in `operand1` as well as in `result`. -/
theorem EltwiseMultModOofP_overwrites_operand1 (K : AVX512Kernels)
    (LATTICE_HAS_AVX512DQ : Bool) :
    EltwiseMultModOofP K LATTICE_HAS_AVX512DQ false [0] [2] [3] 1 769 = some ([6], [6]) := by
  have hn : EltwiseMultModNative [2] [3] 1 769 = some [6] := by decide
  have hc : EltwiseMultModOofP_copy [0] [6] 1 = [6] := by decide
  simp [EltwiseMultModOofP, hn, hc]

/-- C9: for the length 2^31 the copy loop of the out-of-place entry point does
not run, because its bound `static_cast<int>(n)` is negative: on buffers of
2^31 words, `result` all ones and both operands all zeros, modulus 2, the
scalar path leaves `result` all ones, whereas the in-place entry point leaves
all zeros in `operand1`. -/
theorem EltwiseMultModOofP_no_copy_at_two_pow_31 (K : AVX512Kernels)
    (LATTICE_HAS_AVX512DQ : Bool) :
    EltwiseMultModOofP K LATTICE_HAS_AVX512DQ false (List.replicate (2 ^ 31) 1)
        (List.replicate (2 ^ 31) 0) (List.replicate (2 ^ 31) 0) (2 ^ 31) 2
      = some (List.replicate (2 ^ 31) 1, List.replicate (2 ^ 31) 0) ∧
    EltwiseMultMod K LATTICE_HAS_AVX512DQ false
        (List.replicate (2 ^ 31) 0) (List.replicate (2 ^ 31) 0) (2 ^ 31) 2
      = some (List.replicate (2 ^ 31) 0) := by
  have hcast : static_cast_int (2 ^ 31) = -2147483648 := by decide
  constructor
  · simp only [EltwiseMultModOofP, Bool.and_false, Bool.false_eq_true, if_false,
      EltwiseMultModNative_zeros, EltwiseMultModOofP_copy, hcast]
    rfl
  · simp only [EltwiseMultMod, Bool.and_false, Bool.false_eq_true, if_false,
      EltwiseMultModNative_zeros]

/-! ## Precomputed multiply factors -/

/-- The constructor stores the floor of `operand * 2^bit_shift / modulus`
whenever the operand is below the modulus, and also at `operand = modulus` in
the 52-bit tier. -/
theorem MultiplyFactor_new_eq (operand bit_shift modulus : Nat)
    (hop : operand < 2 ^ 64) (hm : 1 ≤ modulus)
    (hbs : bit_shift = 52 ∨ bit_shift = 64)
    (h : operand < modulus ∨ (bit_shift = 52 ∧ operand ≤ modulus)) :
    MultiplyFactor.new operand bit_shift modulus
      = some { m_operand := operand,
               m_barrett_factor := operand * 2 ^ bit_shift / modulus } := by
  have hle : operand ≤ modulus := by
    rcases h with h | h
    · exact Nat.le_of_lt h
    · exact h.2
  have hpow : 2 ^ bit_shift ≤ 2 ^ 64 := by
    rcases hbs with hbs | hbs <;> subst hbs <;> norm_num
  have h128 : operand * 2 ^ bit_shift < 2 ^ 128 := by
    calc operand * 2 ^ bit_shift < 2 ^ 64 * 2 ^ 64 :=
          Nat.mul_lt_mul_of_lt_of_le hop hpow (by positivity)
      _ = 2 ^ 128 := by norm_num
  have hq : operand * 2 ^ bit_shift / modulus < 2 ^ 64 := by
    rcases h with h | h
    · have : operand * 2 ^ bit_shift / modulus < 2 ^ bit_shift := by
        rw [Nat.div_lt_iff_lt_mul (by omega)]
        have hp : 0 < 2 ^ bit_shift := by positivity
        calc operand * 2 ^ bit_shift < modulus * 2 ^ bit_shift :=
              Nat.mul_lt_mul_of_pos_right h hp
          _ = 2 ^ bit_shift * modulus := Nat.mul_comm _ _
      omega
    · have h52 := h.1
      subst h52
      have : operand * 2 ^ 52 / modulus ≤ 2 ^ 52 := by
        apply Nat.div_le_of_le_mul
        exact Nat.mul_le_mul_right _ hle
      have h2 : (2:Nat) ^ 52 < 2 ^ 64 := by norm_num
      omega
  have hm0 : ¬ modulus = 0 := by omega
  simp only [MultiplyFactor.new, LATTICE_CHECK, decide_eq_true_eq, if_pos hle, if_neg hm0,
    Nat.shiftLeft_eq, Nat.mod_eq_of_lt h128, Nat.mod_eq_of_lt hq]

/-- C10: at `operand = modulus = 769` and `bit_shift = 64` the constructor
accepts the operand and stores the Barrett factor 0, whereas
`floor(769 * 2^64 / 769)` is `2^64`. -/
theorem MultiplyFactor_operand_eq_modulus :
    (MultiplyFactor.new 769 64 769).map MultiplyFactor.BarrettFactor = some 0 ∧
    769 * 2 ^ 64 / 769 = 2 ^ 64 := by
  decide

/-! ## Construction of a multiply factor -/

/-- C11, the case the claim misses: at `operand = modulus = 0` the check
`operand <= modulus` passes, so `operand > modulus` does not hold, and the
construction still fails, on the division by zero. -/
theorem MultiplyFactor_new_zero_modulus :
    LATTICE_CHECK (decide (0 ≤ 0)) = true ∧ ¬ (0 > 0) ∧
    MultiplyFactor.new 0 64 0 = none ∧ MultiplyFactor.new 0 52 0 = none := by
  decide

/-- C11: for a modulus `modulus >= 1`, constructing
`MultiplyFactor(operand, bit_shift, modulus)` fails if and only if
`operand > modulus`; in particular `operand = modulus` is accepted.  With
`modulus = 0` the construction fails for every operand. -/
theorem MultiplyFactor_new_fails_iff (operand bit_shift modulus : Nat) (hm : 1 ≤ modulus) :
    (MultiplyFactor.new operand bit_shift modulus = none ↔ modulus < operand) ∧
    (∃ f, MultiplyFactor.new modulus bit_shift modulus = some f) ∧
    MultiplyFactor.new operand bit_shift 0 = none := by
  have hm0 : ¬ modulus = 0 := by omega
  refine ⟨?_, ?_, ?_⟩
  · by_cases h : operand ≤ modulus
    · simp only [MultiplyFactor.new, LATTICE_CHECK, decide_eq_true_eq, if_pos h, if_neg hm0]
      constructor
      · intro hn
        exact absurd hn (by simp)
      · intro hlt
        omega
    · simp only [MultiplyFactor.new, LATTICE_CHECK, decide_eq_true_eq, if_neg h, true_iff]
      omega
  · simp [MultiplyFactor.new, LATTICE_CHECK, hm0]
  · by_cases h : operand ≤ 0
    · simp [MultiplyFactor.new, LATTICE_CHECK, h]
    · simp [MultiplyFactor.new, LATTICE_CHECK, h]

/-- C11 at `operand = 770`, `bit_shift = 64`, `modulus = 769`. -/
theorem MultiplyFactor_new_fails_iff_witness :
    (MultiplyFactor.new 770 64 769 = none ↔ 769 < 770) ∧
    (∃ f, MultiplyFactor.new 769 64 769 = some f) ∧
    MultiplyFactor.new 770 64 0 = none :=
  MultiplyFactor_new_fails_iff 770 64 769 (by decide)

/-! ## Lazy modular multiplication -/

/-- `MaximumValue` at the two bit widths in use. -/
theorem MaximumValue_eq (BitShift : Nat) (hBS : BitShift = 52 ∨ BitShift = 64) :
    MaximumValue BitShift = some (2 ^ BitShift - 1) := by
  rcases hBS with h | h <;> subst h <;> decide

/-- Wrapping subtraction of two reduced words is the exact difference when the
difference is nonnegative and fits in 64 bits. -/
theorem sub64_mod_mod (a b : Nat) (hba : b ≤ a) (hd : a - b < 2 ^ 64) :
    sub64 (a % 2 ^ 64) (b % 2 ^ 64) = a - b := by
  unfold sub64
  rw [Nat.mod_mod]
  have hdiv : b / 2 ^ 64 ≤ a / 2 ^ 64 := Nat.div_le_div_right hba
  omega

/-- The quotient estimate of the lazy multiply: with
`y_barrett = floor(y * B / q)` and `Q = floor(x * y_barrett / B)`, the value
`x * y - Q * q` is nonnegative and below `2 * q`. -/
theorem lazy_quotient_bound (B q x y : Nat) (hB : 0 < B) (hq : 0 < q)
    (hx : x < B) :
    x * (y * B / q) / B * q ≤ x * y ∧ x * y < x * (y * B / q) / B * q + 2 * q := by
  have h1 : y * B / q * q ≤ y * B := Nat.div_mul_le_self _ _
  have h2 : y * B < (y * B / q + 1) * q := by
    have := Nat.div_add_mod (y * B) q
    have hlt := Nat.mod_lt (y * B) hq
    nlinarith
  have h3 : x * (y * B / q) / B * B ≤ x * (y * B / q) := Nat.div_mul_le_self _ _
  have h4 : x * (y * B / q) < (x * (y * B / q) / B + 1) * B := by
    have := Nat.div_add_mod (x * (y * B / q)) B
    have hlt := Nat.mod_lt (x * (y * B / q)) hB
    nlinarith
  generalize y * B / q = yb at h1 h2 h3 h4 ⊢
  generalize x * yb / B = Q at h3 h4 ⊢
  constructor
  · apply Nat.le_of_mul_le_mul_right _ hB
    calc Q * q * B = Q * B * q := by ring
      _ ≤ x * yb * q := Nat.mul_le_mul_right _ h3
      _ = x * (yb * q) := by ring
      _ ≤ x * (y * B) := Nat.mul_le_mul_left _ h1
      _ = x * y * B := by ring
  · apply Nat.lt_of_mul_lt_mul_right (a := B)
    calc x * y * B = x * (y * B) := by ring
      _ ≤ x * ((yb + 1) * q) := Nat.mul_le_mul_left _ (Nat.le_of_lt h2)
      _ = x * yb * q + x * q := by ring
      _ < (Q + 1) * B * q + B * q := by
          have a1 : x * yb * q < (Q + 1) * B * q := Nat.mul_lt_mul_of_pos_right h4 hq
          have a2 : x * q < B * q := Nat.mul_lt_mul_of_pos_right hx hq
          omega
      _ = (Q * q + 2 * q) * B := by ring

/-- The lazy multiply on valid operands: the checks pass and the value is the
exact difference `x * y - Q * q`, which is below `2 * q`. -/
theorem MultiplyUIntModLazy_eq (BitShift q x y : Nat) (hBS : BitShift = 52 ∨ BitShift = 64)
    (hq : 1 ≤ q) (h4 : 4 * q ≤ 2 ^ BitShift) (hy : y ≤ q) (hx : x < 2 ^ BitShift)
    (hfit : y * 2 ^ BitShift / q < 2 ^ 64) :
    MultiplyUIntModLazy BitShift x y (y * 2 ^ BitShift / q) q
        = some (x * y - x * (y * 2 ^ BitShift / q) / 2 ^ BitShift * q) ∧
      x * (y * 2 ^ BitShift / q) / 2 ^ BitShift * q ≤ x * y ∧
      x * y - x * (y * 2 ^ BitShift / q) / 2 ^ BitShift * q < 2 * q := by
  have hB : 0 < 2 ^ BitShift := by positivity
  obtain ⟨hle, hlt⟩ := lazy_quotient_bound (2 ^ BitShift) q x y hB hq hx
  have hpow : 2 ^ BitShift ≤ 2 ^ 64 := by
    rcases hBS with h | h <;> subst h <;> norm_num
  refine ⟨?_, hle, by omega⟩
  have hprod : x * (y * 2 ^ BitShift / q) < 2 ^ 128 := by
    calc x * (y * 2 ^ BitShift / q) < 2 ^ 64 * 2 ^ 64 :=
          Nat.mul_lt_mul_of_lt_of_le (by omega) (Nat.le_of_lt hfit) (by norm_num)
      _ = 2 ^ 128 := by norm_num
  have hQ : x * (y * 2 ^ BitShift / q) / 2 ^ BitShift < 2 ^ 64 := by
    have : x * (y * 2 ^ BitShift / q) / 2 ^ BitShift ≤ y * 2 ^ BitShift / q := by
      apply Nat.div_le_of_le_mul
      exact Nat.mul_le_mul_right _ (Nat.le_of_lt hx)
    omega
  simp only [MultiplyUIntModLazy, MaximumValue_eq BitShift hBS, LATTICE_CHECK,
    MultiplyUInt64Hi, Nat.shiftRight_eq_div_pow, Nat.mod_eq_of_lt hprod, Nat.mod_eq_of_lt hQ]
  have c1 : y ≤ q := hy
  have c2 : q ≤ 2 ^ BitShift - 1 := by omega
  have c3 : x ≤ 2 ^ BitShift - 1 := by omega
  simp only [c1, c2, c3, decide_True, Bool.not_true, Bool.false_eq_true, if_false]
  congr 1
  rw [Nat.mul_comm y x]
  exact sub64_mod_mod _ _ hle (by omega)

/-- The lazy multiply on a reduced operand `y < q`: it returns a value below
`2q` with the residue of `x * y`. -/
theorem MultiplyUIntModLazy_residue (BitShift q x y : Nat)
    (hBS : BitShift = 52 ∨ BitShift = 64) (hq : 1 ≤ q) (h4 : 4 * q ≤ 2 ^ BitShift)
    (hy : y < q) (hx : x < 2 ^ BitShift) :
    ∃ r, MultiplyUIntModLazy BitShift x y (y * 2 ^ BitShift / q) q = some r ∧
      r < 2 * q ∧ r % q = (x * y) % q := by
  have hpow : 2 ^ BitShift ≤ 2 ^ 64 := by
    rcases hBS with h | h <;> subst h <;> norm_num
  have hfit : y * 2 ^ BitShift / q < 2 ^ 64 := by
    have : y * 2 ^ BitShift / q < 2 ^ BitShift := by
      rw [Nat.div_lt_iff_lt_mul (by omega), Nat.mul_comm (2 ^ BitShift) q]
      exact Nat.mul_lt_mul_of_pos_right hy (by positivity)
    omega
  obtain ⟨heq, hle, hlt⟩ :=
    MultiplyUIntModLazy_eq BitShift q x y hBS hq h4 (Nat.le_of_lt hy) hx hfit
  refine ⟨_, heq, hlt, ?_⟩
  have hsplit : x * y = (x * y - x * (y * 2 ^ BitShift / q) / 2 ^ BitShift * q)
      + x * (y * 2 ^ BitShift / q) / 2 ^ BitShift * q := by omega
  conv_rhs => rw [hsplit]
  rw [Nat.add_mul_mod_self_right]

/-- C12: for `BitShift` 52 or 64, `1 <= q`, `4q <= 2^BitShift`, `y < q` with
its Barrett factor `floor(y * 2^BitShift / q)` and `x < 2^BitShift`, the lazy
multiply returns a value `r < 2q` congruent to `x * y` modulo `q`. -/
theorem MultiplyUIntModLazy_lazy_range (BitShift q x y : Nat)
    (hBS : BitShift = 52 ∨ BitShift = 64) (hq : 1 ≤ q) (h4 : 4 * q ≤ 2 ^ BitShift)
    (hy : y < q) (hx : x < 2 ^ BitShift) :
    ∃ r, MultiplyUIntModLazy BitShift x y (y * 2 ^ BitShift / q) q = some r ∧
      r < 2 * q ∧ r % q = (x * y) % q :=
  MultiplyUIntModLazy_residue BitShift q x y hBS hq h4 hy hx

/-- Witness of C12: the 64-bit tier at modulus 769 with `y = 3`, `x = 5`. -/
theorem MultiplyUIntModLazy_lazy_range_witness :
    (64 = 52 ∨ 64 = 64) ∧ 1 ≤ 769 ∧ 4 * 769 ≤ 2 ^ 64 ∧ 3 < 769 ∧ 5 < 2 ^ 64 ∧
    ∃ r, MultiplyUIntModLazy 64 5 3 (3 * 2 ^ 64 / 769) 769 = some r ∧
      r < 2 * 769 ∧ r % 769 = (5 * 3) % 769 :=
  ⟨by decide, by decide, by decide, by decide, by decide,
    MultiplyUIntModLazy_lazy_range 64 769 5 3 (by decide) (by decide) (by decide)
      (by decide) (by decide)⟩

/-- C13: the three-argument lazy multiply at `BitShift = 64`, `x = 5`,
`y = modulus = 3`, an input that every check admits, returns 15, which is not
in the documented range `[0, 2 * modulus]`. -/
theorem MultiplyUIntModLazy3_out_of_range :
    MultiplyUIntModLazy3 64 5 3 3 = some 15 ∧ ¬ (15 ≤ 2 * 3) := by
  decide

/-! ## Buffers and registers -/

/-- Reading a buffer after one store. -/
theorem getD_set_eq (l : List Nat) (i k v : Nat) :
    (l.set i v).getD k 0 = if i = k ∧ i < l.length then v else l.getD k 0 := by
  simp only [List.getD_eq_getElem?_getD, List.getElem?_set]
  by_cases h : i = k
  · subst h
    by_cases h2 : i < l.length
    · simp [h2]
    · simp [h2]
      have : l.length ≤ i := by omega
      simp [List.getElem?_eq_none this]
  · simp [h]

/-- A register store as eight word stores. -/
theorem storeu_unfold (buf : List Nat) (j : Nat) (v : m512i) :
    mm512_storeu_si512 buf j v =
      ((((((((buf.set (j + 0) (v 0)).set (j + 1) (v 1)).set (j + 2) (v 2)).set (j + 3) (v 3)).set
        (j + 4) (v 4)).set (j + 5) (v 5)).set (j + 6) (v 6)).set (j + 7) (v 7)) := by
  rfl

/-- A register store keeps the length of the buffer. -/
theorem storeu_length (buf : List Nat) (j : Nat) (v : m512i) :
    (mm512_storeu_si512 buf j v).length = buf.length := by
  rw [storeu_unfold]
  simp only [List.length_set]

/-- Reading a buffer after a register store. -/
theorem storeu_getD (buf : List Nat) (j : Nat) (v : m512i) (k : Nat) :
    (mm512_storeu_si512 buf j v).getD k 0 =
      if j ≤ k ∧ k < j + 8 ∧ k < buf.length then lane v (k - j) else buf.getD k 0 := by
  rw [storeu_unfold]
  simp only [getD_set_eq, List.length_set]
  by_cases hk : j ≤ k ∧ k < j + 8 ∧ k < buf.length
  · obtain ⟨h1, h2, h3⟩ := hk
    obtain ⟨c, rfl⟩ : ∃ c, k = j + c := ⟨k - j, by omega⟩
    have hc : c < 8 := by omega
    simp only [h1, h2, h3, and_self, if_true, Nat.add_sub_cancel_left]
    interval_cases c <;> simp [lane] <;> omega
  · rw [if_neg hk]
    repeat' split_ifs
    all_goals first | rfl | omega

/-- Reading a lane of a loaded register. -/
theorem lane_loadu (buf : List Nat) (j l : Nat) (hl : l < 8) :
    lane (mm512_loadu_si512 buf j) l = buf.getD (j + l) 0 := by
  simp [lane, hl, mm512_loadu_si512]

/-- Two buffers of the same length with the same words are equal. -/
theorem ext_getD (l1 l2 : List Nat) (hlen : l1.length = l2.length)
    (h : ∀ k, k < l1.length → l1.getD k 0 = l2.getD k 0) : l1 = l2 := by
  apply List.ext_getElem hlen
  intro n h1 h2
  have := h n h1
  rwa [List.getD_eq_getElem _ _ h1, List.getD_eq_getElem _ _ h2] at this

/-! ## Word-level facts -/

/-- A right shift by a count below 64. -/
theorem shr64_of_lt (x s : Nat) (hs : s < 64) : shr64 x s = x / 2 ^ s := by
  rw [shr64, Nat.mod_eq_of_lt hs, Nat.shiftRight_eq_div_pow]

/-- A left shift by a count below 64. -/
theorem shl64_of_lt (x s : Nat) (hs : s < 64) : shl64 x s = (x * 2 ^ s) % 2 ^ 64 := by
  rw [shl64, Nat.mod_eq_of_lt hs, Nat.shiftLeft_eq]

/-- The halving `x >> 1`. -/
theorem shr64_one (x : Nat) : shr64 x 1 = x / 2 := by
  rw [shr64_of_lt x 1 (by norm_num), pow_one]

/-- The doubled modulus `mod << 1` when it fits in 64 bits. -/
theorem shl64_one (q : Nat) (h : 2 * q < 2 ^ 64) : shl64 q 1 = 2 * q := by
  rw [shl64_of_lt q 1 (by norm_num), pow_one]
  rw [Nat.mod_eq_of_lt (by omega)]
  omega

/-- The masked subtraction `x - (p & -(x >= p))` is the conditional
subtraction of `p`. -/
theorem sub64_mask (x p : Nat) (hx : x < 2 ^ 64) (hp : p < 2 ^ 64) :
    sub64 x (p &&& mask64 (decide (x ≥ p))) = if p ≤ x then x - p else x := by
  by_cases h : p ≤ x
  · have hm : p &&& (2 ^ 64 - 1) = p := by
      rw [Nat.and_pow_two_sub_one_eq_mod, Nat.mod_eq_of_lt hp]
    simp only [mask64, ge_iff_le, h, decide_True, if_true, hm, sub64]
    omega
  · simp only [mask64, ge_iff_le, h, decide_False, Bool.false_eq_true, if_false,
      Nat.and_zero, sub64]
    omega

/-- The minimum of `x` and the wrapped difference `x - p` is the conditional
subtraction of `p`. -/
theorem min_sub64 (x p : Nat) (hx : x < 2 ^ 64) (hp : p < 2 ^ 64) :
    min x (sub64 x p) = if p ≤ x then x - p else x := by
  unfold sub64
  by_cases h : p ≤ x
  · rw [if_pos h]
    have : (x + 2 ^ 64 - p % 2 ^ 64) % 2 ^ 64 = x - p := by omega
    rw [this]
    omega
  · rw [if_neg h]
    have : (x + 2 ^ 64 - p % 2 ^ 64) % 2 ^ 64 = x + 2 ^ 64 - p := by omega
    rw [this]
    omega

/-- Two conditional subtractions, of `2q` and then of `q`, reduce a word below
`4q` modulo `q`. -/
theorem two_subtractions (q x : Nat) (hx : x < 4 * q) :
    (if q ≤ (if 2 * q ≤ x then x - 2 * q else x) then
        (if 2 * q ≤ x then x - 2 * q else x) - q
      else (if 2 * q ≤ x then x - 2 * q else x)) = x % q := by
  have key : ∀ r k : Nat, r < q → x = r + k * q → x % q = r := by
    intro r k hr hk
    rw [hk, Nat.add_mul_mod_self_right, Nat.mod_eq_of_lt hr]
  by_cases h2 : 2 * q ≤ x
  · rw [if_pos h2]
    by_cases h1 : q ≤ x - 2 * q
    · rw [if_pos h1]
      exact (key _ 3 (by omega) (by omega)).symm
    · rw [if_neg h1]
      exact (key _ 2 (by omega) (by omega)).symm
  · rw [if_neg h2]
    by_cases h1 : q ≤ x
    · rw [if_pos h1]
      exact (key _ 1 (by omega) (by omega)).symm
    · rw [if_neg h1]
      exact (key _ 0 (by omega) (by omega)).symm

/-- A lane of `avx512_mod_epu64`. -/
theorem avx512_mod_epu64_lane (x p : m512i) (l : Fin 8) (hx : x l < 2 ^ 64)
    (hp : p l < 2 ^ 64) :
    avx512_mod_epu64 x p l = if p l ≤ x l then x l - p l else x l := by
  simp only [avx512_mod_epu64, mm512_il_small_mod_epu64, mm512_min_epu64, mm512_sub_epi64]
  exact min_sub64 _ _ hx hp

/-! ## The final pass of the forward transform -/

/-- The scalar final pass, word by word. -/
theorem Forward_final_scalar_loop_spec (q : Nat) (hq : 1 ≤ q) (h4 : 4 * q ≤ 2 ^ 64) :
    ∀ (count i : Nat) (input : List Nat),
      (∀ k, i ≤ k → k < i + count → input.getD k 0 < 4 * q) →
      i + count ≤ input.length →
      (Forward_final_scalar_loop q (2 * q) count i input).length = input.length ∧
      ∀ k, (Forward_final_scalar_loop q (2 * q) count i input).getD k 0 =
        if i ≤ k ∧ k < i + count then input.getD k 0 % q else input.getD k 0 := by
  intro count
  induction count with
  | zero =>
    intro i input _ _
    refine ⟨rfl, fun k => ?_⟩
    simp only [Forward_final_scalar_loop]
    rw [if_neg (by omega)]
  | succ c ih =>
    intro i input hr hlen
    have hxi : input.getD i 0 < 4 * q := hr i (le_refl _) (by omega)
    -- the word at `i` after the two conditional subtractions
    set x := input.getD i 0 with hx
    have hstep : ∃ input2 : List Nat, input2.length = input.length ∧
        (∀ k, input2.getD k 0 = if k = i then x % q else input.getD k 0) ∧
        Forward_final_scalar_loop q (2 * q) (c + 1) i input
          = Forward_final_scalar_loop q (2 * q) c (i + 1) input2 := by
      have hil : i < input.length := by omega
      by_cases h2 : 2 * q ≤ x
      · have e1 : sub64 x (2 * q) = x - 2 * q := by unfold sub64; omega
        by_cases h1 : q ≤ x - 2 * q
        · have e2 : sub64 (x - 2 * q) q = x - 2 * q - q := by unfold sub64; omega
          refine ⟨(input.set i (x - 2 * q)).set i (x - 2 * q - q), by simp, ?_, ?_⟩
          · intro k
            have := two_subtractions q x hxi
            rw [if_pos h2, if_pos h1] at this
            simp only [getD_set_eq, List.length_set]
            by_cases hk : k = i
            · subst hk; simp [hil, this]
            · have : ¬ i = k := fun h => hk h.symm
              simp [hk, this]
          · simp only [Forward_final_scalar_loop, ← hx, ge_iff_le, h2, if_true, e1,
              getD_set_eq, hil, and_self, h1, e2]
        · refine ⟨input.set i (x - 2 * q), by simp, ?_, ?_⟩
          · intro k
            have := two_subtractions q x hxi
            rw [if_pos h2, if_neg h1] at this
            simp only [getD_set_eq]
            by_cases hk : k = i
            · subst hk; simp [hil, this]
            · have : ¬ i = k := fun h => hk h.symm
              simp [hk, this]
          · simp only [Forward_final_scalar_loop, ← hx, ge_iff_le, h2, if_true, e1,
              getD_set_eq, hil, and_self, h1, if_false]
      · by_cases h1 : q ≤ x
        · have e2 : sub64 x q = x - q := by unfold sub64; omega
          refine ⟨input.set i (x - q), by simp, ?_, ?_⟩
          · intro k
            have := two_subtractions q x hxi
            rw [if_neg h2, if_pos h1] at this
            simp only [getD_set_eq]
            by_cases hk : k = i
            · subst hk; simp [hil, this]
            · have : ¬ i = k := fun h => hk h.symm
              simp [hk, this]
          · simp only [Forward_final_scalar_loop, ← hx, ge_iff_le, h2, if_false, h1,
              if_true, e2]
        · refine ⟨input, rfl, ?_, ?_⟩
          · intro k
            have := two_subtractions q x hxi
            rw [if_neg h2, if_neg h1] at this
            by_cases hk : k = i
            · subst hk
              rw [if_pos rfl]
              exact this
            · rw [if_neg hk]
          · simp only [Forward_final_scalar_loop, ← hx, ge_iff_le, h2, if_false, h1]
    obtain ⟨input2, hl2, hg2, heq⟩ := hstep
    rw [heq]
    have hr2 : ∀ k, i + 1 ≤ k → k < i + 1 + c → input2.getD k 0 < 4 * q := by
      intro k hk1 hk2
      rw [hg2 k, if_neg (by omega)]
      exact hr k (by omega) (by omega)
    obtain ⟨hl3, hg3⟩ := ih (i + 1) input2 hr2 (by omega)
    refine ⟨by rw [hl3, hl2], fun k => ?_⟩
    rw [hg3 k, hg2 k]
    by_cases hk : k = i
    · subst hk
      rw [if_neg (by omega), if_pos rfl, if_pos (by omega)]
    · rw [if_neg hk]
      by_cases hk2 : i + 1 ≤ k ∧ k < i + 1 + c
      · rw [if_pos hk2, if_pos (by omega)]
      · rw [if_neg hk2, if_neg (by omega)]

/-- A lane of the vector final pass: two applications of `avx512_mod_epu64`
reduce a lane below `4q` modulo `q`. -/
theorem Forward_final_vector_lane (q : Nat) (h4 : 4 * q ≤ 2 ^ 64) (v : m512i) (l : Fin 8)
    (hv : v l < 4 * q) :
    avx512_mod_epu64 (avx512_mod_epu64 v (mm512_set1_epi64 (2 * q))) (mm512_set1_epi64 q) l
      = v l % q := by
  have e1 := avx512_mod_epu64_lane v (mm512_set1_epi64 (2 * q)) l (by omega)
    (by simp only [mm512_set1_epi64]; omega)
  simp only [mm512_set1_epi64] at e1
  have hlt : avx512_mod_epu64 v (mm512_set1_epi64 (2 * q)) l < 2 ^ 64 := by
    rw [e1]
    split_ifs <;> omega
  have e2 := avx512_mod_epu64_lane (avx512_mod_epu64 v (mm512_set1_epi64 (2 * q)))
    (mm512_set1_epi64 q) l hlt (by simp only [mm512_set1_epi64]; omega)
  rw [e2, e1]
  simp only [mm512_set1_epi64]
  exact two_subtractions q (v l) hv

/-- The vector final pass, word by word. -/
theorem Forward_final_vector_loop_spec (q : Nat) (h4 : 4 * q ≤ 2 ^ 64) :
    ∀ (count i : Nat) (elements : List Nat),
      (∀ k, i ≤ k → k < i + 8 * count → elements.getD k 0 < 4 * q) →
      i + 8 * count ≤ elements.length →
      (Forward_final_vector_loop (mm512_set1_epi64 q) (mm512_set1_epi64 (2 * q))
          count i elements).length = elements.length ∧
      ∀ k, (Forward_final_vector_loop (mm512_set1_epi64 q) (mm512_set1_epi64 (2 * q))
          count i elements).getD k 0 =
        if i ≤ k ∧ k < i + 8 * count then elements.getD k 0 % q else elements.getD k 0 := by
  intro count
  induction count with
  | zero =>
    intro i elements _ _
    refine ⟨rfl, fun k => ?_⟩
    simp only [Forward_final_vector_loop]
    rw [if_neg (by omega)]
  | succ c ih =>
    intro i elements hr hlen
    simp only [Forward_final_vector_loop]
    set v2 := avx512_mod_epu64 (avx512_mod_epu64 (mm512_loadu_si512 elements i)
      (mm512_set1_epi64 (2 * q))) (mm512_set1_epi64 q) with hv2
    have hlane : ∀ l, l < 8 → lane v2 l = elements.getD (i + l) 0 % q := by
      intro l hl
      have := Forward_final_vector_lane q h4 (mm512_loadu_si512 elements i) ⟨l, hl⟩
        (by simp only [mm512_loadu_si512]; exact hr (i + l) (by omega) (by omega))
      simp only [lane, hl, dif_pos, hv2, this, mm512_loadu_si512]
    have hr2 : ∀ k, i + 8 ≤ k → k < i + 8 + 8 * c →
        (mm512_storeu_si512 elements i v2).getD k 0 < 4 * q := by
      intro k hk1 hk2
      rw [storeu_getD, if_neg (by omega)]
      exact hr k (by omega) (by omega)
    obtain ⟨hl3, hg3⟩ := ih (i + 8) (mm512_storeu_si512 elements i v2) hr2
      (by rw [storeu_length]; omega)
    refine ⟨by rw [hl3, storeu_length], fun k => ?_⟩
    rw [hg3 k, storeu_getD]
    by_cases hk : i ≤ k ∧ k < i + 8
    · have hk3 : i ≤ k ∧ k < i + 8 ∧ k < elements.length := ⟨hk.1, hk.2, by omega⟩
      rw [if_neg (by omega), if_pos hk3, if_pos (by omega), hlane (k - i) (by omega)]
      congr 2
      omega
    · have hk3 : ¬ (i ≤ k ∧ k < i + 8 ∧ k < elements.length) := fun h => hk ⟨h.1, h.2.1⟩
      rw [if_neg hk3]
      by_cases hk2 : i + 8 ≤ k ∧ k < i + 8 + 8 * c
      · rw [if_pos hk2, if_pos (by omega)]
      · rw [if_neg hk2, if_neg (by omega)]

/-- C18: the final normalisation pass of the forward transform is a full
reduction.  For `q >= 1` with `4q <= 2^64`: the two conditional subtractions
of the scalar loop take every `x < 4q` to `x mod q`; two applications of the
minimum helper take every lane `x < 4q` to `x mod q`; and on a buffer of
words below `4q` the scalar loop (length below 8) and the vector loop (length
a multiple of 8) both leave `x mod q` in the place of every word `x`. -/
theorem Forward_final_pass_eq_mod (q : Nat) (hq : 1 ≤ q) (h4 : 4 * q ≤ 2 ^ 64) :
    (∀ x, x < 4 * q →
      Forward_final_scalar_loop q (shl64 q 1) 1 0 [x] = [x % q] ∧
      ∀ (v : m512i) (l : Fin 8), v l = x →
        avx512_mod_epu64 (avx512_mod_epu64 v (mm512_set1_epi64 (shl64 q 1)))
          (mm512_set1_epi64 q) l = x % q) ∧
    (∀ elements : List Nat, (∀ x ∈ elements, x < 4 * q) →
      (elements.length < 8 →
        Forward_final_scalar_loop q (shl64 q 1) elements.length 0 elements
          = elements.map (fun x => x % q)) ∧
      (elements.length % 8 = 0 →
        Forward_final_vector_loop (mm512_set1_epi64 q) (mm512_set1_epi64 (shl64 q 1))
            ((elements.length + 7) / 8) 0 elements
          = elements.map (fun x => x % q)) ∧
      (elements.length < 8 ∨ elements.length % 8 = 0 →
        Forward_final_pass q (shl64 q 1) elements.length elements
          = some (elements.map (fun x => x % q)))) := by
  have htm : shl64 q 1 = 2 * q := shl64_one q (by omega)
  rw [htm]
  have hscalar : ∀ elements : List Nat, (∀ x ∈ elements, x < 4 * q) →
      Forward_final_scalar_loop q (2 * q) elements.length 0 elements
        = elements.map (fun x => x % q) := by
    intro elements hx
    have hr : ∀ k, 0 ≤ k → k < 0 + elements.length → elements.getD k 0 < 4 * q := by
      intro k _ hk
      rw [List.getD_eq_getElem _ _ (by omega)]
      exact hx _ (List.getElem_mem _)
    obtain ⟨hl, hg⟩ := Forward_final_scalar_loop_spec q hq h4 elements.length 0 elements hr
      (by omega)
    apply ext_getD _ _ (by rw [hl, List.length_map])
    intro k hk
    rw [hl] at hk
    rw [hg k, if_pos (by omega), List.getD_eq_getElem _ _ hk,
      List.getD_eq_getElem _ _ (by rw [List.length_map]; exact hk), List.getElem_map]
  have hvector : ∀ elements : List Nat, (∀ x ∈ elements, x < 4 * q) →
      elements.length % 8 = 0 →
      Forward_final_vector_loop (mm512_set1_epi64 q) (mm512_set1_epi64 (2 * q))
          ((elements.length + 7) / 8) 0 elements
        = elements.map (fun x => x % q) := by
    intro elements hx h8
    have hc : 8 * ((elements.length + 7) / 8) = elements.length := by omega
    have hr : ∀ k, 0 ≤ k → k < 0 + 8 * ((elements.length + 7) / 8) →
        elements.getD k 0 < 4 * q := by
      intro k _ hk
      rw [List.getD_eq_getElem _ _ (by omega)]
      exact hx _ (List.getElem_mem _)
    obtain ⟨hl, hg⟩ := Forward_final_vector_loop_spec q h4 ((elements.length + 7) / 8) 0
      elements hr (by omega)
    apply ext_getD _ _ (by rw [hl, List.length_map])
    intro k hk
    rw [hl] at hk
    rw [hg k, if_pos (by omega), List.getD_eq_getElem _ _ hk,
      List.getD_eq_getElem _ _ (by rw [List.length_map]; exact hk), List.getElem_map]
  refine ⟨fun x hx => ⟨?_, ?_⟩, fun elements hx => ⟨fun _ => hscalar elements hx,
    hvector elements hx, ?_⟩⟩
  · have := hscalar [x] (by simpa using hx)
    simpa using this
  · intro v l hv
    rw [Forward_final_vector_lane q h4 v l (by omega), hv]
  · intro hn
    unfold Forward_final_pass
    by_cases h8 : elements.length < 8
    · rw [if_pos h8, hscalar elements hx]
    · have h0 : elements.length % 8 = 0 := by omega
      simp only [h8, if_false, LATTICE_CHECK, h0, decide_True, Bool.not_true,
        Bool.false_eq_true]
      rw [hvector elements hx h0]

/-- Witness of C18: modulus 17 on the one-word buffer `[50]`. -/
theorem Forward_final_pass_eq_mod_witness :
    1 ≤ 17 ∧ 4 * 17 ≤ 2 ^ 64 ∧
    Forward_final_pass 17 (shl64 17 1) [50].length [50] = some ([50].map (fun x => x % 17)) :=
  ⟨by decide, by decide,
    ((Forward_final_pass_eq_mod 17 (by decide) (by decide)).2 [50] (by decide)).2.2
      (by decide)⟩

/-! ## Congruences -/

/-- Two numbers that differ by multiples of `q` are congruent modulo `q`. -/
theorem modEq_of_add_mul_eq (a b k1 k2 q : Nat) (h : a + k1 * q = b + k2 * q) :
    a ≡ b [MOD q] := by
  have h1 : a + k1 * q ≡ a [MOD q] := by
    unfold Nat.ModEq
    rw [Nat.add_mul_mod_self_right]
  have h2 : b + k2 * q ≡ b [MOD q] := by
    unfold Nat.ModEq
    rw [Nat.add_mul_mod_self_right]
  exact h1.symm.trans (h ▸ h2)

/-- Congruent numbers differ by multiples of `q`. -/
theorem exists_add_mul_eq_of_mod_eq (a b q : Nat) (h : a % q = b % q) :
    a + (b / q) * q = b + (a / q) * q := by
  have e1 := Nat.div_add_mod a q
  have e2 := Nat.div_add_mod b q
  rw [h] at e1
  rw [Nat.mul_comm q (a / q)] at e1
  rw [Nat.mul_comm q (b / q)] at e2
  omega

/-! ## The forward Harvey butterfly -/

/-- The scalar butterfly once its folded input, its lazy product and its two
checks are known. -/
theorem ForwardButterfly_unfold (BitShift q W X Y tx Q : Nat)
    (htx : sub64 X (2 * q &&& mask64 (decide (X ≥ 2 * q))) = tx)
    (hQ : MultiplyUIntModLazy BitShift Y W (W * 2 ^ BitShift / q) q = some Q)
    (e1 : (tx + Q) % 2 ^ 64 = tx + Q)
    (e2 : sub64 ((tx + 2 * q) % 2 ^ 64) Q = tx + 2 * q - Q)
    (d1 : decide (tx + Q ≤ 2 ^ BitShift - 1) = true)
    (d2 : decide (tx + 2 * q - Q ≤ 2 ^ BitShift - 1) = true) :
    ForwardButterfly BitShift (2 ^ BitShift - 1) q (2 * q) W (W * 2 ^ BitShift / q) X Y
      = some (tx + Q, tx + 2 * q - Q) := by
  unfold ForwardButterfly
  rw [htx, hQ]
  dsimp only
  rw [e1, e2]
  simp only [LATTICE_CHECK, d1, d2, Bool.not_true, Bool.false_eq_true, if_false]

/-- The scalar butterfly of the forward transform on words below `4q`: the
checks pass, the outputs are `tx + Q` and `tx + 2q - Q`, both below `4q`, with
the residues of `X + W * Y` and of `X - W * Y`. -/
theorem ForwardButterfly_spec (BitShift q W X Y : Nat)
    (hBS : BitShift = 52 ∨ BitShift = 64) (hq : 1 ≤ q) (h4 : 4 * q ≤ 2 ^ BitShift)
    (hW : W < q) (hX : X < 4 * q) (hY : Y < 4 * q) :
    ∃ Q, MultiplyUIntModLazy BitShift Y W (W * 2 ^ BitShift / q) q = some Q ∧
      Q < 2 * q ∧
      ForwardButterfly BitShift (2 ^ BitShift - 1) q (2 * q) W (W * 2 ^ BitShift / q) X Y
        = some ((if 2 * q ≤ X then X - 2 * q else X) + Q,
            (if 2 * q ≤ X then X - 2 * q else X) + 2 * q - Q) ∧
      (if 2 * q ≤ X then X - 2 * q else X) + Q < 4 * q ∧
      (if 2 * q ≤ X then X - 2 * q else X) + 2 * q - Q < 4 * q ∧
      (if 2 * q ≤ X then X - 2 * q else X) + Q ≡ X + W * Y [MOD q] ∧
      (if 2 * q ≤ X then X - 2 * q else X) + 2 * q - Q + W * Y ≡ X [MOD q] := by
  have hpow : 2 ^ BitShift ≤ 2 ^ 64 := by
    rcases hBS with h | h <;> subst h <;> norm_num
  obtain ⟨Q, hQ, hQlt, hQmod⟩ :=
    MultiplyUIntModLazy_residue BitShift q Y W hBS hq h4 hW (by omega)
  have htx := sub64_mask X (2 * q) (by omega) (by omega)
  have hWY := exists_add_mul_eq_of_mod_eq Q (Y * W) q hQmod
  generalize (if 2 * q ≤ X then X - 2 * q else X) = tx at htx ⊢
  have htxlt : tx < 2 * q := by
    have := sub64_mask X (2 * q) (by omega) (by omega)
    rw [htx] at this
    split_ifs at this <;> omega
  have htxX : tx = X ∨ tx + 2 * q = X := by
    have := sub64_mask X (2 * q) (by omega) (by omega)
    rw [htx] at this
    split_ifs at this <;> omega
  refine ⟨Q, hQ, hQlt, ?_, by omega, by omega, ?_, ?_⟩
  · have e1 : (tx + Q) % 2 ^ 64 = tx + Q := Nat.mod_eq_of_lt (by omega)
    have e2 : sub64 ((tx + 2 * q) % 2 ^ 64) Q = tx + 2 * q - Q := by
      unfold sub64
      omega
    have c1 : tx + Q ≤ 2 ^ BitShift - 1 := by omega
    have c2 : tx + 2 * q - Q ≤ 2 ^ BitShift - 1 := by omega
    exact ForwardButterfly_unfold BitShift q W X Y tx Q htx hQ e1 e2 (decide_eq_true c1)
      (decide_eq_true c2)
  · rw [Nat.mul_comm W Y]
    rcases htxX with h | h
    · apply modEq_of_add_mul_eq _ _ (Y * W / q) (Q / q) q
      omega
    · apply modEq_of_add_mul_eq _ _ (Y * W / q + 2) (Q / q) q
      rw [Nat.add_mul]
      omega
  · rw [Nat.mul_comm W Y]
    rcases htxX with h | h
    · apply modEq_of_add_mul_eq _ _ (Q / q) (Y * W / q + 2) q
      rw [Nat.add_mul]
      omega
    · apply modEq_of_add_mul_eq _ _ (Q / q) (Y * W / q) q
      omega

/-- C19: the forward Harvey butterfly.  For `4q <= 2^BitShift`, a twiddle
`W < q` with `W_precon = floor(W * 2^BitShift / q)` and `X`, `Y` in `[0, 4q)`,
the scalar butterfly passes its checks and produces `X' = tx + Q` and
`Y' = tx + 2q - Q`, with `tx = X - 2q` if `X >= 2q` and `tx = X` otherwise and
`Q = MultiplyUIntModLazy<BitShift>(Y, W, W_precon, q)`; `X'` and `Y'` are in
`[0, 4q)`, `X'` is congruent to `X + W * Y` and `Y' + W * Y` to `X` modulo `q`. -/
theorem ForwardButterfly_harvey (BitShift q W X Y : Nat)
    (hBS : BitShift = 52 ∨ BitShift = 64) (hq : 1 ≤ q) (h4 : 4 * q ≤ 2 ^ BitShift)
    (hW : W < q) (hX : X < 4 * q) (hY : Y < 4 * q) :
    MaximumValue BitShift = some (2 ^ BitShift - 1) ∧
    ∃ Q, MultiplyUIntModLazy BitShift Y W (W * 2 ^ BitShift / q) q = some Q ∧
      Q < 2 * q ∧
      ForwardButterfly BitShift (2 ^ BitShift - 1) q (shl64 q 1) W (W * 2 ^ BitShift / q) X Y
        = some ((if 2 * q ≤ X then X - 2 * q else X) + Q,
            (if 2 * q ≤ X then X - 2 * q else X) + 2 * q - Q) ∧
      (if 2 * q ≤ X then X - 2 * q else X) + Q < 4 * q ∧
      (if 2 * q ≤ X then X - 2 * q else X) + 2 * q - Q < 4 * q ∧
      (if 2 * q ≤ X then X - 2 * q else X) + Q ≡ X + W * Y [MOD q] ∧
      (if 2 * q ≤ X then X - 2 * q else X) + 2 * q - Q + W * Y ≡ X [MOD q] := by
  have hpow : 2 ^ BitShift ≤ 2 ^ 64 := by
    rcases hBS with h | h <;> subst h <;> norm_num
  rw [shl64_one q (by omega)]
  exact ⟨MaximumValue_eq BitShift hBS, ForwardButterfly_spec BitShift q W X Y hBS hq h4 hW hX hY⟩

/-- Witness of C19: the 64-bit tier at modulus 17 with `W = 4`, `X = 16`,
`Y = 50`. -/
theorem ForwardButterfly_harvey_witness :
    MaximumValue 64 = some (2 ^ 64 - 1) ∧
    ∃ Q, MultiplyUIntModLazy 64 50 4 (4 * 2 ^ 64 / 17) 17 = some Q ∧
      Q < 2 * 17 ∧
      ForwardButterfly 64 (2 ^ 64 - 1) 17 (shl64 17 1) 4 (4 * 2 ^ 64 / 17) 16 50
        = some ((if 2 * 17 ≤ 16 then 16 - 2 * 17 else 16) + Q,
            (if 2 * 17 ≤ 16 then 16 - 2 * 17 else 16) + 2 * 17 - Q) ∧
      (if 2 * 17 ≤ 16 then 16 - 2 * 17 else 16) + Q < 4 * 17 ∧
      (if 2 * 17 ≤ 16 then 16 - 2 * 17 else 16) + 2 * 17 - Q < 4 * 17 ∧
      (if 2 * 17 ≤ 16 then 16 - 2 * 17 else 16) + Q ≡ 16 + 4 * 50 [MOD 17] ∧
      (if 2 * 17 ≤ 16 then 16 - 2 * 17 else 16) + 2 * 17 - Q + 4 * 50 ≡ 16 [MOD 17] :=
  ForwardButterfly_harvey 64 17 4 16 50 (by decide) (by decide) (by decide) (by decide)
    (by decide) (by decide)

/-! ## The software high multiply -/

/-- A lane of `_mm512_il_mulhi_epi<64>`: the four 32-bit partial products add
up to the high 64 bits of the product. -/
theorem mm512_il_mulhi_epi64_lane (x y : m512i) (l : Fin 8) (hx : x l < 2 ^ 64)
    (hy : y l < 2 ^ 64) :
    mm512_il_mulhi_epi64 x y l = x l * y l / 2 ^ 64 := by
  simp only [mm512_il_mulhi_epi64, mm512_add_epi64, mm512_srli_epi64, mm512_and_epi64,
    mm512_mul_epu32, mm512_shuffle_epi32_B1, mm512_set1_epi64, Nat.shiftRight_eq_div_pow]
  generalize x l = a at hx ⊢
  generalize y l = b at hy ⊢
  have hmask : (0x00000000ffffffff : Nat) = 2 ^ 32 - 1 := by norm_num
  rw [hmask, Nat.and_pow_two_sub_one_eq_mod]
  have hah : ((a % 2 ^ 32) * 2 ^ 32 + a / 2 ^ 32 % 2 ^ 32) % 2 ^ 32 = a / 2 ^ 32 := by omega
  have hbh : ((b % 2 ^ 32) * 2 ^ 32 + b / 2 ^ 32 % 2 ^ 32) % 2 ^ 32 = b / 2 ^ 32 := by omega
  rw [hah, hbh]
  have hal : a % 2 ^ 32 ≤ 2 ^ 32 - 1 := by omega
  have hbl : b % 2 ^ 32 ≤ 2 ^ 32 - 1 := by omega
  have hah2 : a / 2 ^ 32 ≤ 2 ^ 32 - 1 := by omega
  have hbh2 : b / 2 ^ 32 ≤ 2 ^ 32 - 1 := by omega
  have hab : a * b = (a / 2 ^ 32) * (b / 2 ^ 32) * 2 ^ 64
      + ((a % 2 ^ 32) * (b / 2 ^ 32) + (a / 2 ^ 32) * (b % 2 ^ 32)) * 2 ^ 32
      + (a % 2 ^ 32) * (b % 2 ^ 32) := by
    have ha := Nat.div_add_mod a (2 ^ 32)
    have hb := Nat.div_add_mod b (2 ^ 32)
    calc a * b = (2 ^ 32 * (a / 2 ^ 32) + a % 2 ^ 32) * (2 ^ 32 * (b / 2 ^ 32) + b % 2 ^ 32) := by
          rw [ha, hb]
      _ = _ := by ring
  have b0 : (a % 2 ^ 32) * (b % 2 ^ 32) ≤ (2 ^ 32 - 1) * (2 ^ 32 - 1) := Nat.mul_le_mul hal hbl
  have b1 : (a % 2 ^ 32) * (b / 2 ^ 32) ≤ (2 ^ 32 - 1) * (2 ^ 32 - 1) := Nat.mul_le_mul hal hbh2
  have b2 : (a / 2 ^ 32) * (b % 2 ^ 32) ≤ (2 ^ 32 - 1) * (2 ^ 32 - 1) := Nat.mul_le_mul hah2 hbl
  have b3 : (a / 2 ^ 32) * (b / 2 ^ 32) ≤ (2 ^ 32 - 1) * (2 ^ 32 - 1) := Nat.mul_le_mul hah2 hbh2
  rw [hab]
  generalize (a % 2 ^ 32) * (b % 2 ^ 32) = w0 at b0 ⊢
  generalize (a % 2 ^ 32) * (b / 2 ^ 32) = w1 at b1 ⊢
  generalize (a / 2 ^ 32) * (b % 2 ^ 32) = w2 at b2 ⊢
  generalize (a / 2 ^ 32) * (b / 2 ^ 32) = w3 at b3 ⊢
  omega

/-! ## The inverse Harvey butterfly -/

/-- The low 64 bits of `Q * (2^64 - p) + W * T` are the exact difference
`W * T - Q * p` when that difference is nonnegative and fits in 64 bits. -/
theorem neg_modulus_mul_add (Q p W T : Nat) (hp : p ≤ 2 ^ 64) (hle : Q * p ≤ W * T)
    (hlt : W * T - Q * p < 2 ^ 64) :
    ((Q * (2 ^ 64 - p)) % 2 ^ 64 + (W * T) % 2 ^ 64) % 2 ^ 64 = W * T - Q * p := by
  rw [← Nat.add_mod]
  have h1 : Q * (2 ^ 64 - p) + W * T = (W * T - Q * p) + Q * 2 ^ 64 := by
    have : Q * (2 ^ 64 - p) + Q * p = Q * 2 ^ 64 := by
      rw [← Nat.mul_add, Nat.sub_add_cancel hp]
    omega
  rw [h1, Nat.add_mul_mod_self_right, Nat.mod_eq_of_lt hlt]

/-- The 64-bit inverse butterfly never fails, and its two outputs are given
lane by lane. -/
theorem InvButterfly64_eq (InputLessThanMod : Bool)
    (X Y W_op W_precon neg_modulus twice_modulus : m512i) :
    InvButterfly 64 InputLessThanMod X Y W_op W_precon neg_modulus twice_modulus
      = some
        (if InputLessThanMod then mm512_add_epi64 X Y
          else mm512_mask_add_epi64
            (mm512_add_epi64 X (mm512_sub_epi64 Y twice_modulus))
            (mm512_movepi64_mask (mm512_add_epi64 X (mm512_sub_epi64 Y twice_modulus)))
            (mm512_add_epi64 X (mm512_sub_epi64 Y twice_modulus)) twice_modulus,
         mm512_add_epi64
           (mm512_mullo_epi64
             (mm512_il_mulhi_epi64 W_precon
               (mm512_sub_epi64 X (mm512_sub_epi64 Y twice_modulus))) neg_modulus)
           (mm512_mullo_epi64 W_op (mm512_sub_epi64 X (mm512_sub_epi64 Y twice_modulus)))) := by
  have h52 : ¬ (64 = 52) := by decide
  simp only [InvButterfly, mm512_il_mulhi_epi, mm512_il_mullo_epi, mm512_il_mullo_add_epi,
    if_true, if_neg h52]

/-- The second output of the inverse butterfly in a lane: with `T = X + 2p - Y`
it is `W * T - Q * p`, below `2p`, with the residue of `W * (X - Y)`. -/
theorem InvButterfly64_Y_lane (p x y w : Nat) (h4 : 4 * p ≤ 2 ^ 64) (hx : x < 2 * p)
    (hy : y < 2 * p) (hw : w < p)
    (X Y W_op W_precon : m512i) (l : Fin 8) (hX : X l = x) (hY : Y l = y) (hW : W_op l = w)
    (hWp : W_precon l = w * 2 ^ 64 / p) :
    mm512_add_epi64
        (mm512_mullo_epi64
          (mm512_il_mulhi_epi64 W_precon
            (mm512_sub_epi64 X (mm512_sub_epi64 Y (mm512_set1_epi64 (2 * p)))))
          (mm512_set1_epi64 (2 ^ 64 - p)))
        (mm512_mullo_epi64 W_op
          (mm512_sub_epi64 X (mm512_sub_epi64 Y (mm512_set1_epi64 (2 * p))))) l < 2 * p ∧
    mm512_add_epi64
        (mm512_mullo_epi64
          (mm512_il_mulhi_epi64 W_precon
            (mm512_sub_epi64 X (mm512_sub_epi64 Y (mm512_set1_epi64 (2 * p)))))
          (mm512_set1_epi64 (2 ^ 64 - p)))
        (mm512_mullo_epi64 W_op
          (mm512_sub_epi64 X (mm512_sub_epi64 Y (mm512_set1_epi64 (2 * p))))) l + w * y
      ≡ w * x [MOD p] := by
  have hT : mm512_sub_epi64 X (mm512_sub_epi64 Y (mm512_set1_epi64 (2 * p))) l
      = x + 2 * p - y := by
    simp only [mm512_sub_epi64, mm512_set1_epi64, hX, hY, sub64]
    omega
  have hTlt : x + 2 * p - y < 2 ^ 64 := by omega
  have hWplt : w * 2 ^ 64 / p < 2 ^ 64 := by
    rw [Nat.div_lt_iff_lt_mul (by omega), Nat.mul_comm (2 ^ 64) p]
    exact Nat.mul_lt_mul_of_pos_right hw (by norm_num)
  have hQ : mm512_il_mulhi_epi64 W_precon
      (mm512_sub_epi64 X (mm512_sub_epi64 Y (mm512_set1_epi64 (2 * p)))) l
      = (x + 2 * p - y) * (w * 2 ^ 64 / p) / 2 ^ 64 := by
    rw [mm512_il_mulhi_epi64_lane _ _ l (by rw [hWp]; exact hWplt) (by rw [hT]; exact hTlt),
      hWp, hT, Nat.mul_comm]
  obtain ⟨hle, hlt⟩ := lazy_quotient_bound (2 ^ 64) p (x + 2 * p - y) w (by norm_num)
    (by omega) hTlt
  have hval : mm512_add_epi64
        (mm512_mullo_epi64
          (mm512_il_mulhi_epi64 W_precon
            (mm512_sub_epi64 X (mm512_sub_epi64 Y (mm512_set1_epi64 (2 * p)))))
          (mm512_set1_epi64 (2 ^ 64 - p)))
        (mm512_mullo_epi64 W_op
          (mm512_sub_epi64 X (mm512_sub_epi64 Y (mm512_set1_epi64 (2 * p))))) l
      = w * (x + 2 * p - y) - (x + 2 * p - y) * (w * 2 ^ 64 / p) / 2 ^ 64 * p := by
    simp only [mm512_add_epi64, mm512_mullo_epi64]
    rw [hQ, hT, hW]
    simp only [mm512_set1_epi64]
    exact neg_modulus_mul_add _ p w _ (by omega)
      (by rw [Nat.mul_comm w (x + 2 * p - y)]; exact hle)
      (by rw [Nat.mul_comm w (x + 2 * p - y)]; omega)
  rw [hval]
  generalize (x + 2 * p - y) * (w * 2 ^ 64 / p) / 2 ^ 64 = Q at hle hlt ⊢
  rw [Nat.mul_comm (x + 2 * p - y) w] at hle hlt
  refine ⟨by omega, ?_⟩
  apply modEq_of_add_mul_eq _ _ Q (2 * w) p
  have e1 : w * (x + 2 * p - y) + w * y = w * x + 2 * w * p := by
    have : x + 2 * p - y + y = x + 2 * p := by omega
    calc w * (x + 2 * p - y) + w * y = w * (x + 2 * p - y + y) := by ring
      _ = w * (x + 2 * p) := by rw [this]
      _ = w * x + 2 * w * p := by ring
  omega

/-- The first output of the inverse butterfly in a lane, inputs below `2p`:
`X + Y` folded back below `2p`. -/
theorem InvButterfly64_X_lane (p x y : Nat) (h4 : 4 * p ≤ 2 ^ 64) (hx : x < 2 * p)
    (hy : y < 2 * p) (X Y : m512i) (l : Fin 8) (hX : X l = x) (hY : Y l = y) :
    mm512_mask_add_epi64
        (mm512_add_epi64 X (mm512_sub_epi64 Y (mm512_set1_epi64 (2 * p))))
        (mm512_movepi64_mask (mm512_add_epi64 X (mm512_sub_epi64 Y (mm512_set1_epi64 (2 * p)))))
        (mm512_add_epi64 X (mm512_sub_epi64 Y (mm512_set1_epi64 (2 * p))))
        (mm512_set1_epi64 (2 * p)) l
      = if 2 * p ≤ x + y then x + y - 2 * p else x + y := by
  simp only [mm512_mask_add_epi64, mm512_movepi64_mask, mm512_add_epi64, mm512_sub_epi64,
    mm512_set1_epi64, hX, hY, sub64, decide_eq_true_eq]
  by_cases h : 2 * p ≤ x + y
  · rw [if_pos h]
    have e : (x + (y + 2 ^ 64 - 2 * p % 2 ^ 64) % 2 ^ 64) % 2 ^ 64 = x + y - 2 * p := by omega
    rw [e, Nat.mod_eq_of_lt (by omega), if_neg (by omega)]
  · rw [if_neg h]
    have e : (x + (y + 2 ^ 64 - 2 * p % 2 ^ 64) % 2 ^ 64) % 2 ^ 64
        = x + y + 2 ^ 64 - 2 * p := by omega
    rw [e, Nat.mod_eq_of_lt (by omega), if_pos (by omega)]
    omega

/-- C20: the inverse Harvey butterfly in the 64-bit tier.  For `4p <= 2^64`,
`neg_modulus = 2^64 - p` and `twice_modulus = 2p` in every lane, in every lane
with a twiddle `W < p`, `W_precon = floor(W * 2^64 / p)` and `X`, `Y` in
`[0, 2p)`, `InvButterfly<64, false>` leaves `X'`, `Y'` in `[0, 2p)` with `X'`
congruent to `X + Y` and `Y' + W * Y` to `W * X` modulo `p`; and with
`InputLessThanMod = true` and `X`, `Y` in `[0, p)` the same bounds and
congruences hold.  The butterfly itself never fails. -/
theorem InvButterfly_harvey (p : Nat) (h4 : 4 * p ≤ 2 ^ 64) (X Y W_op W_precon : m512i) :
    (∃ r, InvButterfly 64 false X Y W_op W_precon (mm512_set1_epi64 (2 ^ 64 - p))
          (mm512_set1_epi64 (2 * p)) = some r ∧
      ∀ l : Fin 8, X l < 2 * p → Y l < 2 * p → W_op l < p →
        W_precon l = W_op l * 2 ^ 64 / p →
        r.1 l < 2 * p ∧ r.2 l < 2 * p ∧ r.1 l ≡ X l + Y l [MOD p] ∧
          r.2 l + W_op l * Y l ≡ W_op l * X l [MOD p]) ∧
    (∃ r, InvButterfly 64 true X Y W_op W_precon (mm512_set1_epi64 (2 ^ 64 - p))
          (mm512_set1_epi64 (2 * p)) = some r ∧
      ∀ l : Fin 8, X l < p → Y l < p → W_op l < p →
        W_precon l = W_op l * 2 ^ 64 / p →
        r.1 l < 2 * p ∧ r.2 l < 2 * p ∧ r.1 l ≡ X l + Y l [MOD p] ∧
          r.2 l + W_op l * Y l ≡ W_op l * X l [MOD p]) := by
  constructor
  · refine ⟨_, InvButterfly64_eq false X Y W_op W_precon _ _, ?_⟩
    intro l hX hY hW hWp
    obtain ⟨hy1, hy2⟩ := InvButterfly64_Y_lane p (X l) (Y l) (W_op l) h4 hX hY hW X Y W_op
      W_precon l rfl rfl rfl hWp
    have hx1 := InvButterfly64_X_lane p (X l) (Y l) h4 hX hY X Y l rfl rfl
    simp only [Bool.false_eq_true, if_false]
    refine ⟨?_, hy1, ?_, hy2⟩
    · rw [hx1]; split_ifs <;> omega
    · rw [hx1]
      split_ifs with h
      · apply modEq_of_add_mul_eq _ _ 2 0 p
        omega
      · exact Nat.ModEq.refl _
  · refine ⟨_, InvButterfly64_eq true X Y W_op W_precon _ _, ?_⟩
    intro l hX hY hW hWp
    obtain ⟨hy1, hy2⟩ := InvButterfly64_Y_lane p (X l) (Y l) (W_op l) h4 (by omega) (by omega)
      hW X Y W_op W_precon l rfl rfl rfl hWp
    simp only [if_true]
    refine ⟨?_, hy1, ?_, hy2⟩
    · simp only [mm512_add_epi64]; omega
    · simp only [mm512_add_epi64]
      rw [Nat.mod_eq_of_lt (by omega)]

/-- Witness of C20: modulus 17 with every lane holding `X = 20`, `Y = 33` and
the twiddle `W = 4`. -/
theorem InvButterfly_harvey_witness :
    4 * 17 ≤ 2 ^ 64 ∧
    ∃ r, InvButterfly 64 false (mm512_set1_epi64 20) (mm512_set1_epi64 33)
          (mm512_set1_epi64 4) (mm512_set1_epi64 (4 * 2 ^ 64 / 17))
          (mm512_set1_epi64 (2 ^ 64 - 17)) (mm512_set1_epi64 (2 * 17)) = some r ∧
      ∀ l : Fin 8, mm512_set1_epi64 20 l < 2 * 17 → mm512_set1_epi64 33 l < 2 * 17 →
        mm512_set1_epi64 4 l < 17 →
        mm512_set1_epi64 (4 * 2 ^ 64 / 17) l = mm512_set1_epi64 4 l * 2 ^ 64 / 17 →
        r.1 l < 2 * 17 ∧ r.2 l < 2 * 17 ∧
          r.1 l ≡ mm512_set1_epi64 20 l + mm512_set1_epi64 33 l [MOD 17] ∧
          r.2 l + mm512_set1_epi64 4 l * mm512_set1_epi64 33 l
            ≡ mm512_set1_epi64 4 l * mm512_set1_epi64 20 l [MOD 17] :=
  ⟨by decide, (InvButterfly_harvey 17 (by decide) (mm512_set1_epi64 20) (mm512_set1_epi64 33)
    (mm512_set1_epi64 4) (mm512_set1_epi64 (4 * 2 ^ 64 / 17))).1⟩

/-! ## The two butterfly bodies of the forward transform -/

/-- The scalar butterfly body in terms of the butterfly values. -/
theorem ForwardButterfly_values (BitShift q W X Y : Nat)
    (hBS : BitShift = 52 ∨ BitShift = 64) (hq : 1 ≤ q) (h4 : 4 * q ≤ 2 ^ BitShift)
    (hW : W < q) (hX : X < 4 * q) (hY : Y < 4 * q) :
    ForwardButterfly BitShift (2 ^ BitShift - 1) q (2 * q) W (W * 2 ^ BitShift / q) X Y
        = some (Forward_X_out BitShift q W X Y, Forward_Y_out BitShift q W X Y) ∧
      Forward_Q BitShift q W Y < 2 * q ∧
      Forward_X_out BitShift q W X Y < 4 * q ∧ Forward_Y_out BitShift q W X Y < 4 * q ∧
      Forward_X_out BitShift q W X Y ≡ X + W * Y [MOD q] ∧
      Forward_Y_out BitShift q W X Y + W * Y ≡ X [MOD q] := by
  have hpow : 2 ^ BitShift ≤ 2 ^ 64 := by
    rcases hBS with h | h <;> subst h <;> norm_num
  have hfit : W * 2 ^ BitShift / q < 2 ^ 64 := by
    have : W * 2 ^ BitShift / q < 2 ^ BitShift := by
      rw [Nat.div_lt_iff_lt_mul (by omega), Nat.mul_comm (2 ^ BitShift) q]
      exact Nat.mul_lt_mul_of_pos_right hW (by positivity)
    omega
  obtain ⟨heq, _, _⟩ :=
    MultiplyUIntModLazy_eq BitShift q Y W hBS hq h4 (Nat.le_of_lt hW) (by omega) hfit
  obtain ⟨Q, hQ, hQlt, hbf, h1, h2, h3, h4'⟩ :=
    ForwardButterfly_spec BitShift q W X Y hBS hq h4 hW hX hY
  have hQeq : Q = Forward_Q BitShift q W Y := by
    rw [heq] at hQ
    exact (Option.some.inj hQ).symm
  subst hQeq
  exact ⟨hbf, hQlt, h1, h2, h3, h4'⟩

/-- The bounds check on a register passes exactly when every lane is below
the bound. -/
theorem CheckBounds_eq_true_iff (v : m512i) (bound : Nat) :
    CheckBounds v bound = true ↔ ∀ l : Fin 8, v l < bound := by
  simp only [CheckBounds, ExtractValues, LATTICE_CHECK_BOUNDS, List.all_eq_true,
    decide_eq_true_eq]
  have h8 : (512 / 64 : Nat) = 8 := by norm_num
  rw [h8]
  have htake : List.take 8 (List.ofFn v) = List.ofFn v := by
    apply List.take_of_length_le
    simp
  rw [htake]
  constructor
  · intro h l
    exact h (v l) ((List.mem_ofFn v (v l)).2 ⟨l, rfl⟩)
  · intro h x hx
    obtain ⟨l, rfl⟩ := (List.mem_ofFn v x).1 hx
    exact h l

/-- The bounds check of the helpers on a register, with 8 written out. -/
theorem LATTICE_CHECK_BOUNDS_ExtractValues (v : m512i) (bound : Nat) :
    LATTICE_CHECK_BOUNDS (ExtractValues v) 8 bound = true ↔ ∀ l : Fin 8, v l < bound :=
  CheckBounds_eq_true_iff v bound

/-- The high multiply of the forward transform on a twiddle factor and a
register of words below `2^BitShift`: when it goes through, each lane is
`floor(W_precon * Y / 2^BitShift)`; it goes through when all lanes are below
`2^BitShift - 1`. -/
theorem avx512_multiply_uint64_hi_spec (BitShift Wp : Nat) (v_Y : m512i)
    (hBS : BitShift = 52 ∨ BitShift = 64) (hWp : Wp < 2 ^ BitShift - 1)
    (hY : ∀ l, v_Y l < 2 ^ BitShift) :
    ((∀ l, v_Y l < 2 ^ BitShift - 1) →
      avx512_multiply_uint64_hi BitShift (mm512_set1_epi64 Wp) v_Y
        = some (fun l => Wp * v_Y l / 2 ^ BitShift)) ∧
    (∀ r, avx512_multiply_uint64_hi BitShift (mm512_set1_epi64 Wp) v_Y = some r →
      r = fun l => Wp * v_Y l / 2 ^ BitShift) := by
  rcases hBS with h | h
  · subst h
    have h1 : ¬ (52 = 64) := by decide
    have hlane : mm512_madd52hi_epu64 (mm512_set1_epi64 0) (mm512_set1_epi64 Wp) v_Y
        = fun l => Wp * v_Y l / 2 ^ 52 := by
      funext l
      have := hY l
      simp only [mm512_madd52hi_epu64, mm512_set1_epi64, Nat.zero_add]
      rw [Nat.mod_eq_of_lt (show Wp < 2 ^ 52 by omega), Nat.mod_eq_of_lt this]
      apply Nat.mod_eq_of_lt
      have : Wp * v_Y l / 2 ^ 52 ≤ Wp := by
        apply Nat.div_le_of_le_mul
        rw [Nat.mul_comm]
        exact Nat.mul_le_mul_right _ (Nat.le_of_lt this)
      omega
    have hx : LATTICE_CHECK_BOUNDS (ExtractValues (mm512_set1_epi64 Wp)) 8 (2 ^ 52 - 1)
        = true := by
      rw [LATTICE_CHECK_BOUNDS_ExtractValues]
      intro l
      simpa [mm512_set1_epi64] using hWp
    simp only [avx512_multiply_uint64_hi, mm512_il_mulhi_epi, if_neg h1, if_true,
      mm512_il_mulhi_epi52, hx, Bool.not_true, Bool.false_eq_true, if_false, hlane]
    constructor
    · intro hlt
      have hy : LATTICE_CHECK_BOUNDS (ExtractValues v_Y) 8 (2 ^ 52 - 1) = true := by
        rw [LATTICE_CHECK_BOUNDS_ExtractValues]
        exact hlt
      simp only [hy, Bool.not_true, Bool.false_eq_true, if_false]
    · intro r hr
      split_ifs at hr
      exact (Option.some.inj hr).symm
  · subst h
    have hlane : mm512_il_mulhi_epi64 (mm512_set1_epi64 Wp) v_Y
        = fun l => Wp * v_Y l / 2 ^ 64 := by
      funext l
      rw [mm512_il_mulhi_epi64_lane _ _ l (by simp only [mm512_set1_epi64]; omega) (hY l)]
      simp only [mm512_set1_epi64]
    simp only [avx512_multiply_uint64_hi, mm512_il_mulhi_epi, if_true, hlane]
    refine ⟨fun _ => ?_, fun r hr => ?_⟩
    · first | rfl | trivial
    · exact (Option.some.inj hr).symm

/-- The Barrett factor of a twiddle `W < q` is below `2^BitShift - 1` when
`4q <= 2^BitShift`. -/
theorem precon_lt (B q W : Nat) (hq : 1 ≤ q) (h4 : 4 * q ≤ B) (hW : W < q) :
    W * B / q < B - 1 := by
  rw [Nat.div_lt_iff_lt_mul (by omega)]
  obtain ⟨q', rfl⟩ : ∃ q', q = q' + 1 := ⟨q - 1, by omega⟩
  obtain ⟨B', rfl⟩ : ∃ B', B = B' + 1 := ⟨B - 1, by omega⟩
  have h1 : W * (B' + 1) ≤ q' * (B' + 1) := Nat.mul_le_mul_right _ (by omega)
  have h2 : q' * (B' + 1) = q' * B' + q' := by ring
  have h3 : (B' + 1 - 1) * (q' + 1) = q' * B' + B' := by
    rw [Nat.add_sub_cancel]; ring
  omega

/-- The vector butterfly body on registers of words below `4q`: when it goes
through, each lane holds the butterfly values of that lane; it goes through
when `4q < 2^BitShift`. -/
theorem ForwardButterflyAVX512_spec (BitShift q W : Nat)
    (hBS : BitShift = 52 ∨ BitShift = 64) (hq : 1 ≤ q) (h4 : 4 * q ≤ 2 ^ BitShift)
    (hW : W < q) (v_X v_Y : m512i) (hX : ∀ l, v_X l < 4 * q) (hY : ∀ l, v_Y l < 4 * q) :
    (4 * q < 2 ^ BitShift →
      ForwardButterflyAVX512 BitShift (2 ^ BitShift - 1) (mm512_set1_epi64 q)
          (mm512_set1_epi64 (2 * q)) (mm512_set1_epi64 W)
          (mm512_set1_epi64 (W * 2 ^ BitShift / q)) v_X v_Y
        = some (fun l => Forward_X_out BitShift q W (v_X l) (v_Y l),
                fun l => Forward_Y_out BitShift q W (v_X l) (v_Y l))) ∧
    (∀ r, ForwardButterflyAVX512 BitShift (2 ^ BitShift - 1) (mm512_set1_epi64 q)
          (mm512_set1_epi64 (2 * q)) (mm512_set1_epi64 W)
          (mm512_set1_epi64 (W * 2 ^ BitShift / q)) v_X v_Y = some r →
      r = (fun l => Forward_X_out BitShift q W (v_X l) (v_Y l),
           fun l => Forward_Y_out BitShift q W (v_X l) (v_Y l))) := by
  have hpow : 2 ^ BitShift ≤ 2 ^ 64 := by
    rcases hBS with h | h <;> subst h <;> norm_num
  have hWp := precon_lt (2 ^ BitShift) q W hq h4 hW
  obtain ⟨hhi_tot, hhi_val⟩ := avx512_multiply_uint64_hi_spec BitShift
    (W * 2 ^ BitShift / q) v_Y hBS hWp (fun l => by have := hY l; omega)
  -- the values of the lanes
  have hQ : ∀ l, sub64 ((v_Y l * W) % 2 ^ 64)
      ((W * 2 ^ BitShift / q * v_Y l / 2 ^ BitShift * q) % 2 ^ 64)
      = Forward_Q BitShift q W (v_Y l) := by
    intro l
    have hb := lazy_quotient_bound (2 ^ BitShift) q (v_Y l) W (by positivity) hq
      (by have := hY l; omega)
    rw [Nat.mul_comm (W * 2 ^ BitShift / q) (v_Y l)]
    rw [sub64_mod_mod _ _ hb.1 (by omega)]
    rfl
  have hQlt : ∀ l, Forward_Q BitShift q W (v_Y l) < 2 * q := by
    intro l
    have hb := lazy_quotient_bound (2 ^ BitShift) q (v_Y l) W (by positivity) hq
      (by have := hY l; omega)
    unfold Forward_Q
    omega
  have htx : ∀ l, avx512_mod_epu64 v_X (mm512_set1_epi64 (2 * q)) l = Forward_tx q (v_X l) := by
    intro l
    have := hX l
    rw [avx512_mod_epu64_lane _ _ l (by omega) (by simp only [mm512_set1_epi64]; omega)]
    rfl
  have htxlt : ∀ l, Forward_tx q (v_X l) < 2 * q := by
    intro l
    have := hX l
    unfold Forward_tx
    split_ifs <;> omega
  have hxo : ∀ vQ0 : m512i, vQ0 = (fun l => W * 2 ^ BitShift / q * v_Y l / 2 ^ BitShift) →
      mm512_add_epi64 (avx512_mod_epu64 v_X (mm512_set1_epi64 (2 * q)))
        (mm512_sub_epi64 (avx512_multiply_uint64_lo64 v_Y (mm512_set1_epi64 W))
          (avx512_multiply_uint64_lo64 vQ0 (mm512_set1_epi64 q)))
        = fun l => Forward_X_out BitShift q W (v_X l) (v_Y l) := by
    intro vQ0 hv
    subst hv
    funext l
    simp only [mm512_add_epi64, mm512_sub_epi64, avx512_multiply_uint64_lo64,
      mm512_mullo_epi64, htx]
    simp only [mm512_set1_epi64]
    rw [hQ l]
    have := hQlt l
    have := htxlt l
    unfold Forward_X_out
    exact Nat.mod_eq_of_lt (by omega)
  have hyo : ∀ vQ0 : m512i, vQ0 = (fun l => W * 2 ^ BitShift / q * v_Y l / 2 ^ BitShift) →
      mm512_add_epi64 (avx512_mod_epu64 v_X (mm512_set1_epi64 (2 * q)))
        (mm512_sub_epi64 (mm512_set1_epi64 (2 * q))
          (mm512_sub_epi64 (avx512_multiply_uint64_lo64 v_Y (mm512_set1_epi64 W))
            (avx512_multiply_uint64_lo64 vQ0 (mm512_set1_epi64 q))))
        = fun l => Forward_Y_out BitShift q W (v_X l) (v_Y l) := by
    intro vQ0 hv
    subst hv
    funext l
    simp only [mm512_add_epi64, mm512_sub_epi64, avx512_multiply_uint64_lo64,
      mm512_mullo_epi64, htx]
    simp only [mm512_set1_epi64]
    rw [hQ l]
    have h1 := hQlt l
    have h2 := htxlt l
    unfold Forward_Y_out
    generalize Forward_Q BitShift q W (v_Y l) = Q at h1 ⊢
    generalize Forward_tx q (v_X l) = tx at h2 ⊢
    unfold sub64
    omega
  have hcx : CheckBounds (fun l => Forward_X_out BitShift q W (v_X l) (v_Y l))
      (2 ^ BitShift - 1) = true := by
    rw [CheckBounds_eq_true_iff]
    intro l
    have h1 := hQlt l
    have h2 := htxlt l
    unfold Forward_X_out
    omega
  have hcy : 4 * q < 2 ^ BitShift →
      CheckBounds (fun l => Forward_Y_out BitShift q W (v_X l) (v_Y l))
        (2 ^ BitShift - 1) = true := by
    intro hlt
    rw [CheckBounds_eq_true_iff]
    intro l
    have h1 := hQlt l
    have h2 := htxlt l
    unfold Forward_Y_out
    omega
  unfold ForwardButterflyAVX512
  cases hhi : avx512_multiply_uint64_hi BitShift (mm512_set1_epi64 (W * 2 ^ BitShift / q)) v_Y with
  | none =>
    refine ⟨fun hlt => ?_, fun r hr => ?_⟩
    · rw [hhi_tot (fun l => by have := hY l; omega)] at hhi
      exact absurd hhi (by simp)
    · simp at hr
  | some vQ0 =>
    have hv := hhi_val vQ0 hhi
    simp only [hxo vQ0 hv, hyo vQ0 hv, LATTICE_CHECK, hcx, Bool.not_true, Bool.false_eq_true,
      if_false]
    refine ⟨fun hlt => ?_, fun r hr => ?_⟩
    · simp only [hcy hlt, Bool.not_true, Bool.false_eq_true, if_false]
    · split_ifs at hr
      exact (Option.some.inj hr).symm

/-! ## The butterfly loops of the forward transform -/

/-- Reading a buffer after the two stores of a butterfly. -/
theorem getD_set_set (l : List Nat) (X Y x y k : Nat) (hX : X < l.length)
    (hY : Y < l.length) (hXY : X ≠ Y) :
    ((l.set X x).set Y y).getD k 0 =
      if k = X then x else if k = Y then y else l.getD k 0 := by
  simp only [getD_set_eq, List.length_set]
  by_cases h1 : k = X
  · subst h1
    rw [if_neg (by omega), if_pos ⟨rfl, hX⟩, if_pos rfl]
  · rw [if_neg h1]
    by_cases h2 : k = Y
    · subst h2
      rw [if_pos ⟨rfl, hY⟩, if_pos rfl]
    · rw [if_neg (by omega), if_neg (by omega), if_neg h2]

/-- The scalar butterfly loop on two disjoint runs of words below `4q`: it
goes through, and every word of the two runs is replaced by its butterfly
value. -/
theorem Forward_scalar_loop_spec (BitShift q W : Nat)
    (hBS : BitShift = 52 ∨ BitShift = 64) (hq : 1 ≤ q) (h4 : 4 * q ≤ 2 ^ BitShift)
    (hW : W < q) :
    ∀ (count X Y : Nat) (input : List Nat), X + count ≤ Y → Y + count ≤ input.length →
      (∀ k, X ≤ k → k < X + count → input.getD k 0 < 4 * q) →
      (∀ k, Y ≤ k → k < Y + count → input.getD k 0 < 4 * q) →
      ∃ out, Forward_scalar_loop BitShift (2 ^ BitShift - 1) q (2 * q) W
            (W * 2 ^ BitShift / q) count X Y input = some out ∧
        out.length = input.length ∧
        ∀ k, out.getD k 0 =
          if X ≤ k ∧ k < X + count then
            Forward_X_out BitShift q W (input.getD k 0) (input.getD (k + (Y - X)) 0)
          else if Y ≤ k ∧ k < Y + count then
            Forward_Y_out BitShift q W (input.getD (k - (Y - X)) 0) (input.getD k 0)
          else input.getD k 0 := by
  intro count
  induction count with
  | zero =>
    intro X Y input _ _ _ _
    refine ⟨input, rfl, rfl, fun k => ?_⟩
    rw [if_neg (by omega), if_neg (by omega)]
  | succ c ih =>
    intro X Y input hXY hlen hXr hYr
    have hbf := (ForwardButterfly_values BitShift q W (input.getD X 0) (input.getD Y 0) hBS hq
      h4 hW (hXr X (le_refl _) (by omega)) (hYr Y (le_refl _) (by omega))).1
    have hrd := getD_set_set input X Y
      (Forward_X_out BitShift q W (input.getD X 0) (input.getD Y 0))
      (Forward_Y_out BitShift q W (input.getD X 0) (input.getD Y 0))
    set input2 := (input.set X (Forward_X_out BitShift q W (input.getD X 0) (input.getD Y 0))).set
      Y (Forward_Y_out BitShift q W (input.getD X 0) (input.getD Y 0)) with hin2
    have hl2 : input2.length = input.length := by simp [hin2]
    have hrd2 : ∀ k, input2.getD k 0 =
        if k = X then Forward_X_out BitShift q W (input.getD X 0) (input.getD Y 0)
        else if k = Y then Forward_Y_out BitShift q W (input.getD X 0) (input.getD Y 0)
        else input.getD k 0 := fun k => hrd k (by omega) (by omega) (by omega)
    obtain ⟨out, ho, hlo, hgo⟩ := ih (X + 1) (Y + 1) input2 (by omega) (by omega)
      (fun k h1 h2 => by
        rw [hrd2 k, if_neg (by omega), if_neg (by omega)]
        exact hXr k (by omega) (by omega))
      (fun k h1 h2 => by
        rw [hrd2 k, if_neg (by omega), if_neg (by omega)]
        exact hYr k (by omega) (by omega))
    refine ⟨out, ?_, by rw [hlo, hl2], fun k => ?_⟩
    · simp only [Forward_scalar_loop, hbf]
      exact ho
    · rw [hgo k]
      have hd : Y + 1 - (X + 1) = Y - X := by omega
      rw [hd]
      have hXk : ∀ j, j ≠ X → j ≠ Y → input2.getD j 0 = input.getD j 0 := by
        intro j h1 h2
        rw [hrd2 j, if_neg h1, if_neg h2]
      by_cases hk1 : k = X
      · subst hk1
        have e0 : k + (Y - k) = Y := by omega
        rw [if_neg (show ¬ (k + 1 ≤ k ∧ k < k + 1 + c) by omega),
          if_neg (show ¬ (Y + 1 ≤ k ∧ k < Y + 1 + c) by omega),
          if_pos (show k ≤ k ∧ k < k + (c + 1) by omega), hrd2 k, if_pos rfl, e0]
      · by_cases hk2 : k = Y
        · subst hk2
          have e0 : k - (k - X) = X := by omega
          rw [if_neg (show ¬ (X + 1 ≤ k ∧ k < X + 1 + c) by omega),
            if_neg (show ¬ (k + 1 ≤ k ∧ k < k + 1 + c) by omega),
            if_neg (show ¬ (X ≤ k ∧ k < X + (c + 1)) by omega),
            if_pos (show k ≤ k ∧ k < k + (c + 1) by omega), hrd2 k, if_neg hk1, if_pos rfl, e0]
        · by_cases hk3 : X + 1 ≤ k ∧ k < X + 1 + c
          · rw [if_pos hk3, if_pos (show X ≤ k ∧ k < X + (c + 1) by omega),
              hXk k hk1 hk2, hXk (k + (Y - X)) (by omega) (by omega)]
          · rw [if_neg hk3, if_neg (show ¬ (X ≤ k ∧ k < X + (c + 1)) by omega)]
            by_cases hk4 : Y + 1 ≤ k ∧ k < Y + 1 + c
            · rw [if_pos hk4, if_pos (show Y ≤ k ∧ k < Y + (c + 1) by omega),
                hXk k hk1 hk2, hXk (k - (Y - X)) (by omega) (by omega)]
            · rw [if_neg hk4, if_neg (show ¬ (Y ≤ k ∧ k < Y + (c + 1)) by omega),
                hXk k hk1 hk2]

/-- Reading a buffer after the two register stores of a vector butterfly. -/
theorem getD_storeu_storeu (l : List Nat) (X Y : Nat) (x y : m512i) (k : Nat)
    (hX : X + 8 ≤ Y) (hY : Y + 8 ≤ l.length) :
    (mm512_storeu_si512 (mm512_storeu_si512 l X x) Y y).getD k 0 =
      if X ≤ k ∧ k < X + 8 then lane x (k - X)
      else if Y ≤ k ∧ k < Y + 8 then lane y (k - Y)
      else l.getD k 0 := by
  rw [storeu_getD, storeu_length, storeu_getD]
  by_cases h1 : X ≤ k ∧ k < X + 8
  · rw [if_neg (show ¬ (Y ≤ k ∧ k < Y + 8 ∧ k < l.length) by omega),
      if_pos (show X ≤ k ∧ k < X + 8 ∧ k < l.length by omega), if_pos h1]
  · rw [if_neg h1]
    by_cases h2 : Y ≤ k ∧ k < Y + 8
    · rw [if_pos (show Y ≤ k ∧ k < Y + 8 ∧ k < l.length by omega), if_pos h2]
    · rw [if_neg (show ¬ (Y ≤ k ∧ k < Y + 8 ∧ k < l.length) by omega),
        if_neg (show ¬ (X ≤ k ∧ k < X + 8 ∧ k < l.length) by omega), if_neg h2]

/-- The vector butterfly loop on two disjoint runs of words below `4q`: when
it goes through, every word of the two runs is replaced by its butterfly value;
it goes through when `4q < 2^BitShift`. -/
theorem Forward_vector_loop_spec (BitShift q W : Nat)
    (hBS : BitShift = 52 ∨ BitShift = 64) (hq : 1 ≤ q) (h4 : 4 * q ≤ 2 ^ BitShift)
    (hW : W < q) :
    ∀ (count X Y : Nat) (input : List Nat), X + 8 * count ≤ Y →
      Y + 8 * count ≤ input.length →
      (∀ k, X ≤ k → k < X + 8 * count → input.getD k 0 < 4 * q) →
      (∀ k, Y ≤ k → k < Y + 8 * count → input.getD k 0 < 4 * q) →
      (4 * q < 2 ^ BitShift →
        ∃ out, Forward_vector_loop BitShift (2 ^ BitShift - 1) (mm512_set1_epi64 q)
          (mm512_set1_epi64 (2 * q)) (mm512_set1_epi64 W)
          (mm512_set1_epi64 (W * 2 ^ BitShift / q)) count X Y input = some out) ∧
      (∀ out, Forward_vector_loop BitShift (2 ^ BitShift - 1) (mm512_set1_epi64 q)
          (mm512_set1_epi64 (2 * q)) (mm512_set1_epi64 W)
          (mm512_set1_epi64 (W * 2 ^ BitShift / q)) count X Y input = some out →
        out.length = input.length ∧
        ∀ k, out.getD k 0 =
          if X ≤ k ∧ k < X + 8 * count then
            Forward_X_out BitShift q W (input.getD k 0) (input.getD (k + (Y - X)) 0)
          else if Y ≤ k ∧ k < Y + 8 * count then
            Forward_Y_out BitShift q W (input.getD (k - (Y - X)) 0) (input.getD k 0)
          else input.getD k 0) := by
  intro count
  induction count with
  | zero =>
    intro X Y input _ _ _ _
    refine ⟨fun _ => ⟨input, rfl⟩, fun out ho => ?_⟩
    simp only [Forward_vector_loop, Option.some.injEq] at ho
    subst ho
    refine ⟨rfl, fun k => ?_⟩
    rw [if_neg (by omega), if_neg (by omega)]
  | succ c ih =>
    intro X Y input hXY hlen hXr hYr
    obtain ⟨hbt, hbv⟩ := ForwardButterflyAVX512_spec BitShift q W hBS hq h4 hW
      (mm512_loadu_si512 input X) (mm512_loadu_si512 input Y)
      (fun l => by
        simp only [mm512_loadu_si512]
        exact hXr _ (by omega) (by have := l.isLt; omega))
      (fun l => by
        simp only [mm512_loadu_si512]
        exact hYr _ (by omega) (by have := l.isLt; omega))
    set rX : m512i := fun l => Forward_X_out BitShift q W (mm512_loadu_si512 input X l)
      (mm512_loadu_si512 input Y l) with hrX
    set rY : m512i := fun l => Forward_Y_out BitShift q W (mm512_loadu_si512 input X l)
      (mm512_loadu_si512 input Y l) with hrY
    set input2 := mm512_storeu_si512 (mm512_storeu_si512 input X rX) Y rY with hin2
    have hl2 : input2.length = input.length := by
      rw [hin2, storeu_length, storeu_length]
    have hlX : ∀ j, j < 8 → lane rX j =
        Forward_X_out BitShift q W (input.getD (X + j) 0) (input.getD (Y + j) 0) := by
      intro j hj
      simp only [lane, hj, dif_pos, hrX, mm512_loadu_si512]
    have hlY : ∀ j, j < 8 → lane rY j =
        Forward_Y_out BitShift q W (input.getD (X + j) 0) (input.getD (Y + j) 0) := by
      intro j hj
      simp only [lane, hj, dif_pos, hrY, mm512_loadu_si512]
    have hrd2 : ∀ k, input2.getD k 0 =
        if X ≤ k ∧ k < X + 8 then lane rX (k - X)
        else if Y ≤ k ∧ k < Y + 8 then lane rY (k - Y)
        else input.getD k 0 :=
      fun k => getD_storeu_storeu input X Y rX rY k (by omega) (by omega)
    have hXk : ∀ j, ¬ (X ≤ j ∧ j < X + 8) → ¬ (Y ≤ j ∧ j < Y + 8) →
        input2.getD j 0 = input.getD j 0 := by
      intro j h1 h2
      rw [hrd2 j, if_neg h1, if_neg h2]
    obtain ⟨iht, ihv⟩ := ih (X + 8) (Y + 8) input2 (by omega) (by omega)
      (fun k h1 h2 => by
        rw [hXk k (by omega) (by omega)]
        exact hXr k (by omega) (by omega))
      (fun k h1 h2 => by
        rw [hXk k (by omega) (by omega)]
        exact hYr k (by omega) (by omega))
    have hstep : ∀ r, ForwardButterflyAVX512 BitShift (2 ^ BitShift - 1) (mm512_set1_epi64 q)
          (mm512_set1_epi64 (2 * q)) (mm512_set1_epi64 W)
          (mm512_set1_epi64 (W * 2 ^ BitShift / q)) (mm512_loadu_si512 input X)
          (mm512_loadu_si512 input Y) = some r →
        Forward_vector_loop BitShift (2 ^ BitShift - 1) (mm512_set1_epi64 q)
          (mm512_set1_epi64 (2 * q)) (mm512_set1_epi64 W)
          (mm512_set1_epi64 (W * 2 ^ BitShift / q)) (c + 1) X Y input
        = Forward_vector_loop BitShift (2 ^ BitShift - 1) (mm512_set1_epi64 q)
          (mm512_set1_epi64 (2 * q)) (mm512_set1_epi64 W)
          (mm512_set1_epi64 (W * 2 ^ BitShift / q)) c (X + 8) (Y + 8) input2 := by
      intro r hr
      have := hbv r hr
      subst this
      simp only [Forward_vector_loop, hr]
    constructor
    · intro hlt
      rw [hstep _ (hbt hlt)]
      exact iht hlt
    · intro out ho
      cases hb : ForwardButterflyAVX512 BitShift (2 ^ BitShift - 1) (mm512_set1_epi64 q)
          (mm512_set1_epi64 (2 * q)) (mm512_set1_epi64 W)
          (mm512_set1_epi64 (W * 2 ^ BitShift / q)) (mm512_loadu_si512 input X)
          (mm512_loadu_si512 input Y) with
      | none =>
        simp only [Forward_vector_loop, hb] at ho
        exact absurd ho (by simp)
      | some r =>
        rw [hstep r hb] at ho
        obtain ⟨hlo, hgo⟩ := ihv out ho
        refine ⟨by rw [hlo, hl2], fun k => ?_⟩
        rw [hgo k]
        have hd : Y + 8 - (X + 8) = Y - X := by omega
        rw [hd]
        by_cases hk1 : X ≤ k ∧ k < X + 8
        · have e1 : X + (k - X) = k := by omega
          have e2 : Y + (k - X) = k + (Y - X) := by omega
          rw [if_neg (show ¬ (X + 8 ≤ k ∧ k < X + 8 + 8 * c) by omega),
            if_neg (show ¬ (Y + 8 ≤ k ∧ k < Y + 8 + 8 * c) by omega),
            if_pos (show X ≤ k ∧ k < X + 8 * (c + 1) by omega), hrd2 k, if_pos hk1,
            hlX (k - X) (by omega), e1, e2]
        · by_cases hk2 : Y ≤ k ∧ k < Y + 8
          · have e1 : X + (k - Y) = k - (Y - X) := by omega
            have e2 : Y + (k - Y) = k := by omega
            rw [if_neg (show ¬ (X + 8 ≤ k ∧ k < X + 8 + 8 * c) by omega),
              if_neg (show ¬ (Y + 8 ≤ k ∧ k < Y + 8 + 8 * c) by omega),
              if_neg (show ¬ (X ≤ k ∧ k < X + 8 * (c + 1)) by omega),
              if_pos (show Y ≤ k ∧ k < Y + 8 * (c + 1) by omega), hrd2 k, if_neg hk1,
              if_pos hk2, hlY (k - Y) (by omega), e1, e2]
          · by_cases hk3 : X + 8 ≤ k ∧ k < X + 8 + 8 * c
            · rw [if_pos hk3, if_pos (show X ≤ k ∧ k < X + 8 * (c + 1) by omega),
                hXk k hk1 hk2, hXk (k + (Y - X)) (by omega) (by omega)]
            · rw [if_neg hk3, if_neg (show ¬ (X ≤ k ∧ k < X + 8 * (c + 1)) by omega)]
              by_cases hk4 : Y + 8 ≤ k ∧ k < Y + 8 + 8 * c
              · rw [if_pos hk4, if_pos (show Y ≤ k ∧ k < Y + 8 * (c + 1) by omega),
                  hXk k hk1 hk2, hXk (k - (Y - X)) (by omega) (by omega)]
              · rw [if_neg hk4, if_neg (show ¬ (Y ≤ k ∧ k < Y + 8 * (c + 1)) by omega),
                  hXk k hk1 hk2]

/-! ## One round of the stage loop -/

/-- Block number and offset of an index inside block `i` of width `2t`. -/
theorem block_div_mod (t i k : Nat) (h1 : 2 * t * i ≤ k) (h2 : k < 2 * t * i + 2 * t) :
    k / (2 * t) = i ∧ k % (2 * t) = k - 2 * t * i := by
  have hd : k / (2 * t) = i := by
    apply Nat.div_eq_of_lt_le
    · rw [Nat.mul_comm]; exact h1
    · have : (i + 1) * (2 * t) = 2 * t * i + 2 * t := by ring
      rw [this]; exact h2
  have hm := Nat.div_add_mod k (2 * t)
  rw [hd] at hm
  exact ⟨hd, by omega⟩

/-- The stage value at an index from block `b0` on reads the buffer from block
`b0` on only. -/
theorem Forward_stage_value_congr (BitShift q : Nat) (rp : List Nat) (m t : Nat)
    (input1 input2 : List Nat) (b0 k : Nat) (ht : 0 < t) (hk : 2 * t * b0 ≤ k)
    (h : ∀ j, 2 * t * b0 ≤ j → input1.getD j 0 = input2.getD j 0) :
    Forward_stage_value BitShift q rp m t input1 k
      = Forward_stage_value BitShift q rp m t input2 k := by
  unfold Forward_stage_value
  have hb : b0 ≤ k / (2 * t) := by
    rw [Nat.le_div_iff_mul_le (by omega), Nat.mul_comm]
    exact hk
  have hm := Nat.div_add_mod k (2 * t)
  have hmul : 2 * t * b0 ≤ 2 * t * (k / (2 * t)) := Nat.mul_le_mul_left _ hb
  by_cases hlt : k % (2 * t) < t
  · rw [if_pos hlt, if_pos hlt, h k hk, h (k + t) (by omega)]
  · rw [if_neg hlt, if_neg hlt, h k hk, h (k - t) (by omega)]

/-- The block loop of one round on words below `4q`: when it goes through,
every word of the blocks it covers is replaced by its stage value; it goes
through when `4q < 2^BitShift`. -/
theorem Forward_block_loop_spec (BitShift q : Nat) (rp prp : List Nat) (m t : Nat)
    (hBS : BitShift = 52 ∨ BitShift = 64) (hq : 1 ≤ q) (h4 : 4 * q ≤ 2 ^ BitShift)
    (ht : 0 < t) (ht8 : t < 8 ∨ t % 8 = 0) :
    ∀ (count i j1 : Nat) (input : List Nat), j1 = 2 * t * i →
      j1 + 2 * t * count ≤ input.length →
      (∀ b, i ≤ b → b < i + count →
        rp.getD (m + b) 0 < q ∧ prp.getD (m + b) 0 = rp.getD (m + b) 0 * 2 ^ BitShift / q) →
      (∀ k, j1 ≤ k → k < j1 + 2 * t * count → input.getD k 0 < 4 * q) →
      (4 * q < 2 ^ BitShift →
        ∃ out, Forward_block_loop BitShift (2 ^ BitShift - 1) q (2 * q) rp prp m t
          count i j1 input = some out) ∧
      (∀ out, Forward_block_loop BitShift (2 ^ BitShift - 1) q (2 * q) rp prp m t
          count i j1 input = some out →
        out.length = input.length ∧
        ∀ k, out.getD k 0 =
          if j1 ≤ k ∧ k < j1 + 2 * t * count then
            Forward_stage_value BitShift q rp m t input k
          else input.getD k 0) := by
  intro count
  induction count with
  | zero =>
    intro i j1 input _ _ _ _
    refine ⟨fun _ => ⟨input, rfl⟩, fun out ho => ?_⟩
    simp only [Forward_block_loop, Option.some.injEq] at ho
    subst ho
    refine ⟨rfl, fun k => ?_⟩
    rw [if_neg (by omega)]
  | succ c ih =>
    intro i j1 input hj hlen htw hr
    have hmul : 2 * t * (c + 1) = 2 * t * c + 2 * t := by ring
    have hj2 : j1 + 2 * t = 2 * t * (i + 1) := by rw [hj]; ring
    obtain ⟨hWlt, hWp⟩ := htw i (le_refl _) (by omega)
    -- the butterflies of block `i`
    have hinner : ∃ inner : Option (List Nat),
        (∀ input2, inner = some input2 →
          Forward_block_loop BitShift (2 ^ BitShift - 1) q (2 * q) rp prp m t (c + 1) i j1 input
            = Forward_block_loop BitShift (2 ^ BitShift - 1) q (2 * q) rp prp m t c (i + 1)
                (j1 + 2 * t) input2) ∧
        (inner = none →
          Forward_block_loop BitShift (2 ^ BitShift - 1) q (2 * q) rp prp m t (c + 1) i j1 input
            = none) ∧
        (4 * q < 2 ^ BitShift → ∃ input2, inner = some input2) ∧
        (∀ input2, inner = some input2 → input2.length = input.length ∧
          ∀ k, input2.getD k 0 =
            if j1 ≤ k ∧ k < j1 + t then
              Forward_X_out BitShift q (rp.getD (m + i) 0) (input.getD k 0)
                (input.getD (k + (j1 + t - j1)) 0)
            else if j1 + t ≤ k ∧ k < j1 + t + t then
              Forward_Y_out BitShift q (rp.getD (m + i) 0) (input.getD (k - (j1 + t - j1)) 0)
                (input.getD k 0)
            else input.getD k 0) := by
      have hsh : t <<< 1 = 2 * t := by rw [Nat.shiftLeft_eq]; ring
      have hsub : j1 + t - j1 = t := by omega
      by_cases h8 : t < 8
      · obtain ⟨out1, ho1, hl1, hg1⟩ := Forward_scalar_loop_spec BitShift q (rp.getD (m + i) 0)
          hBS hq h4 hWlt t j1 (j1 + t) input (by omega) (by omega)
          (fun k h1 h2 => hr k (by omega) (by omega))
          (fun k h1 h2 => hr k (by omega) (by omega))
        refine ⟨some out1, ?_, ?_, fun _ => ⟨out1, rfl⟩, ?_⟩
        · intro input2 h2
          have h2eq : out1 = input2 := Option.some.inj h2
          subst h2eq
          simp only [Forward_block_loop, hsub, h8, if_true, hWp, ho1, hsh]
        · intro h; exact absurd h (by simp)
        · intro input2 h2
          have h2eq : out1 = input2 := Option.some.inj h2
          subst h2eq
          exact ⟨hl1, hg1⟩
      · have h80 : t % 8 = 0 := by omega
        have hcnt : 8 * ((t + 7) / 8) = t := by omega
        obtain ⟨hvt, hvv⟩ := Forward_vector_loop_spec BitShift q (rp.getD (m + i) 0)
          hBS hq h4 hWlt ((t + 7) / 8) j1 (j1 + t) input (by omega) (by omega)
          (fun k h1 h2 => hr k (by omega) (by omega))
          (fun k h1 h2 => hr k (by omega) (by omega))
        rw [hcnt] at hvv
        refine ⟨Forward_vector_loop BitShift (2 ^ BitShift - 1) (mm512_set1_epi64 q)
          (mm512_set1_epi64 (2 * q)) (mm512_set1_epi64 (rp.getD (m + i) 0))
          (mm512_set1_epi64 (rp.getD (m + i) 0 * 2 ^ BitShift / q)) ((t + 7) / 8) j1 (j1 + t)
          input, ?_, ?_, hvt, hvv⟩
        · intro input2 h2
          simp only [Forward_block_loop, hsub, h8, if_false, hWp, h2, hsh]
        · intro h2
          simp only [Forward_block_loop, hsub, h8, if_false, hWp, h2]
    obtain ⟨inner, hsome, hnone, hit, hiv⟩ := hinner
    have hblk : ∀ input2, inner = some input2 →
        (∀ k, j1 + 2 * t ≤ k → input2.getD k 0 = input.getD k 0) := by
      intro input2 h2 k hk
      rw [(hiv input2 h2).2 k, if_neg (by omega), if_neg (by omega)]
    have hih := fun input2 (h2 : inner = some input2) =>
      ih (i + 1) (j1 + 2 * t) input2 hj2 (by rw [(hiv input2 h2).1]; omega)
        (fun b h1 hb2 => htw b (by omega) (by omega))
        (fun k h1 hk2 => by
          rw [hblk input2 h2 k h1]
          exact hr k (by omega) (by omega))
    constructor
    · intro hlt
      obtain ⟨input2, h2⟩ := hit hlt
      rw [hsome input2 h2]
      exact (hih input2 h2).1 hlt
    · intro out ho
      cases hin : inner with
      | none =>
        rw [hnone hin] at ho
        exact absurd ho (by simp)
      | some input2 =>
        rw [hsome input2 hin] at ho
        obtain ⟨hlo, hgo⟩ := (hih input2 hin).2 out ho
        obtain ⟨hl2, hg2⟩ := hiv input2 hin
        refine ⟨by rw [hlo, hl2], fun k => ?_⟩
        rw [hgo k]
        have hsub : j1 + t - j1 = t := by omega
        by_cases hk1 : j1 ≤ k ∧ k < j1 + 2 * t
        · obtain ⟨hd, hm⟩ := block_div_mod t i k (by rw [← hj]; exact hk1.1)
            (by rw [← hj]; exact hk1.2)
          rw [if_neg (show ¬ (j1 + 2 * t ≤ k ∧ k < j1 + 2 * t + 2 * t * c) by omega),
            if_pos (show j1 ≤ k ∧ k < j1 + 2 * t * (c + 1) by omega), hg2 k, hsub]
          unfold Forward_stage_value
          rw [hd, hm, ← hj]
          by_cases hk2 : k < j1 + t
          · rw [if_pos (show j1 ≤ k ∧ k < j1 + t by omega), if_pos (show k - j1 < t by omega)]
          · rw [if_neg (show ¬ (j1 ≤ k ∧ k < j1 + t) by omega),
              if_pos (show j1 + t ≤ k ∧ k < j1 + t + t by omega),
              if_neg (show ¬ (k - j1 < t) by omega)]
        · by_cases hk3 : j1 + 2 * t ≤ k ∧ k < j1 + 2 * t + 2 * t * c
          · rw [if_pos hk3, if_pos (show j1 ≤ k ∧ k < j1 + 2 * t * (c + 1) by omega)]
            exact Forward_stage_value_congr BitShift q rp m t input2 input (i + 1) k ht
              (by rw [← hj2]; exact hk3.1)
              (fun j hjj => hblk input2 hin j (by rw [hj2]; exact hjj))
          · rw [if_neg hk3, if_neg (show ¬ (j1 ≤ k ∧ k < j1 + 2 * t * (c + 1)) by omega),
              hg2 k, if_neg (show ¬ (j1 ≤ k ∧ k < j1 + t) by omega),
              if_neg (show ¬ (j1 + t ≤ k ∧ k < j1 + t + t) by omega)]

/-- The stage value of words below `4q` is below `4q`. -/
theorem Forward_stage_value_lt (BitShift q : Nat) (rp : List Nat) (m t : Nat)
    (input : List Nat) (k : Nat)
    (hBS : BitShift = 52 ∨ BitShift = 64) (hq : 1 ≤ q) (h4 : 4 * q ≤ 2 ^ BitShift)
    (hW : rp.getD (m + k / (2 * t)) 0 < q) (hr : ∀ j, input.getD j 0 < 4 * q) :
    Forward_stage_value BitShift q rp m t input k < 4 * q := by
  unfold Forward_stage_value
  split_ifs
  · exact (ForwardButterfly_values BitShift q _ _ _ hBS hq h4 hW (hr _) (hr _)).2.2.1
  · exact (ForwardButterfly_values BitShift q _ _ _ hBS hq h4 hW (hr _) (hr _)).2.2.2.1

/-- Reading any index of a buffer of words below a positive bound. -/
theorem getD_lt_of_forall_mem (l : List Nat) (b : Nat) (hb : 0 < b) (h : ∀ x ∈ l, x < b)
    (j : Nat) : l.getD j 0 < b := by
  by_cases hj : j < l.length
  · rw [List.getD_eq_getElem _ _ hj]
    exact h _ (List.getElem_mem _)
  · rw [List.getD_eq_default _ _ (by omega)]
    exact hb

/-- Every word of a buffer is one of its reads. -/
theorem forall_mem_of_getD_lt (l : List Nat) (b : Nat) (h : ∀ j, l.getD j 0 < b) :
    ∀ x ∈ l, x < b := by
  intro x hx
  obtain ⟨j, hj, rfl⟩ := List.getElem_of_mem hx
  have := h j
  rwa [List.getD_eq_getElem _ _ hj] at this

/-- One round of the stage loop on a buffer of `2 * t * m` words below `4q`:
when it goes through, every word is replaced by its stage value; it goes through
when `4q < 2^BitShift`. -/
theorem Forward_stage_spec (BitShift q : Nat) (rp prp : List Nat) (m t : Nat)
    (hBS : BitShift = 52 ∨ BitShift = 64) (hq : 1 ≤ q) (h4 : 4 * q ≤ 2 ^ BitShift)
    (ht : 0 < t) (ht8 : t < 8 ∨ t % 8 = 0) (input : List Nat)
    (hlen : input.length = 2 * t * m)
    (htw : ∀ b, b < m →
      rp.getD (m + b) 0 < q ∧ prp.getD (m + b) 0 = rp.getD (m + b) 0 * 2 ^ BitShift / q)
    (hr : ∀ j, input.getD j 0 < 4 * q) :
    (4 * q < 2 ^ BitShift →
      ∃ out, Forward_stage BitShift (2 ^ BitShift - 1) q (2 * q) rp prp m t input = some out) ∧
    (∀ out, Forward_stage BitShift (2 ^ BitShift - 1) q (2 * q) rp prp m t input = some out →
      out.length = input.length ∧
      (∀ k, k < input.length →
        out.getD k 0 = Forward_stage_value BitShift q rp m t input k) ∧
      ∀ j, out.getD j 0 < 4 * q) := by
  obtain ⟨h1, h2⟩ := Forward_block_loop_spec BitShift q rp prp m t hBS hq h4 ht ht8 m 0 0 input
    (by ring) (by omega) (fun b _ hb => htw b (by omega)) (fun k _ _ => hr k)
  refine ⟨h1, fun out ho => ?_⟩
  obtain ⟨hl, hg⟩ := h2 out ho
  have hval : ∀ k, k < input.length →
      out.getD k 0 = Forward_stage_value BitShift q rp m t input k := by
    intro k hk
    rw [hg k, if_pos (by omega)]
  refine ⟨hl, hval, fun j => ?_⟩
  by_cases hj : j < input.length
  · rw [hval j hj]
    have hb : j / (2 * t) < m := by
      rw [Nat.div_lt_iff_lt_mul (by omega)]
      rw [hlen, Nat.mul_comm] at hj
      exact hj
    exact Forward_stage_value_lt BitShift q rp m t input j hBS hq h4 (htw _ hb).1 hr
  · rw [List.getD_eq_default _ _ (by omega)]
    omega

/-! ## The stage loop of the forward transform -/

/-- Powers of two in the stage loop: the stride after `s` rounds. -/
theorem stride_facts (L s : Nat) (hs : s < L) :
    2 ^ L / 2 ^ (s + 1) = 2 ^ (L - 1 - s) ∧ 0 < 2 ^ (L - 1 - s) ∧
    2 * 2 ^ (L - 1 - s) * 2 ^ s = 2 ^ L ∧
    (2 ^ (L - 1 - s) < 8 ∨ 2 ^ (L - 1 - s) % 8 = 0) ∧
    2 ^ (L - 1 - s) >>> 1 = 2 ^ L / 2 ^ (s + 1 + 1) ∧ 2 ^ s <<< 1 = 2 ^ (s + 1) ∧
    2 ^ s < 2 ^ L := by
  have hsplit : 2 ^ L = 2 ^ (L - 1 - s) * 2 ^ (s + 1) := by
    rw [← pow_add]
    congr 1
    omega
  have h1 : 2 ^ L / 2 ^ (s + 1) = 2 ^ (L - 1 - s) := by
    rw [hsplit, Nat.mul_div_cancel _ (by positivity)]
  refine ⟨h1, by positivity, ?_, ?_, ?_, ?_, ?_⟩
  · rw [hsplit, pow_succ]; ring
  · by_cases h : L - 1 - s < 3
    · left
      have : L - 1 - s = 0 ∨ L - 1 - s = 1 ∨ L - 1 - s = 2 := by omega
      rcases this with h | h | h <;> rw [h] <;> norm_num
    · right
      obtain ⟨d, hd⟩ : ∃ d, L - 1 - s = d + 3 := ⟨L - 1 - s - 3, by omega⟩
      rw [hd, pow_add]
      norm_num
  · rw [Nat.shiftRight_eq_div_pow, ← h1, Nat.div_div_eq_div_mul, pow_one, ← pow_succ]
  · rw [Nat.shiftLeft_eq, pow_one, pow_succ]
  · exact Nat.pow_lt_pow_right (by norm_num) hs

/-- With enough fuel the stage loop is the iteration of its rounds: from round
`s` on, a transform of size `2^L` runs the remaining `L - s` rounds. -/
theorem Forward_stage_loop_eq_after_stages (BitShift bound mod twice_mod : Nat)
    (rp prp : List Nat) (L : Nat) :
    ∀ (r fuel s : Nat) (input : List Nat), s + r = L → r ≤ fuel →
      Forward_stage_loop BitShift bound mod twice_mod rp prp (2 ^ L) fuel (2 ^ s)
          (2 ^ L / 2 ^ (s + 1)) input
        = Forward_after_stages BitShift bound mod twice_mod rp prp r (2 ^ s)
          (2 ^ L / 2 ^ (s + 1)) input := by
  intro r
  induction r with
  | zero =>
    intro fuel s input hs _
    have hsL : s = L := by omega
    subst hsL
    cases fuel with
    | zero => simp [Forward_stage_loop, Forward_after_stages]
    | succ f => simp [Forward_stage_loop, Forward_after_stages]
  | succ r ih =>
    intro fuel s input hs hf
    obtain ⟨f, rfl⟩ : ∃ f, fuel = f + 1 := ⟨fuel - 1, by omega⟩
    obtain ⟨h1, _, _, _, h5, h6, h7⟩ := stride_facts L s (by omega)
    simp only [Forward_stage_loop, Forward_after_stages, h7, if_true]
    cases hst : Forward_stage BitShift bound mod twice_mod rp prp (2 ^ s)
        (2 ^ L / 2 ^ (s + 1)) input with
    | none => rfl
    | some input2 =>
      simp only []
      rw [h6, h1, h5]
      exact ih f (s + 1) input2 (by omega) (by omega)

/-- The rounds of the stage loop keep a buffer of `2^L` words below `4q`: from
round `s` on, when `k` further rounds go through, the buffer still has `2^L`
words below `4q`; they go through when `4q < 2^BitShift`. -/
theorem Forward_after_stages_range (BitShift q : Nat) (rp prp : List Nat) (L : Nat)
    (hBS : BitShift = 52 ∨ BitShift = 64) (hq : 1 ≤ q) (h4 : 4 * q ≤ 2 ^ BitShift)
    (htw : ∀ k, 1 ≤ k → k < 2 ^ L →
      rp.getD k 0 < q ∧ prp.getD k 0 = rp.getD k 0 * 2 ^ BitShift / q) :
    ∀ (k s : Nat) (input : List Nat), s + k ≤ L → input.length = 2 ^ L →
      (∀ j, input.getD j 0 < 4 * q) →
      (4 * q < 2 ^ BitShift →
        ∃ out, Forward_after_stages BitShift (2 ^ BitShift - 1) q (2 * q) rp prp k (2 ^ s)
          (2 ^ L / 2 ^ (s + 1)) input = some out) ∧
      (∀ out, Forward_after_stages BitShift (2 ^ BitShift - 1) q (2 * q) rp prp k (2 ^ s)
          (2 ^ L / 2 ^ (s + 1)) input = some out →
        out.length = 2 ^ L ∧ ∀ j, out.getD j 0 < 4 * q) := by
  intro k
  induction k with
  | zero =>
    intro s input _ hlen hr
    refine ⟨fun _ => ⟨input, rfl⟩, fun out ho => ?_⟩
    simp only [Forward_after_stages, Option.some.injEq] at ho
    subst ho
    exact ⟨hlen, hr⟩
  | succ k ih =>
    intro s input hs hlen hr
    obtain ⟨h1, h2, h3, h4', h5, h6, h7⟩ := stride_facts L s (by omega)
    have hspec := Forward_stage_spec BitShift q rp prp (2 ^ s) (2 ^ (L - 1 - s)) hBS hq h4 h2
      h4' input (by rw [hlen, h3])
      (fun b hb => htw (2 ^ s + b) (by have : 0 < 2 ^ s := by positivity
                                       omega)
        (by have : 2 ^ s + 2 ^ s ≤ 2 ^ L := by
              have := Nat.pow_le_pow_right (show 0 < 2 by norm_num) (show s + 1 ≤ L by omega)
              rw [pow_succ] at this
              omega
            omega))
      hr
    rw [h1]
    obtain ⟨hst, hsv⟩ := hspec
    constructor
    · intro hlt
      obtain ⟨input2, h2'⟩ := hst hlt
      obtain ⟨hl2, _, hr2⟩ := hsv input2 h2'
      simp only [Forward_after_stages, h2']
      rw [h6, h5]
      exact (ih (s + 1) input2 (by omega) (by rw [hl2, hlen]) hr2).1 hlt
    · intro out ho
      cases hst2 : Forward_stage BitShift (2 ^ BitShift - 1) q (2 * q) rp prp (2 ^ s)
          (2 ^ (L - 1 - s)) input with
      | none =>
        simp only [Forward_after_stages, hst2] at ho
        exact absurd ho (by simp)
      | some input2 =>
        obtain ⟨hl2, _, hr2⟩ := hsv input2 hst2
        simp only [Forward_after_stages, hst2] at ho
        rw [h6, h5] at ho
        exact (ih (s + 1) input2 (by omega) (by rw [hl2, hlen]) hr2).2 out ho

/-- The final pass on a buffer of words below `4q` whose length is below 8 or
a multiple of 8 leaves `x mod q` in the place of every word `x`. -/
theorem Forward_final_pass_map (q : Nat) (hq : 1 ≤ q) (h4 : 4 * q ≤ 2 ^ 64)
    (elements : List Nat) (hx : ∀ j, elements.getD j 0 < 4 * q)
    (hn : elements.length < 8 ∨ elements.length % 8 = 0) :
    Forward_final_pass q (2 * q) elements.length elements
      = some (elements.map (fun x => x % q)) := by
  unfold Forward_final_pass
  by_cases h8 : elements.length < 8
  · rw [if_pos h8]
    obtain ⟨hl, hg⟩ := Forward_final_scalar_loop_spec q hq h4 elements.length 0 elements
      (fun k _ _ => hx k) (by omega)
    congr 1
    apply ext_getD _ _ (by rw [hl, List.length_map])
    intro k hk
    rw [hl] at hk
    rw [hg k, if_pos (by omega), List.getD_eq_getElem _ _ hk,
      List.getD_eq_getElem _ _ (by rw [List.length_map]; exact hk), List.getElem_map]
  · have h0 : elements.length % 8 = 0 := by omega
    have hc : 8 * ((elements.length + 7) / 8) = elements.length := by omega
    simp only [h8, if_false, LATTICE_CHECK, h0, decide_True, Bool.not_true,
      Bool.false_eq_true]
    obtain ⟨hl, hg⟩ := Forward_final_vector_loop_spec q h4 ((elements.length + 7) / 8) 0
      elements (fun k _ _ => hx k) (by omega)
    congr 1
    apply ext_getD _ _ (by rw [hl, List.length_map])
    intro k hk
    rw [hl] at hk
    rw [hg k, if_pos (by omega), List.getD_eq_getElem _ _ hk,
      List.getD_eq_getElem _ _ (by rw [List.length_map]; exact hk), List.getElem_map]

/-- A power of two is below 8 or a multiple of 8. -/
theorem two_pow_lt_or_mod (L : Nat) : 2 ^ L < 8 ∨ 2 ^ L % 8 = 0 := by
  by_cases h : L < 3
  · left
    have : L = 0 ∨ L = 1 ∨ L = 2 := by omega
    rcases this with h | h | h <;> rw [h] <;> norm_num
  · right
    obtain ⟨d, hd⟩ : ∃ d, L = d + 3 := ⟨L - 3, by omega⟩
    rw [hd, pow_add]
    norm_num

/-- The forward transform, unfolded: once `CheckArguments` has returned, the
call is the two entry checks, the iteration of the `L` rounds, and the final
pass. -/
theorem ForwardTransform_unfold (CheckArguments : Nat → Nat → Option Bool)
    (BitShift L q : Nat) (rp prp elements : List Nat)
    (hBS : BitShift = 52 ∨ BitShift = 64) (hL : L < 64) (h4 : 4 * q ≤ 2 ^ BitShift)
    (b : Bool) (hca : CheckArguments (2 ^ L) q = some b) :
    ForwardTransformToBitReverseAVX512 CheckArguments BitShift (2 ^ L) q rp prp elements
      = if !CheckBounds3 prp (2 ^ L) (2 ^ BitShift - 1) then none
        else if !CheckBounds3 elements (2 ^ L) (2 ^ BitShift - 1) then none
        else
          match Forward_after_stages BitShift (2 ^ BitShift - 1) q (2 * q) rp prp L (2 ^ 0)
              (2 ^ L / 2 ^ (0 + 1)) elements with
          | none => none
          | some input => Forward_final_pass q (2 * q) (2 ^ L) input := by
  have hpow : 2 ^ BitShift ≤ 2 ^ 64 := by
    rcases hBS with h | h <;> subst h <;> norm_num
  have htm : shl64 q 1 = 2 * q := shl64_one q (by omega)
  have hloop := Forward_stage_loop_eq_after_stages BitShift (2 ^ BitShift - 1) q (2 * q) rp prp
    L L 64 0 elements (by omega) (by omega)
  have ht : 2 ^ L >>> 1 = 2 ^ L / 2 ^ (0 + 1) := by
    rw [Nat.shiftRight_eq_div_pow]
  have h1 : (1 : Nat) = 2 ^ 0 := by norm_num
  simp only [ForwardTransformToBitReverseAVX512, hca, MaximumValue_eq BitShift hBS, htm,
    LATTICE_CHECK, ht]
  rw [← hloop]
  rfl

/-- The entry check on the table of factors passes when every factor is the
Barrett factor of a twiddle below `q`. -/
theorem CheckBounds3_precon (BitShift q n : Nat) (rp prp : List Nat) (hq : 1 ≤ q)
    (h4 : 4 * q ≤ 2 ^ BitShift)
    (htw : ∀ k, k < n →
      rp.getD k 0 < q ∧ prp.getD k 0 = rp.getD k 0 * 2 ^ BitShift / q) :
    CheckBounds3 prp n (2 ^ BitShift - 1) = true := by
  simp only [CheckBounds3, LATTICE_CHECK_BOUNDS, List.all_eq_true, decide_eq_true_eq]
  intro x hx
  obtain ⟨k, hk, rfl⟩ := List.getElem_of_mem hx
  rw [List.length_take] at hk
  obtain ⟨hkn, hkl⟩ := lt_min_iff.1 hk
  rw [List.getElem_take]
  obtain ⟨h1, h2⟩ := htw k hkn
  rw [List.getD_eq_getElem prp 0 hkl] at h2
  rw [h2]
  exact precon_lt (2 ^ BitShift) q _ hq h4 h1

/-- The entry check on the buffer passes when every word is below
`2^BitShift - 1`. -/
theorem CheckBounds3_elements (elements : List Nat) (n bound : Nat)
    (hx : ∀ x ∈ elements, x < bound) : CheckBounds3 elements n bound = true := by
  simp only [CheckBounds3, LATTICE_CHECK_BOUNDS, List.all_eq_true, decide_eq_true_eq]
  intro x hx2
  exact hx x (List.mem_of_mem_take hx2)

/-- C16: the output range of the forward transform.  For `n = 2^L`, a modulus
`q >= 1` with `4q <= 2^BitShift`, twiddles `W < q` with the factors
`floor(W * 2^BitShift / q)` and `n` input words below `4q`: whenever the
transform returns, it returns `n` words that are all below `q`; and it does
return when `CheckArguments` does and `4q < 2^BitShift`. -/
theorem ForwardTransform_output_range (CheckArguments : Nat → Nat → Option Bool)
    (BitShift n L q : Nat) (rp prp elements : List Nat)
    (hBS : BitShift = 52 ∨ BitShift = 64) (hn : n = 2 ^ L) (hL : L < 64) (hq : 1 ≤ q)
    (h4 : 4 * q ≤ 2 ^ BitShift) (hlen : elements.length = n)
    (htw : ∀ k, k < n →
      rp.getD k 0 < q ∧ prp.getD k 0 = rp.getD k 0 * 2 ^ BitShift / q)
    (hx : ∀ x ∈ elements, x < 4 * q) :
    (∀ out, ForwardTransformToBitReverseAVX512 CheckArguments BitShift n q rp prp elements
        = some out → out.length = n ∧ ∀ x ∈ out, x < q) ∧
    (CheckArguments n q ≠ none → 4 * q < 2 ^ BitShift →
      ∃ out, ForwardTransformToBitReverseAVX512 CheckArguments BitShift n q rp prp elements
        = some out) := by
  subst hn
  have hpow : 2 ^ BitShift ≤ 2 ^ 64 := by
    rcases hBS with h | h <;> subst h <;> norm_num
  have hr : ∀ j, elements.getD j 0 < 4 * q :=
    getD_lt_of_forall_mem elements (4 * q) (by omega) hx
  obtain ⟨hat, hav⟩ := Forward_after_stages_range BitShift q rp prp L hBS hq h4
    (fun k _ hk => htw k hk) L 0 elements (by omega) hlen hr
  have hfinal : ∀ input : List Nat, input.length = 2 ^ L → (∀ j, input.getD j 0 < 4 * q) →
      Forward_final_pass q (2 * q) (2 ^ L) input = some (input.map (fun x => x % q)) := by
    intro input hl hi
    have := Forward_final_pass_map q hq (by omega) input hi (by rw [hl]; exact two_pow_lt_or_mod L)
    rwa [hl] at this
  constructor
  · intro out ho
    cases hca : CheckArguments (2 ^ L) q with
    | none =>
      simp only [ForwardTransformToBitReverseAVX512, hca] at ho
      exact absurd ho (by simp)
    | some b =>
      rw [ForwardTransform_unfold CheckArguments BitShift L q rp prp elements hBS hL h4 b hca]
        at ho
      split_ifs at ho
      cases hst : Forward_after_stages BitShift (2 ^ BitShift - 1) q (2 * q) rp prp L (2 ^ 0)
          (2 ^ L / 2 ^ (0 + 1)) elements with
      | none =>
        rw [hst] at ho
        exact absurd ho (by simp)
      | some input =>
        rw [hst] at ho
        obtain ⟨hl, hi⟩ := hav input hst
        simp only [] at ho
        rw [hfinal input hl hi] at ho
        have := Option.some.inj ho
        subst this
        refine ⟨by rw [List.length_map, hl], fun x hx2 => ?_⟩
        obtain ⟨y, _, rfl⟩ := List.mem_map.1 hx2
        exact Nat.mod_lt _ (by omega)
  · intro hca hlt
    obtain ⟨b, hb⟩ := Option.ne_none_iff_exists'.1 hca
    rw [ForwardTransform_unfold CheckArguments BitShift L q rp prp elements hBS hL h4 b hb]
    rw [CheckBounds3_precon BitShift q (2 ^ L) rp prp hq h4 htw,
      CheckBounds3_elements elements (2 ^ L) (2 ^ BitShift - 1)
        (fun x hx2 => by have := hx x hx2; omega)]
    obtain ⟨input, hst⟩ := hat hlt
    obtain ⟨hl, hi⟩ := hav input hst
    simp only [Bool.not_true, Bool.false_eq_true, if_false, hst]
    exact ⟨_, hfinal input hl hi⟩

/-- Witness of C16: the transform of size 4 at modulus 17 with the tables of
the root 2. -/
theorem ForwardTransform_output_range_witness :
    (∀ out, ForwardTransformToBitReverseAVX512 (fun _ _ => some true) 64 4 17 [1, 4, 2, 8]
        [1085102592571150095, 4340410370284600380, 2170205185142300190,
          8680820740569200760] [7, 16, 4, 0] = some out →
      out.length = 4 ∧ ∀ x ∈ out, x < 17) ∧
    ((fun (_ _ : Nat) => some true) 4 17 ≠ none → 4 * 17 < 2 ^ 64 →
      ∃ out, ForwardTransformToBitReverseAVX512 (fun _ _ => some true) 64 4 17 [1, 4, 2, 8]
        [1085102592571150095, 4340410370284600380, 2170205185142300190,
          8680820740569200760] [7, 16, 4, 0] = some out) :=
  ForwardTransform_output_range (fun _ _ => some true) 64 4 2 17 [1, 4, 2, 8]
    [1085102592571150095, 4340410370284600380, 2170205185142300190, 8680820740569200760]
    [7, 16, 4, 0] (by decide) (by decide) (by decide) (by decide) (by decide) (by decide)
    (by decide) (by decide)

/-- C17, counterexample: at `n = 4`, `q = 17` with the tables of the root
`psi = 2` and the input `[7, 16, 4, 0]` below `q`, the buffer after the first
of the two rounds holds `50`, which is not below `2q = 34`. -/
theorem Forward_mid_stage_not_below_2q :
    Forward_after_stages 64 (2 ^ 64 - 1) 17 (shl64 17 1) [1, 4, 2, 8]
        [1085102592571150095, 4340410370284600380, 2170205185142300190,
          8680820740569200760] 1 1 (4 >>> 1) [7, 16, 4, 0] = some [23, 16, 25, 50] ∧
      ¬ (∀ x ∈ [23, 16, 25, 50], x < 2 * 17) := by
  decide

/-- C17, amended: for `n = 2^L`, an odd modulus `q` with `4q <= 2^BitShift`,
twiddles `W < q` with the factors `floor(W * 2^BitShift / q)` and `n` input
words below `q`, the first `k <= L` rounds of the forward transform run to
their end and leave `n` words that are all below `4q`. -/
theorem Forward_mid_stage_range (BitShift n L q : Nat) (rp prp elements : List Nat)
    (hBS : BitShift = 52 ∨ BitShift = 64) (hn : n = 2 ^ L) (hodd : q % 2 = 1)
    (h4 : 4 * q ≤ 2 ^ BitShift) (hlen : elements.length = n)
    (htw : ∀ k, k < n →
      rp.getD k 0 < q ∧ prp.getD k 0 = rp.getD k 0 * 2 ^ BitShift / q)
    (hx : ∀ x ∈ elements, x < q) (k : Nat) (hk : k ≤ L) :
    ∃ out, Forward_after_stages BitShift (2 ^ BitShift - 1) q (shl64 q 1) rp prp k 1
        (n >>> 1) elements = some out ∧ out.length = n ∧ ∀ x ∈ out, x < 4 * q := by
  subst hn
  have hq : 1 ≤ q := by omega
  have hpow : 2 ^ BitShift ≤ 2 ^ 64 := by
    rcases hBS with h | h <;> subst h <;> norm_num
  have hlt : 4 * q < 2 ^ BitShift := by
    rcases hBS with h | h <;> subst h <;> norm_num at h4 ⊢ <;> omega
  have hr : ∀ j, elements.getD j 0 < 4 * q :=
    getD_lt_of_forall_mem elements (4 * q) (by omega) (fun x hx2 => by
      have := hx x hx2
      omega)
  obtain ⟨hat, hav⟩ := Forward_after_stages_range BitShift q rp prp L hBS hq h4
    (fun k _ hk => htw k hk) k 0 elements (by omega) hlen hr
  have htm : shl64 q 1 = 2 * q := shl64_one q (by omega)
  have ht : 2 ^ L >>> 1 = 2 ^ L / 2 ^ (0 + 1) := by
    rw [Nat.shiftRight_eq_div_pow]
  rw [htm, ht]
  obtain ⟨out, ho⟩ := hat hlt
  obtain ⟨hl, hi⟩ := hav out ho
  exact ⟨out, ho, hl, forall_mem_of_getD_lt out (4 * q) hi⟩

/-- Witness of the amended C17: the first round at `n = 4`, `q = 17`. -/
theorem Forward_mid_stage_range_witness :
    ∃ out, Forward_after_stages 64 (2 ^ 64 - 1) 17 (shl64 17 1) [1, 4, 2, 8]
        [1085102592571150095, 4340410370284600380, 2170205185142300190,
          8680820740569200760] 1 1 (4 >>> 1) [7, 16, 4, 0] = some out ∧
      out.length = 4 ∧ ∀ x ∈ out, x < 4 * 17 :=
  Forward_mid_stage_range 64 4 2 17 [1, 4, 2, 8]
    [1085102592571150095, 4340410370284600380, 2170205185142300190, 8680820740569200760]
    [7, 16, 4, 0] (by decide) (by decide) (by decide) (by decide) (by decide) (by decide)
    (by decide) 1 (by decide)

/-! ## The forward transform computes the negacyclic transform -/

/-- Bit reversal of zero. -/
theorem ReverseBitsUInt_zero (bits : Nat) : ReverseBitsUInt 0 bits = 0 := by
  induction bits with
  | zero => rfl
  | succ b ih => simp [ReverseBitsUInt, ih]

/-- The reversal of `2^s + i` on `L` bits, for `i < 2^s` and `s < L`: the
exponent of the twiddle of block `i` in round `s`. -/
theorem ReverseBitsUInt_block : ∀ (s L i : Nat), s < L → i < 2 ^ s →
    ReverseBitsUInt (2 ^ s + i) L = (2 * ReverseBitsUInt i s + 1) * 2 ^ (L - 1 - s) := by
  intro s
  induction s with
  | zero =>
    intro L i hL hi
    obtain ⟨M, rfl⟩ : ∃ M, L = M + 1 := ⟨L - 1, by omega⟩
    have hi0 : i = 0 := by simpa using hi
    subst hi0
    simp [ReverseBitsUInt, ReverseBitsUInt_zero]
  | succ s ih =>
    intro L i hL hi
    obtain ⟨M, rfl⟩ : ∃ M, L = M + 1 := ⟨L - 1, by omega⟩
    have hi2 : i / 2 < 2 ^ s := by
      rw [pow_succ] at hi
      omega
    have hdiv : (2 ^ (s + 1) + i) / 2 = 2 ^ s + i / 2 := by
      rw [pow_succ]
      omega
    have hmod : (2 ^ (s + 1) + i) % 2 = i % 2 := by
      rw [pow_succ]
      omega
    have hM : 2 ^ M = 2 ^ (s + 1) * 2 ^ (M - 1 - s) := by
      rw [← pow_add]
      congr 1
      omega
    rw [ReverseBitsUInt, hdiv, hmod, ih M (i / 2) (by omega) hi2]
    rw [show ReverseBitsUInt i (s + 1) = (i % 2) * 2 ^ s + ReverseBitsUInt (i / 2) s from rfl]
    rw [show M + 1 - 1 - (s + 1) = M - 1 - s by omega, hM, pow_succ]
    ring

/-- A sum over `2N` terms, paired. -/
theorem sum_range_two_mul {R : Type} [AddCommMonoid R] (f : Nat → R) (N : Nat) :
    Finset.sum (Finset.range (2 * N)) f
      = Finset.sum (Finset.range N) (fun k => f (2 * k) + f (2 * k + 1)) := by
  induction N with
  | zero => simp
  | succ N ih =>
    rw [show 2 * (N + 1) = 2 * N + 1 + 1 by ring, Finset.sum_range_succ, Finset.sum_range_succ,
      ih, Finset.sum_range_succ, add_assoc]

/-- One round of the decimation in a commutative ring: if block `i` of size
`2t` holds the input reduced modulo `x^(2t) - psi^(e_i * 2t)` and the round
sends the pair `(X, Y)` at distance `t` to `(X + W Y, X - W Y)` with
`W = psi^(e_i * t)`, then the blocks of size `t` hold the reductions modulo
`x^t - psi^(e * t)` with the exponents of the next round. -/
theorem stage_step_algebra {R : Type} [CommRing R] (psi : R) (s t : Nat)
    (hpsi : psi ^ (2 ^ (s + 1) * t) = -1) (a A B W : Nat → R)
    (hW : ∀ i, i < 2 ^ s → W i = psi ^ ((2 * ReverseBitsUInt i s + 1) * t))
    (hInv : ∀ i j, i < 2 ^ s → j < 2 * t →
      A (i * (2 * t) + j) = Finset.sum (Finset.range (2 ^ s)) (fun k =>
        a (j + k * (2 * t)) * psi ^ ((2 * ReverseBitsUInt i s + 1) * (2 * t) * k)))
    (hX : ∀ i j, i < 2 ^ s → j < t →
      B (i * (2 * t) + j) = A (i * (2 * t) + j) + W i * A (i * (2 * t) + (j + t)))
    (hY : ∀ i j, i < 2 ^ s → j < t →
      B (i * (2 * t) + t + j) = A (i * (2 * t) + j) - W i * A (i * (2 * t) + (j + t))) :
    ∀ i j, i < 2 ^ (s + 1) → j < t →
      B (i * t + j) = Finset.sum (Finset.range (2 ^ (s + 1))) (fun k =>
        a (j + k * t) * psi ^ ((2 * ReverseBitsUInt i (s + 1) + 1) * t * k)) := by
  intro i j hi hj
  have hi2 : i / 2 < 2 ^ s := by
    rw [pow_succ] at hi
    omega
  have hbrev : ReverseBitsUInt i (s + 1) = (i % 2) * 2 ^ s + ReverseBitsUInt (i / 2) s := rfl
  rw [show 2 ^ (s + 1) = 2 * 2 ^ s by rw [pow_succ]; ring, sum_range_two_mul]
  rcases Nat.mod_two_eq_zero_or_one i with hb | hb
  · have hidx : i * t + j = i / 2 * (2 * t) + j := by
      have : i = 2 * (i / 2) := by omega
      nth_rewrite 1 [this]
      ring
    rw [hidx, hX _ _ hi2 hj, hInv _ _ hi2 (by omega), hInv _ _ hi2 (by omega), hW _ hi2,
      Finset.mul_sum, ← Finset.sum_add_distrib, hbrev, hb]
    apply Finset.sum_congr rfl
    intro k _
    rw [show j + 2 * k * t = j + k * (2 * t) by ring,
      show j + (2 * k + 1) * t = j + t + k * (2 * t) by ring]
    rw [show (2 * (0 * 2 ^ s + ReverseBitsUInt (i / 2) s) + 1) * t * (2 * k)
        = (2 * ReverseBitsUInt (i / 2) s + 1) * (2 * t) * k by ring,
      show (2 * (0 * 2 ^ s + ReverseBitsUInt (i / 2) s) + 1) * t * (2 * k + 1)
        = (2 * ReverseBitsUInt (i / 2) s + 1) * t
          + (2 * ReverseBitsUInt (i / 2) s + 1) * (2 * t) * k by ring, pow_add]
    ring
  · have hidx : i * t + j = i / 2 * (2 * t) + t + j := by
      have : i = 2 * (i / 2) + 1 := by omega
      nth_rewrite 1 [this]
      ring
    rw [hidx, hY _ _ hi2 hj, hInv _ _ hi2 (by omega), hInv _ _ hi2 (by omega), hW _ hi2,
      Finset.mul_sum, ← Finset.sum_sub_distrib, hbrev, hb]
    apply Finset.sum_congr rfl
    intro k _
    rw [show j + 2 * k * t = j + k * (2 * t) by ring,
      show j + (2 * k + 1) * t = j + t + k * (2 * t) by ring]
    have hneg : psi ^ (2 * 2 ^ s * t) = -1 := by
      rw [← hpsi, pow_succ]
      congr 1
      ring
    rw [show (2 * (1 * 2 ^ s + ReverseBitsUInt (i / 2) s) + 1) * t * (2 * k)
        = (2 * 2 ^ s * t) * (2 * k) + (2 * ReverseBitsUInt (i / 2) s + 1) * (2 * t) * k by ring,
      show (2 * (1 * 2 ^ s + ReverseBitsUInt (i / 2) s) + 1) * t * (2 * k + 1)
        = (2 * 2 ^ s * t) * (2 * k + 1) + ((2 * ReverseBitsUInt (i / 2) s + 1) * t
          + (2 * ReverseBitsUInt (i / 2) s + 1) * (2 * t) * k) by ring,
      pow_add, pow_add, pow_add, pow_mul psi (2 * 2 ^ s * t) (2 * k),
      pow_mul psi (2 * 2 ^ s * t) (2 * k + 1), hneg]
    rw [show ((-1 : R)) ^ (2 * k) = 1 by rw [pow_mul]; simp,
      show ((-1 : R)) ^ (2 * k + 1) = -1 by rw [pow_succ, pow_mul]; simp]
    ring

/-- One round of the forward transform keeps the coefficient form: if the
buffer `A` (words below `4q`) has the form of round `s` and `out` holds the
values `Forward_stage_value` of round `s` on `A`, then `out` has the form of
round `s + 1`. -/
theorem Forward_stage_inv_step (BitShift q psi L s : Nat) (rp a A out : List Nat)
    (hBS : BitShift = 52 ∨ BitShift = 64) (hq : 1 ≤ q) (h4 : 4 * q ≤ 2 ^ BitShift)
    (hs : s < L) (hpsi : ((psi : Nat) : ZMod q) ^ (2 ^ L) = -1)
    (hrp : ∀ k, k < 2 ^ L → rp.getD k 0 = psi ^ ReverseBitsUInt k L % q)
    (hr : ∀ j, A.getD j 0 < 4 * q)
    (hout : ∀ k, k < 2 ^ L →
      out.getD k 0 = Forward_stage_value BitShift q rp (2 ^ s) (2 ^ (L - 1 - s)) A k)
    (hinv : Forward_stage_inv q psi L a s A) :
    Forward_stage_inv q psi L a (s + 1) out := by
  obtain ⟨_, ht, h3, _, _, _, hlt⟩ := stride_facts L s hs
  have h2t : 2 ^ (L - s) = 2 * 2 ^ (L - 1 - s) := by
    rw [show L - s = (L - 1 - s) + 1 by omega, pow_succ]
    ring
  have ht' : 2 ^ (L - (s + 1)) = 2 ^ (L - 1 - s) := by
    congr 1
    omega
  unfold Forward_stage_inv at hinv ⊢
  rw [ht']
  rw [h2t] at hinv
  have hexp : ∀ i, i < 2 ^ s →
      ReverseBitsUInt (2 ^ s + i) L = (2 * ReverseBitsUInt i s + 1) * 2 ^ (L - 1 - s) :=
    fun i hi => ReverseBitsUInt_block s L i hs hi
  generalize 2 ^ (L - 1 - s) = t at *
  have hblk : ∀ i, i < 2 ^ s → 2 ^ s + i < 2 ^ L := by
    intro i hi
    have : 2 ^ s * (2 * t) = 2 ^ L := by rw [← h3]; ring
    nlinarith
  have hWlt : ∀ i, i < 2 ^ s → rp.getD (2 ^ s + i) 0 < q := by
    intro i hi
    rw [hrp _ (hblk i hi)]
    exact Nat.mod_lt _ (by omega)
  have hidx : ∀ i j, i < 2 ^ s → j < 2 * t → i * (2 * t) + j < 2 ^ L := by
    intro i j hi hj
    have : 2 ^ s * (2 * t) = 2 ^ L := by rw [← h3]; ring
    have : (i + 1) * (2 * t) ≤ 2 ^ s * (2 * t) := Nat.mul_le_mul_right _ (by omega)
    rw [Nat.add_mul] at this
    omega
  refine stage_step_algebra ((psi : Nat) : ZMod q) s t ?_
    (fun j => ((a.getD j 0 : Nat) : ZMod q)) (fun k => ((A.getD k 0 : Nat) : ZMod q))
    (fun k => ((out.getD k 0 : Nat) : ZMod q))
    (fun i => ((rp.getD (2 ^ s + i) 0 : Nat) : ZMod q)) ?_ hinv ?_ ?_
  · rw [← hpsi]
    congr 1
    rw [← h3, pow_succ]
    ring
  · intro i hi
    show ((rp.getD (2 ^ s + i) 0 : Nat) : ZMod q) = _
    rw [hrp _ (hblk i hi), ZMod.natCast_mod, Nat.cast_pow, hexp i hi]
  · intro i j hi hj
    show ((out.getD (i * (2 * t) + j) 0 : Nat) : ZMod q)
      = ((A.getD (i * (2 * t) + j) 0 : Nat) : ZMod q)
        + ((rp.getD (2 ^ s + i) 0 : Nat) : ZMod q)
          * ((A.getD (i * (2 * t) + (j + t)) 0 : Nat) : ZMod q)
    obtain ⟨hd, hm⟩ := block_div_mod t i (i * (2 * t) + j)
      (by rw [Nat.mul_comm i]; omega) (by rw [Nat.mul_comm i]; omega)
    rw [hout _ (hidx i j hi (by omega))]
    unfold Forward_stage_value
    rw [hd, hm, if_pos (by rw [Nat.mul_comm i]; omega)]
    have hv := (ForwardButterfly_values BitShift q (rp.getD (2 ^ s + i) 0)
      (A.getD (i * (2 * t) + j) 0) (A.getD (i * (2 * t) + j + t) 0) hBS hq h4
      (hWlt i hi) (hr _) (hr _)).2.2.2.2.1
    have hc := (ZMod.natCast_eq_natCast_iff _ _ q).2 hv
    rw [hc, show i * (2 * t) + (j + t) = i * (2 * t) + j + t by ring]
    push_cast
    ring
  · intro i j hi hj
    show ((out.getD (i * (2 * t) + t + j) 0 : Nat) : ZMod q)
      = ((A.getD (i * (2 * t) + j) 0 : Nat) : ZMod q)
        - ((rp.getD (2 ^ s + i) 0 : Nat) : ZMod q)
          * ((A.getD (i * (2 * t) + (j + t)) 0 : Nat) : ZMod q)
    obtain ⟨hd, hm⟩ := block_div_mod t i (i * (2 * t) + t + j)
      (by rw [Nat.mul_comm i]; omega) (by rw [Nat.mul_comm i]; omega)
    rw [hout _ (by have := hidx i (t + j) hi (by omega); omega)]
    unfold Forward_stage_value
    rw [hd, hm, if_neg (by rw [Nat.mul_comm i]; omega)]
    have hv := (ForwardButterfly_values BitShift q (rp.getD (2 ^ s + i) 0)
      (A.getD (i * (2 * t) + t + j - t) 0) (A.getD (i * (2 * t) + t + j) 0) hBS hq h4
      (hWlt i hi) (hr _) (hr _)).2.2.2.2.2
    have hc := (ZMod.natCast_eq_natCast_iff _ _ q).2 hv
    rw [show i * (2 * t) + t + j - t = i * (2 * t) + j by omega] at hc ⊢
    rw [show i * (2 * t) + (j + t) = i * (2 * t) + t + j by ring]
    push_cast at hc
    rw [← hc]
    ring

/-- Before the first round the buffer is the input itself. -/
theorem Forward_stage_inv_zero (q psi L : Nat) (a : List Nat) :
    Forward_stage_inv q psi L a 0 a := by
  intro i j hi _
  have hi0 : i = 0 := by simpa using hi
  subst hi0
  simp

/-- The coefficient form is kept by any number of rounds of the forward
transform. -/
theorem Forward_after_stages_inv (BitShift q psi L : Nat) (rp prp a : List Nat)
    (hBS : BitShift = 52 ∨ BitShift = 64) (hq : 1 ≤ q) (h4 : 4 * q ≤ 2 ^ BitShift)
    (hpsi : ((psi : Nat) : ZMod q) ^ (2 ^ L) = -1)
    (hrp : ∀ k, k < 2 ^ L → rp.getD k 0 = psi ^ ReverseBitsUInt k L % q)
    (hprp : ∀ k, k < 2 ^ L → prp.getD k 0 = rp.getD k 0 * 2 ^ BitShift / q) :
    ∀ (k s : Nat) (input : List Nat), s + k ≤ L → input.length = 2 ^ L →
      (∀ j, input.getD j 0 < 4 * q) → Forward_stage_inv q psi L a s input →
      ∀ out, Forward_after_stages BitShift (2 ^ BitShift - 1) q (2 * q) rp prp k (2 ^ s)
          (2 ^ L / 2 ^ (s + 1)) input = some out →
        Forward_stage_inv q psi L a (s + k) out := by
  have htw : ∀ k, k < 2 ^ L →
      rp.getD k 0 < q ∧ prp.getD k 0 = rp.getD k 0 * 2 ^ BitShift / q := by
    intro k hk
    refine ⟨?_, hprp k hk⟩
    rw [hrp k hk]
    exact Nat.mod_lt _ (by omega)
  intro k
  induction k with
  | zero =>
    intro s input _ _ _ hinv out ho
    simp only [Forward_after_stages, Option.some.injEq] at ho
    subst ho
    exact hinv
  | succ k ih =>
    intro s input hs hlen hr hinv out ho
    obtain ⟨h1, h2, h3, h4', h5, h6, h7⟩ := stride_facts L s (by omega)
    have hspec := Forward_stage_spec BitShift q rp prp (2 ^ s) (2 ^ (L - 1 - s)) hBS hq h4 h2
      h4' input (by rw [hlen, h3])
      (fun b hb => htw (2 ^ s + b)
        (by have : 2 ^ s + 2 ^ s ≤ 2 ^ L := by
              have := Nat.pow_le_pow_right (show 0 < 2 by norm_num) (show s + 1 ≤ L by omega)
              rw [pow_succ] at this
              omega
            omega))
      hr
    rw [h1] at ho
    cases hst2 : Forward_stage BitShift (2 ^ BitShift - 1) q (2 * q) rp prp (2 ^ s)
        (2 ^ (L - 1 - s)) input with
    | none =>
      simp only [Forward_after_stages, hst2] at ho
      exact absurd ho (by simp)
    | some input2 =>
      obtain ⟨hl2, hv2, hr2⟩ := hspec.2 input2 hst2
      simp only [Forward_after_stages, hst2] at ho
      rw [h6, h5] at ho
      have hinv2 := Forward_stage_inv_step BitShift q psi L s rp a input input2 hBS hq h4
        (by omega) hpsi hrp hr (fun j hj => hv2 j (by rw [hlen]; exact hj)) hinv
      have := ih (s + 1) input2 (by omega) (by rw [hl2, hlen]) hr2 hinv2 out ho
      rwa [show s + 1 + k = s + (k + 1) by omega] at this

/-- For a prime `q`, a primitive `2n`-th root of unity `psi` mod `q` has
`psi^n = -1` mod `q`. -/
theorem psi_pow_eq_neg_one (q psi n : Nat) (hprime : Nat.Prime q) (hn : 0 < n)
    (h1 : psi ^ (2 * n) % q = 1) (h2 : ∀ k, k < 2 * n → 0 < k → psi ^ k % q ≠ 1) :
    ((psi : Nat) : ZMod q) ^ n = -1 := by
  haveI : Fact q.Prime := ⟨hprime⟩
  have hq1 : 1 < q := hprime.one_lt
  have hsq : ((psi : Nat) : ZMod q) ^ n * ((psi : Nat) : ZMod q) ^ n = 1 := by
    rw [← pow_add, ← two_mul, ← Nat.cast_pow, ← ZMod.natCast_mod, h1, Nat.cast_one]
  rcases mul_self_eq_one_iff.1 hsq with h | h
  · exfalso
    apply h2 n (by omega) hn
    have : ((psi ^ n : Nat) : ZMod q) = ((1 : Nat) : ZMod q) := by
      rw [Nat.cast_pow, h, Nat.cast_one]
    rw [ZMod.natCast_eq_natCast_iff'] at this
    rw [this, Nat.mod_eq_of_lt hq1]
  · exact h

/-- C14: the forward transform computes the negacyclic transform.  For
`n = 2^L`, an odd prime `q` with `4q <= 2^BitShift`, `psi` a primitive `2n`-th
root of unity mod `q`, the table `root_of_unity_powers[k] = psi^bitrev_L(k) mod q`
with the factors `floor(W * 2^BitShift / q)`, and `n` input words `a[j] < q`,
the transform returns (once `CheckArguments` has returned) and leaves
`(sum over j < n of a[j] * psi^((2 * bitrev_L(i) + 1) * j)) mod q` at every
index `i < n`. -/
theorem ForwardTransform_negacyclic (CheckArguments : Nat → Nat → Option Bool)
    (BitShift n L q psi : Nat) (rp prp elements : List Nat)
    (hBS : BitShift = 52 ∨ BitShift = 64) (hn : n = 2 ^ L) (hL : L < 64)
    (hprime : Nat.Prime q) (hodd : q % 2 = 1) (h4 : 4 * q ≤ 2 ^ BitShift)
    (hpsi1 : psi ^ (2 * n) % q = 1) (hpsi2 : ∀ k, k < 2 * n → 0 < k → psi ^ k % q ≠ 1)
    (hrp : ∀ k, k < n → rp.getD k 0 = psi ^ ReverseBitsUInt k L % q)
    (hprp : ∀ k, k < n → prp.getD k 0 = rp.getD k 0 * 2 ^ BitShift / q)
    (hlen : elements.length = n) (hx : ∀ x ∈ elements, x < q)
    (hca : CheckArguments n q ≠ none) :
    ∃ out, ForwardTransformToBitReverseAVX512 CheckArguments BitShift n q rp prp elements
        = some out ∧ out.length = n ∧
      ∀ i, i < n → out.getD i 0
        = (Finset.sum (Finset.range n) (fun j =>
            elements.getD j 0 * psi ^ ((2 * ReverseBitsUInt i L + 1) * j))) % q := by
  subst hn
  have hq : 1 ≤ q := by omega
  have hpow : 2 ^ BitShift ≤ 2 ^ 64 := by
    rcases hBS with h | h <;> subst h <;> norm_num
  have hlt : 4 * q < 2 ^ BitShift := by
    rcases hBS with h | h <;> subst h <;> norm_num at h4 ⊢ <;> omega
  have hpsi := psi_pow_eq_neg_one q psi (2 ^ L) hprime (by positivity) hpsi1 hpsi2
  have htw : ∀ k, k < 2 ^ L →
      rp.getD k 0 < q ∧ prp.getD k 0 = rp.getD k 0 * 2 ^ BitShift / q := by
    intro k hk
    refine ⟨?_, hprp k hk⟩
    rw [hrp k hk]
    exact Nat.mod_lt _ (by omega)
  have hr : ∀ j, elements.getD j 0 < 4 * q :=
    getD_lt_of_forall_mem elements (4 * q) (by omega) (fun x hx2 => by
      have := hx x hx2
      omega)
  obtain ⟨hat, hav⟩ := Forward_after_stages_range BitShift q rp prp L hBS hq h4
    (fun k _ hk => htw k hk) L 0 elements (by omega) hlen hr
  obtain ⟨input, hst⟩ := hat hlt
  obtain ⟨hl, hi⟩ := hav input hst
  have hinv := Forward_after_stages_inv BitShift q psi L rp prp elements hBS hq h4 hpsi hrp hprp
    L 0 elements (by omega) hlen hr (Forward_stage_inv_zero q psi L elements) input hst
  obtain ⟨b, hb⟩ := Option.ne_none_iff_exists'.1 hca
  have hfinal : Forward_final_pass q (2 * q) (2 ^ L) input
      = some (input.map (fun x => x % q)) := by
    have := Forward_final_pass_map q hq (by omega) input hi
      (by rw [hl]; exact two_pow_lt_or_mod L)
    rwa [hl] at this
  refine ⟨input.map (fun x => x % q), ?_, by rw [List.length_map, hl], ?_⟩
  · rw [ForwardTransform_unfold CheckArguments BitShift L q rp prp elements hBS hL h4 b hb,
      CheckBounds3_precon BitShift q (2 ^ L) rp prp hq h4 htw,
      CheckBounds3_elements elements (2 ^ L) (2 ^ BitShift - 1)
        (fun x hx2 => by have := hx x hx2; omega)]
    simp only [Bool.not_true, Bool.false_eq_true, if_false, hst]
    exact hfinal
  · intro i hi2
    rw [List.getD_eq_getElem _ _ (by rw [List.length_map, hl]; exact hi2), List.getElem_map,
      ← List.getD_eq_getElem _ 0 (by rw [hl]; exact hi2)]
    have h := hinv i 0 (by simpa using hi2) (by simp)
    simp only [zero_add, Nat.sub_self, pow_zero, mul_one, Nat.add_zero] at h
    rw [← ZMod.natCast_eq_natCast_iff', h]
    push_cast
    rfl

/-- Witness of C14: size 4, modulus 17, `psi = 2`. -/
theorem ForwardTransform_negacyclic_witness :
    ∃ out, ForwardTransformToBitReverseAVX512 (fun _ _ => some true) 64 4 17 [1, 4, 2, 8]
        [1085102592571150095, 4340410370284600380, 2170205185142300190,
          8680820740569200760] [7, 16, 4, 0] = some out ∧ out.length = 4 ∧
      ∀ i, i < 4 → out.getD i 0
        = (Finset.sum (Finset.range 4) (fun j =>
            [7, 16, 4, 0].getD j 0 * 2 ^ ((2 * ReverseBitsUInt i 2 + 1) * j))) % 17 :=
  ForwardTransform_negacyclic (fun _ _ => some true) 64 4 2 17 2 [1, 4, 2, 8]
    [1085102592571150095, 4340410370284600380, 2170205185142300190, 8680820740569200760]
    [7, 16, 4, 0] (by decide) (by decide) (by decide) (by norm_num) (by decide) (by decide)
    (by decide) (by decide) (by decide) (by decide) (by decide) (by decide) (by decide)

/-! ## The round trip through the inverse transform -/

/-- In the 64-bit tier the inverse transform undoes the forward transform on
the example of size 16 at modulus 97 with the tables of `psi = 19`. -/
theorem InverseTransform_undoes_forward_64_example :
    ForwardTransformToBitReverseAVX512 (fun _ _ => some true) 64 16 97
        [1, 75, 50, 64, 70, 12, 8, 18, 19, 67, 77, 52, 69, 34, 55, 51]
        [190172619316593315, 14262946448744498672, 9508630965829665781,
          12171047636261972200, 13312083352161532094, 2282071431799119787,
          1521380954532746525, 3423107147698679681, 3613279767015272996,
          12741565494211752147, 14643291687377685303, 9888976204462852412,
          13121910732844938778, 6465869056764172731, 10459494062412632359,
          9698803585146259097]
        [1, 2, 3, 4, 5, 6, 7, 8, 9, 10, 11, 12, 13, 14, 15, 16]
      = some [56, 43, 74, 69, 32, 4, 56, 30, 40, 69, 29, 76, 18, 22, 1, 76] ∧
    InverseTransformFromBitReverseAVX512 (fun _ _ => some true) 64 16 97
        [1, 46, 42, 63, 28, 45, 20, 30, 78, 79, 89, 85, 27, 33, 47, 22]
        [190172619316593315, 8747940488563292518, 7987250011296919256,
          11980875016945378884, 5324833340864612837, 8557767869246699203,
          3803452386331866312, 5705178579497799468, 14833464306694278619,
          15023636926010871934, 16925363119176805090, 16164672641910431828,
          5134660721548019521, 6275696437447579415, 8938113107879885834,
          4183797624965052943]
        [56, 43, 74, 69, 32, 4, 56, 30, 40, 69, 29, 76, 18, 22, 1, 76]
      = some [1, 2, 3, 4, 5, 6, 7, 8, 9, 10, 11, 12, 13, 14, 15, 16] := by
  set_option maxRecDepth 1000000 in decide

/-- C15, the code at a failing input: in the 52-bit tier, at `n = 16`,
`q = 97` with the forward tables of `psi = 19` (power `bitrev(k)` at index `k`)
and the inverse tables of its inverse (every inverse twiddle is the inverse
mod 97 of the forward twiddle of the same round and block), the forward
transform of `[1, ..., 16]` returns and the inverse transform applied to its
output stops on a failed check instead of returning `[1, ..., 16]`. -/
theorem InverseTransform_after_forward_52_stops :
    (∀ k, k < 16 →
      [1, 75, 50, 64, 70, 12, 8, 18, 19, 67, 77, 52, 69, 34, 55, 51].getD k 0
        = 19 ^ ReverseBitsUInt k 4 % 97) ∧
    (∀ s, s < 4 → ∀ i, i < 2 ^ s →
      [1, 46, 42, 63, 28, 45, 20, 30, 78, 79, 89, 85, 27, 33, 47, 22].getD
          (16 - 2 ^ (s + 1) + 1 + i) 0
        * [1, 75, 50, 64, 70, 12, 8, 18, 19, 67, 77, 52, 69, 34, 55, 51].getD (2 ^ s + i) 0
          % 97 = 1) ∧
    ForwardTransformToBitReverseAVX512 (fun _ _ => some true) 52 16 97
        [1, 75, 50, 64, 70, 12, 8, 18, 19, 67, 77, 52, 69, 34, 55, 51]
        [46428862137840, 3482164660338012, 2321443106892008, 2971447176821770,
          3250020349648811, 557146345654081, 371430897102721, 835719518481122,
          882148380618963, 3110733763235291, 3575022384613692, 2414300831167688,
          3203591487510971, 1578581312686565, 2553587417581209, 2367871969029848]
        [1, 2, 3, 4, 5, 6, 7, 8, 9, 10, 11, 12, 13, 14, 15, 16]
      = some [56, 43, 74, 69, 32, 4, 56, 30, 40, 69, 29, 76, 18, 22, 1, 76] ∧
    InverseTransformFromBitReverseAVX512 (fun _ _ => some true) 52 16 97
        [1, 46, 42, 63, 28, 45, 20, 30, 78, 79, 89, 85, 27, 33, 47, 22]
        [46428862137840, 2135727658340647, 1950012209789286, 2925018314683930,
          1300008139859524, 2089298796202807, 928577242756803, 1392865864135204,
          3621451246751532, 3667880108889373, 4132168730267774, 3946453281716414,
          1253579277721684, 1532152450548725, 2182156520478487, 1021434967032483]
        [56, 43, 74, 69, 32, 4, 56, 30, 40, 69, 29, 76, 18, 22, 1, 76]
      = none := by
  set_option maxRecDepth 1000000 in decide

/-- In the 52-bit tier the inverse butterfly stops on the bounds check of
`_mm512_il_mullo_epi<52>` (or an earlier one) whenever a lane of `neg_modulus`
is `2^52 - 1` or more. -/
theorem InvButterfly52_eq_none (InputLessThanMod : Bool)
    (X Y W_op W_precon neg_modulus twice_modulus : m512i) (l : Fin 8)
    (h : 2 ^ 52 - 1 ≤ neg_modulus l) :
    InvButterfly 52 InputLessThanMod X Y W_op W_precon neg_modulus twice_modulus = none := by
  have hneg : LATTICE_CHECK_BOUNDS (ExtractValues neg_modulus) 8 (2 ^ 52 - 1) = false := by
    cases hc : LATTICE_CHECK_BOUNDS (ExtractValues neg_modulus) 8 (2 ^ 52 - 1) with
    | false => rfl
    | true =>
      have := (LATTICE_CHECK_BOUNDS_ExtractValues neg_modulus (2 ^ 52 - 1)).1 hc l
      omega
  have hlo : ∀ Q, mm512_il_mullo_epi 52 Q neg_modulus = none := by
    intro Q
    simp only [mm512_il_mullo_epi, mm512_il_mullo_epi52, hneg]
    simp
  simp only [InvButterfly]
  cases hQ : mm512_il_mulhi_epi 52 W_precon
      (mm512_sub_epi64 X (mm512_sub_epi64 Y twice_modulus)) with
  | none => rfl
  | some Q => simp only [hlo]

/-- In the 52-bit tier the inverse transform of a size `n >= 16` never returns
a buffer, whatever the tables and the input: the register `v_neg_modulus` it
builds holds `2^64 - mod`, which the checks of the 52-bit multiply helpers
reject. -/
theorem InverseTransform_52_eq_none (CheckArguments : Nat → Nat → Option Bool)
    (n mod : Nat) (irp iprp elements : List Nat) (hn : 16 ≤ n) (hmod1 : 1 ≤ mod)
    (hmod : mod ≤ 2 ^ 63) :
    InverseTransformFromBitReverseAVX512 CheckArguments 52 n mod irp iprp elements = none := by
  have hneg : 2 ^ 52 - 1 ≤ mm512_set1_epi64 (sub64 0 mod) (0 : Fin 8) := by
    simp only [mm512_set1_epi64, sub64]
    omega
  have hm : ∃ i, (n >>> 1) / 8 = i + 1 := by
    refine ⟨(n >>> 1) / 8 - 1, ?_⟩
    rw [Nat.shiftRight_eq_div_pow]
    omega
  obtain ⟨i, hi⟩ := hm
  have hT1 : InvT1 52 elements (mm512_set1_epi64 (sub64 0 mod))
      (mm512_set1_epi64 (shl64 mod 1)) (n >>> 1) irp iprp 1 = none := by
    unfold InvT1
    rw [hi]
    simp only [InvT1_loop, InvButterfly52_eq_none _ _ _ _ _ _ _ 0 hneg]
  unfold InverseTransformFromBitReverseAVX512
  cases CheckArguments n mod with
  | none => rfl
  | some ok =>
    simp only [hT1]
    split_ifs <;> first | rfl | (cases MaximumValue 52 <;> simp)

/-! ## The small helpers of util/avx512-util.hpp -/

/-- Each lane of `_mm512_il_small_mod_epu64(x, p)` is the conditional
subtraction of `p` from `x`. -/
theorem small_mod_epu64_lane_eq (x p : m512i) (l : Fin 8) (hx : x l < 2 ^ 64)
    (hp : p l < 2 ^ 64) :
    mm512_il_small_mod_epu64 x p l = (if p l ≤ x l then x l - p l else x l) := by
  simp only [mm512_il_small_mod_epu64, mm512_min_epu64, mm512_sub_epi64]
  exact min_sub64 (x l) (p l) hx hp

/-- C28: for 64-bit lanes `x` and `p`, each lane of
`_mm512_il_small_mod_epu64(x, p)` is `x - p` when `x >= p` and `x` otherwise;
hence it is `x mod p` when `p >= 1` and `x < 2p`, also for operands of `2^63`
and more. -/
theorem mm512_il_small_mod_epu64_lane (x p : m512i) (l : Fin 8) (hx : x l < 2 ^ 64)
    (hp : p l < 2 ^ 64) :
    mm512_il_small_mod_epu64 x p l = (if p l ≤ x l then x l - p l else x l) ∧
    (1 ≤ p l → x l < 2 * p l → mm512_il_small_mod_epu64 x p l = x l % p l) := by
  have h1 := small_mod_epu64_lane_eq x p l hx hp
  refine ⟨h1, fun hp1 hx2 => ?_⟩
  rw [h1]
  split_ifs with h
  · rw [Nat.mod_eq_sub_mod h, Nat.mod_eq_of_lt (by omega)]
  · rw [Nat.mod_eq_of_lt (by omega)]

/-- Witness of C28: the lane values `2^63 + 10` and `2^63 + 17` of the test of
the helper. -/
theorem mm512_il_small_mod_epu64_lane_witness :
    mm512_il_small_mod_epu64 (mm512_set1_epi64 (2 ^ 63 + 10)) (mm512_set1_epi64 (2 ^ 63 + 17)) 0
        = (if mm512_set1_epi64 (2 ^ 63 + 17) 0 ≤ mm512_set1_epi64 (2 ^ 63 + 10) 0
            then mm512_set1_epi64 (2 ^ 63 + 10) 0 - mm512_set1_epi64 (2 ^ 63 + 17) 0
            else mm512_set1_epi64 (2 ^ 63 + 10) 0) ∧
    (1 ≤ mm512_set1_epi64 (2 ^ 63 + 17) 0 →
      mm512_set1_epi64 (2 ^ 63 + 10) 0 < 2 * mm512_set1_epi64 (2 ^ 63 + 17) 0 →
      mm512_il_small_mod_epu64 (mm512_set1_epi64 (2 ^ 63 + 10))
          (mm512_set1_epi64 (2 ^ 63 + 17)) 0
        = mm512_set1_epi64 (2 ^ 63 + 10) 0 % mm512_set1_epi64 (2 ^ 63 + 17) 0) :=
  mm512_il_small_mod_epu64_lane (mm512_set1_epi64 (2 ^ 63 + 10))
    (mm512_set1_epi64 (2 ^ 63 + 17)) 0 (by decide) (by decide)

/-- C29: for `1 <= p <= 2^63` broadcast to the lanes of the register `P`, when
every lane of `x` and `y` is below `p` the call
`_mm512_il_small_add_mod_epi64(x, y, P)` returns `(x + y) mod p` in each lane;
and when some lane of `x` or of `y` is `p` or more the call fails its bounds
check. -/
theorem mm512_il_small_add_mod_epi64_spec (p : Nat) (x y : m512i) (hp1 : 1 ≤ p)
    (hp : p ≤ 2 ^ 63) :
    ((∀ l, x l < p) → (∀ l, y l < p) →
      mm512_il_small_add_mod_epi64 x y (mm512_set1_epi64 p)
        = some (fun l => (x l + y l) % p)) ∧
    ((∃ l, p ≤ x l ∨ p ≤ y l) →
      mm512_il_small_add_mod_epi64 x y (mm512_set1_epi64 p) = none) := by
  have hp0 : (ExtractValues (mm512_set1_epi64 p)).getD 0 0 = p := by
    simp [ExtractValues, mm512_set1_epi64]
  constructor
  · intro hx hy
    have hcx := (LATTICE_CHECK_BOUNDS_ExtractValues x p).2 hx
    have hcy := (LATTICE_CHECK_BOUNDS_ExtractValues y p).2 hy
    simp only [mm512_il_small_add_mod_epi64, hp0, hcx, hcy, Bool.not_true, Bool.false_eq_true,
      if_false, Option.some.injEq]
    funext l
    have hxl := hx l
    have hyl := hy l
    have h := (small_mod_epu64_lane_eq (mm512_add_epi64 x y) (mm512_set1_epi64 p) l
      (by simp only [mm512_add_epi64]; exact Nat.mod_lt _ (by norm_num))
      (by simp only [mm512_set1_epi64]; omega))
    rw [h]
    simp only [mm512_add_epi64, mm512_set1_epi64]
    rw [Nat.mod_eq_of_lt (show x l + y l < 2 ^ 64 by omega)]
    split_ifs with hc
    · rw [Nat.mod_eq_sub_mod hc, Nat.mod_eq_of_lt (by omega)]
    · rw [Nat.mod_eq_of_lt (by omega)]
  · rintro ⟨l, hl⟩
    simp only [mm512_il_small_add_mod_epi64, hp0]
    cases hcx : LATTICE_CHECK_BOUNDS (ExtractValues x) 8 p with
    | false => simp
    | true =>
      have hx := (LATTICE_CHECK_BOUNDS_ExtractValues x p).1 hcx l
      cases hcy : LATTICE_CHECK_BOUNDS (ExtractValues y) 8 p with
      | false => simp
      | true =>
        have hy := (LATTICE_CHECK_BOUNDS_ExtractValues y p).1 hcy l
        omega

/-- Witness of C29: `p = 2^63` with the lanes `2^63 - 1` and `2^63 - 2`. -/
theorem mm512_il_small_add_mod_epi64_spec_witness :
    ((∀ l, mm512_set1_epi64 (2 ^ 63 - 1) l < 2 ^ 63) →
      (∀ l, mm512_set1_epi64 (2 ^ 63 - 2) l < 2 ^ 63) →
      mm512_il_small_add_mod_epi64 (mm512_set1_epi64 (2 ^ 63 - 1))
          (mm512_set1_epi64 (2 ^ 63 - 2)) (mm512_set1_epi64 (2 ^ 63))
        = some (fun l => (mm512_set1_epi64 (2 ^ 63 - 1) l + mm512_set1_epi64 (2 ^ 63 - 2) l)
            % 2 ^ 63)) ∧
    ((∃ l, 2 ^ 63 ≤ mm512_set1_epi64 (2 ^ 63 - 1) l ∨ 2 ^ 63 ≤ mm512_set1_epi64 (2 ^ 63 - 2) l) →
      mm512_il_small_add_mod_epi64 (mm512_set1_epi64 (2 ^ 63 - 1))
          (mm512_set1_epi64 (2 ^ 63 - 2)) (mm512_set1_epi64 (2 ^ 63)) = none) :=
  mm512_il_small_add_mod_epi64_spec (2 ^ 63) (mm512_set1_epi64 (2 ^ 63 - 1))
    (mm512_set1_epi64 (2 ^ 63 - 2)) (by decide) (by decide)

/-- The lanes of `_mm512_il_cmplt_epu64` and `_mm512_il_cmpge_epu64`. -/
theorem cmplt_cmpge_lane (a b : m512i) (v : Nat) (l : Fin 8) :
    mm512_il_cmplt_epu64 a b v l = (if a l < b l then v else 0) ∧
    mm512_il_cmpge_epu64 a b v l = (if b l ≤ a l then v else 0) := by
  constructor
  · simp only [mm512_il_cmplt_epu64, mm512_il_cmp_epi64, mm512_il_cmp_epu64_mask,
      mm512_cmp_epu64_mask, CMPINT.toInt, mm512_maskz_broadcastq_epi64, mm_set1_epi64x]
    simp
  · simp only [mm512_il_cmpge_epu64, mm512_il_cmp_epi64, mm512_il_cmp_epu64_mask,
      mm512_cmp_epu64_mask, CMPINT.toInt, mm512_maskz_broadcastq_epi64, mm_set1_epi64x]
    simp

/-- C30: add with carry.  For `BitShift = 64` and lanes below `2^64`, and for
`BitShift = 52` and lanes below `2^52`, the call
`_mm512_il_add_epu<BitShift>(x, y, &c)` returns; in each lane it stores
`c = (x + y) mod 2^BitShift` and returns a carry that is 0 or 1 with
`x + y = carry * 2^BitShift + c`. -/
theorem mm512_il_add_epu_carry (BitShift : Nat) (x y : m512i)
    (hBS : BitShift = 52 ∨ BitShift = 64) (hx : ∀ l, x l < 2 ^ BitShift)
    (hy : ∀ l, y l < 2 ^ BitShift) :
    ∃ carry c, mm512_il_add_epu BitShift x y = some (carry, c) ∧
      ∀ l, c l = (x l + y l) % 2 ^ BitShift ∧ (carry l = 0 ∨ carry l = 1) ∧
        x l + y l = carry l * 2 ^ BitShift + c l := by
  rcases hBS with h | h <;> subst h
  · refine ⟨mm512_il_cmpge_epu64 (mm512_add_epi64 x y) (mm512_set1_epi64 (1 <<< 52)) 1,
      mm512_il_small_mod_epu64 (mm512_add_epi64 x y) (mm512_set1_epi64 (1 <<< 52)),
      by simp [mm512_il_add_epu], fun l => ?_⟩
    have hxl := hx l
    have hyl := hy l
    have h52 : (1 <<< 52 : Nat) = 2 ^ 52 := by rw [Nat.shiftLeft_eq, one_mul]
    have hv : mm512_set1_epi64 (1 <<< 52) l = 2 ^ 52 := by
      rw [h52]
      rfl
    have hs : mm512_add_epi64 x y l = x l + y l := by
      simp only [mm512_add_epi64]
      exact Nat.mod_eq_of_lt (by omega)
    have hcl : mm512_il_small_mod_epu64 (mm512_add_epi64 x y) (mm512_set1_epi64 (1 <<< 52)) l
        = if 2 ^ 52 ≤ x l + y l then x l + y l - 2 ^ 52 else x l + y l := by
      rw [small_mod_epu64_lane_eq (mm512_add_epi64 x y) (mm512_set1_epi64 (1 <<< 52)) l
        (by rw [hs]; omega) (by rw [hv]; norm_num), hs, hv]
    have hcar : mm512_il_cmpge_epu64 (mm512_add_epi64 x y) (mm512_set1_epi64 (1 <<< 52)) 1 l
        = if 2 ^ 52 ≤ x l + y l then 1 else 0 := by
      rw [(cmplt_cmpge_lane (mm512_add_epi64 x y) (mm512_set1_epi64 (1 <<< 52)) 1 l).2, hs, hv]
    rw [hcl, hcar]
    split_ifs with hge
    · exact ⟨by omega, Or.inr rfl, by omega⟩
    · exact ⟨by omega, Or.inl rfl, by omega⟩
  · refine ⟨mm512_il_cmplt_epu64 (mm512_add_epi64 x y) x 1, mm512_add_epi64 x y,
      by simp [mm512_il_add_epu], fun l => ?_⟩
    have hxl := hx l
    have hyl := hy l
    have hcl : mm512_add_epi64 x y l = (x l + y l) % 2 ^ 64 := rfl
    have hcar : mm512_il_cmplt_epu64 (mm512_add_epi64 x y) x 1 l
        = if 2 ^ 64 ≤ x l + y l then 1 else 0 := by
      rw [(cmplt_cmpge_lane (mm512_add_epi64 x y) x 1 l).1, hcl]
      by_cases hov : 2 ^ 64 ≤ x l + y l
      · rw [if_pos hov, if_pos (by omega)]
      · rw [if_neg hov, if_neg (by omega)]
    rw [hcl, hcar]
    split_ifs with hge
    · exact ⟨rfl, Or.inr rfl, by omega⟩
    · exact ⟨rfl, Or.inl rfl, by omega⟩

/-- Witness of C30: the overflowing lanes `2^63 + 10` and `2^63 + 17` of the
test of the helper. -/
theorem mm512_il_add_epu_carry_witness :
    ∃ carry c, mm512_il_add_epu 64 (mm512_set1_epi64 (2 ^ 63 + 10))
        (mm512_set1_epi64 (2 ^ 63 + 17)) = some (carry, c) ∧
      ∀ l, c l = (mm512_set1_epi64 (2 ^ 63 + 10) l + mm512_set1_epi64 (2 ^ 63 + 17) l) % 2 ^ 64 ∧
        (carry l = 0 ∨ carry l = 1) ∧
        mm512_set1_epi64 (2 ^ 63 + 10) l + mm512_set1_epi64 (2 ^ 63 + 17) l
          = carry l * 2 ^ 64 + c l :=
  mm512_il_add_epu_carry 64 (mm512_set1_epi64 (2 ^ 63 + 10)) (mm512_set1_epi64 (2 ^ 63 + 17))
    (by decide) (fun _ => by simp [mm512_set1_epi64]) (fun _ => by simp [mm512_set1_epi64])

/-! ## The software high multiply -/

/-- The four partial products of two 64-bit words and the sums the high
multiply forms from them: no sum reaches `2^64`, and the last one is the high
word of the product. -/
theorem mulhi_partial_sums (a b : Nat) (ha : a < 2 ^ 64) (hb : b < 2 ^ 64) :
    (a % 2 ^ 32) * (b / 2 ^ 32) + (a % 2 ^ 32) * (b % 2 ^ 32) / 2 ^ 32 < 2 ^ 64 ∧
    (a / 2 ^ 32) * (b % 2 ^ 32)
      + ((a % 2 ^ 32) * (b / 2 ^ 32) + (a % 2 ^ 32) * (b % 2 ^ 32) / 2 ^ 32) % 2 ^ 32
        < 2 ^ 64 ∧
    (a / 2 ^ 32) * (b / 2 ^ 32)
      + ((a % 2 ^ 32) * (b / 2 ^ 32) + (a % 2 ^ 32) * (b % 2 ^ 32) / 2 ^ 32) / 2 ^ 32
        < 2 ^ 64 ∧
    (a / 2 ^ 32) * (b / 2 ^ 32)
      + ((a % 2 ^ 32) * (b / 2 ^ 32) + (a % 2 ^ 32) * (b % 2 ^ 32) / 2 ^ 32) / 2 ^ 32
      + ((a / 2 ^ 32) * (b % 2 ^ 32)
        + ((a % 2 ^ 32) * (b / 2 ^ 32) + (a % 2 ^ 32) * (b % 2 ^ 32) / 2 ^ 32) % 2 ^ 32)
          / 2 ^ 32 < 2 ^ 64 ∧
    (a / 2 ^ 32) * (b / 2 ^ 32)
      + ((a % 2 ^ 32) * (b / 2 ^ 32) + (a % 2 ^ 32) * (b % 2 ^ 32) / 2 ^ 32) / 2 ^ 32
      + ((a / 2 ^ 32) * (b % 2 ^ 32)
        + ((a % 2 ^ 32) * (b / 2 ^ 32) + (a % 2 ^ 32) * (b % 2 ^ 32) / 2 ^ 32) % 2 ^ 32)
          / 2 ^ 32 = a * b / 2 ^ 64 := by
  have hal : a % 2 ^ 32 ≤ 2 ^ 32 - 1 := by omega
  have hbl : b % 2 ^ 32 ≤ 2 ^ 32 - 1 := by omega
  have hah2 : a / 2 ^ 32 ≤ 2 ^ 32 - 1 := by omega
  have hbh2 : b / 2 ^ 32 ≤ 2 ^ 32 - 1 := by omega
  have hab : a * b = (a / 2 ^ 32) * (b / 2 ^ 32) * 2 ^ 64
      + ((a % 2 ^ 32) * (b / 2 ^ 32) + (a / 2 ^ 32) * (b % 2 ^ 32)) * 2 ^ 32
      + (a % 2 ^ 32) * (b % 2 ^ 32) := by
    have ha := Nat.div_add_mod a (2 ^ 32)
    have hb := Nat.div_add_mod b (2 ^ 32)
    calc a * b = (2 ^ 32 * (a / 2 ^ 32) + a % 2 ^ 32) * (2 ^ 32 * (b / 2 ^ 32) + b % 2 ^ 32) := by
          rw [ha, hb]
      _ = _ := by ring
  have b0 : (a % 2 ^ 32) * (b % 2 ^ 32) ≤ (2 ^ 32 - 1) * (2 ^ 32 - 1) := Nat.mul_le_mul hal hbl
  have b1 : (a % 2 ^ 32) * (b / 2 ^ 32) ≤ (2 ^ 32 - 1) * (2 ^ 32 - 1) := Nat.mul_le_mul hal hbh2
  have b2 : (a / 2 ^ 32) * (b % 2 ^ 32) ≤ (2 ^ 32 - 1) * (2 ^ 32 - 1) := Nat.mul_le_mul hah2 hbl
  have b3 : (a / 2 ^ 32) * (b / 2 ^ 32) ≤ (2 ^ 32 - 1) * (2 ^ 32 - 1) := Nat.mul_le_mul hah2 hbh2
  rw [hab]
  generalize (a % 2 ^ 32) * (b % 2 ^ 32) = w0 at b0 ⊢
  generalize (a % 2 ^ 32) * (b / 2 ^ 32) = w1 at b1 ⊢
  generalize (a / 2 ^ 32) * (b % 2 ^ 32) = w2 at b2 ⊢
  generalize (a / 2 ^ 32) * (b / 2 ^ 32) = w3 at b3 ⊢
  omega

/-- Each lane of the 256-bit `_mm256_il_mulhi_epi<64>(x, y)` is the high word
of the product of the lanes. -/
theorem mm256_il_mulhi_epi64_lane (x y : m256i) (l : Fin 4) (hx : x l < 2 ^ 64)
    (hy : y l < 2 ^ 64) :
    mm256_il_mulhi_epi64 x y l = x l * y l / 2 ^ 64 := by
  simp only [mm256_il_mulhi_epi64, mm256_add_epi64, mm256_srli_epi64, mm256_and_si256,
    mm256_mul_epu32, mm256_shuffle_epi32_B1, mm256_set1_epi64x, Nat.shiftRight_eq_div_pow]
  generalize x l = a at hx ⊢
  generalize y l = b at hy ⊢
  have hmask : (0x00000000ffffffff : Nat) = 2 ^ 32 - 1 := by norm_num
  rw [hmask, Nat.and_pow_two_sub_one_eq_mod]
  have hah : ((a % 2 ^ 32) * 2 ^ 32 + a / 2 ^ 32 % 2 ^ 32) % 2 ^ 32 = a / 2 ^ 32 := by omega
  have hbh : ((b % 2 ^ 32) * 2 ^ 32 + b / 2 ^ 32 % 2 ^ 32) % 2 ^ 32 = b / 2 ^ 32 := by omega
  rw [hah, hbh]
  obtain ⟨s1, s2, s3, s4, s5⟩ := mulhi_partial_sums a b hx hy
  rw [← s5]
  generalize (a % 2 ^ 32) * (b % 2 ^ 32) = w0 at *
  generalize (a % 2 ^ 32) * (b / 2 ^ 32) = w1 at *
  generalize (a / 2 ^ 32) * (b % 2 ^ 32) = w2 at *
  generalize (a / 2 ^ 32) * (b / 2 ^ 32) = w3 at *
  omega

/-- The 52-bit high multiply on lanes below its bound `2^52 - 1`. -/
theorem mm512_il_mulhi_epi52_eq (x y : m512i) (hx : ∀ l, x l < 2 ^ 52 - 1)
    (hy : ∀ l, y l < 2 ^ 52 - 1) :
    mm512_il_mulhi_epi52 x y = some (fun l => x l * y l / 2 ^ 52) := by
  have hcx := (LATTICE_CHECK_BOUNDS_ExtractValues x (2 ^ 52 - 1)).2 hx
  have hcy := (LATTICE_CHECK_BOUNDS_ExtractValues y (2 ^ 52 - 1)).2 hy
  simp only [mm512_il_mulhi_epi52, hcx, hcy, Bool.not_true, Bool.false_eq_true, if_false,
    Option.some.injEq]
  funext l
  have hxl := hx l
  have hyl := hy l
  simp only [mm512_madd52hi_epu64, mm512_set1_epi64, Nat.zero_add]
  rw [Nat.mod_eq_of_lt (show x l < 2 ^ 52 by omega),
    Nat.mod_eq_of_lt (show y l < 2 ^ 52 by omega)]
  apply Nat.mod_eq_of_lt
  have : x l * y l < 2 ^ 52 * 2 ^ 52 :=
    Nat.mul_lt_mul'' (by omega) (by omega)
  have h2 : x l * y l / 2 ^ 52 < 2 ^ 52 := Nat.div_lt_of_lt_mul this
  omega

/-- C26, the code at a failing input: the lane value `2^52 - 1` is below
`2^52`, and `_mm512_il_mulhi_epi<52>` stops on its bounds check against
`MaximumValue(52) = 2^52 - 1` instead of returning the high part
`floor((2^52 - 1) * 1 / 2^52) = 0` of the product. -/
theorem mm512_il_mulhi_epi52_rejects_max :
    (∀ l, mm512_set1_epi64 (2 ^ 52 - 1) l < 2 ^ 52) ∧
    (∀ l, mm512_set1_epi64 1 l < 2 ^ 52) ∧
    MaximumValue 52 = some (2 ^ 52 - 1) ∧
    (2 ^ 52 - 1) * 1 / 2 ^ 52 = 0 ∧
    mm512_il_mulhi_epi52 (mm512_set1_epi64 (2 ^ 52 - 1)) (mm512_set1_epi64 1) = none := by
  decide

/-- The high multiplies where they go through: for 64-bit lanes, each lane of
`_mm512_il_mulhi_epi<64>(x, y)` and of the 256-bit `_mm256_il_mulhi_epi<64>(u, v)` is
`floor(x * y / 2^64) = MultiplyUInt64Hi<64>(x, y)`, and none of the four sums
formed from the 32-bit partial products reaches `2^64`; and for lanes below
`2^52 - 1`, the bound the 52-bit helper checks, `_mm512_il_mulhi_epi<52>(x, y)`
returns `floor(x * y / 2^52)` in each lane. -/
theorem mulhi_epi_exact (x y : m512i) (u v : m256i) (hx : ∀ l, x l < 2 ^ 64)
    (hy : ∀ l, y l < 2 ^ 64) (hu : ∀ l, u l < 2 ^ 64) (hv : ∀ l, v l < 2 ^ 64) :
    (∀ l, mm512_il_mulhi_epi64 x y l = x l * y l / 2 ^ 64 ∧
      mm512_il_mulhi_epi64 x y l = MultiplyUInt64Hi 64 (x l) (y l) ∧
      mm512_mul_epu32 x (mm512_shuffle_epi32_B1 y) l
        + mm512_srli_epi64 (mm512_mul_epu32 x y) 32 l < 2 ^ 64 ∧
      mm512_mul_epu32 (mm512_shuffle_epi32_B1 x) y l
        + (mm512_mul_epu32 x (mm512_shuffle_epi32_B1 y) l
          + mm512_srli_epi64 (mm512_mul_epu32 x y) 32 l) % 2 ^ 32 < 2 ^ 64 ∧
      mm512_mul_epu32 (mm512_shuffle_epi32_B1 x) (mm512_shuffle_epi32_B1 y) l
        + (mm512_mul_epu32 x (mm512_shuffle_epi32_B1 y) l
          + mm512_srli_epi64 (mm512_mul_epu32 x y) 32 l) / 2 ^ 32
        + (mm512_mul_epu32 (mm512_shuffle_epi32_B1 x) y l
          + (mm512_mul_epu32 x (mm512_shuffle_epi32_B1 y) l
            + mm512_srli_epi64 (mm512_mul_epu32 x y) 32 l) % 2 ^ 32) / 2 ^ 32 < 2 ^ 64) ∧
    (∀ l, mm256_il_mulhi_epi64 u v l = u l * v l / 2 ^ 64 ∧
      mm256_il_mulhi_epi64 u v l = MultiplyUInt64Hi 64 (u l) (v l)) ∧
    ((∀ l, x l < 2 ^ 52 - 1) → (∀ l, y l < 2 ^ 52 - 1) →
      mm512_il_mulhi_epi52 x y = some (fun l => x l * y l / 2 ^ 52)) := by
  have hHi : ∀ a b : Nat, a < 2 ^ 64 → b < 2 ^ 64 →
      a * b / 2 ^ 64 = MultiplyUInt64Hi 64 a b := by
    intro a b ha hb
    have hab : a * b < 2 ^ 64 * 2 ^ 64 := Nat.mul_lt_mul'' ha hb
    have h2 : a * b / 2 ^ 64 < 2 ^ 64 := Nat.div_lt_of_lt_mul hab
    simp only [MultiplyUInt64Hi, Nat.shiftRight_eq_div_pow]
    rw [Nat.mod_eq_of_lt (show a * b < 2 ^ 128 by omega), Nat.mod_eq_of_lt h2]
  refine ⟨fun l => ?_, fun l => ?_, mm512_il_mulhi_epi52_eq x y⟩
  · have h1 := mm512_il_mulhi_epi64_lane x y l (hx l) (hy l)
    refine ⟨h1, by rw [h1]; exact hHi _ _ (hx l) (hy l), ?_⟩
    simp only [mm512_mul_epu32, mm512_shuffle_epi32_B1, mm512_srli_epi64,
      Nat.shiftRight_eq_div_pow]
    have hxl := hx l
    have hyl := hy l
    generalize x l = a at hxl ⊢
    generalize y l = b at hyl ⊢
    have hah : ((a % 2 ^ 32) * 2 ^ 32 + a / 2 ^ 32 % 2 ^ 32) % 2 ^ 32 = a / 2 ^ 32 := by omega
    have hbh : ((b % 2 ^ 32) * 2 ^ 32 + b / 2 ^ 32 % 2 ^ 32) % 2 ^ 32 = b / 2 ^ 32 := by omega
    rw [hah, hbh]
    obtain ⟨s1, s2, _, s4, _⟩ := mulhi_partial_sums a b hxl hyl
    exact ⟨s1, s2, s4⟩
  · have h1 := mm256_il_mulhi_epi64_lane u v l (hu l) (hv l)
    exact ⟨h1, by rw [h1]; exact hHi _ _ (hu l) (hv l)⟩

/-- The 52-bit high multiply on the operands of the test of the helper. -/
theorem mulhi_epi_exact_at_test_operands :
    mm512_il_mulhi_epi52 (mm512_set1_epi64 90774764920991) (mm512_set1_epi64 424)
      = some (fun l => mm512_set1_epi64 90774764920991 l * mm512_set1_epi64 424 l / 2 ^ 52) :=
  (mulhi_epi_exact (mm512_set1_epi64 90774764920991) (mm512_set1_epi64 424)
    (mm256_set1_epi64x 3) (mm256_set1_epi64x 5)
    (fun _ => by simp [mm512_set1_epi64]) (fun _ => by simp [mm512_set1_epi64])
    (fun _ => by simp [mm256_set1_epi64x]) (fun _ => by simp [mm256_set1_epi64x])).2.2
    (fun _ => by simp [mm512_set1_epi64]) (fun _ => by simp [mm512_set1_epi64])

/-! ## Barrett reduction of a 64-bit word -/

/-- For a modulus `p >= 2` with the factor `floor(2^64 / p)`, each lane of
`_mm512_il_barrett_reduce64(x, p, p_barr)` is `x mod p`. -/
theorem mm512_il_barrett_reduce64_lane (x p p_barr : m512i) (l : Fin 8) (hx : x l < 2 ^ 64)
    (hp2 : 2 ≤ p l) (hp : p l < 2 ^ 64) (hb : p_barr l = 2 ^ 64 / p l) :
    mm512_il_barrett_reduce64 x p p_barr l = x l % p l := by
  have hbl : p_barr l < 2 ^ 64 := by
    rw [hb]
    exact Nat.div_lt_self (by norm_num) (by omega)
  have hhi := mm512_il_mulhi_epi64_lane x p_barr l hx hbl
  have hsm := small_mod_epu64_lane_eq
    (mm512_sub_epi64 x (mm512_mullo_epi64 (mm512_il_mulhi_epi64 x p_barr) p)) p l
    (by simp only [mm512_sub_epi64, sub64]; exact Nat.mod_lt _ (by norm_num)) hp
  simp only [mm512_il_barrett_reduce64]
  rw [hsm]
  simp only [mm512_sub_epi64, mm512_mullo_epi64, hhi, hb, sub64]
  obtain ⟨h1, h2⟩ := lazy_quotient_bound (2 ^ 64) (p l) (x l) 1 (by norm_num) (by omega) hx
  rw [Nat.one_mul, Nat.mul_one] at h1 h2
  generalize x l = a at *
  generalize p l = q at *
  generalize a * (2 ^ 64 / q) / 2 ^ 64 = c at *
  have hcq : c * q < 2 ^ 64 := by omega
  rw [Nat.mod_eq_of_lt hcq, Nat.mod_eq_of_lt hcq,
    show (a + 2 ^ 64 - c * q) % 2 ^ 64 = a - c * q by omega]
  have hmod : a % q = (a - c * q) % q := by
    conv_lhs => rw [show a = (a - c * q) + c * q by omega]
    exact Nat.add_mul_mod_self_right _ _ _
  rw [hmod]
  split_ifs with hge
  · rw [Nat.mod_eq_sub_mod hge, Nat.mod_eq_of_lt (by omega)]
  · rw [Nat.mod_eq_of_lt (by omega)]

/-- C27, the code at a failing input: for the modulus `p = 1`, which the test
of the helper uses, `MultiplyFactor(1, 64, 1).BarrettFactor()` is 0 and every
lane of `_mm512_il_barrett_reduce64` on `x = 5` is 4, whereas `5 mod 1 = 0`. -/
theorem mm512_il_barrett_reduce64_at_one :
    (MultiplyFactor.new 1 64 1).map MultiplyFactor.BarrettFactor = some 0 ∧
    (∀ l, mm512_il_barrett_reduce64 (mm512_set1_epi64 5) (mm512_set1_epi64 1)
      (mm512_set1_epi64 0) l = 4) ∧
    5 % 1 = 0 := by
  decide

/-! ## The 128-bit Barrett factor -/

/-- The constructor `Barrett128Factor(modulus)` stores the two halves of
`floor((2^128 - 1) / modulus)`, which is `floor(2^128 / modulus)` when the
modulus does not divide `2^128`. -/
theorem Barrett128Factor_new_eq (modulus : Nat) (h1 : 1 ≤ modulus) :
    ∃ f, Barrett128Factor.new modulus = some f ∧
      f.Hi * 2 ^ 64 + f.Lo = (2 ^ 128 - 1) / modulus ∧
      (¬ modulus ∣ 2 ^ 128 → f.Hi * 2 ^ 64 + f.Lo = 2 ^ 128 / modulus) := by
  have hne : modulus ≠ 0 := by omega
  have hlt : (2 ^ 128 - 1) / modulus < 2 ^ 128 :=
    lt_of_le_of_lt (Nat.div_le_self _ _) (by norm_num)
  have h64 : ((1 <<< 64 : Nat)) % 2 ^ 128 = 2 ^ 64 := by
    rw [Nat.shiftLeft_eq, one_mul]
    norm_num
  have hsum : (((2 ^ 128 - 1) / modulus) >>> 64) % 2 ^ 64 * 2 ^ 64
      + ((2 ^ 128 - 1) / modulus % 2 ^ 64) % 2 ^ 64 = (2 ^ 128 - 1) / modulus := by
    rw [Nat.shiftRight_eq_div_pow]
    generalize (2 ^ 128 - 1) / modulus = b at hlt ⊢
    omega
  refine ⟨{ m_barrett_hi := (((2 ^ 128 - 1) / modulus) >>> 64) % 2 ^ 64,
             m_barrett_lo := ((2 ^ 128 - 1) / modulus % 2 ^ 64) % 2 ^ 64 },
    by simp only [Barrett128Factor.new, if_neg hne, h64], ?_, ?_⟩
  · simp only [Barrett128Factor.Hi, Barrett128Factor.Lo]
    exact hsum
  · intro hnd
    simp only [Barrett128Factor.Hi, Barrett128Factor.Lo]
    rw [hsum]
    have := Nat.succ_div (2 ^ 128 - 1) modulus
    rw [show 2 ^ 128 - 1 + 1 = 2 ^ 128 by norm_num, if_neg hnd] at this
    omega

/-- C25, the code at a failing input: 2 is prime, `Barrett128Factor(2)` stores
the halves of `2^127 - 1`, and `floor(2^128 / 2) = 2^127`. -/
theorem Barrett128Factor_at_two :
    Nat.Prime 2 ∧
    (Barrett128Factor.new 2).map (fun f => f.Hi * 2 ^ 64 + f.Lo) = some (2 ^ 127 - 1) ∧
    2 ^ 128 / 2 = 2 ^ 127 := by
  refine ⟨Nat.prime_two, ?_, by norm_num⟩
  decide

/-! ## The scalar Barrett multiply: what it guarantees -/

/-- The quotient estimate of the scalar kernel.  With `a = floor(P / A)`,
`b = floor(A * D / q)` and `c = floor(a * b / D)`, where `a < D` and `b <= D`,
the estimate `c` never exceeds `floor(P / q)` and falls short of it by less
than three: `c * q <= P < c * q + 3 * q`. -/
theorem barrett_estimate_bound (P q A D : Nat) (hA : 0 < A) (hD : 0 < D) (hq : 0 < q)
    (haD : P / A < D) (hbD : A * D / q ≤ D) :
    P / A * (A * D / q) / D * q ≤ P ∧ P < P / A * (A * D / q) / D * q + 3 * q := by
  have h1 := Nat.div_add_mod P A
  have h1' := Nat.mod_lt P hA
  have h2 := Nat.div_add_mod (A * D) q
  have h2' := Nat.mod_lt (A * D) hq
  have h3 := Nat.div_add_mod (P / A * (A * D / q)) D
  have h3' := Nat.mod_lt (P / A * (A * D / q)) hD
  generalize P / A = a at *
  generalize A * D / q = b at *
  generalize hc : a * b / D = c at *
  have hAD : 0 < A * D := Nat.mul_pos hA hD
  constructor
  · apply Nat.le_of_mul_le_mul_left _ hAD
    calc A * D * (c * q) = (q * A) * (D * c) := by ring
      _ ≤ (q * A) * (a * b) := Nat.mul_le_mul_left _ (by omega)
      _ = (q * b) * (A * a) := by ring
      _ ≤ (A * D) * P := Nat.mul_le_mul (by omega) (by omega)
  · apply Nat.lt_of_mul_lt_mul_left (a := A * D)
    calc A * D * P < (q * (b + 1)) * (A * (a + 1)) :=
          Nat.mul_lt_mul'' (by rw [Nat.mul_add]; omega) (by rw [Nat.mul_add]; omega)
      _ = (q * A) * (a * b + 1 + (a + b)) := by ring
      _ ≤ (q * A) * (D * c + D + 2 * D) :=
          Nat.mul_le_mul_left _ (by omega)
      _ = A * D * (c * q + 3 * q) := by ring

/-- The two-shift idiom `(lo >> k) + (hi << (64 - k))` of the scalar kernel on
the halves of a 128-bit value `V`: it is `floor(V / 2^k)` when that fits in 64
bits. -/
theorem shift_combine (V k : Nat) (hk1 : 1 ≤ k) (hk : k ≤ 63) (hV : V / 2 ^ k < 2 ^ 64) :
    (shr64 (V % 2 ^ 64) k + shl64 (V / 2 ^ 64) (64 - k)) % 2 ^ 64 = V / 2 ^ k := by
  have hAB : 2 ^ (64 - k) * 2 ^ k = 2 ^ 64 := by
    rw [← pow_add]
    congr 1
    omega
  have hA : 0 < 2 ^ k := by positivity
  have hsplit : V / 2 ^ k = V % 2 ^ 64 / 2 ^ k + V / 2 ^ 64 * 2 ^ (64 - k) := by
    conv_lhs => rw [← Nat.mod_add_div V (2 ^ 64)]
    rw [show 2 ^ 64 * (V / 2 ^ 64) = V / 2 ^ 64 * 2 ^ (64 - k) * 2 ^ k by
      rw [Nat.mul_assoc, hAB, Nat.mul_comm]]
    exact Nat.add_mul_div_right _ _ hA
  rw [shr64_of_lt _ k (by omega), shl64_of_lt _ (64 - k) (by omega)]
  rw [hsplit] at hV ⊢
  generalize V % 2 ^ 64 / 2 ^ k = u at *
  generalize V / 2 ^ 64 * 2 ^ (64 - k) = w at *
  omega

/-- One iteration of the scalar kernel with the constants the function
computes for a modulus `2 <= q < 2^62`, on operands below `q`: the stored word
is below `2q` and congruent to the product modulo `q`. -/
theorem EltwiseMultModNative_body_lazy (q x y : Nat) (hq2 : 2 ≤ q) (hq : q < 2 ^ 62)
    (hx : x < q) (hy : y < q) :
    EltwiseMultModNative_body (Nat.log2 q + 1) (Nat.log2 q + 1 + (Nat.log2 q + 1))
        (2 ^ (Nat.log2 q + 1 + (Nat.log2 q + 1)) / q) q x y < 2 * q ∧
    EltwiseMultModNative_body (Nat.log2 q + 1) (Nat.log2 q + 1 + (Nat.log2 q + 1))
        (2 ^ (Nat.log2 q + 1 + (Nat.log2 q + 1)) / q) q x y ≡ x * y [MOD q] := by
  have hq0 : q ≠ 0 := by omega
  have hlo : 2 ^ Nat.log2 q ≤ q := Nat.log2_self_le hq0
  have hhi : q < 2 ^ (Nat.log2 q + 1) := Nat.lt_log2_self
  have hk62 : Nat.log2 q < 62 := (Nat.log2_lt hq0).2 hq
  have hk1 : 1 ≤ Nat.log2 q := by
    rcases Nat.eq_zero_or_pos (Nat.log2 q) with h0 | h0
    · rw [h0] at hhi
      norm_num at hhi
      omega
    · exact h0
  generalize Nat.log2 q = k at *
  -- the constants
  have hA : 0 < 2 ^ k := by positivity
  have hD : 0 < 2 ^ (k + 2) := by positivity
  have hAD : 2 ^ k * 2 ^ (k + 2) = 2 ^ (k + 1 + (k + 1)) := by
    rw [← pow_add]
    congr 1
    omega
  have hD2 : 2 ^ (k + 2) = 4 * 2 ^ k := by rw [pow_add]; ring
  have hN : 2 ^ (k + 1) = 2 * 2 ^ k := by rw [pow_succ]; ring
  have hP : x * y < 2 ^ (k + 1) * 2 ^ (k + 1) :=
    Nat.mul_lt_mul'' (by omega) (by omega)
  have hPAD : x * y < 2 ^ k * 2 ^ (k + 2) := by
    rw [hAD, pow_add]
    exact hP
  have haD : x * y / 2 ^ k < 2 ^ (k + 2) := Nat.div_lt_of_lt_mul hPAD
  have hbD : 2 ^ k * 2 ^ (k + 2) / q ≤ 2 ^ (k + 2) := by
    apply Nat.div_le_of_le_mul
    exact Nat.mul_le_mul_right _ hlo
  obtain ⟨hb1, hb2⟩ := barrett_estimate_bound (x * y) q (2 ^ k) (2 ^ (k + 2)) hA hD (by omega)
    haD hbD
  have hpow62 : 2 ^ k ≤ 2 ^ 61 := Nat.pow_le_pow_right (by norm_num) (by omega)
  have hD64 : 2 ^ (k + 2) ≤ 2 ^ 63 := Nat.pow_le_pow_right (by norm_num) (by omega)
  have hP128 : x * y < 2 ^ 128 := by
    have : x * y < 2 ^ 62 * 2 ^ 62 := Nat.mul_lt_mul'' (by omega) (by omega)
    omega
  have hc1 : (shr64 (x * y % 2 ^ 64) k + shl64 (x * y / 2 ^ 64) (64 - k)) % 2 ^ 64
      = x * y / 2 ^ k :=
    shift_combine (x * y) k hk1 (by omega) (by omega)
  have hC2lt : x * y / 2 ^ k * (2 ^ k * 2 ^ (k + 2) / q) < 2 ^ (k + 2) * 2 ^ (k + 2) := by
    calc x * y / 2 ^ k * (2 ^ k * 2 ^ (k + 2) / q)
        ≤ x * y / 2 ^ k * 2 ^ (k + 2) := Nat.mul_le_mul_left _ hbD
      _ < 2 ^ (k + 2) * 2 ^ (k + 2) := Nat.mul_lt_mul_of_pos_right haD hD
  have hC2 : x * y / 2 ^ k * (2 ^ k * 2 ^ (k + 2) / q) < 2 ^ 128 := by
    have : 2 ^ (k + 2) * 2 ^ (k + 2) ≤ 2 ^ 63 * 2 ^ 63 := Nat.mul_le_mul hD64 hD64
    omega
  have hc3lt : x * y / 2 ^ k * (2 ^ k * 2 ^ (k + 2) / q) / 2 ^ (k + 2) < 2 ^ 64 := by
    have := Nat.div_lt_of_lt_mul hC2lt
    omega
  have hc3 : (shr64 (x * y / 2 ^ k * (2 ^ k * 2 ^ (k + 2) / q) % 2 ^ 64) (k + 2)
      + shl64 (x * y / 2 ^ k * (2 ^ k * 2 ^ (k + 2) / q) / 2 ^ 64) (64 - (k + 2))) % 2 ^ 64
      = x * y / 2 ^ k * (2 ^ k * 2 ^ (k + 2) / q) / 2 ^ (k + 2) :=
    shift_combine _ (k + 2) (by omega) (by omega) hc3lt
  have hbarr : 2 ^ (k + 1 + (k + 1)) / q = 2 ^ k * 2 ^ (k + 2) / q := by rw [hAD]
  have hval : EltwiseMultModNative_body (k + 1) (k + 1 + (k + 1)) (2 ^ (k + 1 + (k + 1)) / q)
      q x y
      = if q ≤ x * y - x * y / 2 ^ k * (2 ^ k * 2 ^ (k + 2) / q) / 2 ^ (k + 2) * q
        then x * y - x * y / 2 ^ k * (2 ^ k * 2 ^ (k + 2) / q) / 2 ^ (k + 2) * q - q
        else x * y - x * y / 2 ^ k * (2 ^ k * 2 ^ (k + 2) / q) / 2 ^ (k + 2) * q := by
    have hs1 : sub64 (k + 1) 1 = k := by simp only [sub64]; omega
    have hs2 : sub64 64 k = 64 - k := by simp only [sub64]; omega
    have hs3 : (sub64 (k + 1 + (k + 1)) (k + 1) + 1) % 2 ^ 64 = k + 2 := by
      simp only [sub64]; omega
    have hs4 : sub64 64 (k + 2) = 64 - (k + 2) := by simp only [sub64]; omega
    have hhi1 : (x * y) >>> 64 % 2 ^ 64 = x * y / 2 ^ 64 := by
      rw [Nat.shiftRight_eq_div_pow]
      omega
    have hhi2 : (x * y / 2 ^ k * (2 ^ k * 2 ^ (k + 2) / q)) >>> 64 % 2 ^ 64
        = x * y / 2 ^ k * (2 ^ k * 2 ^ (k + 2) / q) / 2 ^ 64 := by
      rw [Nat.shiftRight_eq_div_pow]
      omega
    simp only [EltwiseMultModNative_body, MultiplyUInt64, hs1, hs2, hs3, hs4, hbarr,
      Nat.mod_eq_of_lt hP128]
    rw [hhi1, hc1]
    simp only [Nat.mod_eq_of_lt hC2]
    rw [hhi2, hc3]
    generalize x * y / 2 ^ k * (2 ^ k * 2 ^ (k + 2) / q) / 2 ^ (k + 2) = c at *
    have hr : sub64 (x * y % 2 ^ 64) (c * q % 2 ^ 64) = x * y - c * q := by
      simp only [sub64]
      omega
    rw [hr]
    exact sub64_mask _ _ (by omega) (by omega)
  rw [hval]
  generalize x * y / 2 ^ k * (2 ^ k * 2 ^ (k + 2) / q) / 2 ^ (k + 2) = c at *
  constructor
  · split_ifs <;> omega
  · split_ifs with hge
    · exact modEq_of_add_mul_eq _ _ (c + 1) 0 q (by rw [Nat.add_mul]; omega)
    · exact modEq_of_add_mul_eq _ _ c 0 q (by omega)

/-- The loop of the scalar kernel keeps the length of `operand1` and stores
the value of the loop body at every index below `n` that both buffers have. -/
theorem EltwiseMultModNative_loop_getD (N L barr_lo modulus : Nat) :
    ∀ (n : Nat) (operand1 operand2 : List Nat),
      (EltwiseMultModNative_loop N L barr_lo modulus n operand1 operand2).length
          = operand1.length ∧
      ∀ i, i < n → i < operand1.length → i < operand2.length →
        (EltwiseMultModNative_loop N L barr_lo modulus n operand1 operand2).getD i 0
          = EltwiseMultModNative_body N L barr_lo modulus (operand1.getD i 0)
              (operand2.getD i 0) := by
  intro n
  induction n with
  | zero =>
    intro operand1 operand2
    exact ⟨rfl, fun i hi => absurd hi (by omega)⟩
  | succ n ih =>
    intro operand1 operand2
    cases operand1 with
    | nil => exact ⟨rfl, fun i _ h => absurd h (by simp)⟩
    | cons x operand1 =>
      cases operand2 with
      | nil => exact ⟨rfl, fun i _ _ h => absurd h (by simp)⟩
      | cons y operand2 =>
        obtain ⟨hl, hg⟩ := ih operand1 operand2
        refine ⟨by simp only [EltwiseMultModNative_loop, List.length_cons, hl], ?_⟩
        intro i hi h1 h2
        cases i with
        | zero => simp only [EltwiseMultModNative_loop, List.getD_cons_zero]
        | succ i =>
          simp only [EltwiseMultModNative_loop, List.getD_cons_succ]
          simp only [List.length_cons] at h1 h2
          exact hg i (by omega) (by omega) (by omega)

/-- The bounds check passes on a buffer whose first `n` words are below the
bound. -/
theorem LATTICE_CHECK_BOUNDS_of_getD (arg : List Nat) (n bound : Nat)
    (h : ∀ i, i < n → arg.getD i 0 < bound) : LATTICE_CHECK_BOUNDS arg n bound = true := by
  simp only [LATTICE_CHECK_BOUNDS, List.all_eq_true, decide_eq_true_eq]
  intro x hx
  obtain ⟨i, hi, rfl⟩ := List.getElem_of_mem hx
  rw [List.length_take] at hi
  obtain ⟨hin, hil⟩ := lt_min_iff.1 hi
  rw [List.getElem_take]
  have := h i hin
  rwa [List.getD_eq_getElem _ _ hil] at this

/-- What the scalar Barrett multiply guarantees when `log2l` is exact.  For a
modulus `2 <= q < 2^62` at which `log2l` is the floor of the binary logarithm,
and buffers whose first `n` words are below `q`, `EltwiseMultModNative`
returns, and every word it writes is below `2q` and congruent modulo `q` to
the product of the two operand words. -/
theorem EltwiseMultModNative_congruent_of_exact_log (operand1 operand2 : List Nat) (n q : Nat)
    (hq2 : 2 ≤ q) (hq : q < 2 ^ 62) (hlog : log2l q = Nat.log2 q)
    (hn1 : n ≤ operand1.length) (hn2 : n ≤ operand2.length)
    (h1 : ∀ i, i < n → operand1.getD i 0 < q) (h2 : ∀ i, i < n → operand2.getD i 0 < q) :
    ∃ out, EltwiseMultModNative operand1 operand2 n q = some out ∧
      out.length = operand1.length ∧
      ∀ i, i < n → out.getD i 0 < 2 * q ∧
        out.getD i 0 ≡ operand1.getD i 0 * operand2.getD i 0 [MOD q] := by
  have hq0 : q ≠ 0 := by omega
  have hk62 : Nat.log2 q < 62 := (Nat.log2_lt hq0).2 hq
  have hlo : 2 ^ Nat.log2 q ≤ q := Nat.log2_self_le hq0
  have hN : (Nat.log2 q + 1) % 2 ^ 64 = Nat.log2 q + 1 := Nat.mod_eq_of_lt (by omega)
  have hL : (Nat.log2 q + 1 + (Nat.log2 q + 1)) % 2 ^ 64 = Nat.log2 q + 1 + (Nat.log2 q + 1) :=
    Nat.mod_eq_of_lt (by omega)
  have hpowL : 2 ^ (Nat.log2 q + 1 + (Nat.log2 q + 1)) ≤ 2 ^ 124 :=
    Nat.pow_le_pow_right (by norm_num) (by omega)
  have hshift : (1 <<< (Nat.log2 q + 1 + (Nat.log2 q + 1))) % 2 ^ 128
      = 2 ^ (Nat.log2 q + 1 + (Nat.log2 q + 1)) := by
    rw [Nat.shiftLeft_eq, one_mul]
    exact Nat.mod_eq_of_lt (by omega)
  have hbarr : 2 ^ (Nat.log2 q + 1 + (Nat.log2 q + 1)) / q % 2 ^ 64
      = 2 ^ (Nat.log2 q + 1 + (Nat.log2 q + 1)) / q := by
    apply Nat.mod_eq_of_lt
    have h3 : 2 ^ (Nat.log2 q + 1 + (Nat.log2 q + 1)) = 2 ^ Nat.log2 q * 2 ^ (Nat.log2 q + 2) := by
      rw [← pow_add]
      congr 1
      omega
    have h4 : 2 ^ (Nat.log2 q + 1 + (Nat.log2 q + 1)) / q ≤ 2 ^ (Nat.log2 q + 2) := by
      apply Nat.div_le_of_le_mul
      rw [h3]
      exact Nat.mul_le_mul_right _ hlo
    have h5 : 2 ^ (Nat.log2 q + 2) ≤ 2 ^ 63 := Nat.pow_le_pow_right (by norm_num) (by omega)
    omega
  obtain ⟨hlen, hget⟩ := EltwiseMultModNative_loop_getD (Nat.log2 q + 1)
    (Nat.log2 q + 1 + (Nat.log2 q + 1)) (2 ^ (Nat.log2 q + 1 + (Nat.log2 q + 1)) / q) q n
    operand1 operand2
  refine ⟨_, ?_, hlen, fun i hi => ?_⟩
  · simp only [EltwiseMultModNative, LATTICE_CHECK_BOUNDS_of_getD operand1 n q h1,
      LATTICE_CHECK_BOUNDS_of_getD operand2 n q h2, LATTICE_CHECK, hlog, hN, hL, hshift, hbarr,
      Bool.not_true, Bool.false_eq_true, if_false]
    have hne : (q != 0) = true := by simpa using hq0
    rw [hne]
    rfl
  · rw [hget i hi (by omega) (by omega)]
    exact EltwiseMultModNative_body_lazy q _ _ hq2 hq (h1 i hi) (h2 i hi)

/-- C24: at the modulus `q = 2^62 - 1` the scalar kernel stores a word that is
neither below `2q` nor congruent to the product.  The conversion of
`std::log2l(q)` gives 62, not 61, so the Barrett constant `2^126 / q` does not
fit in 64 bits and is cut to 4; with both operands `q - 1` the kernel stores
`13835058055282163701 = 3 * 2^62 - 11`, whereas the product is congruent to 1
modulo `q`. -/
theorem EltwiseMultModNative_not_congruent_at_two_pow_62_sub_one :
    (2 ≤ 2 ^ 62 - 1 ∧ 2 ^ 62 - 1 < 2 ^ 62 ∧ 2 ^ 62 - 2 < 2 ^ 62 - 1) ∧
    log2l (2 ^ 62 - 1) = 62 ∧
    (((1 <<< 126) % 2 ^ 128) / (2 ^ 62 - 1)) % 2 ^ 64 = 4 ∧
    EltwiseMultModNative [2 ^ 62 - 2] [2 ^ 62 - 2] 1 (2 ^ 62 - 1)
      = some [13835058055282163701] ∧
    ¬ (13835058055282163701 < 2 * (2 ^ 62 - 1)) ∧
    ¬ (13835058055282163701 ≡ (2 ^ 62 - 2) * (2 ^ 62 - 2) [MOD 2 ^ 62 - 1]) ∧
    (2 ^ 62 - 2) * (2 ^ 62 - 2) % (2 ^ 62 - 1) = 1 := by
  decide

/-! ## Ranges in the inverse transform, 64-bit tier -/

/-- The constants of the inverse transform: `-mod` as a 64-bit word and
`mod << 1`. -/
theorem inverse_constants (q : Nat) (hq : 1 ≤ q) (h4 : 4 * q ≤ 2 ^ 64) :
    sub64 0 q = 2 ^ 64 - q ∧ shl64 q 1 = 2 * q := by
  refine ⟨?_, shl64_one q (by omega)⟩
  simp only [sub64]
  omega

/-- The 64-bit inverse butterfly always returns, and keeps its lanes below
`2q`: on lanes below `2q`, or below `q` when `InputLessThanMod` is set, with
twiddles below `q` and their factors, both output registers are below `2q`. -/
theorem InvButterfly64_range (InputLessThanMod : Bool) (q : Nat) (hq : 1 ≤ q)
    (h4 : 4 * q ≤ 2 ^ 64) (X Y W_op W_precon : m512i)
    (hX : ∀ l, X l < if InputLessThanMod then q else 2 * q)
    (hY : ∀ l, Y l < if InputLessThanMod then q else 2 * q)
    (hW : ∀ l, W_op l < q ∧ W_precon l = W_op l * 2 ^ 64 / q) :
    ∃ r, InvButterfly 64 InputLessThanMod X Y W_op W_precon (mm512_set1_epi64 (sub64 0 q))
        (mm512_set1_epi64 (shl64 q 1)) = some r ∧ ∀ l, r.1 l < 2 * q ∧ r.2 l < 2 * q := by
  obtain ⟨hneg, htw⟩ := inverse_constants q hq h4
  rw [hneg, htw]
  refine ⟨_, InvButterfly64_eq _ _ _ _ _ _ _, fun l => ?_⟩
  have hx2 : X l < 2 * q := by
    have := hX l
    split_ifs at this <;> omega
  have hy2 : Y l < 2 * q := by
    have := hY l
    split_ifs at this <;> omega
  refine ⟨?_, (InvButterfly64_Y_lane q (X l) (Y l) (W_op l) h4 hx2 hy2 (hW l).1 X Y W_op
    W_precon l rfl rfl rfl (hW l).2).1⟩
  cases InputLessThanMod with
  | true =>
    have hx := hX l
    have hy := hY l
    simp only [if_true] at hx hy ⊢
    simp only [mm512_add_epi64]
    rw [Nat.mod_eq_of_lt (by omega)]
    omega
  | false =>
    simp only [Bool.false_eq_true, if_false]
    rw [InvButterfly64_X_lane q (X l) (Y l) h4 hx2 hy2 X Y l rfl rfl]
    split_ifs <;> omega

/-- A sweep of paired stores over the lanes: the length is kept, and each
word of the result is the old word or one of the stored lanes at its index. -/
theorem foldl_set_set_cases (ix iy : Fin 8 → Nat) (vx vy : m512i) :
    ∀ (L : List (Fin 8)) (e : List Nat),
      (L.foldl (fun b l => (b.set (ix l) (vx l)).set (iy l) (vy l)) e).length = e.length ∧
      ∀ i, (L.foldl (fun b l => (b.set (ix l) (vx l)).set (iy l) (vy l)) e).getD i 0
            = e.getD i 0 ∨
          (∃ l, ix l = i ∧
            (L.foldl (fun b l => (b.set (ix l) (vx l)).set (iy l) (vy l)) e).getD i 0 = vx l) ∨
          (∃ l, iy l = i ∧
            (L.foldl (fun b l => (b.set (ix l) (vx l)).set (iy l) (vy l)) e).getD i 0
              = vy l) := by
  intro L
  induction L with
  | nil => exact fun e => ⟨rfl, fun i => Or.inl rfl⟩
  | cons a L ih =>
    intro e
    obtain ⟨hl, hg⟩ := ih ((e.set (ix a) (vx a)).set (iy a) (vy a))
    simp only [List.foldl_cons]
    refine ⟨by rw [hl, List.length_set, List.length_set], fun i => ?_⟩
    rcases hg i with h | h | h
    · rw [h, getD_set_eq, getD_set_eq]
      by_cases h1 : iy a = i ∧ iy a < (e.set (ix a) (vx a)).length
      · rw [if_pos h1]
        exact Or.inr (Or.inr ⟨a, h1.1, rfl⟩)
      · rw [if_neg h1]
        by_cases h2 : ix a = i ∧ ix a < e.length
        · rw [if_pos h2]
          exact Or.inr (Or.inl ⟨a, h2.1, rfl⟩)
        · rw [if_neg h2]
          exact Or.inl rfl
    · exact Or.inr (Or.inl h)
    · exact Or.inr (Or.inr h)

/-- The round with stride 1 of the 64-bit inverse transform returns and keeps
the length; from words below `q` at and after its offset it leaves every word
below `2q`. -/
theorem InvT1_loop64_range (q : Nat) (hq : 1 ≤ q) (h4 : 4 * q ≤ 2 ^ 64) (irp iprp : List Nat)
    (htw : ∀ k, irp.getD k 0 < q ∧ iprp.getD k 0 = irp.getD k 0 * 2 ^ 64 / q) :
    ∀ (i j1 w : Nat) (e : List Nat), (∀ k, e.getD k 0 < 2 * q) →
      (∀ k, j1 ≤ k → e.getD k 0 < q) →
      ∃ out, InvT1_loop 64 (mm512_set1_epi64 (sub64 0 q)) (mm512_set1_epi64 (shl64 q 1))
          irp iprp i j1 w e = some out ∧ out.length = e.length ∧ ∀ k, out.getD k 0 < 2 * q := by
  intro i
  induction i with
  | zero => exact fun _ _ e h2 _ => ⟨e, rfl, rfl, h2⟩
  | succ i ih =>
    intro j1 w e h2 h1
    obtain ⟨r, hr, hlanes⟩ := InvButterfly64_range true q hq h4
      (LoadInterleavedT1 e j1).1 (LoadInterleavedT1 e j1).2
      (mm512_loadu_si512 irp w) (mm512_loadu_si512 iprp w)
      (fun l => by simp only [LoadInterleavedT1, if_true]; exact h1 _ (by omega))
      (fun l => by simp only [LoadInterleavedT1, if_true]; exact h1 _ (by omega))
      (fun l => htw _)
    obtain ⟨hl, hg⟩ := foldl_set_set_cases (fun l => j1 + 2 * l.val)
      (fun l => j1 + 2 * l.val + 1) r.1 r.2 (List.finRange 8) e
    have hw : WriteInterleavedT1 e j1 r.1 r.2
        = (List.finRange 8).foldl
          (fun b l => (b.set (j1 + 2 * l.val) (r.1 l)).set (j1 + 2 * l.val + 1) (r.2 l)) e := rfl
    obtain ⟨out, ho, hol, hob⟩ := ih (j1 + 16) (w + 8) (WriteInterleavedT1 e j1 r.1 r.2)
      (fun k => by
        rw [hw]
        rcases hg k with h | ⟨l, _, h⟩ | ⟨l, _, h⟩
        · rw [h]; exact h2 k
        · rw [h]; exact (hlanes l).1
        · rw [h]; exact (hlanes l).2)
      (fun k hk => by
        rw [hw]
        rcases hg k with h | ⟨l, hlk, _⟩ | ⟨l, hlk, _⟩
        · rw [h]; exact h1 k (by omega)
        · have := l.isLt
          have hlk2 : j1 + 2 * l.val = k := hlk
          omega
        · have := l.isLt
          have hlk2 : j1 + 2 * l.val + 1 = k := hlk
          omega)
    refine ⟨out, ?_, by rw [hol, hw, hl], hob⟩
    simp only [InvT1_loop, hr]
    exact ho

/-- The round with stride 2 of the 64-bit inverse transform returns, keeps the
length and keeps every word below `2q`. -/
theorem InvT2_loop64_range (q : Nat) (hq : 1 ≤ q) (h4 : 4 * q ≤ 2 ^ 64) (irp iprp : List Nat)
    (htw : ∀ k, irp.getD k 0 < q ∧ iprp.getD k 0 = irp.getD k 0 * 2 ^ 64 / q) :
    ∀ (i x w : Nat) (e : List Nat), (∀ k, e.getD k 0 < 2 * q) →
      ∃ out, InvT2_loop 64 (mm512_set1_epi64 (sub64 0 q)) (mm512_set1_epi64 (shl64 q 1))
          irp iprp i x w e = some out ∧ out.length = e.length ∧ ∀ k, out.getD k 0 < 2 * q := by
  intro i
  induction i with
  | zero => exact fun _ _ e h2 => ⟨e, rfl, rfl, h2⟩
  | succ i ih =>
    intro x w e h2
    obtain ⟨r, hr, hlanes⟩ := InvButterfly64_range false q hq h4
      (LoadInterleavedT2 e x).1 (LoadInterleavedT2 e x).2
      (LoadWOpT2 irp w) (LoadWOpT2 iprp w)
      (fun l => by simp only [LoadInterleavedT2, Bool.false_eq_true, if_false]; exact h2 _)
      (fun l => by simp only [LoadInterleavedT2, Bool.false_eq_true, if_false]; exact h2 _)
      (fun l => htw _)
    obtain ⟨hl, hg⟩ := foldl_set_set_cases (fun l => x + 4 * (l.val / 2) + l.val % 2)
      (fun l => x + 4 * (l.val / 2) + 2 + l.val % 2) r.1 r.2 (List.finRange 8) e
    have hw : WriteInterleavedT2 e x r.1 r.2
        = (List.finRange 8).foldl
          (fun b l => (b.set (x + 4 * (l.val / 2) + l.val % 2) (r.1 l)).set
            (x + 4 * (l.val / 2) + 2 + l.val % 2) (r.2 l)) e := rfl
    obtain ⟨out, ho, hol, hob⟩ := ih (x + 16) (w + 4) (WriteInterleavedT2 e x r.1 r.2)
      (fun k => by
        rw [hw]
        rcases hg k with h | ⟨l, _, h⟩ | ⟨l, _, h⟩
        · rw [h]; exact h2 k
        · rw [h]; exact (hlanes l).1
        · rw [h]; exact (hlanes l).2)
    refine ⟨out, ?_, by rw [hol, hw, hl], hob⟩
    simp only [InvT2_loop, hr]
    exact ho

/-- The round with stride 4 of the 64-bit inverse transform returns, keeps the
length and keeps every word below `2q`. -/
theorem InvT4_loop64_range (q : Nat) (hq : 1 ≤ q) (h4 : 4 * q ≤ 2 ^ 64) (irp iprp : List Nat)
    (htw : ∀ k, irp.getD k 0 < q ∧ iprp.getD k 0 = irp.getD k 0 * 2 ^ 64 / q) :
    ∀ (i x w : Nat) (e : List Nat), (∀ k, e.getD k 0 < 2 * q) →
      ∃ out, InvT4_loop 64 (mm512_set1_epi64 (sub64 0 q)) (mm512_set1_epi64 (shl64 q 1))
          irp iprp i x w e = some out ∧ out.length = e.length ∧ ∀ k, out.getD k 0 < 2 * q := by
  intro i
  induction i with
  | zero => exact fun _ _ e h2 => ⟨e, rfl, rfl, h2⟩
  | succ i ih =>
    intro x w e h2
    obtain ⟨r, hr, hlanes⟩ := InvButterfly64_range false q hq h4
      (LoadInterleavedT4 e x).1 (LoadInterleavedT4 e x).2
      (LoadWOpT4 irp w) (LoadWOpT4 iprp w)
      (fun l => by simp only [LoadInterleavedT4, Bool.false_eq_true, if_false]; exact h2 _)
      (fun l => by simp only [LoadInterleavedT4, Bool.false_eq_true, if_false]; exact h2 _)
      (fun l => htw _)
    obtain ⟨hl, hg⟩ := foldl_set_set_cases (fun l => x + 8 * (l.val / 4) + l.val % 4)
      (fun l => x + 8 * (l.val / 4) + 4 + l.val % 4) r.1 r.2 (List.finRange 8) e
    have hw : WriteInterleavedT4 e x r.1 r.2
        = (List.finRange 8).foldl
          (fun b l => (b.set (x + 8 * (l.val / 4) + l.val % 4) (r.1 l)).set
            (x + 8 * (l.val / 4) + 4 + l.val % 4) (r.2 l)) e := rfl
    obtain ⟨out, ho, hol, hob⟩ := ih (x + 16) (w + 2) (WriteInterleavedT4 e x r.1 r.2)
      (fun k => by
        rw [hw]
        rcases hg k with h | ⟨l, _, h⟩ | ⟨l, _, h⟩
        · rw [h]; exact h2 k
        · rw [h]; exact (hlanes l).1
        · rw [h]; exact (hlanes l).2)
    refine ⟨out, ?_, by rw [hol, hw, hl], hob⟩
    simp only [InvT4_loop, hr]
    exact ho

/-- A lane read at a natural position is below any positive bound of the
lanes. -/
theorem lane_lt (v : m512i) (B : Nat) (hB : 0 < B) (h : ∀ l, v l < B) (n : Nat) :
    lane v n < B := by
  unfold lane
  split_ifs
  · exact h _
  · exact hB

/-- The inner loop of a round with stride at least 8 of the 64-bit inverse
transform returns, keeps the length and keeps every word below `2q`. -/
theorem InvT8_inner64_range (q : Nat) (hq : 1 ≤ q) (h4 : 4 * q ≤ 2 ^ 64) (W Wp : Nat)
    (hW : W < q) (hWp : Wp = W * 2 ^ 64 / q) :
    ∀ (j x y : Nat) (e : List Nat), (∀ k, e.getD k 0 < 2 * q) →
      ∃ out, InvT8_inner 64 (mm512_set1_epi64 (sub64 0 q)) (mm512_set1_epi64 (shl64 q 1))
          (mm512_set1_epi64 W) (mm512_set1_epi64 Wp) j x y e = some out ∧
        out.length = e.length ∧ ∀ k, out.getD k 0 < 2 * q := by
  intro j
  induction j with
  | zero => exact fun _ _ e h2 => ⟨e, rfl, rfl, h2⟩
  | succ j ih =>
    intro x y e h2
    obtain ⟨r, hr, hlanes⟩ := InvButterfly64_range false q hq h4
      (mm512_loadu_si512 e x) (mm512_loadu_si512 e y)
      (mm512_set1_epi64 W) (mm512_set1_epi64 Wp)
      (fun l => by simp only [mm512_loadu_si512, Bool.false_eq_true, if_false]; exact h2 _)
      (fun l => by simp only [mm512_loadu_si512, Bool.false_eq_true, if_false]; exact h2 _)
      (fun l => ⟨hW, hWp⟩)
    obtain ⟨out, ho, hol, hob⟩ := ih (x + 8) (y + 8)
      (mm512_storeu_si512 (mm512_storeu_si512 e x r.1) y r.2)
      (fun k => by
        rw [storeu_getD]
        split_ifs
        · exact lane_lt _ _ (by omega) (fun l => (hlanes l).2) _
        · rw [storeu_getD]
          split_ifs
          · exact lane_lt _ _ (by omega) (fun l => (hlanes l).1) _
          · exact h2 k)
    refine ⟨out, ?_, by rw [hol, storeu_length, storeu_length], hob⟩
    simp only [InvT8_inner, hr]
    exact ho

/-- The loop over the blocks of a round with stride at least 8 of the 64-bit
inverse transform returns, keeps the length and keeps every word below `2q`. -/
theorem InvT8_loop64_range (q : Nat) (hq : 1 ≤ q) (h4 : 4 * q ≤ 2 ^ 64) (irp iprp : List Nat)
    (htw : ∀ k, irp.getD k 0 < q ∧ iprp.getD k 0 = irp.getD k 0 * 2 ^ 64 / q) (t : Nat) :
    ∀ (c j1 w : Nat) (e : List Nat), (∀ k, e.getD k 0 < 2 * q) →
      ∃ out, InvT8_loop 64 (mm512_set1_epi64 (sub64 0 q)) (mm512_set1_epi64 (shl64 q 1)) t
          irp iprp c j1 w e = some out ∧ out.length = e.length ∧ ∀ k, out.getD k 0 < 2 * q := by
  intro c
  induction c with
  | zero => exact fun _ _ e h2 => ⟨e, rfl, rfl, h2⟩
  | succ c ih =>
    intro j1 w e h2
    obtain ⟨e1, h1, hl1, hb1⟩ := InvT8_inner64_range q hq h4 (irp.getD w 0) (iprp.getD w 0)
      (htw w).1 (htw w).2 (t / 8) j1 (j1 + t) e h2
    obtain ⟨out, ho, hol, hob⟩ := ih (j1 + (t <<< 1)) (w + 1) e1 hb1
    refine ⟨out, ?_, by rw [hol, hl1], hob⟩
    simp only [InvT8_loop, h1]
    exact ho

/-- The loop over the rounds with stride at least 8 of the 64-bit inverse
transform returns when the fuel covers the block count, keeps the length and
keeps every word below `2q`. -/
theorem Inverse_stage_loop64_range (q : Nat) (hq : 1 ≤ q) (h4 : 4 * q ≤ 2 ^ 64)
    (irp iprp : List Nat)
    (htw : ∀ k, irp.getD k 0 < q ∧ iprp.getD k 0 = irp.getD k 0 * 2 ^ 64 / q) :
    ∀ (fuel t m root_index : Nat) (e : List Nat), m < 2 ^ fuel → (∀ k, e.getD k 0 < 2 * q) →
      ∃ out ri, Inverse_stage_loop 64 (mm512_set1_epi64 (sub64 0 q))
          (mm512_set1_epi64 (shl64 q 1)) irp iprp fuel t m root_index e = some (out, ri) ∧
        out.length = e.length ∧ ∀ k, out.getD k 0 < 2 * q := by
  intro fuel
  induction fuel with
  | zero =>
    intro t m ri e hm h2
    have hm0 : ¬ 1 < m := by
      rw [pow_zero] at hm
      omega
    exact ⟨e, ri, by simp only [Inverse_stage_loop, if_neg hm0], rfl, h2⟩
  | succ fuel ih =>
    intro t m ri e hm h2
    by_cases h1 : 1 < m
    · obtain ⟨e1, he1, hl1, hb1⟩ := InvT8_loop64_range q hq h4 irp iprp htw t m 0 ri e h2
      obtain ⟨out, ri2, ho, hol, hob⟩ := ih (t <<< 1) (m >>> 1) (ri + m) e1
        (by rw [Nat.shiftRight_eq_div_pow, pow_one]
            rw [pow_succ] at hm
            omega) hb1
      refine ⟨out, ri2, ?_, by rw [hol, hl1], hob⟩
      simp only [Inverse_stage_loop, if_pos h1, InvT8, he1]
      exact ho
    · exact ⟨e, ri, by simp only [Inverse_stage_loop, if_neg h1], rfl, h2⟩

/-- On lanes below `p <= 2^63`, `_mm512_il_small_add_mod_epi64` passes its
checks and returns the sum with one conditional subtraction of `p`. -/
theorem small_add_mod_eq (p : Nat) (x y : m512i) (hp : p ≤ 2 ^ 63) (hx : ∀ l, x l < p)
    (hy : ∀ l, y l < p) :
    mm512_il_small_add_mod_epi64 x y (mm512_set1_epi64 p)
      = some (fun l => if p ≤ x l + y l then x l + y l - p else x l + y l) := by
  have hp0 : (ExtractValues (mm512_set1_epi64 p)).getD 0 0 = p := by
    simp [ExtractValues, mm512_set1_epi64]
  have hcx := (LATTICE_CHECK_BOUNDS_ExtractValues x p).2 hx
  have hcy := (LATTICE_CHECK_BOUNDS_ExtractValues y p).2 hy
  simp only [mm512_il_small_add_mod_epi64, hp0, hcx, hcy, Bool.not_true, Bool.false_eq_true,
    if_false, Option.some.injEq]
  funext l
  have hxl := hx l
  have hyl := hy l
  rw [small_mod_epu64_lane_eq (mm512_add_epi64 x y) (mm512_set1_epi64 p) l
    (by simp only [mm512_add_epi64]; exact Nat.mod_lt _ (by norm_num))
    (by simp only [mm512_set1_epi64]; omega)]
  simp only [mm512_add_epi64, mm512_set1_epi64]
  rw [Nat.mod_eq_of_lt (show x l + y l < 2 ^ 64 by omega)]

/-- A lane of the lazy multiply of the final fused loop, followed by the final
reduction: `a * t - floor(a' * t / 2^64) * q` reduced once is `(a * t) mod q`. -/
theorem lazy_mul_reduce_lane (q a t : Nat) (hq : 1 ≤ q) (h4 : 4 * q ≤ 2 ^ 64) (ha : a < q)
    (ht : t < 2 ^ 64) (vA vAp vT : m512i) (l : Fin 8) (h1 : vA l = a)
    (h2 : vAp l = a * 2 ^ 64 / q) (h3 : vT l = t) :
    mm512_il_small_mod_epu64
        (mm512_add_epi64 (mm512_mullo_epi64 vA vT)
          (mm512_mullo_epi64 (mm512_il_mulhi_epi64 vAp vT) (mm512_set1_epi64 (2 ^ 64 - q))))
        (mm512_set1_epi64 q) l = a * t % q := by
  have hap : vAp l < 2 ^ 64 := by
    rw [h2]
    have := precon_lt (2 ^ 64) q a hq h4 ha
    omega
  have hhi := mm512_il_mulhi_epi64_lane vAp vT l hap (by rw [h3]; exact ht)
  rw [small_mod_epu64_lane_eq _ _ l
    (by simp only [mm512_add_epi64]; exact Nat.mod_lt _ (by norm_num))
    (by simp only [mm512_set1_epi64]; omega)]
  simp only [mm512_add_epi64, mm512_mullo_epi64, mm512_set1_epi64, hhi, h1, h2, h3]
  obtain ⟨hb1, hb2⟩ := lazy_quotient_bound (2 ^ 64) q t a (by norm_num) (by omega) ht
  rw [Nat.mul_comm t (a * 2 ^ 64 / q), Nat.mul_comm t a] at hb1 hb2
  have hval := neg_modulus_mul_add (a * 2 ^ 64 / q * t / 2 ^ 64) q a t (by omega) hb1 (by omega)
  rw [Nat.add_comm ((a * t) % 2 ^ 64)]
  rw [hval]
  generalize a * 2 ^ 64 / q * t / 2 ^ 64 = c at *
  have hmod : a * t % q = (a * t - c * q) % q := by
    conv_lhs => rw [show a * t = (a * t - c * q) + c * q by omega]
    exact Nat.add_mul_mod_self_right _ _ _
  rw [hmod]
  split_ifs with hge
  · rw [Nat.mod_eq_sub_mod hge, Nat.mod_eq_of_lt (by omega)]
  · rw [Nat.mod_eq_of_lt (by omega)]

/-- The body of the final fused loop in the 64-bit tier, on lanes below `2q`
with the scalars `a`, `b` below `q` and their factors: it stores
`(a * (X + Y)) mod q` and `(b * (X + 2q - Y)) mod q`. -/
theorem Inverse_final_body64_eq (q a b : Nat) (hq : 1 ≤ q) (h4 : 4 * q ≤ 2 ^ 64) (ha : a < q)
    (hb : b < q) (X Y : m512i) (hX : ∀ l, X l < 2 * q) (hY : ∀ l, Y l < 2 * q) :
    Inverse_final_body 64 (mm512_set1_epi64 q) (mm512_set1_epi64 (sub64 0 q))
        (mm512_set1_epi64 (shl64 q 1)) (mm512_set1_epi64 a)
        (mm512_set1_epi64 (a * 2 ^ 64 / q)) (mm512_set1_epi64 b)
        (mm512_set1_epi64 (b * 2 ^ 64 / q)) X Y
      = some (fun l => a * (X l + Y l) % q, fun l => b * (X l + 2 * q - Y l) % q) := by
  obtain ⟨hneg, htw⟩ := inverse_constants q hq h4
  rw [hneg, htw]
  have hsam := small_add_mod_eq (2 * q) X Y (by omega) hX hY
  simp only [Inverse_final_body, hsam, mm512_il_mulhi_epi, mm512_il_mullo_epi,
    mm512_il_mullo_add_epi, if_true, show ¬ (64 = 52) by decide, if_false, Option.some.injEq,
    Prod.mk.injEq]
  constructor
  · funext l
    have hxl := hX l
    have hyl := hY l
    rw [lazy_mul_reduce_lane q a (if 2 * q ≤ X l + Y l then X l + Y l - 2 * q else X l + Y l)
      hq h4 ha (by split_ifs <;> omega) _ _ _ l rfl rfl rfl]
    split_ifs with hge
    · conv_rhs => rw [show X l + Y l = (X l + Y l - 2 * q) + 2 * q by omega]
      rw [Nat.mul_add, show a * (2 * q) = (a * 2) * q by ring]
      exact (Nat.add_mul_mod_self_right _ _ _).symm
    · rfl
  · funext l
    have hxl := hX l
    have hyl := hY l
    have hT : mm512_sub_epi64 X (mm512_sub_epi64 Y (mm512_set1_epi64 (2 * q))) l
        = X l + 2 * q - Y l := by
      simp only [mm512_sub_epi64, mm512_set1_epi64, sub64]
      omega
    exact lazy_mul_reduce_lane q b (X l + 2 * q - Y l) hq h4 hb (by omega) _ _ _ l rfl rfl hT

/-- The final fused loop in the 64-bit tier, on a buffer of words below `2q`
with the `X` range before the `Y` range: it returns, keeps the length, stores
`(a * (X + Y)) mod q` over the `X` range and `(b * (X + 2q - Y)) mod q` over the
`Y` range, and leaves the other words. -/
theorem Inverse_final_loop64_spec (q a b : Nat) (hq : 1 ≤ q) (h4 : 4 * q ≤ 2 ^ 64)
    (ha : a < q) (hb : b < q) :
    ∀ (j x y : Nat) (e : List Nat), x + 8 * j ≤ y → y + 8 * j ≤ e.length →
      (∀ k, e.getD k 0 < 2 * q) →
      ∃ out, Inverse_final_loop 64 (mm512_set1_epi64 q) (mm512_set1_epi64 (sub64 0 q))
          (mm512_set1_epi64 (shl64 q 1)) (mm512_set1_epi64 a)
          (mm512_set1_epi64 (a * 2 ^ 64 / q)) (mm512_set1_epi64 b)
          (mm512_set1_epi64 (b * 2 ^ 64 / q)) j x y e = some out ∧
        out.length = e.length ∧
        ∀ k, out.getD k 0 =
          if x ≤ k ∧ k < x + 8 * j then a * (e.getD k 0 + e.getD (k + (y - x)) 0) % q
          else if y ≤ k ∧ k < y + 8 * j then
            b * (e.getD (k - (y - x)) 0 + 2 * q - e.getD k 0) % q
          else e.getD k 0 := by
  intro j
  induction j with
  | zero =>
    intro x y e _ _ _
    refine ⟨e, rfl, rfl, fun k => ?_⟩
    rw [if_neg (by omega), if_neg (by omega)]
  | succ j ih =>
    intro x y e hxy hy h2
    have hbody := Inverse_final_body64_eq q a b hq h4 ha hb (mm512_loadu_si512 e x)
      (mm512_loadu_si512 e y) (fun l => h2 _) (fun l => h2 _)
    have hst : ∀ k, (mm512_storeu_si512 (mm512_storeu_si512 e x
          (fun l => a * (mm512_loadu_si512 e x l + mm512_loadu_si512 e y l) % q)) y
          (fun l => b * (mm512_loadu_si512 e x l + 2 * q - mm512_loadu_si512 e y l) % q)).getD k 0
        = if x ≤ k ∧ k < x + 8 then a * (e.getD k 0 + e.getD (k + (y - x)) 0) % q
          else if y ≤ k ∧ k < y + 8 then
            b * (e.getD (k - (y - x)) 0 + 2 * q - e.getD k 0) % q
          else e.getD k 0 := by
      intro k
      rw [getD_storeu_storeu e x y _ _ k (by omega) (by omega)]
      by_cases hkx : x ≤ k ∧ k < x + 8
      · rw [if_pos hkx, if_pos hkx]
        have hl : k - x < 8 := by omega
        simp only [lane, dif_pos hl, mm512_loadu_si512]
        rw [show x + (k - x) = k by omega, show y + (k - x) = k + (y - x) by omega]
      · rw [if_neg hkx, if_neg hkx]
        by_cases hky : y ≤ k ∧ k < y + 8
        · rw [if_pos hky, if_pos hky]
          have hl : k - y < 8 := by omega
          simp only [lane, dif_pos hl, mm512_loadu_si512]
          rw [show x + (k - y) = k - (y - x) by omega, show y + (k - y) = k by omega]
        · rw [if_neg hky, if_neg hky]
    obtain ⟨out, ho, hol, hog⟩ := ih (x + 8) (y + 8)
      (mm512_storeu_si512 (mm512_storeu_si512 e x
          (fun l => a * (mm512_loadu_si512 e x l + mm512_loadu_si512 e y l) % q)) y
          (fun l => b * (mm512_loadu_si512 e x l + 2 * q - mm512_loadu_si512 e y l) % q))
      (by omega) (by rw [storeu_length, storeu_length]; omega)
      (fun k => by
        rw [hst k]
        have hm : ∀ v, v % q < 2 * q := fun v => by
          have := Nat.mod_lt v (show 0 < q by omega)
          omega
        split_ifs
        · exact hm _
        · exact hm _
        · exact h2 k)
    refine ⟨out, ?_, by rw [hol, storeu_length, storeu_length], fun k => ?_⟩
    · simp only [Inverse_final_loop, hbody]
      exact ho
    · have hun : ∀ i, ¬ (x ≤ i ∧ i < x + 8) → ¬ (y ≤ i ∧ i < y + 8) →
          (mm512_storeu_si512 (mm512_storeu_si512 e x
            (fun l => a * (mm512_loadu_si512 e x l + mm512_loadu_si512 e y l) % q)) y
            (fun l => b * (mm512_loadu_si512 e x l + 2 * q - mm512_loadu_si512 e y l) % q)).getD
              i 0 = e.getD i 0 := by
        intro i h1 h2'
        rw [hst i, if_neg h1, if_neg h2']
      rw [hog k]
      by_cases c1 : x + 8 ≤ k ∧ k < x + 8 + 8 * j
      · rw [if_pos c1, if_pos (show x ≤ k ∧ k < x + 8 * (j + 1) by omega),
          hun k (by omega) (by omega), hun (k + (y + 8 - (x + 8))) (by omega) (by omega),
          show y + 8 - (x + 8) = y - x by omega]
      · rw [if_neg c1]
        by_cases c2 : y + 8 ≤ k ∧ k < y + 8 + 8 * j
        · rw [if_pos c2, if_neg (show ¬ (x ≤ k ∧ k < x + 8 * (j + 1)) by omega),
            if_pos (show y ≤ k ∧ k < y + 8 * (j + 1) by omega),
            hun k (by omega) (by omega), hun (k - (y + 8 - (x + 8))) (by omega) (by omega),
            show y + 8 - (x + 8) = y - x by omega]
        · rw [if_neg c2, hst k]
          by_cases c3 : x ≤ k ∧ k < x + 8
          · rw [if_pos c3, if_pos (show x ≤ k ∧ k < x + 8 * (j + 1) by omega)]
          · rw [if_neg c3, if_neg (show ¬ (x ≤ k ∧ k < x + 8 * (j + 1)) by omega)]
            by_cases c4 : y ≤ k ∧ k < y + 8
            · rw [if_pos c4, if_pos (show y ≤ k ∧ k < y + 8 * (j + 1) by omega)]
            · rw [if_neg c4, if_neg (show ¬ (y ≤ k ∧ k < y + 8 * (j + 1)) by omega)]

/-- The 64-bit inverse transform returns on valid data, with every word of the
result below `q`: for a size `n` that is a multiple of 16, a modulus with
`4q <= 2^64`, twiddles below `q` with their factors and input words below
`q`. -/
theorem InverseTransform64_returns (CheckArguments : Nat → Nat → Option Bool) (n q : Nat)
    (irp iprp elements : List Nat) (hn16 : n % 16 = 0) (hn64 : n < 2 ^ 64) (hq : 1 ≤ q)
    (h4 : 4 * q ≤ 2 ^ 64) (hlen : elements.length = n)
    (htw : ∀ k, irp.getD k 0 < q ∧ iprp.getD k 0 = irp.getD k 0 * 2 ^ 64 / q)
    (hx : ∀ k, elements.getD k 0 < q) (hca : CheckArguments n q = some true) :
    ∃ out, InverseTransformFromBitReverseAVX512 CheckArguments 64 n q irp iprp elements
        = some out ∧ out.length = n ∧ ∀ k, out.getD k 0 < q := by
  have hc1 : LATTICE_CHECK_BOUNDS iprp n (2 ^ 64 - 1) = true :=
    LATTICE_CHECK_BOUNDS_of_getD iprp n _ (fun i _ => by
      rw [(htw i).2]
      exact precon_lt (2 ^ 64) q _ hq h4 (htw i).1)
  have hc2 : LATTICE_CHECK_BOUNDS elements n (2 ^ 64 - 1) = true :=
    LATTICE_CHECK_BOUNDS_of_getD elements n _ (fun i _ => by have := hx i; omega)
  have hc3 : LATTICE_CHECK_BOUNDS elements n q = true :=
    LATTICE_CHECK_BOUNDS_of_getD elements n _ (fun i _ => hx i)
  obtain ⟨e1, h1, hl1, hb1⟩ := InvT1_loop64_range q hq h4 irp iprp htw (n >>> 1 / 8) 0 1
    elements (fun k => by have := hx k; omega) (fun k _ => hx k)
  obtain ⟨e2, h2, hl2, hb2⟩ := InvT2_loop64_range q hq h4 irp iprp htw (n >>> 1 >>> 1 / 4) 0
    (1 + n >>> 1) e1 hb1
  obtain ⟨e3, h3, hl3, hb3⟩ := InvT4_loop64_range q hq h4 irp iprp htw
    (n >>> 1 >>> 1 >>> 1 / 2) 0 (1 + n >>> 1 + n >>> 1 >>> 1) e2 hb2
  obtain ⟨e4, ri, h5, hl4, hb4⟩ := Inverse_stage_loop64_range q hq h4 irp iprp htw 64
    (1 <<< 1 <<< 1 <<< 1) (n >>> 1 >>> 1 >>> 1 >>> 1)
    (1 + n >>> 1 + n >>> 1 >>> 1 + n >>> 1 >>> 1 >>> 1) e3
    (by simp only [Nat.shiftRight_eq_div_pow]; omega) hb3
  have ha : InverseUIntMod n q < q := Nat.mod_lt _ (by omega)
  have hb : MultiplyUIntMod (InverseUIntMod n q) (irp.getD ri 0) q < q := Nat.mod_lt _ (by omega)
  have hf1 := MultiplyFactor_new_eq (InverseUIntMod n q) 64 q (by omega) hq (Or.inr rfl)
    (Or.inl ha)
  have hf2 := MultiplyFactor_new_eq (MultiplyUIntMod (InverseUIntMod n q) (irp.getD ri 0) q) 64 q
    (by omega) hq (Or.inr rfl) (Or.inl hb)
  obtain ⟨out, ho, hol, hog⟩ := Inverse_final_loop64_spec q (InverseUIntMod n q)
    (MultiplyUIntMod (InverseUIntMod n q) (irp.getD ri 0) q) hq h4 ha hb (n / 16) 0 (n >>> 1) e4
    (by rw [Nat.shiftRight_eq_div_pow]; omega)
    (by rw [hl4, hl3, hl2, hl1, hlen, Nat.shiftRight_eq_div_pow]; omega) hb4
  refine ⟨out, ?_, by rw [hol, hl4, hl3, hl2, hl1, hlen], fun k => ?_⟩
  · simp only [InverseTransformFromBitReverseAVX512, hca, LATTICE_CHECK,
      MaximumValue_eq 64 (Or.inr rfl), hc1, hc2, hc3, Bool.not_true, Bool.false_eq_true,
      if_false, InvT1, InvT2, InvT4, h1, h2, h3, h5, hf1, MultiplyFactor.Operand, hf2,
      MultiplyFactor.BarrettFactor]
    exact ho
  · rw [hog k]
    have hm : ∀ v, v % q < q := fun v => Nat.mod_lt v (by omega)
    split_ifs with c1 c2
    · exact hm _
    · exact hm _
    · have hk : e4.length ≤ k := by
        rw [hl4, hl3, hl2, hl1, hlen]
        rw [Nat.shiftRight_eq_div_pow] at c2
        omega
      rw [List.getD_eq_default _ _ hk]
      omega

/-- C22: the output range of the inverse transform.  For `n = 2^L >= 16`, a
modulus `q >= 1` with `4q <= 2^BitShift`, tables of `n` twiddles below `q` with
the factors `floor(W * 2^BitShift / q)` and `n` input words below `q`: whenever
the inverse transform returns, it returns `n` words that are all below `q`; in
the 64-bit tier it does return once `CheckArguments` accepts the arguments.  (In
the 52-bit tier it never returns, see `InverseTransform_52_eq_none`.) -/
theorem InverseTransform_output_range (CheckArguments : Nat → Nat → Option Bool)
    (BitShift n L q : Nat) (irp iprp elements : List Nat)
    (hBS : BitShift = 52 ∨ BitShift = 64) (hn : n = 2 ^ L) (hL4 : 4 ≤ L) (hL : L < 64)
    (hq : 1 ≤ q) (h4 : 4 * q ≤ 2 ^ BitShift) (hlen : elements.length = n)
    (hirp : irp.length = n) (hiprp : iprp.length = n)
    (htw : ∀ k, k < n →
      irp.getD k 0 < q ∧ iprp.getD k 0 = irp.getD k 0 * 2 ^ BitShift / q)
    (hx : ∀ x ∈ elements, x < q) :
    (∀ out, InverseTransformFromBitReverseAVX512 CheckArguments BitShift n q irp iprp elements
        = some out → out.length = n ∧ ∀ x ∈ out, x < q) ∧
    (BitShift = 64 → CheckArguments n q = some true →
      ∃ out, InverseTransformFromBitReverseAVX512 CheckArguments BitShift n q irp iprp elements
        = some out) := by
  have hn16 : 16 ≤ n ∧ n % 16 = 0 ∧ n < 2 ^ 64 := by
    subst hn
    obtain ⟨d, rfl⟩ : ∃ d, L = d + 4 := ⟨L - 4, by omega⟩
    have h1 : 2 ^ (d + 4) = 16 * 2 ^ d := by rw [pow_add]; ring
    have h2 : 0 < 2 ^ d := by positivity
    have h3 : 2 ^ (d + 4) < 2 ^ 64 := Nat.pow_lt_pow_right (by norm_num) hL
    omega
  rcases hBS with h | h
  · subst h
    refine ⟨fun out ho => ?_, fun h64 => absurd h64 (by decide)⟩
    rw [InverseTransform_52_eq_none CheckArguments n q irp iprp elements hn16.1 hq
      (by norm_num at h4; omega)] at ho
    exact absurd ho (by simp)
  · subst h
    have htw2 : ∀ k, irp.getD k 0 < q ∧ iprp.getD k 0 = irp.getD k 0 * 2 ^ 64 / q := by
      intro k
      by_cases hk : k < n
      · exact htw k hk
      · rw [List.getD_eq_default _ _ (by omega), List.getD_eq_default _ _ (by omega)]
        exact ⟨by omega, by simp⟩
    have hx2 : ∀ k, elements.getD k 0 < q := getD_lt_of_forall_mem elements q (by omega) hx
    have hret := InverseTransform64_returns CheckArguments n q irp iprp elements hn16.2.1
      hn16.2.2 hq h4 hlen htw2 hx2
    constructor
    · intro out ho
      cases hca : CheckArguments n q with
      | none =>
        simp only [InverseTransformFromBitReverseAVX512, hca] at ho
        exact absurd ho (by simp)
      | some ok =>
        cases ok with
        | false =>
          simp only [InverseTransformFromBitReverseAVX512, hca, LATTICE_CHECK, Bool.not_false,
            if_true] at ho
          exact absurd ho (by simp)
        | true =>
          obtain ⟨o, h1, h2, h3⟩ := hret hca
          rw [h1] at ho
          have := Option.some.inj ho
          subst this
          exact ⟨h2, forall_mem_of_getD_lt o q h3⟩
    · intro _ hca
      obtain ⟨o, h1, _, _⟩ := hret hca
      exact ⟨o, h1⟩

/-- Witness of C22: size 16 at modulus 97 with the inverse tables of
`psi = 19`, in the 64-bit tier. -/
theorem InverseTransform_output_range_witness :
    (∀ out, InverseTransformFromBitReverseAVX512 (fun _ _ => some true) 64 16 97
        [1, 46, 42, 63, 28, 45, 20, 30, 78, 79, 89, 85, 27, 33, 47, 22]
        [190172619316593315, 8747940488563292518, 7987250011296919256,
          11980875016945378884, 5324833340864612837, 8557767869246699203,
          3803452386331866312, 5705178579497799468, 14833464306694278619,
          15023636926010871934, 16925363119176805090, 16164672641910431828,
          5134660721548019521, 6275696437447579415, 8938113107879885834,
          4183797624965052943]
        [56, 43, 74, 69, 32, 4, 56, 30, 40, 69, 29, 76, 18, 22, 1, 76] = some out →
      out.length = 16 ∧ ∀ x ∈ out, x < 97) ∧
    (64 = 64 → (fun (_ _ : Nat) => some true) 16 97 = some true →
      ∃ out, InverseTransformFromBitReverseAVX512 (fun _ _ => some true) 64 16 97
        [1, 46, 42, 63, 28, 45, 20, 30, 78, 79, 89, 85, 27, 33, 47, 22]
        [190172619316593315, 8747940488563292518, 7987250011296919256,
          11980875016945378884, 5324833340864612837, 8557767869246699203,
          3803452386331866312, 5705178579497799468, 14833464306694278619,
          15023636926010871934, 16925363119176805090, 16164672641910431828,
          5134660721548019521, 6275696437447579415, 8938113107879885834,
          4183797624965052943]
        [56, 43, 74, 69, 32, 4, 56, 30, 40, 69, 29, 76, 18, 22, 1, 76] = some out) :=
  InverseTransform_output_range (fun _ _ => some true) 64 16 4 97
    [1, 46, 42, 63, 28, 45, 20, 30, 78, 79, 89, 85, 27, 33, 47, 22]
    [190172619316593315, 8747940488563292518, 7987250011296919256,
      11980875016945378884, 5324833340864612837, 8557767869246699203,
      3803452386331866312, 5705178579497799468, 14833464306694278619,
      15023636926010871934, 16925363119176805090, 16164672641910431828,
      5134660721548019521, 6275696437447579415, 8938113107879885834,
      4183797624965052943]
    [56, 43, 74, 69, 32, 4, 56, 30, 40, 69, 29, 76, 18, 22, 1, 76]
    (by decide) (by decide) (by decide) (by decide) (by decide) (by decide) (by decide)
    (by decide) (by decide) (by decide) (by decide)

/-! ## The final fused loop of the inverse transform -/

/-- For a prime `q` that does not divide `n`, `InverseUIntMod(n, q)` is the
inverse of `n` modulo `q`. -/
theorem InverseUIntMod_mul (n q : Nat) (hprime : Nat.Prime q) (hnd : ¬ q ∣ n) :
    ((InverseUIntMod n q : Nat) : ZMod q) * ((n : Nat) : ZMod q) = 1 := by
  haveI : Fact q.Prime := ⟨hprime⟩
  have hn0 : ((n : Nat) : ZMod q) ≠ 0 := by
    rw [Ne, ZMod.natCast_zmod_eq_zero_iff_dvd]
    exact hnd
  have h2 : 2 ≤ q := hprime.two_le
  unfold InverseUIntMod
  rw [ZMod.natCast_mod, Nat.cast_pow, ← pow_succ, show q - 2 + 1 = q - 1 by omega]
  exact ZMod.pow_card_sub_one_eq_one hn0

/-- The words of the final fused loop are the last inverse butterfly scaled by
the inverse of `n`: with `a = InverseUIntMod(n, q)` and
`b = MultiplyUIntMod(a, W, q)`, the stored `(a * (x + y)) mod q` times `n` is
congruent to `x + y`, and the stored `(b * (x + 2q - y)) mod q` times `n` is
congruent to `W * (x - y)`. -/
theorem Inverse_final_values64 (n q W x y : Nat) (hprime : Nat.Prime q) (hnd : ¬ q ∣ n)
    (hy : y < 2 * q) :
    InverseUIntMod n q * (x + y) % q * n ≡ x + y [MOD q] ∧
    MultiplyUIntMod (InverseUIntMod n q) W q * (x + 2 * q - y) % q * n + W * y
      ≡ W * x [MOD q] := by
  have hinv := InverseUIntMod_mul n q hprime hnd
  have hq0 : ((q : Nat) : ZMod q) = 0 := ZMod.natCast_self q
  constructor
  · rw [← ZMod.natCast_eq_natCast_iff]
    push_cast
    rw [ZMod.natCast_mod]
    push_cast
    calc ((InverseUIntMod n q : Nat) : ZMod q) * ((x : ZMod q) + y) * n
        = (((InverseUIntMod n q : Nat) : ZMod q) * n) * ((x : ZMod q) + y) := by ring
      _ = (x : ZMod q) + y := by rw [hinv, one_mul]
  · rw [← ZMod.natCast_eq_natCast_iff]
    push_cast
    rw [ZMod.natCast_mod]
    unfold MultiplyUIntMod
    rw [Nat.cast_mul, ZMod.natCast_mod, Nat.cast_sub (by omega)]
    push_cast
    rw [hq0]
    calc ((InverseUIntMod n q : Nat) : ZMod q) * W * ((x : ZMod q) + 2 * 0 - y) * n + W * y
        = (((InverseUIntMod n q : Nat) : ZMod q) * n) * (W * ((x : ZMod q) - y)) + W * y := by
          ring
      _ = (W : ZMod q) * x := by rw [hinv]; ring

/-- In the 52-bit tier the body of the final fused loop stops on a bounds
check whenever a lane of `v_neg_modulus` is `2^52 - 1` or more. -/
theorem Inverse_final_body52_eq_none
    (v_modulus v_neg_modulus v_twice_mod v_inv_n v_inv_n_prime v_inv_n_w v_inv_n_w_prime
      v_X v_Y : m512i) (l : Fin 8) (h : 2 ^ 52 - 1 ≤ v_neg_modulus l) :
    Inverse_final_body 52 v_modulus v_neg_modulus v_twice_mod v_inv_n v_inv_n_prime v_inv_n_w
      v_inv_n_w_prime v_X v_Y = none := by
  have hneg : LATTICE_CHECK_BOUNDS (ExtractValues v_neg_modulus) 8 (2 ^ 52 - 1) = false := by
    cases hc : LATTICE_CHECK_BOUNDS (ExtractValues v_neg_modulus) 8 (2 ^ 52 - 1) with
    | false => rfl
    | true =>
      have := (LATTICE_CHECK_BOUNDS_ExtractValues v_neg_modulus (2 ^ 52 - 1)).1 hc l
      omega
  have hadd : ∀ x y, mm512_il_mullo_add_epi 52 x y v_neg_modulus = none := by
    intro x y
    simp only [mm512_il_mullo_add_epi, hneg]
    simp
  simp only [Inverse_final_body]
  cases h1 : mm512_il_small_add_mod_epi64 v_X v_Y v_twice_mod with
  | none => rfl
  | some s =>
    simp only []
    cases h2 : mm512_il_mulhi_epi 52 v_inv_n_prime s with
    | none => rfl
    | some Q1 =>
      simp only []
      cases h3 : mm512_il_mullo_epi 52 v_inv_n s with
      | none => rfl
      | some t => simp only [hadd]

/-- C21, the code at a failing input: in the 52-bit tier, at `n = 16`,
`q = 97` with the last inverse twiddle `W = 22` and a buffer of words below
`2q`, the final fused loop stops on a failed check instead of storing
`(n^-1 * (X + Y)) mod q` and `(n^-1 * W * (X - Y)) mod q`. -/
theorem Inverse_final_loop_52_stops :
    Inverse_final_loop 52 (mm512_set1_epi64 97) (mm512_set1_epi64 (sub64 0 97))
      (mm512_set1_epi64 (shl64 97 1)) (mm512_set1_epi64 (InverseUIntMod 16 97))
      (mm512_set1_epi64 (InverseUIntMod 16 97 * 2 ^ 52 / 97))
      (mm512_set1_epi64 (MultiplyUIntMod (InverseUIntMod 16 97) 22 97))
      (mm512_set1_epi64 (MultiplyUIntMod (InverseUIntMod 16 97) 22 97 * 2 ^ 52 / 97))
      (16 / 16) 0 (16 >>> 1) [1, 2, 3, 4, 5, 6, 7, 8, 9, 10, 11, 12, 13, 14, 15, 16] = none := by
  decide

/-- The lane of `_mm512_il_cmple_epu64`: `match_value` where `a ≤ b` as
unsigned words, zero elsewhere. -/
theorem cmple_lane (a b : m512i) (v : Nat) (l : Fin 8) :
    mm512_il_cmple_epu64 a b v l = (if a l ≤ b l then v else 0) := by
  simp only [mm512_il_cmple_epu64, mm512_il_cmp_epi64, mm512_il_cmp_epu64_mask,
    mm512_cmp_epu64_mask, CMPINT.toInt, mm512_maskz_broadcastq_epi64, mm_set1_epi64x]
  simp

/-- C31: the compare helpers use the unsigned order of the lanes.  For all
registers `a`, `b`, every `match_value` and every lane, `_mm512_il_cmplt_epu64`
holds `match_value` when `a < b` and 0 otherwise, `_mm512_il_cmple_epu64` holds
`match_value` when `a ≤ b` and 0 otherwise, `_mm512_il_cmpge_epu64` holds
`match_value` when `a ≥ b` and 0 otherwise; the lanes are compared as natural
numbers, so a word of `2^63` or more is large; and in every lane one of `cmplt`
and `cmpge` holds `match_value` while the other holds 0. -/
theorem cmp_epu64_helpers_unsigned (a b : m512i) (match_value : Nat) (l : Fin 8) :
    mm512_il_cmplt_epu64 a b match_value l = (if a l < b l then match_value else 0) ∧
    mm512_il_cmple_epu64 a b match_value l = (if a l ≤ b l then match_value else 0) ∧
    mm512_il_cmpge_epu64 a b match_value l = (if a l ≥ b l then match_value else 0) ∧
    ((mm512_il_cmplt_epu64 a b match_value l = match_value ∧
        mm512_il_cmpge_epu64 a b match_value l = 0) ∨
      (mm512_il_cmplt_epu64 a b match_value l = 0 ∧
        mm512_il_cmpge_epu64 a b match_value l = match_value)) := by
  have h := cmplt_cmpge_lane a b match_value l
  refine ⟨h.1, cmple_lane a b match_value l, h.2, ?_⟩
  rw [h.1, h.2]
  by_cases hab : a l < b l
  · left
    rw [if_pos hab, if_neg (by omega)]
    exact ⟨rfl, rfl⟩
  · right
    rw [if_neg hab, if_pos (by omega)]
    exact ⟨rfl, rfl⟩

/-- C38: the precomputed factor is below `2^bit_shift`.  For `bit_shift` 52 or
64, a 64-bit modulus `q ≥ 1` and an operand below `q`, the constructor
`MultiplyFactor(operand, bit_shift, q)` returns, its `BarrettFactor()` is the
exact quotient `floor(operand * 2^bit_shift / q)` (the conversion to 64 bits
drops nothing), it is below `2^bit_shift`, and so it is at most
`MaximumValue(bit_shift)`. -/
theorem MultiplyFactor_BarrettFactor_lt (operand bit_shift q : Nat)
    (hbs : bit_shift = 52 ∨ bit_shift = 64) (hq : 1 ≤ q) (hq64 : q < 2 ^ 64)
    (hop : operand < q) :
    ∃ mf, MultiplyFactor.new operand bit_shift q = some mf ∧
      mf.BarrettFactor = operand * 2 ^ bit_shift / q ∧
      mf.BarrettFactor < 2 ^ bit_shift ∧
      ∃ M, MaximumValue bit_shift = some M ∧ mf.BarrettFactor ≤ M := by
  have hlt : operand * 2 ^ bit_shift / q < 2 ^ bit_shift := by
    rw [Nat.div_lt_iff_lt_mul (by omega)]
    rw [Nat.mul_comm (2 ^ bit_shift) q]
    exact Nat.mul_lt_mul_of_lt_of_le hop (le_refl _) (by positivity)
  refine ⟨_, MultiplyFactor_new_eq operand bit_shift q (by omega) hq hbs (Or.inl hop),
    rfl, hlt, 2 ^ bit_shift - 1, MaximumValue_eq bit_shift hbs, ?_⟩
  show operand * 2 ^ bit_shift / q ≤ 2 ^ bit_shift - 1
  omega

/-- C38 at `operand = 768`, `q = 769`, `bit_shift = 52`. -/
theorem MultiplyFactor_BarrettFactor_lt_witness :
    ∃ mf, MultiplyFactor.new 768 52 769 = some mf ∧
      mf.BarrettFactor = 768 * 2 ^ 52 / 769 ∧
      mf.BarrettFactor < 2 ^ 52 ∧
      ∃ M, MaximumValue 52 = some M ∧ mf.BarrettFactor ≤ M :=
  MultiplyFactor_BarrettFactor_lt 768 52 769 (Or.inl rfl) (by decide) (by decide) (by decide)

/-- A positive number has no bit in common with its predecessor exactly when
it is a power of two. -/
theorem and_pred_eq_zero_iff : ∀ (x : Nat), 0 < x → (x &&& (x - 1) = 0 ↔ ∃ k, x = 2 ^ k) := by
  intro x
  induction x using Nat.strong_induction_on with
  | _ x ih =>
    intro hx
    have hz : x &&& (x - 1) = 0 ↔
        (x &&& (x - 1)) / 2 = 0 ∧ ¬ (x &&& (x - 1)) % 2 = 1 := by omega
    rw [hz, Nat.and_div_two, Nat.and_mod_two_eq_one]
    rcases Nat.even_or_odd x with ⟨m, hm⟩ | ⟨m, hm⟩
    · have hm1 : 1 ≤ m := by omega
      have e1 : x / 2 = m := by omega
      have e2 : (x - 1) / 2 = m - 1 := by omega
      rw [e1, e2]
      have hih := ih m (by omega) (by omega)
      constructor
      · rintro ⟨h0, -⟩
        obtain ⟨k, hk⟩ := hih.1 h0
        exact ⟨k + 1, by rw [pow_succ]; omega⟩
      · rintro ⟨k, hk⟩
        refine ⟨?_, by omega⟩
        apply hih.2
        rcases k with _ | k
        · omega
        · exact ⟨k, by rw [pow_succ] at hk; omega⟩
    · have e1 : x / 2 = m := by omega
      have e2 : (x - 1) / 2 = m := by omega
      rw [e1, e2, Nat.and_self]
      constructor
      · rintro ⟨h0, -⟩
        exact ⟨0, by omega⟩
      · rintro ⟨k, hk⟩
        refine ⟨?_, by omega⟩
        rcases k with _ | k
        · omega
        · rw [pow_succ] at hk; omega

/-- `IsPowerOfTwo` on a 64-bit word: true exactly at the powers of two
`2^0, ..., 2^63`. -/
theorem IsPowerOfTwo_iff (x : Nat) (hx : x < 2 ^ 64) :
    IsPowerOfTwo x = true ↔ ∃ k, k ≤ 63 ∧ x = 2 ^ k := by
  by_cases h0 : x = 0
  · subst h0
    constructor
    · intro h; revert h; decide
    · rintro ⟨k, -, hk⟩
      exact absurd hk.symm (by positivity)
  · have hs : sub64 x 1 = x - 1 := by
      unfold sub64
      omega
    have hiff := and_pred_eq_zero_iff x (by omega)
    simp only [IsPowerOfTwo, hs, ne_eq, h0, not_false_eq_true, decide_True, Bool.true_and,
      Bool.not_eq_true', decide_eq_false_iff_not, not_not]
    rw [hiff]
    constructor
    · rintro ⟨k, hk⟩
      refine ⟨k, ?_, hk⟩
      by_contra hlt
      have : 2 ^ 64 ≤ 2 ^ k := Nat.pow_le_pow_right (by norm_num) (by omega)
      omega
    · rintro ⟨k, -, hk⟩
      exact ⟨k, hk⟩

/-- The loop of `Log2` ends within `fuel + 1` rounds on a word below
`2^(fuel + 1)`. -/
theorem Log2_loop_returns : ∀ (fuel x ret : Nat), x < 2 ^ (fuel + 1) →
    ∃ r, Log2_loop (fuel + 1) x ret = some r := by
  intro fuel
  induction fuel with
  | zero =>
    intro x ret hx
    have : x / 2 = 0 := by omega
    exact ⟨ret, by simp [Log2_loop, shr64_one, this]⟩
  | succ fuel ih =>
    intro x ret hx
    have hx2 : x / 2 < 2 ^ (fuel + 1) := by
      rw [pow_succ] at hx
      omega
    by_cases h0 : x / 2 = 0
    · exact ⟨ret, by simp [Log2_loop, shr64_one, h0]⟩
    · obtain ⟨r, hr⟩ := ih (x / 2) ((ret + 1) % 2 ^ 64) hx2
      refine ⟨r, ?_⟩
      rw [Log2_loop]
      simp only [shr64_one, ne_eq, h0, not_false_eq_true, if_true]
      exact hr

/-- The loop of `Log2` on `2^k` counts `k` halvings. -/
theorem Log2_loop_two_pow : ∀ (fuel k ret : Nat), k < fuel → ret + k < 2 ^ 64 →
    Log2_loop fuel (2 ^ k) ret = some (ret + k) := by
  intro fuel
  induction fuel with
  | zero => intro k ret hk; omega
  | succ fuel ih =>
    intro k ret hk hr
    rcases k with _ | k
    · simp [Log2_loop, shr64_one]
    · have hhalf : 2 ^ (k + 1) / 2 = 2 ^ k := by rw [pow_succ]; omega
      have hpos : 2 ^ k ≠ 0 := by positivity
      rw [Log2_loop]
      simp only [shr64_one, hhalf, ne_eq, hpos, not_false_eq_true, if_true]
      rw [Nat.mod_eq_of_lt (by omega), ih k (ret + 1) (by omega) (by omega)]
      congr 1
      omega

/-- C32: `Log2` and `IsPowerOfTwo` on a 64-bit word `x`.  The loop of `Log2`
ends on every `x` (within 64 rounds); `Log2(x)` fails exactly when
`IsPowerOfTwo(x)` is false; `IsPowerOfTwo(x)` is true exactly when `x = 2^k`
for some `k` in `0..63` (so it is false at 0); and `Log2(2^k) = k` for every
`k` in `0..63`. -/
theorem Log2_spec (x : Nat) (hx : x < 2 ^ 64) :
    (∃ r, Log2_loop 64 x 0 = some r) ∧
    (Log2 x = none ↔ IsPowerOfTwo x = false) ∧
    (IsPowerOfTwo x = true ↔ ∃ k, k ≤ 63 ∧ x = 2 ^ k) ∧
    IsPowerOfTwo 0 = false ∧
    (∀ k, k ≤ 63 → Log2 (2 ^ k) = some k) := by
  have hret := Log2_loop_returns 63 x 0 hx
  refine ⟨hret, ?_, IsPowerOfTwo_iff x hx, by decide, ?_⟩
  · obtain ⟨r, hr⟩ := hret
    unfold Log2 LATTICE_CHECK
    cases hp : IsPowerOfTwo x
    · simp
    · simp [hr]
  · intro k hk
    have hlt : 2 ^ k < 2 ^ 64 := Nat.pow_lt_pow_right (by norm_num) (by omega)
    have hp : IsPowerOfTwo (2 ^ k) = true := (IsPowerOfTwo_iff (2 ^ k) hlt).2 ⟨k, hk, rfl⟩
    unfold Log2 LATTICE_CHECK
    rw [hp]
    simp only [Bool.not_true, Bool.false_eq_true, if_false]
    rw [Log2_loop_two_pow 64 k 0 (by omega) (by omega), Nat.zero_add]

/-- C32 at `x = 4096 = 2^12`. -/
theorem Log2_spec_witness :
    (∃ r, Log2_loop 64 4096 0 = some r) ∧
    (Log2 4096 = none ↔ IsPowerOfTwo 4096 = false) ∧
    (IsPowerOfTwo 4096 = true ↔ ∃ k, k ≤ 63 ∧ 4096 = 2 ^ k) ∧
    IsPowerOfTwo 0 = false ∧
    (∀ k, k ≤ 63 → Log2 (2 ^ k) = some k) :=
  Log2_spec 4096 (by decide)

/-- The 128-bit numerator `(x1 << 64) | x0` of two 64-bit words. -/
theorem numerator_eq (x0 x1 : Nat) (h0 : x0 < 2 ^ 64) (h1 : x1 < 2 ^ 64) :
    ((x1 <<< 64) % 2 ^ 128) ||| x0 = x1 * 2 ^ 64 + x0 := by
  have hlt : x1 * 2 ^ 64 < 2 ^ 128 := by omega
  rw [Nat.shiftLeft_eq, Nat.mod_eq_of_lt hlt, Nat.mul_comm x1 (2 ^ 64)]
  exact (Nat.mul_add_lt_is_or h0 x1).symm

/-- C33: division of a 128-bit numerator by a 64-bit word.  For 64-bit words
`x[0]`, `x[1]` and `y ≥ 1`, with `n = x[1] * 2^64 + x[0]`:
`DivideUInt128UInt64` returns words with
`result[1] * 2^64 + result[0] = floor(n / y)`, leaves `x[0] = n mod y` and
`x[1] = 0`, so that `quotient * y + x[0] = n` with `x[0] < y`; and
`DivideUInt128UInt64Lo` and `DivideUInt128UInt64Hi` return `result[0]` and
`result[1]`. -/
theorem DivideUInt128UInt64_spec (x0 x1 y : Nat) (h0 : x0 < 2 ^ 64) (h1 : x1 < 2 ^ 64)
    (hy : 1 ≤ y) (hy64 : y < 2 ^ 64) :
    ∃ result x, DivideUInt128UInt64 (x0, x1) y = some (result, x) ∧
      result.2 * 2 ^ 64 + result.1 = (x1 * 2 ^ 64 + x0) / y ∧
      x.1 = (x1 * 2 ^ 64 + x0) % y ∧ x.2 = 0 ∧
      (result.2 * 2 ^ 64 + result.1) * y + x.1 = x1 * 2 ^ 64 + x0 ∧ x.1 < y ∧
      DivideUInt128UInt64Lo x0 x1 y = some result.1 ∧
      DivideUInt128UInt64Hi x0 x1 y = some result.2 := by
  have hn := numerator_eq x0 x1 h0 h1
  have hy0 : y ≠ 0 := by omega
  have hn128 : x1 * 2 ^ 64 + x0 < 2 ^ 128 := by omega
  generalize hN : x1 * 2 ^ 64 + x0 = n at hn hn128
  have hq128 : n / y < 2 ^ 128 := lt_of_le_of_lt (Nat.div_le_self n y) hn128
  have hqy : n / y * y ≤ n := Nat.div_mul_le_self n y
  have hmod : n % y < y := Nat.mod_lt n (by omega)
  have hdm : n / y * y + n % y = n := Nat.div_add_mod' n y
  have hsplit : ((n / y) >>> 64) % 2 ^ 64 * 2 ^ 64 + n / y % 2 ^ 64 = n / y := by
    rw [Nat.shiftRight_eq_div_pow]
    generalize n / y = Q at hq128
    omega
  have hrem : (n + 2 ^ 128 - n / y * y % 2 ^ 128) % 2 ^ 128 % 2 ^ 64 = n % y := by
    generalize n / y * y = p at hqy hdm
    omega
  refine ⟨(n / y % 2 ^ 64, ((n / y) >>> 64) % 2 ^ 64), (n % y, 0), ?_, hsplit, rfl, rfl, ?_,
    hmod, ?_, ?_⟩
  · simp only [DivideUInt128UInt64, hn, hy0, if_false, hrem]
  · show (((n / y) >>> 64) % 2 ^ 64 * 2 ^ 64 + n / y % 2 ^ 64) * y + n % y = n
    rw [hsplit]
    exact hdm
  · simp only [DivideUInt128UInt64Lo, hn, hy0, if_false]
  · simp only [DivideUInt128UInt64Hi, hn, hy0, if_false]

/-- C33 at the numerator `5 * 2^64 + 7` and `y = 3`. -/
theorem DivideUInt128UInt64_spec_witness :
    ∃ result x, DivideUInt128UInt64 (7, 5) 3 = some (result, x) ∧
      result.2 * 2 ^ 64 + result.1 = (5 * 2 ^ 64 + 7) / 3 ∧
      x.1 = (5 * 2 ^ 64 + 7) % 3 ∧ x.2 = 0 ∧
      (result.2 * 2 ^ 64 + result.1) * 3 + x.1 = 5 * 2 ^ 64 + 7 ∧ x.1 < 3 ∧
      DivideUInt128UInt64Lo 7 5 3 = some result.1 ∧
      DivideUInt128UInt64Hi 7 5 3 = some result.2 :=
  DivideUInt128UInt64_spec 7 5 3 (by decide) (by decide) (by decide) (by decide)

/-- C37: in the 52-bit tier the inverse butterfly stops on a bounds check at
valid inputs.  With `p = 97`, `neg_modulus = 2^64 - 97` in every lane as the
inverse transform builds it, `W = 46 < p`, `W_precon = floor(46 * 2^52 / 97)`
and `X = 5`, `Y = 7` in every lane (both below `2p`): the operand
`neg_modulus` is not below the bound `MaximumValue(52) = 2^52 - 1`, the high
multiply goes through, `_mm512_il_mullo_epi<52>` rejects `neg_modulus`, and
`InvButterfly<52>` returns nothing. -/
theorem InvButterfly_52_check_fails :
    (1 ≤ 97 ∧ 97 < 2 ^ 50 ∧ 46 < 97 ∧ 5 < 2 * 97 ∧ 7 < 2 * 97) ∧
    sub64 0 97 = 2 ^ 64 - 97 ∧
    MaximumValue 52 = some (2 ^ 52 - 1) ∧
    CheckBounds (mm512_set1_epi64 (sub64 0 97)) (2 ^ 52 - 1) = false ∧
    (mm512_il_mulhi_epi 52 (mm512_set1_epi64 (46 * 2 ^ 52 / 97))
        (mm512_sub_epi64 (mm512_set1_epi64 5)
          (mm512_sub_epi64 (mm512_set1_epi64 7) (mm512_set1_epi64 (shl64 97 1))))).isSome
      = true ∧
    (mm512_il_mulhi_epi 52 (mm512_set1_epi64 (46 * 2 ^ 52 / 97))
        (mm512_sub_epi64 (mm512_set1_epi64 5)
          (mm512_sub_epi64 (mm512_set1_epi64 7) (mm512_set1_epi64 (shl64 97 1))))).bind
      (fun Q => mm512_il_mullo_epi 52 Q (mm512_set1_epi64 (sub64 0 97))) = none ∧
    InvButterfly 52 false (mm512_set1_epi64 5) (mm512_set1_epi64 7) (mm512_set1_epi64 46)
        (mm512_set1_epi64 (46 * 2 ^ 52 / 97)) (mm512_set1_epi64 (sub64 0 97))
        (mm512_set1_epi64 (shl64 97 1)) = none ∧
    InvButterfly 52 true (mm512_set1_epi64 5) (mm512_set1_epi64 7) (mm512_set1_epi64 46)
        (mm512_set1_epi64 (46 * 2 ^ 52 / 97)) (mm512_set1_epi64 (sub64 0 97))
        (mm512_set1_epi64 (shl64 97 1)) = none := by
  decide

/-- The scalar butterfly in the 64-bit tier, for any 64-bit factor: it passes
its checks when `W ≤ q`, and its values are the wrapping sums below. -/
theorem ForwardButterfly64_eq (q W W_precon X Y : Nat) (h4 : 4 * q ≤ 2 ^ 64) (hW : W ≤ q)
    (hWp : W_precon < 2 ^ 64) (hX : X < 4 * q) (hY : Y < 4 * q) :
    ForwardButterfly 64 (2 ^ 64 - 1) q (2 * q) W W_precon X Y
      = some (((if 2 * q ≤ X then X - 2 * q else X)
                + sub64 ((Y * W) % 2 ^ 64) ((W_precon * Y / 2 ^ 64 * q) % 2 ^ 64)) % 2 ^ 64,
              ((if 2 * q ≤ X then X - 2 * q else X)
                + sub64 (2 * q)
                    (sub64 ((Y * W) % 2 ^ 64) ((W_precon * Y / 2 ^ 64 * q) % 2 ^ 64)))
                % 2 ^ 64) := by
  have hhi : MultiplyUInt64Hi 64 Y W_precon = W_precon * Y / 2 ^ 64 := by
    have hlt : Y * W_precon < 2 ^ 128 := by
      calc Y * W_precon < 2 ^ 64 * 2 ^ 64 :=
            Nat.mul_lt_mul_of_lt_of_le (by omega) (by omega) (by positivity)
        _ = 2 ^ 128 := by norm_num
    unfold MultiplyUInt64Hi
    rw [Nat.mod_eq_of_lt hlt, Nat.shiftRight_eq_div_pow, Nat.mul_comm Y W_precon]
    apply Nat.mod_eq_of_lt
    rw [Nat.mul_comm Y W_precon] at hlt
    omega
  have hlazy : MultiplyUIntModLazy 64 Y W W_precon q
      = some (sub64 ((Y * W) % 2 ^ 64) ((W_precon * Y / 2 ^ 64 * q) % 2 ^ 64)) := by
    have hmax : MaximumValue 64 = some (2 ^ 64 - 1) := by decide
    have c1 : decide (W ≤ q) = true := by simpa using hW
    have c2 : decide (q ≤ 2 ^ 64 - 1) = true := by
      simp only [decide_eq_true_eq]; omega
    have c3 : decide (Y ≤ 2 ^ 64 - 1) = true := by
      simp only [decide_eq_true_eq]; omega
    simp only [MultiplyUIntModLazy, hmax, LATTICE_CHECK, c1, c2, c3, Bool.not_true,
      Bool.false_eq_true, if_false, hhi, Nat.mul_comm W Y]
  have htx : sub64 X (2 * q &&& mask64 (decide (X ≥ 2 * q)))
      = if 2 * q ≤ X then X - 2 * q else X := sub64_mask X (2 * q) (by omega) (by omega)
  generalize hQ : sub64 ((Y * W) % 2 ^ 64) ((W_precon * Y / 2 ^ 64 * q) % 2 ^ 64) = Q
    at hlazy ⊢
  have hQlt : Q < 2 ^ 64 := by
    rw [← hQ]
    unfold sub64
    exact Nat.mod_lt _ (by positivity)
  generalize htxv : (if 2 * q ≤ X then X - 2 * q else X) = tx at htx ⊢
  have htxlt : tx < 2 * q := by
    rw [← htxv]
    split_ifs <;> omega
  have d1 : decide ((tx + Q) % 2 ^ 64 ≤ 2 ^ 64 - 1) = true := by
    simp only [decide_eq_true_eq]; omega
  have d2 : decide (sub64 ((tx + 2 * q) % 2 ^ 64) Q ≤ 2 ^ 64 - 1) = true := by
    simp only [decide_eq_true_eq]
    unfold sub64
    omega
  have hy : sub64 ((tx + 2 * q) % 2 ^ 64) Q = (tx + sub64 (2 * q) Q) % 2 ^ 64 := by
    unfold sub64
    omega
  rw [hy] at d2
  simp only [ForwardButterfly, htx, hlazy, LATTICE_CHECK, d1, hy, d2, Bool.not_true,
    Bool.false_eq_true, if_false]

/-- The scalar butterfly stops on the check `y_operand <= mod` of
`MultiplyUIntModLazy` when the twiddle exceeds the modulus. -/
theorem ForwardButterfly_eq_none (BitShift bound q twice_mod W W_precon X Y : Nat)
    (hW : q < W) :
    ForwardButterfly BitShift bound q twice_mod W W_precon X Y = none := by
  have hlazy : MultiplyUIntModLazy BitShift Y W W_precon q = none := by
    have c1 : decide (W ≤ q) = false := by
      simp only [decide_eq_false_iff_not]; omega
    unfold MultiplyUIntModLazy
    cases MaximumValue BitShift with
    | none => rfl
    | some b => simp only [LATTICE_CHECK, c1, Bool.not_false, if_true]
  simp only [ForwardButterfly, hlazy]

/-- C36: the checks of the scalar butterfly loop of the forward transform hold
and its sums do not wrap.  For `BitShift` 52 or 64, a modulus `q ≥ 1` with
`4q ≤ 2^BitShift`, a twiddle `W < q` with factor `floor(W * 2^BitShift / q)`
and words `X`, `Y` below `4q`: the three checks inside `MultiplyUIntModLazy`
hold (`W ≤ q`, `q ≤ MaximumValue(BitShift)`, `Y ≤ MaximumValue(BitShift)`) and
it returns some `Q`; with `tx` the folded `X`, the two in-loop checks
`tx + Q ≤ MaximumValue(BitShift)` and `tx + 2q - Q ≤ MaximumValue(BitShift)`
hold; the wrapping 64-bit values of `tx + Q` and `tx + 2q - Q` are the exact
integers; the butterfly returns them, and they are below `4q` again, so the
same holds at the next butterfly on these words.  Hence the scalar loop over a
block of words below `4q` goes through all of its rounds. -/
theorem Forward_scalar_checks_hold (BitShift q W X Y : Nat)
    (hBS : BitShift = 52 ∨ BitShift = 64) (hq : 1 ≤ q) (h4 : 4 * q ≤ 2 ^ BitShift)
    (hW : W < q) (hX : X < 4 * q) (hY : Y < 4 * q) :
    MaximumValue BitShift = some (2 ^ BitShift - 1) ∧
    (W ≤ q ∧ q ≤ 2 ^ BitShift - 1 ∧ Y ≤ 2 ^ BitShift - 1) ∧
    sub64 X (2 * q &&& mask64 (decide (X ≥ 2 * q))) = Forward_tx q X ∧
    (∃ Q, MultiplyUIntModLazy BitShift Y W (W * 2 ^ BitShift / q) q = some Q ∧
      Forward_tx q X + Q ≤ 2 ^ BitShift - 1 ∧
      Forward_tx q X + 2 * q - Q ≤ 2 ^ BitShift - 1 ∧
      (Forward_tx q X + Q) % 2 ^ 64 = Forward_tx q X + Q ∧
      Q ≤ Forward_tx q X + 2 * q ∧
      sub64 ((Forward_tx q X + 2 * q) % 2 ^ 64) Q = Forward_tx q X + 2 * q - Q ∧
      ForwardButterfly BitShift (2 ^ BitShift - 1) q (2 * q) W (W * 2 ^ BitShift / q) X Y
        = some (Forward_tx q X + Q, Forward_tx q X + 2 * q - Q) ∧
      Forward_tx q X + Q < 4 * q ∧ Forward_tx q X + 2 * q - Q < 4 * q) ∧
    (∀ (count X0 Y0 : Nat) (input : List Nat), X0 + count ≤ Y0 → Y0 + count ≤ input.length →
      (∀ k, X0 ≤ k → k < X0 + count → input.getD k 0 < 4 * q) →
      (∀ k, Y0 ≤ k → k < Y0 + count → input.getD k 0 < 4 * q) →
      ∃ out, Forward_scalar_loop BitShift (2 ^ BitShift - 1) q (2 * q) W
          (W * 2 ^ BitShift / q) count X0 Y0 input = some out) := by
  have hpow : 2 ^ BitShift ≤ 2 ^ 64 := by
    rcases hBS with h | h <;> subst h <;> norm_num
  obtain ⟨Q, hQ, hQlt, hFB, hxo, hyo, -, -⟩ := ForwardButterfly_spec BitShift q W X Y hBS hq h4
    hW hX hY
  have htxlt : Forward_tx q X < 2 * q := by
    unfold Forward_tx
    split_ifs <;> omega
  refine ⟨MaximumValue_eq BitShift hBS, ⟨by omega, by omega, by omega⟩,
    sub64_mask X (2 * q) (by omega) (by omega), ⟨Q, hQ, ?_, ?_, ?_, ?_, ?_, hFB, hxo, hyo⟩, ?_⟩
  · omega
  · omega
  · exact Nat.mod_eq_of_lt (by omega)
  · omega
  · unfold sub64
    generalize Forward_tx q X = tx at htxlt
    omega
  · intro count X0 Y0 input h1 h2 h3 h4'
    obtain ⟨out, hout, -⟩ := Forward_scalar_loop_spec BitShift q W hBS hq h4 hW count X0 Y0
      input h1 h2 h3 h4'
    exact ⟨out, hout⟩

/-- C36 at `BitShift = 52`, `q = 2^50` (so `4q = 2^52`), `W = 3`, and the words
`X = 2^51 - 1`, `Y = 0`, where `tx + 2q - Q` is `MaximumValue(52)`. -/
theorem Forward_scalar_checks_hold_witness :
    MaximumValue 52 = some (2 ^ 52 - 1) ∧
    (3 ≤ 2 ^ 50 ∧ 2 ^ 50 ≤ 2 ^ 52 - 1 ∧ 0 ≤ 2 ^ 52 - 1) ∧
    sub64 (2 ^ 51 - 1) (2 * 2 ^ 50 &&& mask64 (decide (2 ^ 51 - 1 ≥ 2 * 2 ^ 50)))
      = Forward_tx (2 ^ 50) (2 ^ 51 - 1) ∧
    (∃ Q, MultiplyUIntModLazy 52 0 3 (3 * 2 ^ 52 / 2 ^ 50) (2 ^ 50) = some Q ∧
      Forward_tx (2 ^ 50) (2 ^ 51 - 1) + Q ≤ 2 ^ 52 - 1 ∧
      Forward_tx (2 ^ 50) (2 ^ 51 - 1) + 2 * 2 ^ 50 - Q ≤ 2 ^ 52 - 1 ∧
      (Forward_tx (2 ^ 50) (2 ^ 51 - 1) + Q) % 2 ^ 64 = Forward_tx (2 ^ 50) (2 ^ 51 - 1) + Q ∧
      Q ≤ Forward_tx (2 ^ 50) (2 ^ 51 - 1) + 2 * 2 ^ 50 ∧
      sub64 ((Forward_tx (2 ^ 50) (2 ^ 51 - 1) + 2 * 2 ^ 50) % 2 ^ 64) Q
        = Forward_tx (2 ^ 50) (2 ^ 51 - 1) + 2 * 2 ^ 50 - Q ∧
      ForwardButterfly 52 (2 ^ 52 - 1) (2 ^ 50) (2 * 2 ^ 50) 3 (3 * 2 ^ 52 / 2 ^ 50)
          (2 ^ 51 - 1) 0
        = some (Forward_tx (2 ^ 50) (2 ^ 51 - 1) + Q,
            Forward_tx (2 ^ 50) (2 ^ 51 - 1) + 2 * 2 ^ 50 - Q) ∧
      Forward_tx (2 ^ 50) (2 ^ 51 - 1) + Q < 4 * 2 ^ 50 ∧
      Forward_tx (2 ^ 50) (2 ^ 51 - 1) + 2 * 2 ^ 50 - Q < 4 * 2 ^ 50) ∧
    (∀ (count X0 Y0 : Nat) (input : List Nat), X0 + count ≤ Y0 → Y0 + count ≤ input.length →
      (∀ k, X0 ≤ k → k < X0 + count → input.getD k 0 < 4 * 2 ^ 50) →
      (∀ k, Y0 ≤ k → k < Y0 + count → input.getD k 0 < 4 * 2 ^ 50) →
      ∃ out, Forward_scalar_loop 52 (2 ^ 52 - 1) (2 ^ 50) (2 * 2 ^ 50) 3
          (3 * 2 ^ 52 / 2 ^ 50) count X0 Y0 input = some out) :=
  Forward_scalar_checks_hold 52 (2 ^ 50) 3 (2 ^ 51 - 1) 0 (Or.inl rfl) (by decide)
    (by decide) (by decide) (by decide) (by decide)

/-- The scalar butterfly loop works on the pairs `(X + d, Y + d)`, `d < count`. -/
theorem Forward_scalar_loop_pairs_eq : ∀ (count X Y : Nat),
    Forward_scalar_loop_pairs count X Y = (List.range count).map (fun d => (X + d, Y + d)) := by
  intro count
  induction count with
  | zero => intro X Y; rfl
  | succ c ih =>
    intro X Y
    rw [Forward_scalar_loop_pairs, ih, List.range_succ_eq_map, List.map_cons, List.map_map]
    refine congrArg₂ _ rfl (List.map_congr_left ?_)
    intro d _
    simp only [Function.comp, Nat.succ_eq_add_one]
    refine Prod.ext ?_ ?_ <;> simp only [] <;> omega

/-- The vector butterfly loop works on the pairs `(X + d, Y + d)`,
`d < 8 * count`. -/
theorem Forward_vector_loop_pairs_eq : ∀ (count X Y : Nat),
    Forward_vector_loop_pairs count X Y
      = (List.range (8 * count)).map (fun d => (X + d, Y + d)) := by
  intro count
  induction count with
  | zero => intro X Y; rfl
  | succ c ih =>
    intro X Y
    have h8 : 8 * (c + 1) = 8 + 8 * c := by ring
    rw [Forward_vector_loop_pairs, ih, h8, List.range_add, List.map_append, List.map_map]
    refine congrArg₂ _ rfl (List.map_congr_left ?_)
    intro d _
    simp only [Function.comp]
    refine Prod.ext ?_ ?_ <;> simp only [] <;> omega

/-- The block loop of a stage with stride `t` (below 8 or a multiple of 8):
block `i + c` reads the tables at `m + (i + c)` and works on the pairs
`(j, j + t)` for the `t` indices `j` from `j1 + c * 2t` on. -/
theorem Forward_block_loop_accesses_eq (m t : Nat) (ht : t < 8 ∨ t % 8 = 0) :
    ∀ (count i j1 : Nat),
      Forward_block_loop_accesses m t count i j1
        = (List.range count).map (fun c =>
            (m + (i + c),
              (List.range t).map (fun d => (j1 + c * (2 * t) + d, j1 + c * (2 * t) + d + t)))) := by
  have hpairs : ∀ j1 : Nat,
      (if j1 + t - j1 < 8 then Forward_scalar_loop_pairs (j1 + t - j1) j1 (j1 + t)
        else Forward_vector_loop_pairs ((j1 + t - j1 + 7) / 8) j1 (j1 + t))
      = (List.range t).map (fun d => (j1 + d, j1 + d + t)) := by
    intro j1
    have e : j1 + t - j1 = t := by omega
    rw [e]
    by_cases h8 : t < 8
    · rw [if_pos h8, Forward_scalar_loop_pairs_eq]
      refine List.map_congr_left ?_
      intro d _
      refine Prod.ext rfl ?_
      simp only []
      omega
    · rw [if_neg h8, Forward_vector_loop_pairs_eq]
      have e8 : 8 * ((t + 7) / 8) = t := by omega
      rw [e8]
      refine List.map_congr_left ?_
      intro d _
      refine Prod.ext rfl ?_
      simp only []
      omega
  intro count
  induction count with
  | zero => intro i j1; rfl
  | succ c ih =>
    intro i j1
    rw [Forward_block_loop_accesses]
    rw [hpairs, ih, List.range_succ_eq_map, List.map_cons, List.map_map]
    have hsh : t <<< 1 = 2 * t := by rw [Nat.shiftLeft_eq, pow_one, Nat.mul_comm]
    refine congrArg₂ _ ?_ (List.map_congr_left ?_)
    · refine Prod.ext rfl ?_
      simp only [Nat.zero_mul, Nat.add_zero]
    · intro c' _
      simp only [Function.comp, Nat.succ_eq_add_one, hsh]
      refine Prod.ext (by simp only []; omega) ?_
      simp only []
      refine List.map_congr_left ?_
      intro d _
      have e : j1 + 2 * t + c' * (2 * t) = j1 + (c' + 1) * (2 * t) := by ring
      rw [e]

/-- With enough fuel the stage loop of a transform of size `2^L` runs, from
round `s` on, the remaining `L - s` rounds: round `s + j` has `2^(s + j)`
blocks of stride `2^(L - 1 - (s + j))`. -/
theorem Forward_stage_loop_accesses_eq (L : Nat) :
    ∀ (r fuel s : Nat), s + r = L → r ≤ fuel →
      Forward_stage_loop_accesses (2 ^ L) fuel (2 ^ s) (2 ^ L / 2 ^ (s + 1))
        = (List.range r).map (fun j =>
            (2 ^ (s + j), 2 ^ (L - 1 - (s + j)),
              (List.range (2 ^ (s + j))).map (fun i =>
                (2 ^ (s + j) + i,
                  (List.range (2 ^ (L - 1 - (s + j)))).map (fun d =>
                    (2 * i * 2 ^ (L - 1 - (s + j)) + d,
                      2 * i * 2 ^ (L - 1 - (s + j)) + d + 2 ^ (L - 1 - (s + j)))))))) := by
  intro r
  induction r with
  | zero =>
    intro fuel s hs _
    have hsL : s = L := by omega
    subst hsL
    cases fuel with
    | zero => rfl
    | succ f => simp [Forward_stage_loop_accesses]
  | succ r ih =>
    intro fuel s hs hf
    obtain ⟨f, rfl⟩ : ∃ f, fuel = f + 1 := ⟨fuel - 1, by omega⟩
    obtain ⟨h1, _, _, h4, h5, h6, h7⟩ := stride_facts L s (by omega)
    rw [Forward_stage_loop_accesses, if_pos h7, h6, h1, h5, ih f (s + 1) (by omega) (by omega),
      Forward_block_loop_accesses_eq _ _ h4, List.range_succ_eq_map, List.map_cons,
      List.map_map]
    refine congrArg₂ _ ?_ (List.map_congr_left ?_)
    · simp only [Nat.add_zero]
      refine Prod.ext rfl (Prod.ext rfl ?_)
      simp only []
      refine List.map_congr_left ?_
      intro i _
      refine Prod.ext (by simp only [Nat.zero_add]) ?_
      simp only []
      refine List.map_congr_left ?_
      intro d _
      have e : 0 + i * (2 * 2 ^ (L - 1 - s)) = 2 * i * 2 ^ (L - 1 - s) := by ring
      rw [e]
    · intro j _
      simp only [Function.comp, Nat.succ_eq_add_one]
      have e : s + 1 + j = s + (j + 1) := by omega
      rw [e]

/-- Consecutive runs of `c` indices tile an initial segment. -/
theorem flatMap_range_blocks (c : Nat) : ∀ m : Nat,
    (List.range m).flatMap (fun i => List.range' (c * i) c) = List.range (c * m) := by
  intro m
  induction m with
  | zero => simp
  | succ m ih =>
    rw [List.range_succ, List.flatMap_append, ih, List.flatMap_singleton, List.range_eq_range',
      List.range_eq_range']
    have h := List.range'_append_1 0 (c * m) c
    rw [Nat.zero_add] at h
    rw [h]
    congr 1
    ring

/-- The runs `[2^s, 2^(s+1))` for `s < k` tile `[1, 2^k)`. -/
theorem flatMap_range_two_pow : ∀ k : Nat,
    (List.range k).flatMap (fun s => List.range' (2 ^ s) (2 ^ s)) = List.range' 1 (2 ^ k - 1) := by
  intro k
  induction k with
  | zero => simp
  | succ k ih =>
    rw [List.range_succ, List.flatMap_append, ih, List.flatMap_singleton]
    have hpos : 0 < 2 ^ k := by positivity
    have h := List.range'_append_1 1 (2 ^ k - 1) (2 ^ k)
    have e1 : 1 + (2 ^ k - 1) = 2 ^ k := by omega
    rw [e1] at h
    rw [h]
    congr 1
    rw [pow_succ]
    omega

/-- The block loop of a stage reads the tables only at the indices `m + i` of
its blocks. -/
theorem Forward_block_loop_congr (BitShift bound mod twice_mod : Nat)
    (rp prp rp2 prp2 : List Nat) (m t : Nat) :
    ∀ (count i j1 : Nat) (input : List Nat),
      (∀ c, c < count → rp.getD (m + (i + c)) 0 = rp2.getD (m + (i + c)) 0 ∧
        prp.getD (m + (i + c)) 0 = prp2.getD (m + (i + c)) 0) →
      Forward_block_loop BitShift bound mod twice_mod rp prp m t count i j1 input
        = Forward_block_loop BitShift bound mod twice_mod rp2 prp2 m t count i j1 input := by
  intro count
  induction count with
  | zero => intro i j1 input _; rfl
  | succ c ih =>
    intro i j1 input h
    have h0 := h 0 (by omega)
    rw [Nat.add_zero] at h0
    simp only [Forward_block_loop, h0.1, h0.2]
    split
    · rfl
    · apply ih
      intro c2 hc2
      have := h (c2 + 1) (by omega)
      have e : i + (c2 + 1) = i + 1 + c2 := by omega
      rw [e] at this
      exact this

/-- The stage loop of a transform of size `2^L` reads the tables only at the
indices `1, ..., 2^L - 1`. -/
theorem Forward_stage_loop_congr (BitShift bound mod twice_mod : Nat)
    (rp prp rp2 prp2 : List Nat) (L : Nat)
    (h : ∀ i, 1 ≤ i → i < 2 ^ L → rp.getD i 0 = rp2.getD i 0 ∧ prp.getD i 0 = prp2.getD i 0) :
    ∀ (fuel s t : Nat) (input : List Nat), s ≤ L →
      Forward_stage_loop BitShift bound mod twice_mod rp prp (2 ^ L) fuel (2 ^ s) t input
        = Forward_stage_loop BitShift bound mod twice_mod rp2 prp2 (2 ^ L) fuel (2 ^ s) t
            input := by
  intro fuel
  induction fuel with
  | zero => intro s t input _; rfl
  | succ f ih =>
    intro s t input hs
    simp only [Forward_stage_loop]
    by_cases hlt : 2 ^ s < 2 ^ L
    · have hsL : s < L := (Nat.pow_lt_pow_iff_right (by norm_num)).1 hlt
      have hle : 2 ^ (s + 1) ≤ 2 ^ L := Nat.pow_le_pow_right (by norm_num) hsL
      have hpos : 0 < 2 ^ s := by positivity
      have hst : Forward_stage BitShift bound mod twice_mod rp prp (2 ^ s) t input
          = Forward_stage BitShift bound mod twice_mod rp2 prp2 (2 ^ s) t input := by
        unfold Forward_stage
        apply Forward_block_loop_congr
        intro c hc
        apply h
        · omega
        · rw [pow_succ] at hle
          omega
      have hsh : 2 ^ s <<< 1 = 2 ^ (s + 1) := by rw [Nat.shiftLeft_eq, pow_one, pow_succ]
      simp only [hlt, if_true, hst, hsh]
      split
      · rfl
      · exact ih (s + 1) _ _ (by omega)
    · simp only [hlt, if_false]

/-- The loop of `InvT1` reads the `8i` entries from `w` on. -/
theorem InvT1_loop_reads_eq : ∀ (i w : Nat), InvT1_loop_reads i w = List.range' w (8 * i) := by
  intro i
  induction i with
  | zero => intro w; rfl
  | succ i ih =>
    intro w
    have h := List.range'_append_1 w 8 (8 * i)
    have e : 8 * (i + 1) = 8 * i + 8 := by ring
    rw [InvT1_loop_reads, ih, e, ← h, List.range'_eq_map_range w 8]

/-- The loop of `InvT2` reads the `4i` entries from `w` on. -/
theorem InvT2_loop_reads_eq : ∀ (i w : Nat), InvT2_loop_reads i w = List.range' w (4 * i) := by
  intro i
  induction i with
  | zero => intro w; rfl
  | succ i ih =>
    intro w
    have h := List.range'_append_1 w 4 (4 * i)
    have e : 4 * (i + 1) = 4 * i + 4 := by ring
    rw [InvT2_loop_reads, ih, e, ← h, List.range'_eq_map_range w 4]

/-- The loop of `InvT4` reads the `2i` entries from `w` on. -/
theorem InvT4_loop_reads_eq : ∀ (i w : Nat), InvT4_loop_reads i w = List.range' w (2 * i) := by
  intro i
  induction i with
  | zero => intro w; rfl
  | succ i ih =>
    intro w
    have h := List.range'_append_1 w 2 (2 * i)
    have e : 2 * (i + 1) = 2 * i + 2 := by ring
    rw [InvT4_loop_reads, ih, e, ← h, List.range'_eq_map_range w 2]

/-- The outer loop of `InvT8` reads the `c` entries from `w` on. -/
theorem InvT8_loop_reads_eq : ∀ (c w : Nat), InvT8_loop_reads c w = List.range' w c := by
  intro c
  induction c with
  | zero => intro w; rfl
  | succ c ih =>
    intro w
    rw [InvT8_loop_reads, ih, List.range']

/-- The rounds of the loop over `InvT8` from `m = 2^r` blocks on, when
`root_index + 2m = N + 1`: round `j` reads the `2^(r-j)` entries from
`N + 1 - 2^(r+1-j)` on, and `root_index` ends at `N - 1`. -/
theorem Inverse_stage_loop_reads_eq (N : Nat) :
    ∀ (r fuel root_index : Nat), r ≤ fuel → root_index + 2 ^ (r + 1) = N + 1 →
      Inverse_stage_loop_reads fuel (2 ^ r) root_index
        = ((List.range r).map (fun j => List.range' (N + 1 - 2 ^ (r + 1 - j)) (2 ^ (r - j))),
            N - 1) := by
  intro r
  induction r with
  | zero =>
    intro fuel root_index _ h
    have e : N - 1 = root_index := by
      rw [Nat.zero_add, pow_one] at h
      omega
    rw [e]
    cases fuel with
    | zero => rfl
    | succ f => simp [Inverse_stage_loop_reads]
  | succ r ih =>
    intro fuel root_index hf h
    obtain ⟨f, rfl⟩ : ∃ f, fuel = f + 1 := ⟨fuel - 1, by omega⟩
    have hpos : 0 < 2 ^ r := by positivity
    have hm : 1 < 2 ^ (r + 1) := by rw [pow_succ]; omega
    have hhalf : 2 ^ (r + 1) >>> 1 = 2 ^ r := by
      rw [Nat.shiftRight_eq_div_pow, pow_one, pow_succ]
      omega
    have h2 : 2 ^ (r + 1 + 1) = 2 * 2 ^ (r + 1) := by rw [pow_succ (2 : Nat) (r + 1)]; ring
    have hih := ih f (root_index + 2 ^ (r + 1)) (by omega) (by omega)
    rw [Inverse_stage_loop_reads, if_pos hm]
    simp only [hhalf, hih, InvT8_loop_reads_eq]
    rw [List.range_succ_eq_map, List.map_cons, List.map_map]
    refine Prod.ext ?_ rfl
    simp only []
    refine congrArg₂ _ ?_ (List.map_congr_left ?_)
    · have e : N + 1 - 2 ^ (r + 1 + 1 - 0) = root_index := by
        rw [Nat.sub_zero]
        omega
      rw [e, Nat.sub_zero]
    · intro j _
      simp only [Function.comp, Nat.succ_eq_add_one]
      have e1 : r + 1 + 1 - (j + 1) = r + 1 - j := by omega
      have e2 : r + 1 - (j + 1) = r - j := by omega
      rw [e1, e2]

/-- The `root_index` the loop over `InvT8` leaves is the one of its list of
reads. -/
theorem Inverse_stage_loop_root_index (BitShift : Nat) (v_neg_modulus v_twice_mod : m512i)
    (irp iprp : List Nat) :
    ∀ (fuel t m root_index : Nat) (elements out : List Nat) (r : Nat),
      Inverse_stage_loop BitShift v_neg_modulus v_twice_mod irp iprp fuel t m root_index
          elements = some (out, r) →
      r = (Inverse_stage_loop_reads fuel m root_index).2 := by
  intro fuel
  induction fuel with
  | zero =>
    intro t m root_index elements out r h
    simp only [Inverse_stage_loop] at h
    split_ifs at h
    simp only [Option.some.injEq, Prod.mk.injEq] at h
    rw [Inverse_stage_loop_reads]
    exact h.2.symm
  | succ f ih =>
    intro t m root_index elements out r h
    simp only [Inverse_stage_loop] at h
    rw [Inverse_stage_loop_reads]
    by_cases hm : 1 < m
    · simp only [hm, if_true] at h ⊢
      cases hT : InvT8 BitShift elements v_neg_modulus v_twice_mod t m irp iprp root_index with
      | none => simp only [hT] at h; exact absurd h (by simp)
      | some e2 =>
        simp only [hT] at h
        exact ih _ _ _ _ _ _ h
    · simp only [hm, if_false, Option.some.injEq, Prod.mk.injEq] at h ⊢
      exact h.2.symm

/-- The stage runs `[N + 1 - 2^(k-i), N + 1 - 2^(k-1-i))` with `N = 2^k`, for
`i < j`, tile `[1, 2^k - 2^(k-j) + 1)`. -/
theorem flatten_inverse_runs (k : Nat) : ∀ j : Nat, j ≤ k →
    ((List.range j).map (fun i => List.range' (2 ^ k + 1 - 2 ^ (k - i)) (2 ^ (k - 1 - i)))).flatten
      = List.range' 1 (2 ^ k - 2 ^ (k - j)) := by
  intro j
  induction j with
  | zero => intro _; simp
  | succ j ih =>
    intro hj
    rw [List.range_succ, List.map_append, List.flatten_append, ih (by omega)]
    simp only [List.map_cons, List.map_nil, List.flatten_cons, List.flatten_nil, List.append_nil]
    have hle : 2 ^ (k - j) ≤ 2 ^ k := Nat.pow_le_pow_right (by norm_num) (by omega)
    have hb : 2 ^ (k - j) = 2 * 2 ^ (k - 1 - j) := by
      rw [← pow_succ']
      congr 1
      omega
    have hc : 2 ^ (k - (j + 1)) = 2 ^ (k - 1 - j) := by
      congr 1
      omega
    have hpos : 0 < 2 ^ (k - 1 - j) := by positivity
    have h := List.range'_append_1 1 (2 ^ k - 2 ^ (k - j)) (2 ^ (k - 1 - j))
    have e1 : 1 + (2 ^ k - 2 ^ (k - j)) = 2 ^ k + 1 - 2 ^ (k - j) := by omega
    rw [e1] at h
    rw [h, hc]
    congr 1
    omega

/-- The reads of the inverse transform of size `2^(r+4)`, stage by stage. -/
theorem InverseTransform_reads_eq (r : Nat) (hr : r ≤ 64) :
    InverseTransform_reads (2 ^ (r + 4))
      = (List.range (r + 4)).map (fun j =>
          List.range' (2 ^ (r + 4) + 1 - 2 ^ (r + 4 - j)) (2 ^ (r + 4 - 1 - j))) := by
  have hpos : 0 < 2 ^ r := by positivity
  have p4 : 2 ^ (r + 4) = 16 * 2 ^ r := by rw [pow_add]; ring
  have p3 : 2 ^ (r + 3) = 8 * 2 ^ r := by rw [pow_add]; ring
  have p2 : 2 ^ (r + 2) = 4 * 2 ^ r := by rw [pow_add]; ring
  have p1 : 2 ^ (r + 1) = 2 * 2 ^ r := by rw [pow_add]; ring
  have hs1 : 2 ^ (r + 4) >>> 1 = 8 * 2 ^ r := by
    rw [Nat.shiftRight_eq_div_pow, p4]; omega
  have hs2 : (8 * 2 ^ r) >>> 1 = 4 * 2 ^ r := by
    rw [Nat.shiftRight_eq_div_pow]; omega
  have hs3 : (4 * 2 ^ r) >>> 1 = 2 * 2 ^ r := by
    rw [Nat.shiftRight_eq_div_pow]; omega
  have hs4 : (2 * 2 ^ r) >>> 1 = 2 ^ r := by
    rw [Nat.shiftRight_eq_div_pow]; omega
  have hd8 : 8 * 2 ^ r / 8 = 2 ^ r := by omega
  have hd4 : 4 * 2 ^ r / 4 = 2 ^ r := by omega
  have hd2 : 2 * 2 ^ r / 2 = 2 ^ r := by omega
  have hloop := Inverse_stage_loop_reads_eq (2 ^ (r + 4)) r 64
    (1 + 8 * 2 ^ r + 4 * 2 ^ r + 2 * 2 ^ r) hr (by rw [p1, p4]; omega)
  have hL : InverseTransform_reads (2 ^ (r + 4))
      = List.range' 1 (8 * 2 ^ r) :: List.range' (1 + 8 * 2 ^ r) (4 * 2 ^ r)
        :: List.range' (1 + 8 * 2 ^ r + 4 * 2 ^ r) (2 * 2 ^ r)
        :: ((List.range r).map (fun j =>
              List.range' (2 ^ (r + 4) + 1 - 2 ^ (r + 1 - j)) (2 ^ (r - j)))
            ++ [[2 ^ (r + 4) - 1]]) := by
    simp only [InverseTransform_reads, hs1, hs2, hs3, hs4, hd8, hd4, hd2, hloop,
      InvT1_loop_reads_eq, InvT2_loop_reads_eq, InvT4_loop_reads_eq]
  have e : r + 4 = (3 + r) + 1 := by omega
  have hR : (List.range (r + 4)).map (fun j =>
        List.range' (2 ^ (r + 4) + 1 - 2 ^ (r + 4 - j)) (2 ^ (r + 4 - 1 - j)))
      = List.range' 1 (8 * 2 ^ r) :: List.range' (1 + 8 * 2 ^ r) (4 * 2 ^ r)
        :: List.range' (1 + 8 * 2 ^ r + 4 * 2 ^ r) (2 * 2 ^ r)
        :: ((List.range r).map (fun j =>
              List.range' (2 ^ (r + 4) + 1 - 2 ^ (r + 1 - j)) (2 ^ (r - j)))
            ++ [[2 ^ (r + 4) - 1]]) := by
    have hr3 : List.range 3 = [0, 1, 2] := rfl
    have e0 : List.range' (2 ^ (r + 4) + 1 - 2 ^ (r + 4 - 0)) (2 ^ (r + 4 - 1 - 0))
        = List.range' 1 (8 * 2 ^ r) := by
      have a1 : r + 4 - 0 = r + 4 := by omega
      have a2 : r + 4 - 1 - 0 = r + 3 := by omega
      rw [a1, a2, p3]
      congr 1
      omega
    have e1 : List.range' (2 ^ (r + 4) + 1 - 2 ^ (r + 4 - 1)) (2 ^ (r + 4 - 1 - 1))
        = List.range' (1 + 8 * 2 ^ r) (4 * 2 ^ r) := by
      have a1 : r + 4 - 1 = r + 3 := by omega
      have a2 : r + 4 - 1 - 1 = r + 2 := by omega
      rw [a2, a1, p2, p3, p4]
      congr 1
      omega
    have e2 : List.range' (2 ^ (r + 4) + 1 - 2 ^ (r + 4 - 2)) (2 ^ (r + 4 - 1 - 2))
        = List.range' (1 + 8 * 2 ^ r + 4 * 2 ^ r) (2 * 2 ^ r) := by
      have a1 : r + 4 - 2 = r + 2 := by omega
      have a2 : r + 4 - 1 - 2 = r + 1 := by omega
      rw [a1, a2, p1, p2, p4]
      congr 1
      omega
    have e3 : List.range' (2 ^ (r + 4) + 1 - 2 ^ (r + 4 - (3 + r))) (2 ^ (r + 4 - 1 - (3 + r)))
        = [2 ^ (r + 4) - 1] := by
      have a1 : r + 4 - (3 + r) = 1 := by omega
      have a2 : r + 4 - 1 - (3 + r) = 0 := by omega
      rw [a1, a2, pow_one, pow_zero]
      have a3 : 2 ^ (r + 4) + 1 - 2 = 2 ^ (r + 4) - 1 := by omega
      rw [a3]
      rfl
    have em : (List.range r).map ((fun j =>
          List.range' (2 ^ (r + 4) + 1 - 2 ^ (r + 4 - j)) (2 ^ (r + 4 - 1 - j)))
          ∘ fun x => 3 + x)
        = (List.range r).map (fun j =>
          List.range' (2 ^ (r + 4) + 1 - 2 ^ (r + 1 - j)) (2 ^ (r - j))) := by
      refine List.map_congr_left ?_
      intro j _
      simp only [Function.comp]
      have a1 : r + 4 - (3 + j) = r + 1 - j := by omega
      have a2 : r + 4 - 1 - (3 + j) = r - j := by omega
      rw [a1, a2]
    have hrange : List.range (r + 4)
        = List.range 3 ++ (List.range r).map (fun x => 3 + x) ++ [3 + r] := by
      rw [e, List.range_succ, List.range_add]
    rw [hrange, List.map_append, List.map_append, List.map_map, hr3, em]
    simp only [List.map_cons, List.map_nil, e0, e1, e2, e3, List.cons_append, List.nil_append]
  rw [hL, hR]

/-! ## The inverse transform with the buffer and the table reads explicit -/

/-- The loop of `InvT1`: the run returns exactly when the embedding does, with
the same buffer, and its reads are those of `InvT1_loop_reads`. -/
theorem InvT1_loop_run_toOption (BitShift : Nat) (v_neg_modulus v_twice_mod : m512i)
    (W_op W_precon : List Nat) :
    ∀ (i j1 w : Nat) (elements reads : List Nat),
      (InvT1_loop_run BitShift v_neg_modulus v_twice_mod W_op W_precon i j1 w elements
          reads).toOption
        = (InvT1_loop BitShift v_neg_modulus v_twice_mod W_op W_precon i j1 w elements).map
            (fun out => (out, reads ++ InvT1_loop_reads i w)) := by
  intro i
  induction i with
  | zero =>
    intro j1 w elements reads
    simp [InvT1_loop_run, InvT1_loop, InvT1_loop_reads, Except.toOption]
  | succ i ih =>
    intro j1 w elements reads
    simp only [InvT1_loop_run, InvT1_loop, InvT1_loop_reads]
    cases InvButterfly BitShift true (LoadInterleavedT1 elements j1).1
        (LoadInterleavedT1 elements j1).2 (mm512_loadu_si512 W_op w)
        (mm512_loadu_si512 W_precon w) v_neg_modulus v_twice_mod with
    | none => rfl
    | some r =>
      simp only []
      rw [ih, List.append_assoc]

/-- The loop of `InvT2`: the run returns exactly when the embedding does, with
the same buffer, and its reads are those of `InvT2_loop_reads`. -/
theorem InvT2_loop_run_toOption (BitShift : Nat) (v_neg_modulus v_twice_mod : m512i)
    (W_op W_precon : List Nat) :
    ∀ (i x w : Nat) (elements reads : List Nat),
      (InvT2_loop_run BitShift v_neg_modulus v_twice_mod W_op W_precon i x w elements
          reads).toOption
        = (InvT2_loop BitShift v_neg_modulus v_twice_mod W_op W_precon i x w elements).map
            (fun out => (out, reads ++ InvT2_loop_reads i w)) := by
  intro i
  induction i with
  | zero =>
    intro x w elements reads
    simp [InvT2_loop_run, InvT2_loop, InvT2_loop_reads, Except.toOption]
  | succ i ih =>
    intro x w elements reads
    simp only [InvT2_loop_run, InvT2_loop, InvT2_loop_reads]
    cases InvButterfly BitShift false (LoadInterleavedT2 elements x).1
        (LoadInterleavedT2 elements x).2 (LoadWOpT2 W_op w) (LoadWOpT2 W_precon w)
        v_neg_modulus v_twice_mod with
    | none => rfl
    | some r =>
      simp only []
      rw [ih, List.append_assoc]

/-- The loop of `InvT4`: the run returns exactly when the embedding does, with
the same buffer, and its reads are those of `InvT4_loop_reads`. -/
theorem InvT4_loop_run_toOption (BitShift : Nat) (v_neg_modulus v_twice_mod : m512i)
    (W_op W_precon : List Nat) :
    ∀ (i x w : Nat) (elements reads : List Nat),
      (InvT4_loop_run BitShift v_neg_modulus v_twice_mod W_op W_precon i x w elements
          reads).toOption
        = (InvT4_loop BitShift v_neg_modulus v_twice_mod W_op W_precon i x w elements).map
            (fun out => (out, reads ++ InvT4_loop_reads i w)) := by
  intro i
  induction i with
  | zero =>
    intro x w elements reads
    simp [InvT4_loop_run, InvT4_loop, InvT4_loop_reads, Except.toOption]
  | succ i ih =>
    intro x w elements reads
    simp only [InvT4_loop_run, InvT4_loop, InvT4_loop_reads]
    cases InvButterfly BitShift false (LoadInterleavedT4 elements x).1
        (LoadInterleavedT4 elements x).2 (LoadWOpT4 W_op w) (LoadWOpT4 W_precon w)
        v_neg_modulus v_twice_mod with
    | none => rfl
    | some r =>
      simp only []
      rw [ih, List.append_assoc]

/-- The inner loop of `InvT8`: the run returns exactly when the embedding does,
with the same buffer. -/
theorem InvT8_inner_run_toOption (BitShift : Nat)
    (v_neg_modulus v_twice_mod v_W_op v_W_precon : m512i) :
    ∀ (j x y : Nat) (elements : List Nat),
      (InvT8_inner_run BitShift v_neg_modulus v_twice_mod v_W_op v_W_precon j x y
          elements).toOption
        = InvT8_inner BitShift v_neg_modulus v_twice_mod v_W_op v_W_precon j x y elements := by
  intro j
  induction j with
  | zero =>
    intro x y elements
    rfl
  | succ j ih =>
    intro x y elements
    simp only [InvT8_inner_run, InvT8_inner]
    cases InvButterfly BitShift false (mm512_loadu_si512 elements x)
        (mm512_loadu_si512 elements y) v_W_op v_W_precon v_neg_modulus v_twice_mod with
    | none => rfl
    | some r =>
      simp only []
      rw [ih]

/-- The outer loop of `InvT8`: the run returns exactly when the embedding does,
with the same buffer, and its reads are those of `InvT8_loop_reads`. -/
theorem InvT8_loop_run_toOption (BitShift : Nat) (v_neg_modulus v_twice_mod : m512i) (t : Nat)
    (W_op W_precon : List Nat) :
    ∀ (c j1 w : Nat) (elements reads : List Nat),
      (InvT8_loop_run BitShift v_neg_modulus v_twice_mod t W_op W_precon c j1 w elements
          reads).toOption
        = (InvT8_loop BitShift v_neg_modulus v_twice_mod t W_op W_precon c j1 w elements).map
            (fun out => (out, reads ++ InvT8_loop_reads c w)) := by
  intro c
  induction c with
  | zero =>
    intro j1 w elements reads
    simp [InvT8_loop_run, InvT8_loop, InvT8_loop_reads, Except.toOption]
  | succ c ih =>
    intro j1 w elements reads
    have hin := InvT8_inner_run_toOption BitShift v_neg_modulus v_twice_mod
      (mm512_set1_epi64 (W_op.getD w 0)) (mm512_set1_epi64 (W_precon.getD w 0)) (t / 8) j1
      (j1 + t) elements
    simp only [InvT8_loop_run, InvT8_loop, InvT8_loop_reads]
    rw [← hin]
    cases InvT8_inner_run BitShift v_neg_modulus v_twice_mod
        (mm512_set1_epi64 (W_op.getD w 0)) (mm512_set1_epi64 (W_precon.getD w 0)) (t / 8) j1
        (j1 + t) elements with
    | error b => rfl
    | ok e2 =>
      have hto : (Except.ok e2 : Except (List Nat) (List Nat)).toOption = some e2 := rfl
      simp only [hto]
      rw [ih, List.append_assoc]
      rfl

/-- The loop over the stages with stride 8 or more: the run returns exactly when
the embedding does, with the same buffer and `root_index`, and its reads are
those of `Inverse_stage_loop_reads`. -/
theorem Inverse_stage_loop_run_toOption (BitShift : Nat) (v_neg_modulus v_twice_mod : m512i)
    (irp iprp : List Nat) :
    ∀ (fuel t m root_index : Nat) (elements : List Nat) (stages : List (List Nat)),
      (Inverse_stage_loop_run BitShift v_neg_modulus v_twice_mod irp iprp fuel t m root_index
          elements stages).toOption
        = (Inverse_stage_loop BitShift v_neg_modulus v_twice_mod irp iprp fuel t m root_index
            elements).map
            (fun r => (r.1, r.2, stages ++ (Inverse_stage_loop_reads fuel m root_index).1)) := by
  intro fuel
  induction fuel with
  | zero =>
    intro t m root_index elements stages
    simp only [Inverse_stage_loop_run, Inverse_stage_loop, Inverse_stage_loop_reads]
    split_ifs
    · rfl
    · simp [Except.toOption]
  | succ f ih =>
    intro t m root_index elements stages
    simp only [Inverse_stage_loop_run, Inverse_stage_loop, Inverse_stage_loop_reads]
    by_cases hm : 1 < m
    · simp only [hm, if_true]
      have hT := InvT8_loop_run_toOption BitShift v_neg_modulus v_twice_mod t irp iprp m 0
        root_index elements []
      simp only [InvT8_run, InvT8]
      cases hr : InvT8_loop_run BitShift v_neg_modulus v_twice_mod t irp iprp m 0 root_index
          elements [] with
      | error b =>
        rw [hr] at hT
        have hn : InvT8_loop BitShift v_neg_modulus v_twice_mod t irp iprp m 0 root_index
            elements = none := by
          cases ho : InvT8_loop BitShift v_neg_modulus v_twice_mod t irp iprp m 0 root_index
              elements with
          | none => rfl
          | some o => rw [ho] at hT; exact absurd hT (by simp [Except.toOption])
        simp only [hn]
        rfl
      | ok r =>
        rw [hr] at hT
        cases ho : InvT8_loop BitShift v_neg_modulus v_twice_mod t irp iprp m 0 root_index
            elements with
        | none => rw [ho] at hT; exact absurd hT (by simp [Except.toOption])
        | some o =>
          rw [ho] at hT
          simp only [Except.toOption, Option.map_some', Option.some.injEq, List.nil_append]
            at hT
          subst hT
          simp only []
          rw [ih, List.append_assoc]
          rfl
    · simp only [hm, if_false]
      simp [Except.toOption]

/-- The final fused loop: the run returns exactly when the embedding does, with
the same buffer. -/
theorem Inverse_final_loop_run_toOption (BitShift : Nat)
    (v_modulus v_neg_modulus v_twice_mod v_inv_n v_inv_n_prime v_inv_n_w v_inv_n_w_prime :
      m512i) :
    ∀ (j x y : Nat) (elements : List Nat),
      (Inverse_final_loop_run BitShift v_modulus v_neg_modulus v_twice_mod v_inv_n
          v_inv_n_prime v_inv_n_w v_inv_n_w_prime j x y elements).toOption
        = Inverse_final_loop BitShift v_modulus v_neg_modulus v_twice_mod v_inv_n
            v_inv_n_prime v_inv_n_w v_inv_n_w_prime j x y elements := by
  intro j
  induction j with
  | zero =>
    intro x y elements
    rfl
  | succ j ih =>
    intro x y elements
    simp only [Inverse_final_loop_run, Inverse_final_loop]
    cases Inverse_final_body BitShift v_modulus v_neg_modulus v_twice_mod v_inv_n v_inv_n_prime
        v_inv_n_w v_inv_n_w_prime (mm512_loadu_si512 elements x)
        (mm512_loadu_si512 elements y) with
    | none => rfl
    | some r =>
      simp only []
      rw [ih]

/-- A run that agrees with an embedding either stops where the embedding gives
nothing, or returns what the embedding gives. -/
theorem toOption_cases {α β : Type} (r : Except (List Nat) α) (o : Option β) (f : β → α)
    (h : r.toOption = o.map f) :
    (∃ b, r = Except.error b ∧ o = none) ∨ (∃ x, r = Except.ok (f x) ∧ o = some x) := by
  cases r with
  | error b =>
    left
    refine ⟨b, rfl, ?_⟩
    cases o with
    | none => rfl
    | some x => exact absurd h (by simp [Except.toOption])
  | ok a =>
    right
    cases o with
    | none => exact absurd h (by simp [Except.toOption])
    | some x =>
      refine ⟨x, ?_, rfl⟩
      simp only [Except.toOption, Option.map_some', Option.some.injEq] at h
      rw [h]

/-- The inverse transform: the run returns exactly when the embedding does, with
the same buffer, and its reads are those of `InverseTransform_reads`. -/
theorem InverseTransform_run_toOption (CheckArguments : Nat → Nat → Option Bool)
    (BitShift n mod : Nat) (irp iprp elements : List Nat) :
    (InverseTransformFromBitReverseAVX512_run CheckArguments BitShift n mod irp iprp
        elements).toOption
      = (InverseTransformFromBitReverseAVX512 CheckArguments BitShift n mod irp iprp
          elements).map (fun out => (out, InverseTransform_reads n)) := by
  simp only [InverseTransformFromBitReverseAVX512_run, InverseTransformFromBitReverseAVX512,
    InvT1_run, InvT1, InvT2_run, InvT2, InvT4_run, InvT4, InverseTransform_reads]
  cases CheckArguments n mod with
  | none => rfl
  | some ok =>
    simp only []
    by_cases h0 : (!LATTICE_CHECK ok) = true
    · simp only [if_pos h0]
      rfl
    simp only [if_neg h0]
    cases MaximumValue BitShift with
    | none => rfl
    | some bound =>
      simp only []
      by_cases h1 : (!LATTICE_CHECK_BOUNDS iprp n bound) = true
      · simp only [if_pos h1]
        rfl
      simp only [if_neg h1]
      by_cases h2 : (!LATTICE_CHECK_BOUNDS elements n bound) = true
      · simp only [if_pos h2]
        rfl
      simp only [if_neg h2]
      by_cases h3 : (!LATTICE_CHECK_BOUNDS elements n mod) = true
      · simp only [if_pos h3]
        rfl
      simp only [if_neg h3]
      rcases toOption_cases _ _ _ (InvT1_loop_run_toOption BitShift
        (mm512_set1_epi64 (sub64 0 mod)) (mm512_set1_epi64 (shl64 mod 1)) irp iprp
        (n >>> 1 / 8) 0 1 elements []) with ⟨b, hr, ho⟩ | ⟨e1, hr, ho⟩
      · simp only [hr, ho]
        rfl
      simp only [hr, ho]
      rcases toOption_cases _ _ _ (InvT2_loop_run_toOption BitShift
        (mm512_set1_epi64 (sub64 0 mod)) (mm512_set1_epi64 (shl64 mod 1)) irp iprp
        (n >>> 1 >>> 1 / 4) 0 (1 + n >>> 1) e1 []) with ⟨b, hr2, ho2⟩ | ⟨e2, hr2, ho2⟩
      · simp only [hr2, ho2]
        rfl
      simp only [hr2, ho2]
      rcases toOption_cases _ _ _ (InvT4_loop_run_toOption BitShift
        (mm512_set1_epi64 (sub64 0 mod)) (mm512_set1_epi64 (shl64 mod 1)) irp iprp
        (n >>> 1 >>> 1 >>> 1 / 2) 0 (1 + n >>> 1 + n >>> 1 >>> 1) e2 [])
        with ⟨b, hr4, ho4⟩ | ⟨e4, hr4, ho4⟩
      · simp only [hr4, ho4]
        rfl
      simp only [hr4, ho4]
      rcases toOption_cases _ _ _ (Inverse_stage_loop_run_toOption BitShift
        (mm512_set1_epi64 (sub64 0 mod)) (mm512_set1_epi64 (shl64 mod 1)) irp iprp 64
        (1 <<< 1 <<< 1 <<< 1) (n >>> 1 >>> 1 >>> 1 >>> 1)
        (1 + n >>> 1 + n >>> 1 >>> 1 + n >>> 1 >>> 1 >>> 1) e4
        [[] ++ InvT1_loop_reads (n >>> 1 / 8) 1,
          [] ++ InvT2_loop_reads (n >>> 1 >>> 1 / 4) (1 + n >>> 1),
          [] ++ InvT4_loop_reads (n >>> 1 >>> 1 >>> 1 / 2) (1 + n >>> 1 + n >>> 1 >>> 1)])
        with ⟨b, hr8, ho8⟩ | ⟨⟨e8, ri⟩, hr8, ho8⟩
      · simp only [hr8, ho8]
        rfl
      have hri := Inverse_stage_loop_root_index BitShift (mm512_set1_epi64 (sub64 0 mod))
        (mm512_set1_epi64 (shl64 mod 1)) irp iprp 64 (1 <<< 1 <<< 1 <<< 1)
        (n >>> 1 >>> 1 >>> 1 >>> 1) (1 + n >>> 1 + n >>> 1 >>> 1 + n >>> 1 >>> 1 >>> 1) e4 e8 ri
        ho8
      simp only [hr8, ho8]
      cases MultiplyFactor.new (InverseUIntMod n mod) BitShift mod with
      | none => rfl
      | some mf_inv_n =>
        simp only []
        cases MultiplyFactor.new (MultiplyUIntMod mf_inv_n.Operand (irp.getD ri 0) mod)
            BitShift mod with
        | none => rfl
        | some mf_inv_n_w =>
          simp only []
          rw [← Inverse_final_loop_run_toOption]
          cases Inverse_final_loop_run BitShift (mm512_set1_epi64 mod)
              (mm512_set1_epi64 (sub64 0 mod)) (mm512_set1_epi64 (shl64 mod 1))
              (mm512_set1_epi64 mf_inv_n.Operand) (mm512_set1_epi64 mf_inv_n.BarrettFactor)
              (mm512_set1_epi64 mf_inv_n_w.Operand)
              (mm512_set1_epi64 mf_inv_n_w.BarrettFactor) (n / 16) 0 (n >>> 1) e8 with
          | error b => rfl
          | ok out =>
            simp only [Except.toOption, Option.map_some', Option.some.injEq, Prod.mk.injEq,
              true_and, List.nil_append, ← hri]
            simp

/-- The buffer the run returns is the buffer the embedding returns. -/
theorem InverseTransform_run_buffer (CheckArguments : Nat → Nat → Option Bool)
    (BitShift n mod : Nat) (irp iprp elements : List Nat) :
    (InverseTransformFromBitReverseAVX512_run CheckArguments BitShift n mod irp iprp
        elements).toOption.map Prod.fst
      = InverseTransformFromBitReverseAVX512 CheckArguments BitShift n mod irp iprp
          elements := by
  rw [InverseTransform_run_toOption, Option.map_map]
  cases InverseTransformFromBitReverseAVX512 CheckArguments BitShift n mod irp iprp elements with
  | none => rfl
  | some out => rfl

/-- C23: the inverse transform rejects out-of-range data.  When one of the
first `n` input words is `mod` or more, or one of the first `n` input words or
of the first `n` precomputed factors is `MaximumValue(BitShift)` or more, the
call fails: the embedding returns no buffer, and the run of the call with the
buffer of the caller explicit stops with the buffer holding the input as it
was, so no element of the buffer has been modified.  The run is the embedding
with the buffer kept: on every input it returns exactly when the embedding
does, with the same buffer. -/
theorem InverseTransform_rejects_out_of_range (CheckArguments : Nat → Nat → Option Bool)
    (BitShift n mod bound : Nat) (irp iprp elements : List Nat)
    (hb : MaximumValue BitShift = some bound)
    (h : (∃ x ∈ elements.take n, mod ≤ x) ∨ (∃ x ∈ elements.take n, bound ≤ x) ∨
      (∃ x ∈ iprp.take n, bound ≤ x)) :
    InverseTransformFromBitReverseAVX512 CheckArguments BitShift n mod irp iprp elements
      = none ∧
    InverseTransformFromBitReverseAVX512_run CheckArguments BitShift n mod irp iprp elements
      = Except.error elements ∧
    (∀ e : List Nat,
      (InverseTransformFromBitReverseAVX512_run CheckArguments BitShift n mod irp iprp
          e).toOption.map Prod.fst
        = InverseTransformFromBitReverseAVX512 CheckArguments BitShift n mod irp iprp e) := by
  have hrun : InverseTransformFromBitReverseAVX512_run CheckArguments BitShift n mod irp iprp
      elements = Except.error elements := by
    unfold InverseTransformFromBitReverseAVX512_run
    cases CheckArguments n mod with
    | none => rfl
    | some ok =>
      simp only [hb]
      by_cases h0 : (!LATTICE_CHECK ok) = true
      · rw [if_pos h0]
      · rw [if_neg h0]
        by_cases h1 : (!LATTICE_CHECK_BOUNDS iprp n bound) = true
        · rw [if_pos h1]
        · rw [if_neg h1]
          by_cases h2 : (!LATTICE_CHECK_BOUNDS elements n bound) = true
          · rw [if_pos h2]
          · rw [if_neg h2]
            by_cases h3 : (!LATTICE_CHECK_BOUNDS elements n mod) = true
            · rw [if_pos h3]
            · exfalso
              rcases h with h | h | h
              · exact h3 (by rw [(LATTICE_CHECK_BOUNDS_eq_false_iff elements n mod).2 h]; rfl)
              · exact h2 (by rw [(LATTICE_CHECK_BOUNDS_eq_false_iff elements n bound).2 h]; rfl)
              · exact h1 (by rw [(LATTICE_CHECK_BOUNDS_eq_false_iff iprp n bound).2 h]; rfl)
  refine ⟨?_, hrun, fun e => InverseTransform_run_buffer CheckArguments BitShift n mod irp iprp e⟩
  rw [← InverseTransform_run_buffer, hrun]
  rfl

/-- C23 at size 16 and modulus 97 with the input word 97 at index 3. -/
theorem InverseTransform_rejects_out_of_range_witness :
    InverseTransformFromBitReverseAVX512 (fun _ _ => some true) 64 16 97
      [1, 46, 42, 63, 28, 45, 20, 30, 78, 79, 89, 85, 27, 33, 47, 22]
      [190172619316593315, 8747940488563292518, 7987250011296919256,
        11980875016945378884, 5324833340864612837, 8557767869246699203,
        3803452386331866312, 5705178579497799468, 14833464306694278619,
        15023636926010871934, 16925363119176805090, 16164672641910431828,
        5134660721548019521, 6275696437447579415, 8938113107879885834,
        4183797624965052943]
      [56, 43, 74, 97, 32, 4, 56, 30, 40, 69, 29, 76, 18, 22, 1, 76] = none ∧
    InverseTransformFromBitReverseAVX512_run (fun _ _ => some true) 64 16 97
      [1, 46, 42, 63, 28, 45, 20, 30, 78, 79, 89, 85, 27, 33, 47, 22]
      [190172619316593315, 8747940488563292518, 7987250011296919256,
        11980875016945378884, 5324833340864612837, 8557767869246699203,
        3803452386331866312, 5705178579497799468, 14833464306694278619,
        15023636926010871934, 16925363119176805090, 16164672641910431828,
        5134660721548019521, 6275696437447579415, 8938113107879885834,
        4183797624965052943]
      [56, 43, 74, 97, 32, 4, 56, 30, 40, 69, 29, 76, 18, 22, 1, 76]
      = Except.error [56, 43, 74, 97, 32, 4, 56, 30, 40, 69, 29, 76, 18, 22, 1, 76] ∧
    (∀ e : List Nat,
      (InverseTransformFromBitReverseAVX512_run (fun _ _ => some true) 64 16 97
          [1, 46, 42, 63, 28, 45, 20, 30, 78, 79, 89, 85, 27, 33, 47, 22]
          [190172619316593315, 8747940488563292518, 7987250011296919256,
            11980875016945378884, 5324833340864612837, 8557767869246699203,
            3803452386331866312, 5705178579497799468, 14833464306694278619,
            15023636926010871934, 16925363119176805090, 16164672641910431828,
            5134660721548019521, 6275696437447579415, 8938113107879885834,
            4183797624965052943] e).toOption.map Prod.fst
        = InverseTransformFromBitReverseAVX512 (fun _ _ => some true) 64 16 97
          [1, 46, 42, 63, 28, 45, 20, 30, 78, 79, 89, 85, 27, 33, 47, 22]
          [190172619316593315, 8747940488563292518, 7987250011296919256,
            11980875016945378884, 5324833340864612837, 8557767869246699203,
            3803452386331866312, 5705178579497799468, 14833464306694278619,
            15023636926010871934, 16925363119176805090, 16164672641910431828,
            5134660721548019521, 6275696437447579415, 8938113107879885834,
            4183797624965052943] e) :=
  InverseTransform_rejects_out_of_range (fun _ _ => some true) 64 16 97 (2 ^ 64 - 1)
    [1, 46, 42, 63, 28, 45, 20, 30, 78, 79, 89, 85, 27, 33, 47, 22]
    [190172619316593315, 8747940488563292518, 7987250011296919256,
      11980875016945378884, 5324833340864612837, 8557767869246699203,
      3803452386331866312, 5705178579497799468, 14833464306694278619,
      15023636926010871934, 16925363119176805090, 16164672641910431828,
      5134660721548019521, 6275696437447579415, 8938113107879885834,
      4183797624965052943]
    [56, 43, 74, 97, 32, 4, 56, 30, 40, 69, 29, 76, 18, 22, 1, 76] (by decide)
    (Or.inl ⟨97, by decide, by decide⟩)

/-- A run ends in `Except.ok a` exactly when its option is `some a`. -/
theorem toOption_eq_some_iff {α : Type} (r : Except (List Nat) α) (a : α) :
    r.toOption = some a ↔ r = Except.ok a := by
  cases r with
  | error b => simp [Except.toOption]
  | ok x => simp [Except.toOption]

/-- The scalar butterfly loop: the traced loop returns exactly when the
embedding does, with the same buffer, and its pairs are those of
`Forward_scalar_loop_pairs`. -/
theorem Forward_scalar_loop_traced_eq (BitShift bound mod twice_mod W_op W_precon : Nat) :
    ∀ (count X Y : Nat) (input : List Nat) (pairs : List (Nat × Nat)),
      Forward_scalar_loop_traced BitShift bound mod twice_mod W_op W_precon count X Y input
          pairs
        = (Forward_scalar_loop BitShift bound mod twice_mod W_op W_precon count X Y input).map
            (fun out => (out, pairs ++ Forward_scalar_loop_pairs count X Y)) := by
  intro count
  induction count with
  | zero =>
    intro X Y input pairs
    simp [Forward_scalar_loop_traced, Forward_scalar_loop, Forward_scalar_loop_pairs]
  | succ c ih =>
    intro X Y input pairs
    simp only [Forward_scalar_loop_traced, Forward_scalar_loop, Forward_scalar_loop_pairs]
    cases ForwardButterfly BitShift bound mod twice_mod W_op W_precon (input.getD X 0)
        (input.getD Y 0) with
    | none => rfl
    | some r =>
      simp only []
      rw [ih, List.append_assoc]
      rfl

/-- The vector butterfly loop: the traced loop returns exactly when the
embedding does, with the same buffer, and its pairs are those of
`Forward_vector_loop_pairs`. -/
theorem Forward_vector_loop_traced_eq (BitShift bound : Nat)
    (v_modulus v_twice_mod v_W_operand v_W_barrett : m512i) :
    ∀ (count X Y : Nat) (input : List Nat) (pairs : List (Nat × Nat)),
      Forward_vector_loop_traced BitShift bound v_modulus v_twice_mod v_W_operand v_W_barrett
          count X Y input pairs
        = (Forward_vector_loop BitShift bound v_modulus v_twice_mod v_W_operand v_W_barrett
            count X Y input).map
            (fun out => (out, pairs ++ Forward_vector_loop_pairs count X Y)) := by
  intro count
  induction count with
  | zero =>
    intro X Y input pairs
    simp [Forward_vector_loop_traced, Forward_vector_loop, Forward_vector_loop_pairs]
  | succ c ih =>
    intro X Y input pairs
    simp only [Forward_vector_loop_traced, Forward_vector_loop, Forward_vector_loop_pairs]
    cases ForwardButterflyAVX512 BitShift bound v_modulus v_twice_mod v_W_operand v_W_barrett
        (mm512_loadu_si512 input X) (mm512_loadu_si512 input Y) with
    | none => rfl
    | some r =>
      simp only []
      rw [ih, List.append_assoc]

/-- The block loop: the traced loop returns exactly when the embedding does,
with the same buffer, and its blocks are those of
`Forward_block_loop_accesses`. -/
theorem Forward_block_loop_traced_eq (BitShift bound mod twice_mod : Nat)
    (rp prp : List Nat) (m t : Nat) :
    ∀ (count i j1 : Nat) (input : List Nat) (blocks : List (Nat × List (Nat × Nat))),
      Forward_block_loop_traced BitShift bound mod twice_mod rp prp m t count i j1 input blocks
        = (Forward_block_loop BitShift bound mod twice_mod rp prp m t count i j1 input).map
            (fun out => (out, blocks ++ Forward_block_loop_accesses m t count i j1)) := by
  intro count
  induction count with
  | zero =>
    intro i j1 input blocks
    simp [Forward_block_loop_traced, Forward_block_loop, Forward_block_loop_accesses]
  | succ c ih =>
    intro i j1 input blocks
    simp only [Forward_block_loop_traced, Forward_block_loop, Forward_block_loop_accesses,
      Forward_scalar_loop_traced_eq, Forward_vector_loop_traced_eq, List.nil_append]
    by_cases h8 : j1 + t - j1 < 8
    · simp only [if_pos h8]
      cases Forward_scalar_loop BitShift bound mod twice_mod (rp.getD (m + i) 0)
          (prp.getD (m + i) 0) (j1 + t - j1) j1 (j1 + t) input with
      | none => rfl
      | some out =>
        simp only [Option.map_some']
        rw [ih, List.append_assoc]
        rfl
    · simp only [if_neg h8]
      cases Forward_vector_loop BitShift bound (mm512_set1_epi64 mod)
          (mm512_set1_epi64 twice_mod) (mm512_set1_epi64 (rp.getD (m + i) 0))
          (mm512_set1_epi64 (prp.getD (m + i) 0)) ((j1 + t - j1 + 7) / 8) j1 (j1 + t)
          input with
      | none => rfl
      | some out =>
        simp only [Option.map_some']
        rw [ih, List.append_assoc]
        rfl

/-- The stage loop: the traced loop returns exactly when the embedding does,
with the same buffer, and its rounds are those of
`Forward_stage_loop_accesses`. -/
theorem Forward_stage_loop_traced_eq (BitShift bound mod twice_mod : Nat)
    (rp prp : List Nat) (n : Nat) :
    ∀ (fuel m t : Nat) (input : List Nat)
      (stages : List (Nat × Nat × List (Nat × List (Nat × Nat)))),
      Forward_stage_loop_traced BitShift bound mod twice_mod rp prp n fuel m t input stages
        = (Forward_stage_loop BitShift bound mod twice_mod rp prp n fuel m t input).map
            (fun out => (out, stages ++ Forward_stage_loop_accesses n fuel m t)) := by
  intro fuel
  induction fuel with
  | zero =>
    intro m t input stages
    simp only [Forward_stage_loop_traced, Forward_stage_loop, Forward_stage_loop_accesses]
    split_ifs
    · rfl
    · simp
  | succ f ih =>
    intro m t input stages
    simp only [Forward_stage_loop_traced, Forward_stage_loop, Forward_stage_loop_accesses,
      Forward_stage, Forward_block_loop_traced_eq, List.nil_append]
    by_cases hm : m < n
    · simp only [if_pos hm]
      cases Forward_block_loop BitShift bound mod twice_mod rp prp m t m 0 0 input with
      | none => rfl
      | some out =>
        simp only [Option.map_some']
        rw [ih, List.append_assoc]
        rfl
    · simp only [if_neg hm]
      simp

/-- With enough fuel the stage loop of a transform of size `2^L` is the
sequence of its rounds: from round `s` on, it applies `Forward_stage` with
`2^(s + j)` blocks of stride `2^(L - 1 - (s + j))` for `j = 0, ..., L - s - 1`
in turn. -/
theorem Forward_stage_loop_eq_foldlM (BitShift bound mod twice_mod : Nat)
    (rp prp : List Nat) (L : Nat) :
    ∀ (r fuel s : Nat) (input : List Nat), s + r = L → r ≤ fuel →
      Forward_stage_loop BitShift bound mod twice_mod rp prp (2 ^ L) fuel (2 ^ s)
          (2 ^ L / 2 ^ (s + 1)) input
        = List.foldlM (fun buf j => Forward_stage BitShift bound mod twice_mod rp prp
            (2 ^ (s + j)) (2 ^ (L - 1 - (s + j))) buf) input (List.range r) := by
  intro r
  induction r with
  | zero =>
    intro fuel s input hs _
    have hsL : s = L := by omega
    subst hsL
    cases fuel with
    | zero => simp [Forward_stage_loop]
    | succ f => simp [Forward_stage_loop]
  | succ r ih =>
    intro fuel s input hs hf
    obtain ⟨f, rfl⟩ : ∃ f, fuel = f + 1 := ⟨fuel - 1, by omega⟩
    obtain ⟨h1, _, _, _, h5, h6, h7⟩ := stride_facts L s (by omega)
    rw [List.range_succ_eq_map, List.foldlM_cons]
    simp only [List.foldlM_map, Forward_stage_loop, h7, if_true, Nat.add_zero, h1]
    cases hst : Forward_stage BitShift bound mod twice_mod rp prp (2 ^ s) (2 ^ (L - 1 - s))
        input with
    | none => rfl
    | some input2 =>
      simp only [Option.some_bind, Option.bind_eq_bind]
      rw [h6, h5, ih f (s + 1) input2 (by omega) (by omega)]
      congr 1
      funext buf j
      have e : s + 1 + j = s + j.succ := by omega
      rw [e]

/-- One round of the stage loop on valid data, pair by pair: the words the
round leaves at `j` and `j + t`, for `j` in block `i`, are what the scalar
butterfly returns on the words that were there, with the table entries at
`m + i`. -/
theorem Forward_stage_pairs (BitShift q : Nat) (rp prp : List Nat) (m t : Nat)
    (hBS : BitShift = 52 ∨ BitShift = 64) (hq : 1 ≤ q) (h4 : 4 * q ≤ 2 ^ BitShift)
    (ht : 0 < t) (ht8 : t < 8 ∨ t % 8 = 0) (input : List Nat)
    (hlen : input.length = 2 * t * m)
    (htw : ∀ b, b < m →
      rp.getD (m + b) 0 < q ∧ prp.getD (m + b) 0 = rp.getD (m + b) 0 * 2 ^ BitShift / q)
    (hr : ∀ j, input.getD j 0 < 4 * q) (out : List Nat)
    (hout : Forward_stage BitShift (2 ^ BitShift - 1) q (2 * q) rp prp m t input = some out)
    (i d : Nat) (hi : i < m) (hd : d < t) :
    ForwardButterfly BitShift (2 ^ BitShift - 1) q (2 * q) (rp.getD (m + i) 0)
        (prp.getD (m + i) 0) (input.getD (2 * i * t + d) 0) (input.getD (2 * i * t + d + t) 0)
      = some (out.getD (2 * i * t + d) 0, out.getD (2 * i * t + d + t) 0) := by
  obtain ⟨-, hval⟩ := Forward_stage_spec BitShift q rp prp m t hBS hq h4 ht ht8 input hlen htw hr
  obtain ⟨-, hv, -⟩ := hval out hout
  have hblk : 2 * t * (i + 1) ≤ 2 * t * m := Nat.mul_le_mul_left _ (by omega)
  have e0 : 2 * i * t = 2 * t * i := by ring
  have e1 : 2 * t * (i + 1) = 2 * t * i + 2 * t := by ring
  have hk1 : 2 * i * t + d < input.length := by omega
  have hk2 : 2 * i * t + d + t < input.length := by omega
  obtain ⟨hd1, hm1⟩ := block_div_mod t i (2 * i * t + d) (by omega) (by omega)
  obtain ⟨hd2, hm2⟩ := block_div_mod t i (2 * i * t + d + t) (by omega) (by omega)
  have v1 := hv _ hk1
  have v2 := hv _ hk2
  simp only [Forward_stage_value, hd1, hm1, hd2, hm2] at v1 v2
  rw [if_pos (by omega)] at v1
  rw [if_neg (by omega), Nat.add_sub_cancel] at v2
  obtain ⟨hW, hWp⟩ := htw i hi
  have hbf := (ForwardButterfly_values BitShift q (rp.getD (m + i) 0)
    (input.getD (2 * i * t + d) 0) (input.getD (2 * i * t + d + t) 0) hBS hq h4 hW
    (hr _) (hr _)).1
  rw [hWp, hbf, v1, v2]

/-- C34: stage structure and twiddle order of the forward transform.  For
`n = 2^k` (`k < 64`) and any tier, modulus, tables and buffer:
the stage loop of `ForwardTransformToBitReverseAVX512` is the sequence of
exactly `k` rounds, round `s` being `Forward_stage` with `m = 2^s` blocks and
stride `t = 2^(k-1-s)` (so `t = n/2, n/4, ..., 1`).
The stage loop that records its reads and pairs returns exactly when the
stage loop does, with the same buffer, and what it records is: in round `s`,
block `i` reads the tables at the one index `m + i` and works on the pairs
`(j, j + t)` for `j` in `[2it, 2it + t)`.
In every round the first indices followed by the second indices of the blocks,
block after block, are `0, 1, ..., n-1`: every word is worked on once.  Over
all rounds the table indices read are `1, 2, ..., n-1` in this order, each
once; index 0 is not among them, and the buffer the stage loop leaves is the
same for any two pairs of tables that agree at the indices `1, ..., n-1`.
On valid data (twiddles below `mod` with their factors, words below `4 mod`)
each round leaves at `j` and `j + t` what the scalar butterfly returns on the
words that were there with the table entries at `m + i`, and keeps the words
below `4 mod`; and when `4 mod < 2^BitShift` the loop returns. -/
theorem Forward_stage_structure (k : Nat) (hk : k < 64)
    (BitShift bound mod twice_mod : Nat) (rp prp input : List Nat) :
    Forward_stage_loop BitShift bound mod twice_mod rp prp (2 ^ k) 64 1 (2 ^ k >>> 1) input
      = List.foldlM (fun buf s => Forward_stage BitShift bound mod twice_mod rp prp (2 ^ s)
          (2 ^ (k - 1 - s)) buf) input (List.range k) ∧
    Forward_stage_loop_traced BitShift bound mod twice_mod rp prp (2 ^ k) 64 1 (2 ^ k >>> 1)
        input []
      = (Forward_stage_loop BitShift bound mod twice_mod rp prp (2 ^ k) 64 1 (2 ^ k >>> 1)
          input).map (fun out => (out, (List.range k).map (fun s =>
          (2 ^ s, 2 ^ (k - 1 - s),
            (List.range (2 ^ s)).map (fun i =>
              (2 ^ s + i,
                (List.range (2 ^ (k - 1 - s))).map (fun d =>
                  (2 * i * 2 ^ (k - 1 - s) + d,
                    2 * i * 2 ^ (k - 1 - s) + d + 2 ^ (k - 1 - s))))))))) ∧
    (∀ st, st ∈ (List.range k).map (fun s =>
          (2 ^ s, 2 ^ (k - 1 - s),
            (List.range (2 ^ s)).map (fun i =>
              (2 ^ s + i,
                (List.range (2 ^ (k - 1 - s))).map (fun d =>
                  (2 * i * 2 ^ (k - 1 - s) + d,
                    2 * i * 2 ^ (k - 1 - s) + d + 2 ^ (k - 1 - s))))))) →
      st.2.2.flatMap (fun b => b.2.map Prod.fst ++ b.2.map Prod.snd) = List.range (2 ^ k)) ∧
    ((List.range k).map (fun s =>
          (2 ^ s, 2 ^ (k - 1 - s),
            (List.range (2 ^ s)).map (fun i =>
              (2 ^ s + i,
                (List.range (2 ^ (k - 1 - s))).map (fun d =>
                  (2 * i * 2 ^ (k - 1 - s) + d,
                    2 * i * 2 ^ (k - 1 - s) + d + 2 ^ (k - 1 - s)))))))).flatMap
        (fun st => st.2.2.map Prod.fst) = List.range' 1 (2 ^ k - 1) ∧
    (∀ rp2 prp2 : List Nat,
      (∀ i, 1 ≤ i → i < 2 ^ k →
        rp.getD i 0 = rp2.getD i 0 ∧ prp.getD i 0 = prp2.getD i 0) →
      Forward_stage_loop BitShift bound mod twice_mod rp prp (2 ^ k) 64 1 (2 ^ k >>> 1) input
        = Forward_stage_loop BitShift bound mod twice_mod rp2 prp2 (2 ^ k) 64 1 (2 ^ k >>> 1)
            input) ∧
    ((BitShift = 52 ∨ BitShift = 64) → bound = 2 ^ BitShift - 1 → 1 ≤ mod →
      4 * mod ≤ 2 ^ BitShift → twice_mod = 2 * mod →
      (∀ i, 1 ≤ i → i < 2 ^ k →
        rp.getD i 0 < mod ∧ prp.getD i 0 = rp.getD i 0 * 2 ^ BitShift / mod) →
      (∀ (s : Nat) (buf out : List Nat), s < k → buf.length = 2 ^ k →
        (∀ j, buf.getD j 0 < 4 * mod) →
        Forward_stage BitShift bound mod twice_mod rp prp (2 ^ s) (2 ^ (k - 1 - s)) buf
          = some out →
        (out.length = 2 ^ k ∧ ∀ j, out.getD j 0 < 4 * mod) ∧
        ∀ i d, i < 2 ^ s → d < 2 ^ (k - 1 - s) →
          ForwardButterfly BitShift bound mod twice_mod (rp.getD (2 ^ s + i) 0)
              (prp.getD (2 ^ s + i) 0) (buf.getD (2 * i * 2 ^ (k - 1 - s) + d) 0)
              (buf.getD (2 * i * 2 ^ (k - 1 - s) + d + 2 ^ (k - 1 - s)) 0)
            = some (out.getD (2 * i * 2 ^ (k - 1 - s) + d) 0,
                out.getD (2 * i * 2 ^ (k - 1 - s) + d + 2 ^ (k - 1 - s)) 0)) ∧
      (4 * mod < 2 ^ BitShift → input.length = 2 ^ k → (∀ j, input.getD j 0 < 4 * mod) →
        ∃ out, Forward_stage_loop_traced BitShift bound mod twice_mod rp prp (2 ^ k) 64 1
            (2 ^ k >>> 1) input []
          = some (out, (List.range k).map (fun s =>
          (2 ^ s, 2 ^ (k - 1 - s),
            (List.range (2 ^ s)).map (fun i =>
              (2 ^ s + i,
                (List.range (2 ^ (k - 1 - s))).map (fun d =>
                  (2 * i * 2 ^ (k - 1 - s) + d,
                    2 * i * 2 ^ (k - 1 - s) + d + 2 ^ (k - 1 - s)))))))))) := by
  have hacc : Forward_stage_loop_accesses (2 ^ k) 64 1 (2 ^ k >>> 1)
      = (List.range k).map (fun s =>
          (2 ^ s, 2 ^ (k - 1 - s),
            (List.range (2 ^ s)).map (fun i =>
              (2 ^ s + i,
                (List.range (2 ^ (k - 1 - s))).map (fun d =>
                  (2 * i * 2 ^ (k - 1 - s) + d,
                    2 * i * 2 ^ (k - 1 - s) + d + 2 ^ (k - 1 - s))))))) := by
    have h := Forward_stage_loop_accesses_eq k k 64 0 (by omega) (by omega)
    rw [pow_zero, Nat.zero_add, pow_one, ← Nat.shiftRight_eq_div_pow (2 ^ k) 1] at h
    rw [h]
    refine List.map_congr_left ?_
    intro s _
    simp only [Nat.zero_add]
  have hshift : 2 ^ k >>> 1 = 2 ^ k / 2 ^ (0 + 1) := by
    rw [Nat.shiftRight_eq_div_pow]
  refine ⟨?_, ?_, ?_, ?_, ?_, ?_⟩
  · have h := Forward_stage_loop_eq_foldlM BitShift bound mod twice_mod rp prp k k 64 0 input
      (by omega) (by omega)
    rw [pow_zero, ← hshift] at h
    rw [h]
    congr 1
    funext buf s
    rw [Nat.zero_add]
  · rw [Forward_stage_loop_traced_eq, List.nil_append, hacc]
  · intro st hst
    rw [List.mem_map] at hst
    obtain ⟨s, hs, rfl⟩ := hst
    rw [List.mem_range] at hs
    obtain ⟨_, _, h3, _, _, _, _⟩ := stride_facts k s hs
    simp only []
    generalize 2 ^ (k - 1 - s) = t at h3 ⊢
    rw [List.flatMap_map]
    have hblock : ∀ i : Nat,
        ((List.range t).map (fun d => (2 * i * t + d, 2 * i * t + d + t))).map Prod.fst
          ++ ((List.range t).map (fun d => (2 * i * t + d, 2 * i * t + d + t))).map Prod.snd
        = List.range' (2 * t * i) (2 * t) := by
      intro i
      rw [List.map_map, List.map_map]
      have e1 : (List.range t).map (Prod.fst ∘ fun d => (2 * i * t + d, 2 * i * t + d + t))
          = List.range' (2 * t * i) t := by
        rw [List.range'_eq_map_range]
        refine List.map_congr_left ?_
        intro d _
        simp only [Function.comp]
        ring
      have e2 : (List.range t).map (Prod.snd ∘ fun d => (2 * i * t + d, 2 * i * t + d + t))
          = List.range' (2 * t * i + t) t := by
        rw [List.range'_eq_map_range]
        refine List.map_congr_left ?_
        intro d _
        simp only [Function.comp]
        ring
      rw [e1, e2, List.range'_append_1]
      congr 1
      ring
    simp only [hblock]
    rw [flatMap_range_blocks, h3]
  · rw [List.flatMap_map]
    have hst : ∀ s : Nat,
        ((List.range (2 ^ s)).map (fun i =>
            (2 ^ s + i,
              (List.range (2 ^ (k - 1 - s))).map (fun d =>
                (2 * i * 2 ^ (k - 1 - s) + d,
                  2 * i * 2 ^ (k - 1 - s) + d + 2 ^ (k - 1 - s)))))).map Prod.fst
        = List.range' (2 ^ s) (2 ^ s) := by
      intro s
      rw [List.map_map, List.range'_eq_map_range]
      rfl
    simp only [hst]
    exact flatMap_range_two_pow k
  · intro rp2 prp2 h
    have hc := Forward_stage_loop_congr BitShift bound mod twice_mod rp prp rp2 prp2 k h 64 0
      (2 ^ k >>> 1) input (by omega)
    rw [pow_zero] at hc
    exact hc
  · intro hBS hbound hq h4 htm htw
    subst hbound
    subst htm
    refine ⟨?_, ?_⟩
    · intro s buf out hs hlen hr hout
      obtain ⟨_, hpos, h3, h8, _, _, _⟩ := stride_facts k s hs
      have htw2 : ∀ b, b < 2 ^ s → rp.getD (2 ^ s + b) 0 < mod ∧
          prp.getD (2 ^ s + b) 0 = rp.getD (2 ^ s + b) 0 * 2 ^ BitShift / mod := by
        intro b hb
        have hle : 2 ^ (s + 1) ≤ 2 ^ k := Nat.pow_le_pow_right (by norm_num) (by omega)
        have hp : 0 < 2 ^ s := by positivity
        rw [pow_succ] at hle
        exact htw _ (by omega) (by omega)
      have hlen2 : buf.length = 2 * 2 ^ (k - 1 - s) * 2 ^ s := by rw [h3]; exact hlen
      obtain ⟨-, hval⟩ := Forward_stage_spec BitShift mod rp prp (2 ^ s) (2 ^ (k - 1 - s)) hBS
        hq h4 hpos h8 buf hlen2 htw2 hr
      obtain ⟨hl, -, hrange⟩ := hval out hout
      refine ⟨⟨by rw [hl]; exact hlen, hrange⟩, ?_⟩
      intro i d hi hd
      exact Forward_stage_pairs BitShift mod rp prp (2 ^ s) (2 ^ (k - 1 - s)) hBS hq h4 hpos h8
        buf hlen2 htw2 hr out hout i d hi hd
    · intro hlt hlen hr
      have hloop := Forward_stage_loop_eq_after_stages BitShift (2 ^ BitShift - 1) mod (2 * mod)
        rp prp k k 64 0 input (by omega) (by omega)
      obtain ⟨htot, -⟩ := Forward_after_stages_range BitShift mod rp prp k hBS hq h4 htw k 0
        input (by omega) hlen hr
      obtain ⟨out, hout⟩ := htot hlt
      rw [← hloop, pow_zero, ← hshift] at hout
      refine ⟨out, ?_⟩
      rw [Forward_stage_loop_traced_eq, List.nil_append, hacc, hout]
      rfl

/-- C34 at `k = 2`: the 64-bit stage loop of size 4 at modulus 17 on the buffer
`[7, 16, 4, 0]` returns `[38, 42, 34, 50]`; its first round has one block of
stride 2, which reads index 1 and works on the pairs `(0, 2)`, `(1, 3)`, and
its second round has two blocks of stride 1, which read the indices 2 and 3
and work on the pairs `(0, 1)` and `(2, 3)`. -/
theorem Forward_stage_structure_witness :
    Forward_stage_loop_traced 64 (2 ^ 64 - 1) 17 (2 * 17) [1, 4, 2, 8]
        [1085102592571150095, 4340410370284600380, 2170205185142300190,
          8680820740569200760] (2 ^ 2) 64 1 (2 ^ 2 >>> 1) [7, 16, 4, 0] []
      = some ([38, 42, 34, 50],
          [(1, 2, [(1, [(0, 2), (1, 3)])]), (2, 1, [(2, [(0, 1)]), (3, [(2, 3)])])]) :=
  (Forward_stage_structure 2 (by decide) 64 (2 ^ 64 - 1) 17 (2 * 17) [1, 4, 2, 8]
    [1085102592571150095, 4340410370284600380, 2170205185142300190, 8680820740569200760]
    [7, 16, 4, 0]).2.1.trans rfl

end Lattice
